import Mathlib

/-! # HTTP/1 header parsing core of libwebsockets (`lib/roles/http/parsers.c`)

A shallow embedding of the allocated-header (AH) parser and of the per-thread
AH pool, followed by theorems about them.

Conventions of the embedding

* C arrays (`ah->data`, `ah->frags`, `ah->frag_index`) are total functions on
  `Nat`; the array sizes that the code tests (`max_http_header_data`,
  `LWS_ARRAY_SIZE(ah->frags)`) are fields of `Context`.
* Machine integers are `Nat`/`Int`; increments and decrements of the narrow
  fields wrap explicitly (`inc8`, `inc16`, `dec16`, `inc32`, `dec32`).
* Declarations that live outside `parsers.c` (the token enumeration, the
  generated lex table, `char_to_hex`, the preprocessor switches) are fields of
  `Tokens` and `Context`, so every general theorem holds for each of them.
* Loops that C leaves unbounded carry fuel and return `none` when it runs
  out; the theorems that speak of a result show that the result is produced.
-/

namespace Lws

/-! ## Machine arithmetic -/

/-- Increment of a `uint8_t`. -/
def inc8 (x : Nat) : Nat := (x + 1) % 256

/-- Increment of a `uint16_t`. -/
def inc16 (x : Nat) : Nat := (x + 1) % 65536

/-- Decrement of a `uint16_t`. -/
def dec16 (x : Nat) : Nat := (x + 65535) % 65536

/-- Increment of a `uint32_t`. -/
def inc32 (x : Nat) : Nat := (x + 1) % 4294967296

/-- Decrement of a `uint32_t`. -/
def dec32 (x : Nat) : Nat := (x + 4294967295) % 4294967296

/-- Conversion of an `int` to `int16_t`. -/
def toInt16 (x : Int) : Int := (x + 32768) % 65536 - 32768

/-- Array store: `a[i] = v`. -/
def upd {α : Type} (a : Nat → α) (i : Nat) (v : α) : Nat → α :=
  fun j => if j = i then v else a j

/-! ## Declarations from outside `parsers.c` -/

/-- The members of `enum lws_token_indexes` that `parsers.c` names. -/
structure Tokens where
  WSI_TOKEN_GET_URI : Nat
  WSI_TOKEN_POST_URI : Nat
  WSI_TOKEN_OPTIONS_URI : Nat
  WSI_TOKEN_PUT_URI : Nat
  WSI_TOKEN_PATCH_URI : Nat
  WSI_TOKEN_DELETE_URI : Nat
  WSI_TOKEN_CONNECT : Nat
  WSI_TOKEN_HEAD_URI : Nat
  WSI_TOKEN_HTTP : Nat
  WSI_TOKEN_HTTP_URI_ARGS : Nat
  WSI_TOKEN_CHALLENGE : Nat
  WSI_TOKEN_UPGRADE : Nat
  WSI_TOKEN_VERSION : Nat
  WSI_TOKEN_SWORIGIN : Nat
  WSI_TOKEN_ORIGIN : Nat
  WSI_TOKEN_HTTP_COOKIE : Nat
  WSI_TOKEN_HTTP_SET_COOKIE : Nat
  WSI_TOKEN_HTTP_COLON_METHOD : Nat
  WSI_TOKEN_NAME_PART : Nat
  WSI_TOKEN_UNKNOWN_VALUE_PART : Nat
  WSI_TOKEN_SKIPPING : Nat
  WSI_TOKEN_SKIPPING_SAW_CR : Nat
  WSI_PARSING_COMPLETE : Nat

/-- The parts of `struct lws_context`, of the build configuration and of the
included `lextable.h` that the parser and the pool read. -/
structure Context where
  /-- Values of the token enumeration. -/
  tk : Tokens
  /-- Contents of `lextable_h1[]` (the included `lextable.h`). -/
  lextable_h1 : List Nat
  /-- `LWS_ARRAY_SIZE(ah->frags)`. -/
  frags_size : Nat
  /-- `context->max_http_header_data`. -/
  max_http_header_data : Nat
  /-- `context->max_http_header_pool`. -/
  max_http_header_pool : Nat
  /-- `context->token_limits`, `none` for a null pointer. -/
  token_limits : Option (Nat → Nat)
  /-- `LWS_WITH_CUSTOM_HEADERS`. -/
  with_custom_headers : Bool
  /-- `LWS_WITH_HTTP_UNCOMMON_HEADERS`. -/
  with_uncommon_headers : Bool
  /-- `LWS_ROLE_WS`. -/
  with_role_ws : Bool
  /-- `LWS_WITH_SERVER`. -/
  with_server : Bool
  /-- `LWS_ROLE_H2`. -/
  with_role_h2 : Bool
  /-- `LWS_WITH_CLIENT`. -/
  with_client : Bool
  /-- `LWS_ROLE_MQTT`. -/
  with_role_mqtt : Bool
  /-- `LWS_WITH_PEER_LIMITS`. -/
  with_peer_limits : Bool
  /-- `context->ip_limit_ah`, the per-peer AH limit (0 for none). -/
  ip_limit_ah : Nat
  /-- The value `(char)atoi(p)` for the C string `p` at an offset of `ah->data`
  (libc). -/
  atoi_char : (Nat → Nat) → Nat → Int

/-- `FAIL_CHAR`. -/
def FAIL_CHAR : Nat := 8

/-- Modelled from the spec: `char_to_hex` is defined outside `parsers.c`; the
spec speaks of hex digits of either case, any other byte giving a negative
value. -/
def char_to_hex (c : Nat) : Int :=
  if 48 ≤ c ∧ c ≤ 57 then (c : Int) - 48
  else if 97 ≤ c ∧ c ≤ 102 then (c : Int) - 97 + 10
  else if 65 ≤ c ∧ c ≤ 70 then (c : Int) - 65 + 10
  else -1

/-! ## The allocated header -/

/-- One `struct lws_fragments`. The struct is declared outside `parsers.c`; the
widths used here (16 bits for `len`, 8 bits for `nfrag`) are those of the casts
and temporaries with which `parsers.c` handles the fields. -/
structure Frag where
  offset : Nat
  len : Nat
  nfrag : Nat
  flags : Nat
deriving DecidableEq, Repr

/-- Values of `enum uri_path_states`. -/
inductive uri_path_states where
  | URIPS_IDLE
  | URIPS_SEEN_SLASH
  | URIPS_SEEN_SLASH_DOT
  | URIPS_SEEN_SLASH_DOT_DOT
deriving DecidableEq, Repr

/-- Values of `enum uri_esc_states`. -/
inductive uri_esc_states where
  | URIES_IDLE
  | URIES_SEEN_PERCENT
  | URIES_SEEN_PERCENT_H1
deriving DecidableEq, Repr

export uri_path_states (URIPS_IDLE URIPS_SEEN_SLASH URIPS_SEEN_SLASH_DOT URIPS_SEEN_SLASH_DOT_DOT)
export uri_esc_states (URIES_IDLE URIES_SEEN_PERCENT URIES_SEEN_PERCENT_H1)

/-- The parse state of one `struct allocated_headers`. -/
structure AH where
  data : Nat → Nat
  frags : Nat → Frag
  frag_index : Nat → Nat
  nfrag : Nat
  pos : Nat
  http_response : Nat
  current_token_limit : Nat
  unk_pos : Nat
  unk_value_pos : Nat
  unk_ll_head : Nat
  unk_ll_tail : Nat
  lextable_pos : Int
  ups : uri_path_states
  ues : uri_esc_states
  esc_stash : Nat
  post_literal_equal : Nat
  parser_state : Nat
  hdr_token_idx : Nat

/-- The all-zero fragment record. -/
def Frag.zero : Frag := ⟨0, 0, 0, 0⟩

/-- `_lws_header_table_reset`. -/
def _lws_header_table_reset (ctx : Context) (ah : AH) : AH :=
  { ah with
    frag_index := fun _ => 0
    frags := fun _ => Frag.zero
    nfrag := 0
    pos := 0
    http_response := 0
    parser_state := ctx.tk.WSI_TOKEN_NAME_PART
    lextable_pos := 0
    unk_pos := 0
    unk_ll_head := if ctx.with_custom_headers then 0 else ah.unk_ll_head
    unk_ll_tail := if ctx.with_custom_headers then 0 else ah.unk_ll_tail }

/-- The AH as `_lws_create_ah` leaves it: the struct comes from `lws_zalloc`
(every field zero) and `data` from `lws_malloc` (contents `d`, whatever the
allocator returned). -/
def created_ah (d : Nat → Nat) : AH :=
  { data := d, frags := fun _ => Frag.zero, frag_index := fun _ => 0, nfrag := 0, pos := 0,
    http_response := 0, current_token_limit := 0, unk_pos := 0, unk_value_pos := 0,
    unk_ll_head := 0, unk_ll_tail := 0, lextable_pos := 0, ups := URIPS_IDLE,
    ues := URIES_IDLE, esc_stash := 0, post_literal_equal := 0, parser_state := 0,
    hdr_token_idx := 0 }

/-- `lws_pos_in_bounds` for a connection that holds the AH (its callers have
dereferenced `wsi->http.ah` before). The last branch is the one behind
`assert(0)`. -/
def lws_pos_in_bounds (ctx : Context) (ah : AH) : Int :=
  if ah.pos < ctx.max_http_header_data then 0
  else if (ctx.max_http_header_data : Int) - 1 ≤ (ah.pos : Int) then 1
  else 1

/-- `ah->frags[ah->nfrag].len++`. -/
def AH.len_inc (ah : AH) : AH :=
  { ah with
    frags := upd ah.frags ah.nfrag { ah.frags ah.nfrag with len := inc16 (ah.frags ah.nfrag).len } }

/-- `ah->frags[ah->nfrag].len--`. -/
def AH.len_dec (ah : AH) : AH :=
  { ah with
    frags := upd ah.frags ah.nfrag { ah.frags ah.nfrag with len := dec16 (ah.frags ah.nfrag).len } }

/-- `ah->data[ah->pos++] = c`. -/
def AH.put (ah : AH) (c : Nat) : AH :=
  { ah with data := upd ah.data ah.pos c, pos := inc32 ah.pos }

/-- `issue_char`: the return value and the AH afterwards. -/
def issue_char (ctx : Context) (ah : AH) (c : Nat) : Int × AH :=
  if lws_pos_in_bounds ctx ah ≠ 0 then (-1, ah)
  else
    let frag_len := (ah.frags ah.nfrag).len
    if ah.current_token_limit = 0 ∨ frag_len < ah.current_token_limit then
      (0, (ah.put c).len_inc)
    else if frag_len = ah.current_token_limit then
      if lws_pos_in_bounds ctx ah ≠ 0 then (-1, ah)
      else (1, ah.put 0)
    else (1, ah)

/-- The copy loop of `lws_hdr_simple_create` over the bytes of the C string
`s`: the list holds the bytes before the terminating NUL (a zero inside the
list ends the string there, as it does in C). -/
def simple_create_loop (ctx : Context) : List Nat → AH → Int × AH
  | [], ah =>
    if lws_pos_in_bounds ctx ah ≠ 0 then (-1, ah) else (0, ah.put 0)
  | c :: cs, ah =>
    if lws_pos_in_bounds ctx ah ≠ 0 then (-1, ah)
    else if c ≠ 0 then simple_create_loop ctx cs (ah.put c).len_inc
    else (0, ah.put c)

/-- `lws_hdr_simple_create` on the AH of the connection. -/
def lws_hdr_simple_create (ctx : Context) (ah : AH) (h : Nat) (s : List Nat) : Int × AH :=
  if s.headD 0 = 0 then (0, { ah with frag_index := upd ah.frag_index h 0 })
  else
    let ah1 := { ah with nfrag := inc8 ah.nfrag }
    if ah1.nfrag = ctx.frags_size then (-1, ah1)
    else
      let ah2 := { ah1 with
        frag_index := upd ah1.frag_index h ah1.nfrag
        frags := upd ah1.frags ah1.nfrag
          { ah1.frags ah1.nfrag with offset := ah1.pos, len := 0, nfrag := 0 } }
      simple_create_loop ctx s ah2

/-! ## The URI sanitizer -/

/-- What `lws_parse_urldecode` returns: the four members of
`enum lws_parse_urldecode_results` and the plain `-1`. -/
inductive lws_parse_urldecode_results where
  | LPUR_CONTINUE
  | LPUR_SWALLOW
  | LPUR_FORBID
  | LPUR_EXCESSIVE
  | LPUR_MINUS_ONE
deriving DecidableEq, Repr

export lws_parse_urldecode_results
  (LPUR_CONTINUE LPUR_SWALLOW LPUR_FORBID LPUR_EXCESSIVE LPUR_MINUS_ONE)

/-- The `do { pos--; len--; } while (len > 1 && data[pos] != '/')` loop of the
"back up one dir level" blocks; the fuel is the fragment length at entry. -/
def back_up_loop : Nat → AH → AH
  | 0, ah => ah
  | fuel + 1, ah =>
    let ah1 := { ah with pos := dec32 ah.pos }.len_dec
    if 1 < (ah1.frags ah1.nfrag).len ∧ ah1.data ah1.pos ≠ 47 then back_up_loop fuel ah1
    else ah1

/-- The "back up one dir level if possible" block, found in
`lws_parse_urldecode` and again in `lws_parse`. -/
def back_up_one_dir (ah : AH) : AH :=
  if 2 < (ah.frags ah.nfrag).len then
    let ah1 := { ah with pos := dec32 ah.pos }.len_dec
    back_up_loop (ah1.frags ah1.nfrag).len ah1
  else ah

/-- Opening of the next fragment after a delimiter: `offset = ++pos`, `len = 0`,
`nfrag = 0`. -/
def open_after_delimiter (ah : AH) : AH :=
  let ah1 := { ah with pos := inc32 ah.pos }
  { ah1 with
    frags := upd ah1.frags ah1.nfrag { ah1.frags ah1.nfrag with offset := ah1.pos, len := 0, nfrag := 0 } }

/-- The end of `lws_parse_urldecode`, from `if (c == '?' && !enc && ...)`. -/
def urldecode_query (ctx : Context) (ah : AH) (c : Nat) (enc : Bool) :
    lws_parse_urldecode_results × AH × Nat :=
  if c = 63 ∧ enc = false ∧ ah.frag_index ctx.tk.WSI_TOKEN_HTTP_URI_ARGS = 0 then
    if ah.ues ≠ URIES_IDLE then (LPUR_FORBID, ah, c)
    else
      let r := issue_char ctx ah 0
      if r.1 < 0 then (LPUR_MINUS_ONE, r.2, c)
      else
        let ah1 := r.2.len_dec
        let ah2 := { ah1 with nfrag := inc8 ah1.nfrag }
        if ctx.frags_size ≤ ah2.nfrag then (LPUR_EXCESSIVE, ah2, c)
        else
          let ah3 := open_after_delimiter ah2
          (LPUR_SWALLOW,
            { ah3 with
              post_literal_equal := 0
              frag_index := upd ah3.frag_index ctx.tk.WSI_TOKEN_HTTP_URI_ARGS ah3.nfrag
              ups := URIPS_IDLE }, c)
  else (LPUR_CONTINUE, ah, c)

/-- The `switch (ah->ups)` of `lws_parse_urldecode` and what follows it, for
the byte `c` with its `enc` flag. -/
def urldecode_path (ctx : Context) (ah : AH) (c : Nat) (enc : Bool) :
    lws_parse_urldecode_results × AH × Nat :=
  if c = 0 ∧ (ah.frag_index ctx.tk.WSI_TOKEN_HTTP_URI_ARGS = 0 ∨ ah.post_literal_equal = 0) then
    (LPUR_MINUS_ONE, ah, c)
  else
    match ah.ups with
    | URIPS_IDLE =>
      if (c = 38 ∨ c = 59) ∧ enc = false then
        let r := issue_char ctx ah 0
        if r.1 < 0 then (LPUR_MINUS_ONE, r.2, c)
        else
          let ah1 := r.2.len_dec
          let ah2 := { ah1 with
            frags := upd ah1.frags ah1.nfrag { ah1.frags ah1.nfrag with nfrag := (ah1.nfrag + 1) % 256 } }
          let ah3 := { ah2 with nfrag := inc8 ah2.nfrag }
          if ctx.frags_size ≤ ah3.nfrag then (LPUR_EXCESSIVE, ah3, c)
          else (LPUR_SWALLOW, open_after_delimiter { ah3 with post_literal_equal := 0 }, c)
      else
        let c1 := if c = 61 ∧ enc = true ∧ ah.frag_index ctx.tk.WSI_TOKEN_HTTP_URI_ARGS ≠ 0 ∧
          ah.post_literal_equal = 0 then 95 else c
        let ah1 := if c1 = 61 ∧ enc = false then { ah with post_literal_equal := 1 } else ah
        let c2 := if c1 = 43 ∧ enc = false then 32 else c1
        let ah2 := if c2 = 47 ∧ ah1.frag_index ctx.tk.WSI_TOKEN_HTTP_URI_ARGS = 0 then
          { ah1 with ups := URIPS_SEEN_SLASH } else ah1
        urldecode_query ctx ah2 c2 enc
    | URIPS_SEEN_SLASH =>
      if c = 47 then (LPUR_SWALLOW, ah, c)
      else if c = 46 then (LPUR_SWALLOW, { ah with ups := URIPS_SEEN_SLASH_DOT }, c)
      else urldecode_query ctx { ah with ups := URIPS_IDLE } c enc
    | URIPS_SEEN_SLASH_DOT =>
      if c = 46 then (LPUR_SWALLOW, { ah with ups := URIPS_SEEN_SLASH_DOT_DOT }, c)
      else if c = 47 then (LPUR_SWALLOW, { ah with ups := URIPS_SEEN_SLASH }, c)
      else
        let r := issue_char ctx { ah with ups := URIPS_IDLE } 46
        if r.1 < 0 then (LPUR_MINUS_ONE, r.2, c)
        else urldecode_query ctx r.2 c enc
    | URIPS_SEEN_SLASH_DOT_DOT =>
      if c = 47 ∨ c = 63 then
        let ah1 := { back_up_one_dir ah with ups := URIPS_SEEN_SLASH }
        if 1 < (ah1.frags ah1.nfrag).len then urldecode_query ctx ah1 c enc
        else (LPUR_SWALLOW, ah1, c)
      else
        let r1 := issue_char ctx ah 46
        if r1.1 < 0 then (LPUR_MINUS_ONE, r1.2, c)
        else
          let r2 := issue_char ctx r1.2 46
          if r2.1 < 0 then (LPUR_MINUS_ONE, r2.2, c)
          else urldecode_query ctx { r2.2 with ups := URIPS_IDLE } c enc

/-- `lws_parse_urldecode`: the result, the AH afterwards and the byte left in
`*_c`. -/
def lws_parse_urldecode (ctx : Context) (ah : AH) (c : Nat) :
    lws_parse_urldecode_results × AH × Nat :=
  match ah.ues with
  | URIES_IDLE =>
    if c = 37 then (LPUR_SWALLOW, { ah with ues := URIES_SEEN_PERCENT }, c)
    else urldecode_path ctx ah c false
  | URIES_SEEN_PERCENT =>
    if char_to_hex c < 0 then (LPUR_FORBID, ah, c)
    else (LPUR_SWALLOW, { ah with esc_stash := c, ues := URIES_SEEN_PERCENT_H1 }, c)
  | URIES_SEEN_PERCENT_H1 =>
    if char_to_hex c < 0 then (LPUR_FORBID, ah, c)
    else
      let d := Int.toNat ((char_to_hex ah.esc_stash * 16 + char_to_hex c) % 256)
      urldecode_path ctx { ah with ues := URIES_IDLE } d true

/-! ## The connection and the read-side helpers the parser calls -/

/-- The fields of `struct lws` that the parser and the query functions touch.
`forbidden_sent` records the call `lws_return_http_status(wsi,
HTTP_STATUS_FORBIDDEN, NULL)`, whose body is outside this file. -/
structure lws where
  ah : Option AH
  mux_substream : Bool
  role_h1 : Bool
  role_server : Bool
  vhost_fallback : Bool
  hdr_parsing_completed : Bool
  rx_frame_type : Int
  forbidden_sent : Bool

/-- The `do ... while (n)` loop of `lws_hdr_total_length`. Fragment links are
`uint8_t`, so a walk of more than 256 steps is a walk that never ends: the
result is then `none`. -/
def total_length_loop (frags : Nat → Frag) : Nat → Nat → Int → Option Int
  | 0, _, _ => none
  | fuel + 1, n, len =>
    let len1 := len + (frags n).len
    let n1 := (frags n).nfrag
    if n1 ≠ 0 then total_length_loop frags fuel n1 (len1 + 1) else some len1

/-- `lws_hdr_total_length` on the AH of the connection. -/
def AH.total_length (ah : AH) (h : Nat) : Option Int :=
  if ah.frag_index h = 0 then some 0
  else total_length_loop ah.frags 256 (ah.frag_index h) 0

/-- `lws_hdr_total_length`. -/
def lws_hdr_total_length (wsi : lws) (h : Nat) : Option Int :=
  match wsi.ah with
  | none => some 0
  | some ah => ah.total_length h

/-- `lws_hdr_simple_ptr`: the offset into `ah->data` of the first fragment of
`h`, `none` for the null pointer. -/
def lws_hdr_simple_ptr (wsi : lws) (h : Nat) : Option Nat :=
  match wsi.ah with
  | none => none
  | some ah => if ah.frag_index h = 0 then none else some (ah.frags (ah.frag_index h)).offset

/-! ## The header parser -/

/-- Values of `lws_parser_return_t`. -/
inductive lws_parser_return_t where
  | LPR_FORBIDDEN
  | LPR_FAIL
  | LPR_OK
  | LPR_DO_FALLBACK
deriving DecidableEq, Repr

export lws_parser_return_t (LPR_FORBIDDEN LPR_FAIL LPR_OK LPR_DO_FALLBACK)

/-- How the body of the `switch` in `lws_parse` is left for one byte. -/
inductive parse_step where
  /-- A `break`: on to the loop test. -/
  | brk (ah : AH)
  /-- A `return LPR_FAIL` inside the switch. -/
  | fail (ah : AH)
  /-- The `return LPR_DO_FALLBACK`. -/
  | fallback (ah : AH)
  /-- A `goto forbid`. -/
  | forbid (ah : AH)
  /-- A `goto set_parsing_complete`. -/
  | complete (ah : AH)
  /-- The walk along a fragment chain never ends. -/
  | hang

/-- The array `methods[]`. -/
def methods (ctx : Context) : List Nat :=
  [ctx.tk.WSI_TOKEN_GET_URI, ctx.tk.WSI_TOKEN_POST_URI] ++
  (if ctx.with_uncommon_headers then
    [ctx.tk.WSI_TOKEN_OPTIONS_URI, ctx.tk.WSI_TOKEN_PUT_URI, ctx.tk.WSI_TOKEN_PATCH_URI,
      ctx.tk.WSI_TOKEN_DELETE_URI]
  else []) ++
  [ctx.tk.WSI_TOKEN_CONNECT, ctx.tk.WSI_TOKEN_HEAD_URI]

/-- The loop `while (ah->frags[n].nfrag) n = ah->frags[n].nfrag;`, `none` when
it never ends. -/
def chain_last (frags : Nat → Frag) : Nat → Nat → Option Nat
  | 0, _ => none
  | fuel + 1, n => if (frags n).nfrag ≠ 0 then chain_last frags fuel (frags n).nfrag else some n

/-- The code of `lws_parse` from the label `excessive:` to the `break` before
`case WSI_TOKEN_SKIPPING`. -/
def excessive_label (ctx : Context) (ah : AH) : parse_step :=
  if ah.nfrag = ctx.frags_size then .fail ah
  else
    let ah1 := { ah with
      frags := upd ah.frags ah.nfrag
        { ah.frags ah.nfrag with offset := ah.pos, len := 0, nfrag := 0, flags := 2 } }
    let n := ah1.frag_index ah1.parser_state
    if n = 0 then
      .brk { ah1 with
        frag_index := upd ah1.frag_index ah1.parser_state ah1.nfrag
        hdr_token_idx := ah1.parser_state }
    else
      match chain_last ah1.frags 256 n with
      | none => .hang
      | some m =>
        let ah2 := { ah1 with frags := upd ah1.frags m { ah1.frags m with nfrag := ah1.nfrag } }
        let r := issue_char ctx ah2 32
        if r.1 < 0 then .fail r.2 else .brk r.2

/-- The code of `lws_parse` from the label `start_fragment:`. -/
def start_fragment (ctx : Context) (ah : AH) : parse_step :=
  excessive_label ctx { ah with nfrag := inc8 ah.nfrag }

/-- The code of `lws_parse` from the label `swallow:`. -/
def swallow_label (ctx : Context) (ah : AH) : parse_step :=
  if ah.parser_state = ctx.tk.WSI_TOKEN_CHALLENGE then .complete ah else .brk ah

/-- The code of `lws_parse` from the label `check_eol:`. -/
def check_eol (ctx : Context) (ah : AH) (c : Nat) : parse_step :=
  if ah.parser_state ≠ ctx.tk.WSI_TOKEN_CHALLENGE ∧ (c = 13 ∨ c = 10) ∧ ah.ues ≠ URIES_IDLE then
    .forbid ah
  else
    let eol := ah.parser_state ≠ ctx.tk.WSI_TOKEN_CHALLENGE ∧ (c = 13 ∨ c = 10)
    let ah1 :=
      if eol then
        if c = 10 then
          { ah with parser_state := ctx.tk.WSI_TOKEN_NAME_PART, unk_pos := 0, lextable_pos := 0 }
        else { ah with parser_state := ctx.tk.WSI_TOKEN_SKIPPING_SAW_CR }
      else ah
    let c1 := if eol then 0 else c
    let r := issue_char ctx ah1 c1
    if r.1 < 0 then .fail r.2
    else if 0 < r.1 then swallow_label ctx { r.2 with parser_state := ctx.tk.WSI_TOKEN_SKIPPING }
    else if c1 = 0 ∧ r.2.parser_state ≠ ctx.tk.WSI_TOKEN_HTTP_URI_ARGS then
      swallow_label ctx r.2.len_dec
    else swallow_label ctx r.2

/-- The `default:` case of `lws_parse`: a byte of a known token value. -/
def value_part (ctx : Context) (ah : AH) (c : Nat) : parse_step :=
  if (ah.frags (ah.frag_index ah.parser_state)).len = 0 ∧ c = 32 then .brk ah
  else if ah.parser_state ∉ methods ctx then check_eol ctx ah c
  else if c = 32 then
    let r0 := if (ah.frags ah.nfrag).len = 0 then issue_char ctx ah 47 else (0, ah)
    if r0.1 < 0 then .fail r0.2
    else
      let ah1 := if r0.2.ups = URIPS_SEEN_SLASH_DOT_DOT then back_up_one_dir r0.2 else r0.2
      let r := issue_char ctx ah1 0
      if r.1 < 0 then .fail r.2
      else start_fragment ctx { r.2.len_dec with parser_state := ctx.tk.WSI_TOKEN_HTTP }
  else
    let r := lws_parse_urldecode ctx ah c
    match r.1 with
    | LPUR_CONTINUE => check_eol ctx r.2.1 r.2.2
    | LPUR_SWALLOW => swallow_label ctx r.2.1
    | LPUR_FORBID => .forbid r.2.1
    | LPUR_EXCESSIVE => excessive_label ctx r.2.1
    | LPUR_MINUS_ONE => .fail r.2.1

/-- Modelled from the spec: `lws_ser_wu16be` is defined outside `parsers.c`;
the spec gives the custom-header fields as big-endian. Stores `v` in the two
bytes at `p`. -/
def lws_ser_wu16be (data : Nat → Nat) (p v : Nat) : Nat → Nat :=
  upd (upd data p (v / 256 % 256)) (p + 1) (v % 256)

/-- Modelled from the spec: `lws_ser_wu32be` is defined outside `parsers.c`;
the spec gives the custom-header fields as big-endian. Stores `v` in the four
bytes at `p`. -/
def lws_ser_wu32be (data : Nat → Nat) (p v : Nat) : Nat → Nat :=
  upd (upd (upd (upd data p (v / 16777216 % 256)) (p + 1) (v / 65536 % 256))
    (p + 2) (v / 256 % 256)) (p + 3) (v % 256)

/-- The loop `for (n = 0; n < 8; n++) if (!lws_pos_in_bounds(wsi))
ah->data[ah->pos++] = 0;`. -/
def reserve_unknown_entry (ctx : Context) : Nat → AH → AH
  | 0, ah => ah
  | n + 1, ah =>
    reserve_unknown_entry ctx n (if lws_pos_in_bounds ctx ah = 0 then ah.put 0 else ah)

/-- How the `while (1)` walk over `lextable_h1` ends for the input byte. -/
inductive lex_walk_end where
  /-- The label `nope`: `ah->lextable_pos = -1`. -/
  | nope
  /-- The assignment `ah->lextable_pos = (int16_t)p`. -/
  | moved (p : Nat)
  /-- The branch `lextable_h1[pos] < FAIL_CHAR` inside the loop, at `pos`. -/
  | terminal (pos : Nat)
deriving DecidableEq, Repr

/-- The `while (1)` loop of `WSI_TOKEN_NAME_PART` from the cursor `pos`. A read
past the end of the table gives 0. Every turn moves the cursor three entries
on, so `lextable_h1.length + 1` turns of fuel are never used up. -/
def lex_walk (lt : List Nat) (c : Nat) : Nat → Nat → lex_walk_end
  | 0, _ => .nope
  | fuel + 1, pos =>
    if lt.getD pos 0 / 128 % 2 = 1 then
      if lt.getD pos 0 % 128 ≠ c then .nope
      else if lt.getD (pos + 1) 0 = FAIL_CHAR then .nope
      else .moved (pos + 1)
    else if lt.getD pos 0 = FAIL_CHAR then .nope
    else if lt.getD pos 0 < FAIL_CHAR then .terminal pos
    else if lt.getD pos 0 = c then .moved (pos + lt.getD (pos + 1) 0 + lt.getD (pos + 2) 0 * 256)
    else lex_walk lt c fuel (pos + 3)

/-- The AH after the `while (1)` loop of `WSI_TOKEN_NAME_PART`. -/
def apply_lex_walk (wsi : lws) (ah : AH) : lex_walk_end → AH
  | .nope => { ah with lextable_pos := -1 }
  | .moved p => { ah with lextable_pos := toInt16 p }
  | .terminal p =>
    let ah1 := if wsi.mux_substream = false then { ah with pos := ah.unk_pos, unk_pos := 0 } else ah
    { ah1 with lextable_pos := toInt16 p }

/-- The part of `WSI_TOKEN_NAME_PART` after the `while (1)` loop. -/
def name_part_known (ctx : Context) (wsi : lws) (ah : AH) : parse_step :=
  if ah.lextable_pos < 0 ∧ wsi.role_h1 = true ∧ wsi.role_server = true then
    if ∃ m ∈ methods ctx, ah.frag_index m ≠ 0 then
      let ah1 := if ctx.with_custom_headers = false then
        { ah with parser_state := ctx.tk.WSI_TOKEN_SKIPPING } else ah
      let ah2 := if wsi.mux_substream = true then
        { ah1 with parser_state := ctx.tk.WSI_TOKEN_SKIPPING } else ah1
      .brk ah2
    else if wsi.vhost_fallback = true then .fallback ah
    else .forbid ah
  else if ah.lextable_pos < 0 then
    if ctx.with_custom_headers = true ∧ wsi.mux_substream = false then .brk ah
    else .brk { ah with parser_state := ctx.tk.WSI_TOKEN_SKIPPING }
  else if ctx.lextable_h1.getD ah.lextable_pos.toNat 0 < FAIL_CHAR then
    let n := (ctx.lextable_h1.getD ah.lextable_pos.toNat 0 * 256) |||
      ctx.lextable_h1.getD (ah.lextable_pos.toNat + 1) 0
    if ∃ m ∈ methods ctx, n = m ∧ ah.frag_index m ≠ 0 then .fail ah
    else
      let ah1 := if wsi.mux_substream = false then { ah with pos := ah.unk_pos, unk_pos := 0 } else ah
      let n1 := if ctx.with_role_ws = true ∧ n = ctx.tk.WSI_TOKEN_SWORIGIN then
        ctx.tk.WSI_TOKEN_ORIGIN else n
      let st := (ctx.tk.WSI_TOKEN_GET_URI + n1) % 256
      let ah2 := { ah1 with
        parser_state := st
        ups := URIPS_IDLE
        current_token_limit :=
          match ctx.token_limits with
          | some limit => limit st
          | none => ctx.max_http_header_data }
      if st = ctx.tk.WSI_TOKEN_CHALLENGE then .complete ah2 else start_fragment ctx ah2
  else .brk ah

/-- The case `WSI_TOKEN_NAME_PART` of `lws_parse`. -/
def name_part (ctx : Context) (wsi : lws) (ah : AH) (c0 : Nat) : parse_step :=
  if ah.unk_pos = 0 ∧ c0 = 10 then .complete ah
  else
    let c := if 65 ≤ c0 ∧ c0 ≤ 90 then (c0 + 32) % 256 else c0
    let ah1 :=
      if wsi.mux_substream = false ∧ ah.unk_pos = 0 then
        if ctx.with_custom_headers = true then
          reserve_unknown_entry ctx 8 { ah with unk_pos := ah.pos }
        else { ah with unk_pos := ah.pos }
      else ah
    if lws_pos_in_bounds ctx ah1 ≠ 0 then .fail ah1
    else
      let ah2 := ah1.put c
      if ctx.with_custom_headers = true ∧ wsi.mux_substream = false ∧ ah2.lextable_pos < 0 ∧
          c = 58 then
        let ah3 := if ah2.unk_ll_head = 0 then { ah2 with unk_ll_head := ah2.unk_pos } else ah2
        let ah4 := if ah3.unk_ll_tail ≠ 0 then
          { ah3 with data := lws_ser_wu32be ah3.data (ah3.unk_ll_tail + 4) ah3.unk_pos } else ah3
        let ah5 := { ah4 with unk_ll_tail := ah4.unk_pos }
        let nlen := ((ah5.pos + 4294967296 - ah5.unk_pos) % 4294967296 + 4294967296 - 8) % 65536
        .brk { ah5 with
          data := lws_ser_wu16be ah5.data ah5.unk_pos nlen
          unk_value_pos := ah5.pos
          parser_state := ctx.tk.WSI_TOKEN_UNKNOWN_VALUE_PART }
      else if ah2.lextable_pos < 0 then .brk ah2
      else
        name_part_known ctx wsi
          (apply_lex_walk wsi ah2
            (lex_walk ctx.lextable_h1 c (ctx.lextable_h1.length + 1) ah2.lextable_pos.toNat))

/-- The case `WSI_TOKEN_UNKNOWN_VALUE_PART` of `lws_parse`. -/
def unknown_value_part (ctx : Context) (ah : AH) (c : Nat) : parse_step :=
  if c = 13 then .brk ah
  else if c = 10 then
    let vlen := (ah.pos + 4294967296 - ah.unk_value_pos) % 65536
    .brk { ah with
      data := lws_ser_wu16be ah.data (ah.unk_pos + 2) vlen
      parser_state := ctx.tk.WSI_TOKEN_NAME_PART
      unk_pos := 0
      lextable_pos := 0 }
  else if ah.pos ≠ ah.unk_value_pos ∨ (c ≠ 32 ∧ c ≠ 9) then
    if lws_pos_in_bounds ctx ah ≠ 0 then .fail ah else .brk (ah.put c)
  else .brk ah

/-- The case `WSI_TOKEN_SKIPPING` of `lws_parse`. -/
def skipping (ctx : Context) (ah : AH) (c : Nat) : parse_step :=
  let ah1 := if c = 10 then
    { ah with parser_state := ctx.tk.WSI_TOKEN_NAME_PART, unk_pos := 0, lextable_pos := 0 } else ah
  .brk (if c = 13 then { ah1 with parser_state := ctx.tk.WSI_TOKEN_SKIPPING_SAW_CR } else ah1)

/-- The case `WSI_TOKEN_SKIPPING_SAW_CR` of `lws_parse`. -/
def skipping_saw_cr (ctx : Context) (ah : AH) (c : Nat) : parse_step :=
  if ah.ues ≠ URIES_IDLE then .forbid ah
  else if c = 10 then
    .brk { ah with parser_state := ctx.tk.WSI_TOKEN_NAME_PART, unk_pos := 0, lextable_pos := 0 }
  else .brk { ah with parser_state := ctx.tk.WSI_TOKEN_SKIPPING }

/-- The body of the `do ... while (*len)` loop of `lws_parse` for the byte `c`:
the `switch (ah->parser_state)`. -/
def lws_parse_byte (ctx : Context) (wsi : lws) (ah : AH) (c : Nat) : parse_step :=
  if ctx.with_custom_headers = true ∧ ah.parser_state = ctx.tk.WSI_TOKEN_UNKNOWN_VALUE_PART then
    unknown_value_part ctx ah c
  else if ah.parser_state = ctx.tk.WSI_TOKEN_NAME_PART then name_part ctx wsi ah c
  else if ah.parser_state = ctx.tk.WSI_TOKEN_SKIPPING then skipping ctx ah c
  else if ah.parser_state = ctx.tk.WSI_TOKEN_SKIPPING_SAW_CR then skipping_saw_cr ctx ah c
  else if ah.parser_state = ctx.tk.WSI_PARSING_COMPLETE then .brk ah
  else value_part ctx ah c

/-- The code of `lws_parse` from the label `forbid:`. -/
def forbid_label (ctx : Context) (wsi : lws) (ah : AH) : lws_parser_return_t × lws :=
  (LPR_FORBIDDEN,
    { wsi with ah := some ah, forbidden_sent := wsi.forbidden_sent || ctx.with_server })

/-- The code of `lws_parse` from the label `set_parsing_complete:`; `none`
when `lws_hdr_total_length` does not return. -/
def set_parsing_complete (ctx : Context) (wsi : lws) (ah : AH) :
    Option (lws_parser_return_t × lws) :=
  if ah.ues ≠ URIES_IDLE then some (forbid_label ctx wsi ah)
  else
    match ah.total_length ctx.tk.WSI_TOKEN_UPGRADE with
    | none => none
    | some tl =>
      let rx :=
        if tl ≠ 0 ∧ ctx.with_role_ws = true ∧ ah.frag_index ctx.tk.WSI_TOKEN_VERSION ≠ 0 then
          ctx.atoi_char ah.data (ah.frags (ah.frag_index ctx.tk.WSI_TOKEN_VERSION)).offset
        else wsi.rx_frame_type
      some (LPR_OK,
        { wsi with
          ah := some { ah with parser_state := ctx.tk.WSI_PARSING_COMPLETE }
          hdr_parsing_completed := true
          rx_frame_type := rx })

/-- The `do ... while (*len)` loop of `lws_parse` over the bytes of the buffer:
the return value, the connection afterwards and the value left in `*len`.
`none` when the call does not return. -/
def parse_loop (ctx : Context) (wsi : lws) : List Nat → AH →
    Option (lws_parser_return_t × lws × Nat)
  | [], ah => some (LPR_OK, { wsi with ah := some ah }, 0)
  | c :: cs, ah =>
    match lws_parse_byte ctx wsi ah c with
    | .brk ah1 => parse_loop ctx wsi cs ah1
    | .fail ah1 => some (LPR_FAIL, { wsi with ah := some ah1 }, cs.length)
    | .fallback ah1 => some (LPR_DO_FALLBACK, { wsi with ah := some ah1 }, cs.length)
    | .forbid ah1 => some ((forbid_label ctx wsi ah1).1, (forbid_label ctx wsi ah1).2, cs.length)
    | .complete ah1 =>
      match set_parsing_complete ctx wsi ah1 with
      | none => none
      | some r => some (r.1, r.2, cs.length)
    | .hang => none

/-- `lws_parse(wsi, buf, len)` with the `*len` bytes of `buf` given as a list
(the callers pass at least one byte). `none` when the call does not return:
the `assert(wsi->http.ah)` fails or a fragment chain is walked without end. -/
def lws_parse (ctx : Context) (wsi : lws) (buf : List Nat) :
    Option (lws_parser_return_t × lws × Nat) :=
  match wsi.ah with
  | none => none
  | some ah => parse_loop ctx wsi buf ah

/-! ## The per-thread AH pool and its wait list -/

/-- The fields of `struct lws` that attach and detach touch. `ah` is the
pointer `wsi->http.ah` (the address of a node of `ah_list`); the link
`wsi->http.ah_wait_list` is held by the list `pt.ah_wait_list`. `pollin`
stands for the POLLIN bit of the connection's pollfd, which
`_lws_change_pollfd` (outside `parsers.c`) sets and clears, `revents_pollin`
for the bit `pfd->revents |= LWS_POLLIN`. -/
structure conn where
  ah : Option Nat
  role_http : Bool
  role_mqtt : Bool
  role_client : Bool
  unconnected : Bool
  peer : Option Nat
  has_fds_pos : Bool
  buflist_nonempty : Bool
  hdr_parsing_completed : Bool
  pollin : Bool
  revents_pollin : Bool

/-- One `struct allocated_headers` of the pool: its address, the pool-side
fields and the parse state. -/
structure ah_node where
  addr : Nat
  wsi : Option Nat
  in_use : Bool
  assigned : Nat
  hdr : AH

/-- The fields of `struct lws_context_per_thread` (`pt->http`) with the
connections of the thread and the peers' AH counters. `ah_wait_list` lists the
waiting connections from the head of the linked list on. `next_addr` is the
address the allocator hands out next. -/
structure pt_state where
  ah_list : List ah_node
  ah_count_in_use : Int
  ah_pool_length : Nat
  ah_wait_list : List Nat
  ah_wait_list_length : Nat
  wsi : Nat → conn
  count_ah : Nat → Nat
  next_addr : Nat

/-- What the environment decides during one call: whether the allocations of
`_lws_create_ah` succeed and what `lws_malloc` left in the buffer, what
`time()` returns, and whether `lws_http_client_connect_via_info2` returns a
connection. -/
structure env where
  alloc_ok : Bool
  fresh_data : Nat → Nat
  now : Nat
  connect_ok : Bool

/-- Modelled from the spec: `lws_peer_confirm_ah_attach_ok` is defined outside
`parsers.c`. The per-peer limit caps the AHs one peer may hold; non-zero means
the peer may not take another one. A connection without peer record is never
refused. -/
def lws_peer_confirm_ah_attach_ok (ctx : Context) (s : pt_state) (peer : Option Nat) : Int :=
  match peer with
  | none => 0
  | some p => if ctx.ip_limit_ah ≠ 0 ∧ ctx.ip_limit_ah ≤ s.count_ah p then 1 else 0

/-- Modelled from the spec: `lws_peer_track_ah_detach` is defined outside
`parsers.c`; it takes one AH off the peer's counter. -/
def lws_peer_track_ah_detach (s : pt_state) (peer : Option Nat) : pt_state :=
  match peer with
  | none => s
  | some p => { s with count_ah := upd s.count_ah p (s.count_ah p - 1) }

/-- The statement `wsi->peer->http.count_ah++` under `if (wsi->peer)`. -/
def peer_count_inc (s : pt_state) (peer : Option Nat) : pt_state :=
  match peer with
  | none => s
  | some p => { s with count_ah := upd s.count_ah p (s.count_ah p + 1) }

/-- Modelled from the spec: `_lws_change_pollfd` is defined outside
`parsers.c`; it sets or clears read interest on the connection's fds slot and
does nothing for a connection without one. -/
def _lws_change_pollfd (s : pt_state) (w : Nat) (want : Bool) : pt_state :=
  if (s.wsi w).has_fds_pos = true then
    { s with wsi := upd s.wsi w { s.wsi w with pollin := want } }
  else s

/-- `_lws_header_ensure_we_are_on_waiting_list`. -/
def _lws_header_ensure_we_are_on_waiting_list (s : pt_state) (w : Nat) : pt_state :=
  if w ∈ s.ah_wait_list then s
  else
    _lws_change_pollfd
      { s with
        ah_wait_list := w :: s.ah_wait_list
        ah_wait_list_length := inc32 s.ah_wait_list_length } w false

/-- `__lws_remove_from_ah_waiting_list`: the return value and the state. -/
def __lws_remove_from_ah_waiting_list (s : pt_state) (w : Nat) : Int × pt_state :=
  if w ∈ s.ah_wait_list then
    (1, { s with
      ah_wait_list := s.ah_wait_list.erase w
      ah_wait_list_length := dec32 s.ah_wait_list_length })
  else (0, s)

/-- `_lws_create_ah` when its allocations succeed: the node's address and the
state. -/
def _lws_create_ah (e : env) (s : pt_state) : Nat × pt_state :=
  (s.next_addr,
    { s with
      ah_list :=
        { addr := s.next_addr, wsi := none, in_use := false, assigned := 0,
          hdr := created_ah e.fresh_data } :: s.ah_list
      ah_pool_length := inc32 s.ah_pool_length
      next_addr := s.next_addr + 1 })

/-- The unlinking walk of `_lws_destroy_ah` over `ah_list`. -/
def unlink_ah (a : Nat) : List ah_node → Option (List ah_node)
  | [] => none
  | n :: l => if n.addr = a then some l else (unlink_ah a l).map fun l1 => n :: l1

/-- `_lws_destroy_ah`: the return value and the state. -/
def _lws_destroy_ah (s : pt_state) (a : Nat) : Int × pt_state :=
  match unlink_ah a s.ah_list with
  | some l => (0, { s with ah_list := l, ah_pool_length := dec32 s.ah_pool_length })
  | none => (1, s)

/-- The node of `ah_list` an AH pointer refers to. -/
def find_ah (a : Nat) (l : List ah_node) : Option ah_node := l.find? fun n => n.addr = a

/-- The store through an AH pointer: `f` applied to the node at address `a`. -/
def modify_ah (a : Nat) (f : ah_node → ah_node) (l : List ah_node) : List ah_node :=
  l.map fun n => if n.addr = a then f n else n

/-- `__lws_header_table_reset`; `none` when one of its two assertions fails.
The timer call `__lws_set_timeout` and the body of `lws_service_fd_tsi` belong
to the timer service and to the event loop: of the latter the model keeps the
`revents` bit set before the call. -/
def __lws_header_table_reset (ctx : Context) (e : env) (s : pt_state) (w : Nat)
    (autoservice : Bool) : Option pt_state :=
  match (s.wsi w).ah with
  | none => none
  | some a =>
    match find_ah a s.ah_list with
    | none => none
    | some n =>
      if n.wsi ≠ some w then none
      else
        let s1 := { s with
          ah_list := modify_ah a
            (fun n => { n with hdr := _lws_header_table_reset ctx n.hdr, assigned := e.now })
            s.ah_list
          wsi := upd s.wsi w { s.wsi w with hdr_parsing_completed := false } }
        if (s1.wsi w).has_fds_pos = true ∧ (s1.wsi w).buflist_nonempty = true ∧
            autoservice = true then
          some { s1 with wsi := upd s1.wsi w { s1.wsi w with revents_pollin := true } }
        else some s1

/-- The tail of `lws_header_table_attach` from the label `connect_via_info2`. -/
def attach_connect (ctx : Context) (e : env) (s : pt_state) (w : Nat) : Int × pt_state :=
  if ctx.with_client = true ∧ (s.wsi w).role_client = true ∧ (s.wsi w).unconnected = true ∧
      e.connect_ok = false then (-1, s)
  else (0, s)

/-- The statements of `lws_header_table_attach` between the failed-allocation
test and the label `reset:`: the new AH is bound to `w` in both directions and
counted, the peer is charged, POLLIN is enabled. -/
def attach_bind (ctx : Context) (e : env) (s1 : pt_state) (w : Nat) : pt_state :=
  let c := _lws_create_ah e s1
  let s2 := { c.2 with
    wsi := upd c.2.wsi w { c.2.wsi w with ah := some c.1 }
    ah_list := modify_ah c.1 (fun n => { n with in_use := true, wsi := some w }) c.2.ah_list
    ah_count_in_use := c.2.ah_count_in_use + 1 }
  let s3 := if ctx.with_peer_limits = true then peer_count_inc s2 (s2.wsi w).peer else s2
  _lws_change_pollfd s3 w true

/-- The admission test of `lws_header_table_attach` (the value `n`): the pool
is all busy, or the peer may not take an AH now. -/
def attach_refused (ctx : Context) (s : pt_state) (w : Nat) : Prop :=
  s.ah_count_in_use = (ctx.max_http_header_pool : Int) ∨
    (ctx.with_peer_limits = true ∧ lws_peer_confirm_ah_attach_ok ctx s (s.wsi w).peer ≠ 0)

instance (ctx : Context) (s : pt_state) (w : Nat) : Decidable (attach_refused ctx s w) := by
  unfold attach_refused
  infer_instance

/-- `lws_header_table_attach`: the return value and the state, `none` when an
assertion fails. -/
def lws_header_table_attach (ctx : Context) (e : env) (s : pt_state) (w : Nat)
    (autoservice : Bool) : Option (Int × pt_state) :=
  if ctx.with_role_mqtt = true ∧ ctx.with_client = true ∧ (s.wsi w).role_mqtt = true then
    some (attach_connect ctx e s w)
  else if (s.wsi w).role_http = false then none
  else if (s.wsi w).ah ≠ none then
    (__lws_header_table_reset ctx e s w autoservice).map fun s1 => attach_connect ctx e s1 w
  else if attach_refused ctx s w then
    some (1, _lws_header_ensure_we_are_on_waiting_list s w)
  else
    let s1 := (__lws_remove_from_ah_waiting_list s w).2
    if e.alloc_ok = false then some (1, _lws_header_ensure_we_are_on_waiting_list s1 w)
    else
      (__lws_header_table_reset ctx e (attach_bind ctx e s1 w) w autoservice).map fun s5 =>
        attach_connect ctx e s5 w

/-- The scan `while (*pwsi)` of `__lws_header_table_detach`: the last
connection of the wait list that the peer check lets through. -/
def last_eligible (ctx : Context) (s : pt_state) : List Nat → Option Nat
  | [] => none
  | v :: l =>
    match last_eligible ctx s l with
    | some u => some u
    | none =>
      if ctx.with_peer_limits = false ∨ lws_peer_confirm_ah_attach_ok ctx s (s.wsi v).peer = 0 then
        some v
      else none

/-- The code of `__lws_header_table_detach` from the label
`nobody_usable_waiting`. -/
def nobody_usable_waiting (s : pt_state) (a : Nat) : Int × pt_state :=
  let s1 := (_lws_destroy_ah s a).2
  (0, { s1 with ah_count_in_use := s1.ah_count_in_use - 1 })

/-- The state of `__lws_header_table_detach` when the scan of the wait list
starts: the AH at `a` is unbound from `w` and the peer's counter is released. -/
def detach_unbind (ctx : Context) (s : pt_state) (w a : Nat) (owned : Bool) : pt_state :=
  let s1 := { s with wsi := upd s.wsi w { s.wsi w with ah := none } }
  let s2 := if ctx.with_peer_limits = true ∧ owned = true then
    lws_peer_track_ah_detach s1 (s1.wsi w).peer else s1
  { s2 with ah_list := modify_ah a (fun n => { n with wsi := none, assigned := 0 }) s2.ah_list }

/-- The two assignments `wsi->http.ah = ah; ah->wsi = wsi;` that hand the AH at
`a` to the waiting connection `v`. -/
def detach_give (s1 : pt_state) (v a : Nat) : pt_state :=
  { s1 with
    wsi := upd s1.wsi v { s1.wsi v with ah := some a }
    ah_list := modify_ah a (fun n => { n with wsi := some v }) s1.ah_list }

/-- The statements of `__lws_header_table_detach` after the reset of the AH
handed to `v`: the peer is charged, POLLIN is enabled for a connection with an
fds slot, and `v` is taken out of the wait list at the place the scan found. -/
def detach_unpark (ctx : Context) (s3 : pt_state) (v : Nat) : pt_state :=
  let s4 := if ctx.with_peer_limits = true then peer_count_inc s3 (s3.wsi v).peer else s3
  let s5 := if (s4.wsi v).has_fds_pos = true then _lws_change_pollfd s4 v true else s4
  { s5 with
    ah_wait_list := (s5.ah_wait_list.reverse.erase v).reverse
    ah_wait_list_length := dec32 s5.ah_wait_list_length }

/-- `__lws_header_table_detach`: the return value and the state, `none` when
an assertion fails or the AH pointer refers to no node. -/
def __lws_header_table_detach (ctx : Context) (e : env) (s : pt_state) (w : Nat)
    (autoservice : Bool) : Option (Int × pt_state) :=
  let s0 := (__lws_remove_from_ah_waiting_list s w).2
  match (s.wsi w).ah with
  | none => some (0, s0)
  | some a =>
    match find_ah a s0.ah_list with
    | none => none
    | some n =>
      if ¬ (0 < s0.ah_count_in_use) then none
      else if n.in_use = false then none
      else
        let s1 := detach_unbind ctx s0 w a n.wsi.isSome
        match last_eligible ctx s1 s1.ah_wait_list with
        | none => some (nobody_usable_waiting s1 a)
        | some v =>
          match __lws_header_table_reset ctx e (detach_give s1 v a) v autoservice with
          | none => none
          | some s3 =>
            let s6 := detach_unpark ctx s3 v
            if ctx.with_client = true ∧ (s6.wsi v).role_client = true ∧
                (s6.wsi v).unconnected = true then
              if e.connect_ok = false then some (-1, s6) else some (0, s6)
            else if decide (s6.ah_wait_list_length ≠ 0) ≠ decide (s6.ah_wait_list ≠ []) then none
            else some (0, s6)

/-- `lws_header_table_detach` (the locked entry point). -/
def lws_header_table_detach (ctx : Context) (e : env) (s : pt_state) (w : Nat)
    (autoservice : Bool) : Option (Int × pt_state) :=
  __lws_header_table_detach ctx e s w autoservice

/-- One call on the pool of a thread. -/
inductive pool_op where
  | attach (w : Nat) (autoservice : Bool) (e : env)
  | detach (w : Nat) (autoservice : Bool) (e : env)

/-- The call `op` in state `s`: return value and state. -/
def pool_step (ctx : Context) (s : pt_state) : pool_op → Option (Int × pt_state)
  | .attach w au e => lws_header_table_attach ctx e s w au
  | .detach w au e => lws_header_table_detach ctx e s w au

/-- The calls `ops` one after the other from `s`; `none` when one of them
fails an assertion. -/
def pool_run (ctx : Context) : pt_state → List pool_op → Option pt_state
  | s, [] => some s
  | s, op :: ops =>
    match pool_step ctx s op with
    | none => none
    | some r => pool_run ctx r.2 ops

/-- A thread before any attach: no AH, nobody waiting, no connection bound.
The connections `wsi` and the peers' counters are as the rest of the server
left them. -/
def pt_init (wsi : Nat → conn) (count_ah : Nat → Nat) : pt_state :=
  { ah_list := [], ah_count_in_use := 0, ah_pool_length := 0, ah_wait_list := [],
    ah_wait_list_length := 0, wsi := fun w => { wsi w with ah := none }, count_ah := count_ah,
    next_addr := 1 }

/-! ## A concrete build

The token enumeration and the generated lex table are declared outside
`parsers.c`. The general theorems hold for every `Tokens` and every table; the
concrete runs below use the following values. -/

/-- Modelled from the spec: the token enumeration is declared outside
`parsers.c`. The values are those of a build with every role and header
enabled: the methods and standard headers named by the spec, then the parser
meta-states after the last real token. -/
def lws_tokens : Tokens :=
  { WSI_TOKEN_GET_URI := 0, WSI_TOKEN_POST_URI := 1, WSI_TOKEN_OPTIONS_URI := 2,
    WSI_TOKEN_PUT_URI := 74, WSI_TOKEN_PATCH_URI := 73, WSI_TOKEN_DELETE_URI := 75,
    WSI_TOKEN_CONNECT := 81, WSI_TOKEN_HEAD_URI := 82, WSI_TOKEN_HTTP := 15,
    WSI_TOKEN_HTTP_URI_ARGS := 76, WSI_TOKEN_CHALLENGE := 8, WSI_TOKEN_UPGRADE := 5,
    WSI_TOKEN_VERSION := 33, WSI_TOKEN_SWORIGIN := 34, WSI_TOKEN_ORIGIN := 6,
    WSI_TOKEN_HTTP_COOKIE := 26, WSI_TOKEN_HTTP_SET_COOKIE := 66,
    WSI_TOKEN_HTTP_COLON_METHOD := 36, WSI_TOKEN_NAME_PART := 97,
    WSI_TOKEN_UNKNOWN_VALUE_PART := 98, WSI_TOKEN_SKIPPING := 99,
    WSI_TOKEN_SKIPPING_SAW_CR := 100, WSI_PARSING_COMPLETE := 101 }

/-- Modelled from the spec: the token enumeration is declared outside
`parsers.c`; this is the id of the `Host` header in `lws_tokens`. -/
def WSI_TOKEN_HOST : Nat := 3

/-- Modelled from the spec: `lextable.h` is generated outside `parsers.c`. This
table is written in the encoding of spec section 4.1 (the one the walk in
`lws_parse` reads) for the lowercased names `get `, `post `, `options `,
`host:`, `connection:`, `upgrade:`, `origin:`, CR LF, `http/1.1 `, `cookie:`,
`content-length:`, `sec-websocket-version:`, `sec-websocket-origin:`,
`set-cookie:`, `patch`, `put`, `delete`, `uri-args`, `http/1.0 `, `connect `
and `head `, each ending in the two-byte terminal that holds its token id. -/
def lextable_model : List Nat :=
  [
    103, 28, 0, 112, 30, 0, 111, 37, 0, 104, 41, 0, 99, 48, 0, 117, 53, 0, 13, 57,
    0, 115, 57, 0, 100, 62, 0, 8, 229, 244, 160, 0, 0, 111, 60, 0, 97, 62, 0, 117,
    64, 0, 8, 112, 63, 0, 114, 68, 0, 8, 111, 71, 0, 116, 73, 0, 101, 82, 0, 8,
    239, 110, 82, 0, 111, 86, 0, 8, 112, 88, 0, 114, 93, 0, 8, 138, 0, 8, 229, 99,
    93, 0, 116, 108, 0, 8, 229, 236, 229, 244, 229, 0, 75, 243, 244, 160, 0, 1, 244, 227,
    232, 0, 73, 244, 0, 74, 244, 233, 239, 238, 243, 160, 0, 2, 233, 231, 233, 238, 186, 0,
    6, 243, 244, 186, 0, 3, 244, 240, 175, 177, 174, 49, 69, 0, 48, 69, 0, 8, 225, 228,
    160, 0, 82, 110, 63, 0, 116, 70, 0, 8, 235, 233, 229, 186, 0, 26, 231, 242, 225, 228,
    229, 186, 0, 5, 233, 173, 225, 242, 231, 243, 0, 76, 173, 247, 229, 226, 243, 239, 227, 235,
    229, 244, 173, 118, 46, 0, 111, 52, 0, 8, 173, 227, 239, 239, 235, 233, 229, 186, 0, 66,
    160, 0, 15, 160, 0, 79, 229, 227, 244, 105, 37, 0, 32, 39, 0, 8, 229, 238, 244, 173,
    236, 229, 238, 231, 244, 232, 186, 0, 27, 229, 242, 243, 233, 239, 238, 186, 0, 33, 242, 233,
    231, 233, 238, 186, 0, 34, 239, 238, 186, 0, 4, 0, 81
  ]

/-- The cursor values of `lextable_model` at which a name can stand between
two bytes: the start of each dispatch list and each one-byte match. -/
def lextable_model_states : List Nat :=
  [
    0, 28, 29, 30, 33, 43, 50, 60, 61, 68, 75, 78, 79, 86, 87, 88, 89, 90, 93, 94,
    95, 98, 99, 100, 103, 106, 107, 108, 109, 110, 111, 114, 115, 116, 117, 118, 121, 122, 123, 126,
    127, 128, 129, 130, 131, 138, 139, 140, 143, 150, 151, 152, 153, 156, 157, 158, 159, 160, 161, 164,
    165, 166, 167, 168, 169, 172, 173, 174, 175, 176, 177, 178, 179, 180, 181, 182, 183, 190, 191, 192,
    193, 194, 195, 196, 197, 200, 203, 206, 207, 208, 209, 216, 217, 218, 219, 220, 221, 222, 223, 224,
    225, 226, 229, 230, 231, 232, 233, 234, 235, 238, 239, 240, 241, 242, 243, 246, 247, 248
  ]

/-- The run of decimal digits at `p`, read by `atoi_model`: the value so far is
`acc`, and at most `fuel` digits are read. -/
def atoi_digits (data : Nat → Nat) : Nat → Nat → Nat → Nat
  | 0, _, acc => acc
  | fuel + 1, p, acc =>
    if 48 ≤ data p ∧ data p ≤ 57 then atoi_digits data fuel (p + 1) (acc * 10 + (data p - 48))
    else acc

/-- The first index from `p` on that holds no white space (space, or one of
the bytes 9 to 13), looking at no more than `fuel` bytes. -/
def atoi_skip_space (data : Nat → Nat) : Nat → Nat → Nat
  | 0, p => p
  | fuel + 1, p =>
    if data p = 32 ∨ (9 ≤ data p ∧ data p ≤ 13) then atoi_skip_space data fuel (p + 1) else p

/-- Modelled from the spec: `atoi` belongs to libc. This is `(char)atoi(pv)`
for the string at `p` on a platform whose `char` is signed and 8 bits wide:
leading white space is skipped, an optional sign is read, then the run of
decimal digits (up to 9 of them, which cannot overflow an `int`; C leaves a
longer run undefined), and the value is reduced to the range -128..127. -/
def atoi_model (data : Nat → Nat) (p : Nat) : Int :=
  let q := atoi_skip_space data 4096 p
  let q1 := if data q = 45 ∨ data q = 43 then q + 1 else q
  let v : Int := (atoi_digits data 9 q1 0 : Nat)
  let n : Int := if data q = 45 then -v else v
  (n + 128) % 256 - 128

/-- A server build with custom headers, all roles and the default limits (a
4096-byte AH, no per-token limits). -/
def lws_context : Context :=
  { tk := lws_tokens, lextable_h1 := lextable_model, frags_size := 96,
    max_http_header_data := 4096, max_http_header_pool := 4, token_limits := none,
    with_custom_headers := true, with_uncommon_headers := true, with_role_ws := true,
    with_server := true, with_role_h2 := true, with_client := true, with_role_mqtt := true,
    with_peer_limits := true, ip_limit_ah := 0, atoi_char := atoi_model }

/-- An HTTP/1 server connection that holds the AH `ah`, before any byte. -/
def h1_server (ah : AH) : lws :=
  { ah := some ah, mux_substream := false, role_h1 := true, role_server := true,
    vhost_fallback := false, hdr_parsing_completed := false, rx_frame_type := 0,
    forbidden_sent := false }

/-- The bytes of a string literal. -/
def bytes (s : String) : List Nat := s.toList.map Char.toNat

/-- The `len` bytes of fragment `i` as they lie in `ah->data`. -/
def AH.frag_bytes (ah : AH) (i : Nat) : List Nat :=
  (List.range (ah.frags i).len).map fun k => ah.data ((ah.frags i).offset + k)

/-- The fragments of a chain from fragment `n` on, each with its bytes; `none`
when the chain does not end within the fuel. -/
def AH.chain_bytes (ah : AH) : Nat → Nat → Option (List (List Nat))
  | 0, _ => none
  | fuel + 1, n =>
    if (ah.frags n).nfrag = 0 then some [ah.frag_bytes n]
    else (ah.chain_bytes fuel (ah.frags n).nfrag).map fun l => ah.frag_bytes n :: l

/-- The fragments of token `h` in chain order, each with its bytes. -/
def AH.token_bytes (ah : AH) (h : Nat) : Option (List (List Nat)) :=
  if ah.frag_index h = 0 then some [] else ah.chain_bytes 256 (ah.frag_index h)

/-- The request of the first end-to-end scenario. -/
def request_1 : List Nat := bytes "GET /a/b/../c?x=1&y=2 HTTP/1.1\r\nHost: h\r\n\r\n"

/-- The first end-to-end scenario: `lws_parse` on `request_1` for an HTTP/1
server connection whose AH is freshly created (data buffer filled with the
byte `fill`) and reset. -/
def scenario_1 (fill : Nat) : Option (lws_parser_return_t × lws × Nat) :=
  lws_parse lws_context
    (h1_server (_lws_header_table_reset lws_context (created_ah fun _ => fill))) request_1

/-- What a caller sees of a returned `lws_parse`: the return value, the bytes
left in `*len`, `hdr_parsing_completed` and, of the AH, the parser state and
the fragments of some tokens. -/
structure parse_view where
  ret : lws_parser_return_t
  len_left : Nat
  hdr_parsing_completed : Bool
  parser_state : Option Nat
  tokens : List (Option (List (List Nat)))
deriving DecidableEq, Repr

/-- The view of a returned `lws_parse` for the tokens `toks`. -/
def view_of (toks : List Nat) (x : lws_parser_return_t × lws × Nat) : parse_view :=
  { ret := x.1, len_left := x.2.2, hdr_parsing_completed := x.2.1.hdr_parsing_completed,
    parser_state := x.2.1.ah.map fun a => a.parser_state,
    tokens := toks.map fun h => x.2.1.ah.bind fun a => a.token_bytes h }

/-! ## Predicates used by the theorems -/

/-! ## Pool states used as examples -/

/-- An HTTP/1 server connection with an fds slot and no AH. -/
def conn_h1 : conn :=
  { ah := none, role_http := true, role_mqtt := false, role_client := false, unconnected := false,
    peer := none, has_fds_pos := true, buflist_nonempty := false, hdr_parsing_completed := false,
    pollin := true, revents_pollin := false }

/-- An environment in which allocation and client connect succeed. -/
def env_ok : env := { alloc_ok := true, fresh_data := fun _ => 0, now := 1, connect_ok := true }

/-- A thread of `lws_context` whose four AHs are all in use (only the counter
matters to the admission test). -/
def pt_full : pt_state :=
  { pt_init (fun _ => conn_h1) (fun _ => 0) with ah_count_in_use := 4 }

/-! ## Well-formedness of the pool -/

/-- The pool of a thread is consistent: every AH of `ah_list` is in use and
owned by a connection that points back at it, AH addresses are distinct, every
bound connection points at a listed AH that names it as owner, the counters
equal the length of `ah_list` and stay within `max_http_header_pool`; the wait
list has no duplicates, holds only connections without AH (all with an id
below `N`), and `ah_wait_list_length` is its length. The fixed fields of the
connections are those of `wsi0`. -/
def pool_inv (ctx : Context) (wsi0 : Nat → conn) (N : Nat) (s : pt_state) : Prop :=
  (∀ n ∈ s.ah_list, n.in_use = true ∧ ∃ w, n.wsi = some w ∧ (s.wsi w).ah = some n.addr) ∧
  (s.ah_list.map ah_node.addr).Nodup ∧
  (∀ w a, (s.wsi w).ah = some a → ∃ n ∈ s.ah_list, n.addr = a ∧ n.wsi = some w) ∧
  (∀ n ∈ s.ah_list, n.addr < s.next_addr) ∧
  s.ah_count_in_use = (s.ah_list.length : Int) ∧
  s.ah_pool_length = s.ah_list.length ∧
  s.ah_list.length ≤ ctx.max_http_header_pool ∧
  s.ah_wait_list.Nodup ∧
  (∀ w ∈ s.ah_wait_list, (s.wsi w).ah = none ∧ w < N) ∧
  s.ah_wait_list_length = s.ah_wait_list.length ∧
  (∀ w, (s.wsi w).role_http = (wsi0 w).role_http ∧ (s.wsi w).role_mqtt = (wsi0 w).role_mqtt)

/-- The connection a call is made on. -/
def pool_op.target : pool_op → Nat
  | .attach w _ _ => w
  | .detach w _ _ => w

/-- A call the server can make on a thread that serves the connections below
`N`: the connection is one of them, and an attach is made on an HTTP connection
(or, in a build with the MQTT client, on an MQTT one), as the assertion at the
head of `lws_header_table_attach` demands. -/
def op_ok (ctx : Context) (wsi0 : Nat → conn) (N : Nat) : pool_op → Prop
  | .attach w _ _ => w < N ∧ ((wsi0 w).role_http = true ∨
      (ctx.with_role_mqtt = true ∧ ctx.with_client = true ∧ (wsi0 w).role_mqtt = true))
  | .detach w _ _ => w < N

/-- The test of the scan in `__lws_header_table_detach`: the peer check lets
the waiting connection `v` take an AH. -/
def eligible (ctx : Context) (s : pt_state) (v : Nat) : Prop :=
  ctx.with_peer_limits = false ∨ lws_peer_confirm_ah_attach_ok ctx s (s.wsi v).peer = 0

/-- The state in which `__lws_header_table_detach` of `w` scans the wait list,
when `w` holds an AH. -/
def detach_scan_state (ctx : Context) (s : pt_state) (w : Nat) : Option pt_state :=
  match (s.wsi w).ah with
  | none => none
  | some a =>
    (find_ah a (__lws_remove_from_ah_waiting_list s w).2.ah_list).map fun n =>
      detach_unbind ctx (__lws_remove_from_ah_waiting_list s w).2 w a n.wsi.isSome

/-- The queue times after a call that turns the wait list `l` into `l1`: for
each connection on the list, the number of the call that last put it there. A
call that only takes connections off the list puts nobody on it: everyone left
keeps their time. Any other call has put a connection at the head of the list,
also when it had taken that very connection off the list first (the attach that
is admitted and then cannot allocate): that connection gets the number of this
call, `clock`, and the others keep their time. A connection off the list has no
queue time. This is the order of the list, not the time a connection has been
waiting: `wait_update` keeps that. -/
def queue_update (l l1 : List Nat) (t : Nat → Option Nat) (clock : Nat) : Nat → Option Nat :=
  fun w =>
    if w ∈ l1 then
      if l1.isSublist l = true ∨ l1.head? ≠ some w then t w else some clock
    else none

/-- The queue times after the calls `ops` made from `s` with times `t`, the
first of them being call number `clock`. -/
def queue_times (ctx : Context) : pt_state → (Nat → Option Nat) → Nat → List pool_op →
    Nat → Option Nat
  | _, t, _, [] => t
  | s, t, clock, op :: ops =>
    match pool_step ctx s op with
    | none => t
    | some r =>
      queue_times ctx r.2 (queue_update s.ah_wait_list r.2.ah_wait_list t clock) (clock + 1) ops

/-- The number of the call that last put each waiting connection on the wait
list, after the calls `ops` on a fresh thread. -/
def queued_since (ctx : Context) (wsi0 : Nat → conn) (cnt : Nat → Nat) (ops : List pool_op) :
    Nat → Option Nat :=
  queue_times ctx (pt_init wsi0 cnt) (fun _ => none) 0 ops

/-- The queue times `t` fit the wait list `l` before call number `clock`: every
waiting connection was put on the list by an earlier call, and along the list,
from its head on, the queue times go down. -/
def times_fit (l : List Nat) (t : Nat → Option Nat) (clock : Nat) : Prop :=
  (∀ w ∈ l, ∃ k, t w = some k ∧ k < clock) ∧
  l.Pairwise fun u v => ∀ ku kv, t u = some ku → t v = some kv → kv < ku

/-- An environment in which `_lws_create_ah` cannot allocate. -/
def env_no_memory : env :=
  { alloc_ok := false, fresh_data := fun _ => 0, now := 1, connect_ok := true }

/-- The waiting times after a call that turns the wait list `l` into `l1`. A
connection that is on the list before the call and after it has been waiting
all along and keeps its time, also when the call took it off the list and put
it back. A connection that the call has put on the list waits since this call,
whose number is `clock`. A connection off the list has no waiting time. -/
def wait_update (l l1 : List Nat) (t : Nat → Option Nat) (clock : Nat) : Nat → Option Nat :=
  fun w => if w ∈ l1 then (if w ∈ l then t w else some clock) else none

/-- The waiting times after the calls `ops` made from `s` with times `t`, the
first of them being call number `clock`. -/
def wait_times (ctx : Context) : pt_state → (Nat → Option Nat) → Nat → List pool_op →
    Nat → Option Nat
  | _, t, _, [] => t
  | s, t, clock, op :: ops =>
    match pool_step ctx s op with
    | none => t
    | some r =>
      wait_times ctx r.2 (wait_update s.ah_wait_list r.2.ah_wait_list t clock) (clock + 1) ops

/-- The number of the call since which each parked connection has been on the
wait list without a break, after the calls `ops` on a fresh thread (the first
call is number 0). -/
def waiting_since (ctx : Context) (wsi0 : Nat → conn) (cnt : Nat → Nat) (ops : List pool_op) :
    Nat → Option Nat :=
  wait_times ctx (pt_init wsi0 cnt) (fun _ => none) 0 ops

/-- The return value of each of the calls `ops` made from `s` and the wait list
after it; the trace ends with `none` at a call that fails an assertion. -/
def pool_trace (ctx : Context) : pt_state → List pool_op → List (Option (Int × List Nat))
  | _, [] => []
  | s, op :: ops =>
    match pool_step ctx s op with
    | none => [none]
    | some r => some (r.1, r.2.ah_wait_list) :: pool_trace ctx r.2 ops

/-- Connection 1 takes an AH; the attach of 5, the attach of 6 and a second
attach of 5 are admitted (the pool of four is not full) and find no memory
for an AH. -/
def ops_requeue : List pool_op :=
  [.attach 1 false env_ok, .attach 5 false env_no_memory, .attach 6 false env_no_memory,
    .attach 5 false env_no_memory]

instance (ctx : Context) (s : pt_state) (v : Nat) : Decidable (eligible ctx s v) := by
  unfold eligible
  infer_instance

/-- A call in whose environment `_lws_create_ah` can allocate; a detach
allocates nothing. -/
def pool_op.can_allocate : pool_op → Prop
  | .attach _ _ e => e.alloc_ok = true
  | .detach _ _ _ => True

/-- The bytes fed one per call: `lws_parse` is called on each byte in turn for
as long as it returns `LPR_OK` and has not completed the headers; the result
is the last return value and the connection then. -/
def parse_bytewise (ctx : Context) : lws → List Nat → Option (lws_parser_return_t × lws)
  | wsi, [] => some (LPR_OK, wsi)
  | wsi, c :: cs =>
    match lws_parse ctx wsi [c] with
    | none => none
    | some r =>
      if r.1 = LPR_OK ∧ r.2.1.hdr_parsing_completed = false then parse_bytewise ctx r.2.1 cs
      else some (r.1, r.2.1)

/-- An HTTP/1 server connection with a freshly created and reset AH. -/
def wsi_fresh : lws :=
  h1_server (_lws_header_table_reset lws_context (created_ah fun _ => 0))

/-- The bytes of `request_1` up to the CR that ends the last header line. -/
def chunk_1 : List Nat := bytes "GET /a/b/../c?x=1&y=2 HTTP/1.1\r\nHost: h\r"

/-- The rest of `request_1`, from the LF on. -/
def chunk_2 : List Nat := bytes "\n\r\n"

/-- The connection left by `lws_parse` on `chunk_1`. -/
def after_chunk_1 : lws :=
  match lws_parse lws_context wsi_fresh chunk_1 with
  | some r => r.2.1
  | none => wsi_fresh

/-- The AH of a returned `lws_parse`, `dflt` when there is none. -/
def ah_after (r : Option (lws_parser_return_t × lws × Nat)) (dflt : AH) : AH :=
  match r with
  | some x => x.2.1.ah.getD dflt
  | none => dflt

/-- A request whose URI has a `%` followed by a byte that is no hex digit. -/
def request_bad_escape : List Nat := bytes "GET /%z"

/-- The AH left behind by `lws_parse` on `request_bad_escape`. -/
def stale_ah : AH :=
  ah_after (lws_parse lws_context wsi_fresh request_bad_escape) (created_ah fun _ => 0)

/-- A minimal well-formed request. -/
def request_2 : List Nat := bytes "GET / HTTP/1.1\r\n\r\n"

/-- A request line of `GET /` followed by 96 bytes `&`. The first `&` comes
right after the `/` and is stored as a plain byte; each of the other 95 ends a
fragment. -/
def request_many_args : List Nat := bytes "GET /" ++ List.replicate 96 38

/-- The AH left behind by `lws_parse` on `request_many_args`. -/
def ah_many_args : AH :=
  ah_after (lws_parse lws_context wsi_fresh request_many_args) (created_ah fun _ => 0)

/-! ## Runs of parser steps and header creations on one AH -/

/-- One operation on the AH of a connection: `lws_parse` consuming the byte
`c`, or the call `lws_hdr_simple_create(wsi, h, s)`. -/
inductive ah_op where
  | byte (c : Nat)
  | create (h : Nat) (s : List Nat)
deriving DecidableEq, Repr

/-- One operation: whether the caller may go on with the connection (the
parser consumed the byte and returned nothing but `LPR_OK`, the creation
returned 0) and the AH afterwards. `none` when the call does not return. -/
def ah_step (ctx : Context) (wsi : lws) (ah : AH) : ah_op → Option (Bool × AH)
  | .byte c =>
    match lws_parse_byte ctx wsi ah c with
    | .brk a => some (true, a)
    | .fail a => some (false, a)
    | .fallback a => some (false, a)
    | .forbid a => some (false, a)
    | .complete a =>
      if a.ues ≠ URIES_IDLE then some (false, a)
      else
        match a.total_length ctx.tk.WSI_TOKEN_UPGRADE with
        | none => none
        | some _ => some (true, { a with parser_state := ctx.tk.WSI_PARSING_COMPLETE })
    | .hang => none
  | .create h s => some (decide ((lws_hdr_simple_create ctx ah h s).1 = 0),
      (lws_hdr_simple_create ctx ah h s).2)

/-- A run of operations from the AH `ah`: every operation but the last must
let the caller go on. The result is the flag and the AH after the last one;
`none` when an operation follows one after which the caller may not go on, or
when a call does not return. -/
def ah_run (ctx : Context) (wsi : lws) : AH → List ah_op → Option (Bool × AH)
  | ah, [] => some (true, ah)
  | ah, op :: ops =>
    match ah_step ctx wsi ah op with
    | none => none
    | some r => if r.1 = true then ah_run ctx wsi r.2 ops else if ops = [] then some r else none

/-- Whether every `lws_hdr_simple_create` of the run is called while no header
name is being collected (`ah->unk_pos` is 0), as it is before the first byte
and between header lines. -/
def creates_between_names (ctx : Context) (wsi : lws) : AH → List ah_op → Bool
  | _, [] => true
  | ah, op :: ops =>
    (match op with
      | .byte _ => true
      | .create _ _ => decide (ah.unk_pos = 0)) &&
    (match ah_step ctx wsi ah op with
      | none => true
      | some r => creates_between_names ctx wsi r.2 ops)

/-- The bytes of `buf` as parser operations. -/
def byte_ops (buf : List Nat) : List ah_op := buf.map ah_op.byte

/-- A run in which `lws_hdr_simple_create` is called in the middle of the
header name `Host`. -/
def ops_create_in_name : List ah_op :=
  byte_ops (bytes "GET / HTTP/1.1\r\nHo") ++ [ah_op.create WSI_TOKEN_HOST (bytes "example")] ++
    byte_ops (bytes "st:")

/-- The build `lws_context` with `max_http_header_data` set to 32. -/
def small_context : Context := { lws_context with max_http_header_data := 32 }

/-- A request line that leaves `pos` at 31, the last index of a data buffer of
32 bytes. -/
def ops_fill_data : List ah_op :=
  byte_ops (bytes "GET /aaaaaaaaaaaaaaaaaaaaa")

/-! ## Invariants of the parse state -/

/-- End of a fragment in `ah->data`: `offset + len`. -/
def frag_end (f : Frag) : Nat := f.offset + f.len

/-- The `switch` of `lws_parse` takes the case `WSI_TOKEN_NAME_PART`. -/
def in_name_part (ctx : Context) (ah : AH) : Prop :=
  ¬(ctx.with_custom_headers = true ∧ ah.parser_state = ctx.tk.WSI_TOKEN_UNKNOWN_VALUE_PART) ∧
  ah.parser_state = ctx.tk.WSI_TOKEN_NAME_PART

/-- The `switch` of `lws_parse` takes the `default:` case (a known token
value). -/
def in_value_part (ctx : Context) (ah : AH) : Prop :=
  ¬(ctx.with_custom_headers = true ∧ ah.parser_state = ctx.tk.WSI_TOKEN_UNKNOWN_VALUE_PART) ∧
  ah.parser_state ≠ ctx.tk.WSI_TOKEN_NAME_PART ∧ ah.parser_state ≠ ctx.tk.WSI_TOKEN_SKIPPING ∧
  ah.parser_state ≠ ctx.tk.WSI_TOKEN_SKIPPING_SAW_CR ∧
  ah.parser_state ≠ ctx.tk.WSI_PARSING_COMPLETE

/-- The parser state that `WSI_TOKEN_NAME_PART` enters for the token found at
the terminal entry `q` of the lex table. -/
def token_state (ctx : Context) (q : Nat) : Nat :=
  (ctx.tk.WSI_TOKEN_GET_URI +
    (if ctx.with_role_ws = true ∧
        ((ctx.lextable_h1.getD q 0 * 256) ||| ctx.lextable_h1.getD (q + 1) 0) =
          ctx.tk.WSI_TOKEN_SWORIGIN then
      ctx.tk.WSI_TOKEN_ORIGIN
    else (ctx.lextable_h1.getD q 0 * 256) ||| ctx.lextable_h1.getD (q + 1) 0)) % 256

/-- One entry of the closure test of `lex_closed`: from the cursor `p` the
byte `c` never ends the walk inside its loop at a terminal entry, and a move
goes to a terminal entry whose token is not `WSI_TOKEN_NAME_PART` or to a
cursor of `S`. -/
def lex_entry_ok (ctx : Context) (S : List Nat) (p c : Nat) : Bool :=
  match lex_walk ctx.lextable_h1 c (ctx.lextable_h1.length + 1) p with
  | .nope => true
  | .terminal _ => false
  | .moved q =>
    decide (q < 32768) &&
      (if ctx.lextable_h1.getD q 0 < FAIL_CHAR then
        decide (token_state ctx q ≠ ctx.tk.WSI_TOKEN_NAME_PART)
      else decide (q ∈ S))

/-- The lex table is well formed with `S` as its set of cursors between two
bytes of a header name: `S` holds the start cursor 0 and is closed under every
byte. -/
def lex_closed (ctx : Context) (S : List Nat) : Bool :=
  decide (0 ∈ S) && S.all fun p => (List.range 256).all fun c => lex_entry_ok ctx S p c

/-- The token values that the parser assigns to `parser_state` outside the
name part differ from `WSI_TOKEN_NAME_PART`. -/
def tokens_apart (ctx : Context) : Prop :=
  ctx.tk.WSI_TOKEN_HTTP ≠ ctx.tk.WSI_TOKEN_NAME_PART ∧
  ctx.tk.WSI_TOKEN_SKIPPING ≠ ctx.tk.WSI_TOKEN_NAME_PART ∧
  ctx.tk.WSI_TOKEN_SKIPPING_SAW_CR ≠ ctx.tk.WSI_TOKEN_NAME_PART ∧
  ctx.tk.WSI_PARSING_COMPLETE ≠ ctx.tk.WSI_TOKEN_NAME_PART

instance (ctx : Context) : Decidable (tokens_apart ctx) := by
  unfold tokens_apart
  infer_instance

/-- What holds of the AH after every operation, also one that fails: `pos` is
at most `max_http_header_data + 1` and every fragment ends at or before
`pos`. -/
def weak_inv (ctx : Context) (ah : AH) : Prop :=
  ah.pos ≤ ctx.max_http_header_data + 1 ∧ ∀ i, frag_end (ah.frags i) ≤ ah.pos

/-- The fragments and `pos` while a token value is collected: besides
`weak_inv`, the bytes of the current fragment lie after the end of every other
fragment. -/
def vcore (ctx : Context) (ah : AH) : Prop :=
  weak_inv ctx ah ∧
  ∀ i, i ≠ ah.nfrag → frag_end (ah.frags i) + (ah.frags ah.nfrag).len ≤ ah.pos

/-- The invariant of the parse state between two operations. -/
def parse_inv (ctx : Context) (S : List Nat) (wsi : lws) (ah : AH) : Prop :=
  weak_inv ctx ah ∧
  (in_value_part ctx ah →
    ∀ i, i ≠ ah.nfrag → frag_end (ah.frags i) + (ah.frags ah.nfrag).len ≤ ah.pos) ∧
  ah.unk_pos ≤ ah.pos ∧
  (ah.unk_pos ≠ 0 → ∀ i, frag_end (ah.frags i) ≤ ah.unk_pos) ∧
  (in_value_part ctx ah → ah.unk_pos = 0) ∧
  (wsi.mux_substream = true → ah.unk_pos = 0) ∧
  (in_name_part ctx ah → ah.lextable_pos < 0 ∨ ah.lextable_pos.toNat ∈ S)

/-- The AH `a` comes from `ah` by appending to, or taking from, the current
fragment: the same current fragment, the same offsets, the other lengths
unchanged, `pos` moved at least as far as the length of the current fragment,
and `unk_pos`, `parser_state` and `lextable_pos` untouched. -/
structure moves (ah a : AH) : Prop where
  nfrag : a.nfrag = ah.nfrag
  offset : ∀ i, (a.frags i).offset = (ah.frags i).offset
  len : ∀ i, i ≠ ah.nfrag → (a.frags i).len = (ah.frags i).len
  slack : (a.frags ah.nfrag).len + ah.pos ≤ a.pos + (ah.frags ah.nfrag).len
  unk_pos : a.unk_pos = ah.unk_pos
  parser_state : a.parser_state = ah.parser_state
  lextable_pos : a.lextable_pos = ah.lextable_pos

/-- What a step of `lws_parse` must leave behind, by the way the `switch` is
left. -/
def step_post (ctx : Context) (S : List Nat) (wsi : lws) : parse_step → Prop
  | .brk a => parse_inv ctx S wsi a
  | .complete a => parse_inv ctx S wsi { a with parser_state := ctx.tk.WSI_PARSING_COMPLETE }
  | .fail a => weak_inv ctx a
  | .fallback a => weak_inv ctx a
  | .forbid a => weak_inv ctx a
  | .hang => True

/-- What `lws_parse_urldecode` must leave behind when it starts from `ah`. -/
def udec_post (ctx : Context) (ah : AH) (r : lws_parse_urldecode_results × AH × Nat) : Prop :=
  weak_inv ctx r.2.1 ∧
  (r.1 = LPUR_CONTINUE ∨ r.1 = LPUR_SWALLOW → vcore ctx r.2.1) ∧
  r.2.1.unk_pos = ah.unk_pos ∧ r.2.1.parser_state = ah.parser_state ∧
  r.2.1.lextable_pos = ah.lextable_pos

/-- The parse state while a token value is collected, or right after one: the
fragments are in order, no header name is pending, and a state that reads the
lex table has its cursor in `S`. -/
def vgood (ctx : Context) (S : List Nat) (a : AH) : Prop :=
  vcore ctx a ∧ a.unk_pos = 0 ∧
  (in_name_part ctx a → a.lextable_pos < 0 ∨ a.lextable_pos.toNat ∈ S)

/-- The operand of a parser operation is a byte. -/
def op_in_range : ah_op → Prop
  | .byte c => c < 256
  | .create _ _ => True

instance (op : ah_op) : Decidable (op_in_range op) := by
  cases op <;> unfold op_in_range <;> infer_instance

/-- A run with a header created between two header lines. -/
def ops_create_between : List ah_op :=
  byte_ops (bytes "GET /a/../b?x=1 HTTP/1.1\r\n") ++
    [ah_op.create WSI_TOKEN_HOST (bytes "example")] ++
    byte_ops (bytes "Accept: x\r\nX-Y: z\r\n\r\n")

/-- The result of the run `ops` from a freshly created and reset AH on an
HTTP/1 server connection; a failed flag with the AH before the run when the run
has no result. -/
def result_of_run (ctx : Context) (ops : List ah_op) : Bool × AH :=
  match ah_run ctx wsi_fresh (_lws_header_table_reset ctx (created_ah fun _ => 0)) ops with
  | some r => r
  | none => (false, _lws_header_table_reset ctx (created_ah fun _ => 0))

/-! ## Reading the stored headers -/

/-- The `do ... while (frag_idx-- && n)` loop of `lws_hdr_fragment_length`
from fragment `n` with the counter `frag_idx`; `none` when it never ends (a
negative counter on a chain that has no end). -/
def fragment_length_loop (frags : Nat → Frag) : Nat → Nat → Int → Option Int
  | 0, _, _ => none
  | fuel + 1, n, frag_idx =>
    if frag_idx = 0 then some (frags n).len
    else if (frags n).nfrag ≠ 0 then fragment_length_loop frags fuel (frags n).nfrag (frag_idx - 1)
    else some 0

/-- `lws_hdr_fragment_length`. A counter `frag_idx ≥ 0` ends the loop after at
most `frag_idx + 1` turns; a negative one walks the chain to its end, which
links of 8 bits reach within 256 turns or never. -/
def lws_hdr_fragment_length (wsi : lws) (h : Nat) (frag_idx : Int) : Option Int :=
  match wsi.ah with
  | none => some 0
  | some ah =>
    if ah.frag_index h = 0 then some 0
    else fragment_length_loop ah.frags (frag_idx.toNat + 257) (ah.frag_index h) frag_idx

/-- `memcpy(dst, src, n)` into the buffer `dst` at its start. -/
def memcpy (dst src : Nat → Nat) (n : Nat) : Nat → Nat :=
  fun j => if j < n then src j else dst j

/-- `strncpy(dst + d, src, n)` of the C library: the bytes of `src` up to its
first NUL, at most `n` of them, and NUL bytes after that up to `n` bytes in
all. -/
def strncpy (dst : Nat → Nat) (d : Nat) (src : Nat → Nat) (n : Nat) : Nat → Nat :=
  fun j =>
    if d ≤ j ∧ j < d + n then
      if (List.range (j - d)).any (fun i => src i == 0) then 0 else src (j - d)
    else dst j

/-- The loop `while (n < frag_idx)` of `lws_hdr_copy_fragment`, for the
`steps` turns it makes from fragment `f`; `none` for the `return -1`. -/
def copy_fragment_walk (frags : Nat → Frag) : Nat → Nat → Option Nat
  | 0, f => some f
  | steps + 1, f =>
    if (frags f).nfrag = 0 then none else copy_fragment_walk frags steps (frags f).nfrag

/-- `lws_hdr_copy_fragment(wsi, dst, len, h, frag_idx)`: the return value and
the buffer `dst` afterwards. -/
def lws_hdr_copy_fragment (wsi : lws) (dst : Nat → Nat) (len : Int) (h : Nat) (frag_idx : Int) :
    Int × (Nat → Nat) :=
  match wsi.ah with
  | none => (-1, dst)
  | some ah =>
    if ah.frag_index h = 0 then (-1, dst)
    else
      match copy_fragment_walk ah.frags frag_idx.toNat (ah.frag_index h) with
      | none => (-1, dst)
      | some f =>
        if len ≤ ((ah.frags f).len : Int) then (-2, dst)
        else
          ((ah.frags f).len,
            upd (memcpy dst (fun i => ah.data ((ah.frags f).offset + i)) (ah.frags f).len)
              (ah.frags f).len 0)

/-- The byte that `lws_hdr_copy` puts between two fragments of token `h`. -/
def separator (ctx : Context) (h : Nat) : Nat :=
  if h = ctx.tk.WSI_TOKEN_HTTP_COOKIE ∨ h = ctx.tk.WSI_TOKEN_HTTP_SET_COOKIE then 59
  else if h = ctx.tk.WSI_TOKEN_HTTP_URI_ARGS then 38
  else 44

/-- How the `do ... while (n)` loop of `lws_hdr_copy` ends. -/
inductive copy_loop_end where
  /-- The `return -1` of the "blowout len" test, with the buffer so far. -/
  | blowout (dst : Nat → Nat)
  /-- The loop ran to the end of the chain: the buffer and the offset that
  `dst` has reached. -/
  | done (dst : Nat → Nat) (d : Nat)

/-- The `do ... while (n)` loop of `lws_hdr_copy` from fragment `n`, with `dst`
advanced by `d` bytes and `len` bytes of room left; `none` when it never
ends. -/
def hdr_copy_loop (ctx : Context) (ah : AH) (h : Nat) :
    Nat → Nat → Nat → Int → (Nat → Nat) → Option copy_loop_end
  | 0, _, _, _, _ => none
  | fuel + 1, n, d, len, dst =>
    let comma : Nat := if (ah.frags n).nfrag ≠ 0 then 1 else 0
    if len ≤ (((ah.frags n).len + comma : Nat) : Int) then some (.blowout dst)
    else
      let dst1 := strncpy dst d (fun i => ah.data ((ah.frags n).offset + i)) (ah.frags n).len
      let d1 := d + (ah.frags n).len
      let len1 := len - (ah.frags n).len
      if comma ≠ 0 then
        hdr_copy_loop ctx ah h fuel (ah.frags n).nfrag (d1 + 1) (len1 - 1)
          (upd dst1 d1 (separator ctx h))
      else some (.done dst1 d1)

/-- `lws_hdr_copy(wsi, dst, len, h)`: the return value and the buffer `dst`
afterwards; `none` when the call does not return. -/
def lws_hdr_copy (ctx : Context) (wsi : lws) (dst : Nat → Nat) (len : Int) (h : Nat) :
    Option (Int × (Nat → Nat)) :=
  match lws_hdr_total_length wsi h with
  | none => none
  | some toklen =>
    if toklen = 0 then some (0, upd dst 0 0)
    else if len ≤ toklen then some (-1, upd dst 0 0)
    else
      match wsi.ah with
      | none => some (-1, upd dst 0 0)
      | some ah =>
        if ah.frag_index h = 0 then some (0, upd dst 0 0)
        else
          match hdr_copy_loop ctx ah h 256 (ah.frag_index h) 0 len (upd dst 0 0) with
          | none => none
          | some (.blowout b) => some (-1, b)
          | some (.done b d) => some (toklen, upd b d 0)

/-! ## The chain of a token, as the specification speaks of it -/

/-- The fragment indices reached from fragment `n` by `nfrag` links, `n`
first; `none` when no link 0 is met within the fuel. -/
def frag_chain (frags : Nat → Frag) : Nat → Nat → Option (List Nat)
  | 0, _ => none
  | fuel + 1, n =>
    if (frags n).nfrag ≠ 0 then (frag_chain frags fuel (frags n).nfrag).map fun l => n :: l
    else some [n]

/-- The index of fragment number `k` (from 0) of the chain that starts at
fragment `n`; `none` when the chain has fewer than `k + 1` fragments. -/
def nth_frag (frags : Nat → Frag) : Nat → Nat → Option Nat
  | 0, n => some n
  | k + 1, n => if (frags n).nfrag = 0 then none else nth_frag frags k (frags n).nfrag

/-- The sum of the fragment lengths of a chain plus one byte between
consecutive fragments. -/
def chain_total (frags : Nat → Frag) (l : List Nat) : Int :=
  ((l.map fun i => ((frags i).len : Int)).sum) + ((l.length : Int) - 1)

/-- An AH in which token 26 (`Cookie`) has the two fragments 1 and 2, of 2
bytes at offset 0 and of 1 byte at offset 3. -/
def ah_two_frags : AH :=
  { created_ah (fun i => 97 + i) with
    frags := fun i => if i = 1 then ⟨0, 2, 2, 0⟩ else if i = 2 then ⟨3, 1, 0, 0⟩ else Frag.zero
    frag_index := fun h => if h = 26 then 1 else 0
    nfrag := 2
    pos := 5 }

/-- A request whose query holds an encoded NUL after the `=` of its pair. -/
def request_nul_arg : List Nat := bytes "GET /?a=%00bc HTTP/1.1\r\n\r\n"

/-- The AH left by `lws_parse` on `request_nul_arg`. -/
def ah_nul_arg : AH :=
  ah_after (lws_parse lws_context wsi_fresh request_nul_arg) (created_ah fun _ => 0)

instance (ctx : Context) (ah : AH) : Decidable (in_name_part ctx ah) := by
  unfold in_name_part
  infer_instance

instance (ctx : Context) (ah : AH) : Decidable (in_value_part ctx ah) := by
  unfold in_value_part
  infer_instance

/-- The connection that `lws_parse` on `buf` leaves; `wsi` itself when the
call does not return. -/
def wsi_after (ctx : Context) (wsi : lws) (buf : List Nat) : lws :=
  match lws_parse ctx wsi buf with
  | some r => r.2.1
  | none => wsi

/-- The AH that `lws_parse` on `buf` leaves; a zeroed AH when there is
none. -/
def ah_parsed (ctx : Context) (wsi : lws) (buf : List Nat) : AH :=
  (wsi_after ctx wsi buf).ah.getD (created_ah fun _ => 0)

/-- A request whose query pair has a percent-encoded `=` after the literal
`=`. -/
def request_enc_eq_value : List Nat := bytes "GET /a%2Fb?k=%3D HTTP/1.1\r\n\r\n"

/-- A request whose query pair has a percent-encoded `=` before the literal
`=`. -/
def request_enc_eq_key : List Nat := bytes "GET /a%2Fb?k%3D=1 HTTP/1.1\r\n\r\n"

/-- A context whose per-token limit table allows 8 bytes for the GET URI,
4 bytes for the Host header and leaves every other token unlimited. -/
def limit_context : Context :=
  { lws_context with
    token_limits := some fun t =>
      if t = lws_tokens.WSI_TOKEN_GET_URI then 8 else if t = WSI_TOKEN_HOST then 4 else 0 }

/-- An HTTP/1 server connection with a reset AH under `limit_context`. -/
def wsi_limited : lws :=
  h1_server (_lws_header_table_reset limit_context (created_ah fun _ => 0))

/-- A request whose URI has exactly the 8 bytes of the GET-URI limit and whose
Host value has exactly the 4 bytes of the Host limit. -/
def request_at_limit : List Nat := bytes "GET /abcdefg HTTP/1.1\r\nHost: wxyz\r\n\r\n"

/-- A request whose URI and Host value are one byte longer than their limits. -/
def request_over_limit : List Nat :=
  bytes "GET /abcdefgh HTTP/1.1\r\nHost: wxyzv\r\nOrigin: q\r\n\r\n"

/-! ## The path of a method URI -/

/-- The byte string has no two slashes in a row and no `/./`. -/
def no_dup_slash (s : List Nat) : Prop := ¬[47, 47] <:+: s ∧ ¬[47, 46, 47] <:+: s

instance (s : List Nat) : Decidable (no_dup_slash s) := by
  unfold no_dup_slash
  infer_instance

/-- The parser is inside the path of a method URI whose fragment is `k`: `k`
is the current fragment, the `switch` of `lws_parse` takes the `default:` case
with a method token, and the query has not begun. -/
def in_path (ctx : Context) (k : Nat) (ah : AH) : Prop :=
  ah.nfrag = k ∧ in_value_part ctx ah ∧ ah.parser_state ∈ methods ctx ∧
  ah.frag_index ctx.tk.WSI_TOKEN_HTTP_URI_ARGS = 0

instance (ctx : Context) (k : Nat) (ah : AH) : Decidable (in_path ctx k ah) := by
  unfold in_path
  infer_instance

/-- The byte loop of `lws_parse` followed for as long as the parser is inside
the path of the method URI of fragment `k`: the AH when the bytes are used up,
or after the first step that leaves the path or leaves the loop. -/
def path_run (ctx : Context) (wsi : lws) (k : Nat) : List Nat → AH → AH
  | [], ah => ah
  | c :: cs, ah =>
    if in_path ctx k ah then
      match lws_parse_byte ctx wsi ah c with
      | .brk a => path_run ctx wsi k cs a
      | .fail a => a
      | .fallback a => a
      | .forbid a => a
      | .complete a => a
      | .hang => ah
    else ah

/-- The parser is about to read the first byte of a method URI: the fragment
of the method token is the current one and is empty, it starts at `pos`, the
path state is idle, and the token limit, if any, is not below the size of the
data buffer. -/
def uri_start (ctx : Context) (ah : AH) : Prop :=
  in_value_part ctx ah ∧ ah.parser_state ∈ methods ctx ∧
  ah.parser_state ≠ ctx.tk.WSI_TOKEN_CHALLENGE ∧
  ah.frag_index ah.parser_state = ah.nfrag ∧
  ah.frag_index ctx.tk.WSI_TOKEN_HTTP_URI_ARGS = 0 ∧
  (ah.frags ah.nfrag).len = 0 ∧ (ah.frags ah.nfrag).offset = ah.pos ∧
  ah.pos ≤ ctx.max_http_header_data ∧ ah.ups = URIPS_IDLE ∧
  (ah.current_token_limit = 0 ∨ ctx.max_http_header_data ≤ ah.current_token_limit)

instance (ctx : Context) (ah : AH) : Decidable (uri_start ctx ah) := by
  unfold uri_start
  infer_instance

/-- Fragment `k` of the AH holds the bytes `s`. -/
def stores (ah : AH) (k : Nat) (s : List Nat) : Prop :=
  (ah.frags k).len = s.length ∧
  ∀ i, i < s.length → ah.data ((ah.frags k).offset + i) = s.getD i 0

/-- Fragment `k` is the current fragment, holds the bytes `s` and ends at
`pos`. -/
def holds (ah : AH) (k : Nat) (s : List Nat) : Prop :=
  stores ah k s ∧ ah.nfrag = k ∧ (ah.frags k).offset + s.length = ah.pos

/-- The current fragment cut back to its first `m` bytes, `pos` at its end. -/
def AH.trim (ah : AH) (m : Nat) : AH :=
  { ah with
    pos := (ah.frags ah.nfrag).offset + m
    frags := upd ah.frags ah.nfrag { ah.frags ah.nfrag with len := m } }

/-- The fields that decide which branch a byte of a method URI path takes,
apart from the path and escape states. -/
structure path_core (ctx : Context) (k : Nat) (ah : AH) : Prop where
  value : in_value_part ctx ah
  method : ah.parser_state ∈ methods ctx
  not_challenge : ah.parser_state ≠ ctx.tk.WSI_TOKEN_CHALLENGE
  first : ah.frag_index ah.parser_state = k
  no_args : ah.frag_index ctx.tk.WSI_TOKEN_HTTP_URI_ARGS = 0
  limit : ah.current_token_limit = 0 ∨ ctx.max_http_header_data ≤ ah.current_token_limit

/-- The invariant of the parse state inside the path of a method URI that
began with a slash; `s` is the path stored so far. -/
structure path_inv (ctx : Context) (k : Nat) (s : List Nat) (ah : AH) : Prop where
  core : path_core ctx k ah
  h : holds ah k s
  head : [47] <+: s
  clean : no_dup_slash s
  idle : ah.ups = URIPS_IDLE → ¬[47] <:+ s ∧ ¬[47, 46] <:+ s
  slash : ah.ups ≠ URIPS_IDLE → [47] <:+ s ∨ 3 ≤ s.length
  bound : ah.pos ≤ ctx.max_http_header_data

/-- The state handed to `check_eol` with the byte `c` still to be issued:
after the byte the invariant of the path holds again. -/
structure path_pending (ctx : Context) (k : Nat) (s : List Nat) (ah : AH) (c : Nat) : Prop where
  core : path_core ctx k ah
  h : holds ah k s
  byte : c ≠ 0
  head : [47] <+: s ++ [c]
  clean0 : no_dup_slash s
  clean : no_dup_slash (s ++ [c])
  idle : ah.ups = URIPS_IDLE → c ≠ 47 ∧ ¬[47, 46] <:+ s ++ [c]
  slash : ah.ups ≠ URIPS_IDLE → c = 47 ∨ 2 ≤ s.length
  bound : ah.pos ≤ ctx.max_http_header_data

/-- The path of the method URI has been left: fragment `k` is no longer the
current one, holds `s` and lies before `pos`. -/
def path_left (k : Nat) (s : List Nat) (ah : AH) : Prop :=
  stores ah k s ∧ no_dup_slash s ∧ ah.nfrag ≠ k ∧ (ah.frags k).offset + s.length ≤ ah.pos

/-- What a step of `lws_parse` inside the path of a method URI leaves behind,
by the way the `switch` is left. -/
def path_post (ctx : Context) (k : Nat) : parse_step → Prop
  | .brk a => (∃ s, path_inv ctx k s a) ∨ (¬in_path ctx k a ∧ no_dup_slash (a.frag_bytes k))
  | .complete a => no_dup_slash (a.frag_bytes k)
  | .fail a => no_dup_slash (a.frag_bytes k)
  | .fallback a => no_dup_slash (a.frag_bytes k)
  | .forbid a => no_dup_slash (a.frag_bytes k)
  | .hang => True

/-- A relative URI with a `..` segment. -/
def request_relative : List Nat := bytes "GET a/../b HTTP/1.1\r\n\r\n"

/-- What `lws_parse_urldecode` leaves behind inside the path of a method URI,
by its return value. -/
def path_udec_post (ctx : Context) (k : Nat)
    (r : lws_parse_urldecode_results × AH × Nat) : Prop :=
  match r.1 with
  | LPUR_CONTINUE => ∃ s, path_pending ctx k s r.2.1 r.2.2
  | LPUR_SWALLOW => (∃ s, path_inv ctx k s r.2.1) ∨ ∃ s, path_left k s r.2.1
  | LPUR_EXCESSIVE => ∃ s, path_left k s r.2.1
  | LPUR_FORBID => ∃ s, stores r.2.1 k s ∧ no_dup_slash s
  | LPUR_MINUS_ONE => ∃ s, stores r.2.1 k s ∧ no_dup_slash s

/-- The parser is inside the path of a method URI, in the state it has after a
`/..` (`URIPS_SEEN_SLASH_DOT_DOT`, no escape open): the fragment of the method
token is the current one, is not empty and ends at `pos`, there is room for two
more bytes, the token limit, if any, is not below the size of the data buffer,
and the HTTP version token can take the next fragment. -/
def path_ends_dot_dot (ctx : Context) (ah : AH) : Prop :=
  in_path ctx ah.nfrag ah ∧ ah.parser_state ≠ ctx.tk.WSI_TOKEN_CHALLENGE ∧
  ah.frag_index ah.parser_state = ah.nfrag ∧
  (ah.current_token_limit = 0 ∨ ctx.max_http_header_data ≤ ah.current_token_limit) ∧
  (ah.frags ah.nfrag).offset + (ah.frags ah.nfrag).len = ah.pos ∧
  1 ≤ (ah.frags ah.nfrag).len ∧
  ah.ups = URIPS_SEEN_SLASH_DOT_DOT ∧ ah.ues = URIES_IDLE ∧
  ah.pos + 2 ≤ ctx.max_http_header_data ∧
  inc8 ah.nfrag ≠ ctx.frags_size ∧ ah.frag_index ctx.tk.WSI_TOKEN_HTTP = 0

instance (ctx : Context) (ah : AH) : Decidable (path_ends_dot_dot ctx ah) := by
  unfold path_ends_dot_dot
  infer_instance

/-- A request line whose URI ends in `/..`, up to the end of the URI. -/
def request_dot_dot : List Nat := bytes "GET /a/b/.."

/-! ## The custom-header side list and the cookie lookup -/

/-- Modelled from the spec: `lws_ser_ru16be` is defined outside `parsers.c`;
the spec gives the custom-header fields as big-endian. Reads the two bytes at
`p`. -/
def lws_ser_ru16be (data : Nat → Nat) (p : Nat) : Nat :=
  data p % 256 * 256 + data (p + 1) % 256

/-- Modelled from the spec: `lws_ser_ru32be` is defined outside `parsers.c`;
the spec gives the custom-header fields as big-endian. Reads the four bytes at
`p`. -/
def lws_ser_ru32be (data : Nat → Nat) (p : Nat) : Nat :=
  data p % 256 * 16777216 + data (p + 1) % 256 * 65536 + data (p + 2) % 256 * 256 +
    data (p + 3) % 256

/-- Whether `strncmp(a, b, n)` of the C library is 0: the strings agree on
their first `n` bytes, or up to and including a NUL before that. The fuel is
`n`. -/
def strncmp_eq (a b : Nat → Nat) : Nat → Nat → Bool
  | 0, _ => true
  | n + 1, i => if a i ≠ b i then false else if a i = 0 then true else strncmp_eq a b n (i + 1)

/-- Whether `memcmp(a, b, n)` of the C library is 0. -/
def memcmp_eq (a b : Nat → Nat) (n : Nat) : Bool :=
  (List.range n).all fun i => a i == b i

/-- The test of the `while (ll)` loops of `lws_hdr_custom_length` and
`lws_hdr_custom_copy` on the entry at `ll`: the name length field equals
`nlen` and `strncmp` finds the name. The length field is never negative, so
`strncmp` is only reached with `nlen` at least 0, where `(unsigned int)nlen` is
`nlen`. -/
def custom_entry_matches (ah : AH) (ll : Nat) (name : List Nat) (nlen : Int) : Bool :=
  decide (nlen = (lws_ser_ru16be ah.data (ll + 0) : Int)) &&
    strncmp_eq (fun i => name.getD i 0) (fun i => ah.data (ll + 8 + i)) nlen.toNat 0

/-- The `while (ll)` walk of `lws_hdr_custom_length` and `lws_hdr_custom_copy`
from the entry `ll`: the matching entry, `some none` for the `return -1`
exits, `none` when the walk never ends. `data_length` is `ah->data_length`,
the size of `data` that `_lws_create_ah` records. -/
def custom_find (ah : AH) (data_length : Nat) (name : List Nat) (nlen : Int) :
    Nat → Nat → Option (Option Nat)
  | 0, _ => none
  | fuel + 1, ll =>
    if ll = 0 then some none
    else if data_length ≤ ll then some none
    else if custom_entry_matches ah ll name nlen then some (some ll)
    else custom_find ah data_length name nlen fuel (lws_ser_ru32be ah.data (ll + 4))

/-- `lws_hdr_custom_length(wsi, name, nlen)`; `none` when the call does not
return. A walk that does not end within `data_length + 1` entries has come back
to an entry and never ends. -/
def lws_hdr_custom_length (wsi : lws) (data_length : Nat) (name : List Nat) (nlen : Int) :
    Option Int :=
  match wsi.ah with
  | none => some (-1)
  | some ah =>
    if wsi.mux_substream = true then some (-1)
    else
      match custom_find ah data_length name nlen (data_length + 1) ah.unk_ll_head with
      | none => none
      | some none => some (-1)
      | some (some ll) => some (lws_ser_ru16be ah.data (ll + 2))

/-- `lws_hdr_custom_copy(wsi, dst, len, name, nlen)`: the return value and the
buffer `dst` afterwards; `none` when the call does not return. -/
def lws_hdr_custom_copy (wsi : lws) (data_length : Nat) (dst : Nat → Nat) (len : Int)
    (name : List Nat) (nlen : Int) : Option (Int × (Nat → Nat)) :=
  match wsi.ah with
  | none => some (-1, dst)
  | some ah =>
    if wsi.mux_substream = true then some (-1, dst)
    else
      match custom_find ah data_length name nlen (data_length + 1) ah.unk_ll_head with
      | none => none
      | some none => some (-1, upd dst 0 0)
      | some (some ll) =>
        let n := lws_ser_ru16be ah.data (ll + 2)
        if len < (n : Int) + 1 then some (-1, upd dst 0 0)
        else
          some (n, upd (strncpy (upd dst 0 0) 0 (fun i => ah.data (ll + 8 + nlen.toNat + i)) n)
            n 0)

/-- The inner loop `while (*p != ';' && n-- && max)` of `lws_http_cookie_get`
with the copy `*buf++ = *p++`: the buffer, the bytes copied `b` and `max`
afterwards. The fuel is `n`, which the loop counts down. -/
def cookie_value_loop (data : Nat → Nat) :
    Nat → Nat → Int → Nat → (Nat → Nat) → Nat → (Nat → Nat) × Nat × Nat
  | 0, _, _, max, buf, b => (buf, b, max)
  | fuel + 1, p, n, max, buf, b =>
    if data p ≠ 59 ∧ n ≠ 0 ∧ max ≠ 0 then
      cookie_value_loop data fuel (p + 1) (n - 1) (max - 1) (upd buf b (data p)) (b + 1)
    else (buf, b, max)

/-- The outer loop `while (n-- > 0)` of the HTTP/1 branch of
`lws_http_cookie_get`: the return value, the buffer and `*max_len`. -/
def cookie_scan (data : Nat → Nat) (name : List Nat) (buf : Nat → Nat) (max : Nat) :
    Nat → Nat → Int → Int × (Nat → Nat) × Nat
  | 0, _, _ => (1, buf, max)
  | fuel + 1, p, n =>
    if 0 < n then
      if data p = 61 ∧
          memcmp_eq (fun i => data (p - name.length + i)) (fun i => name.getD i 0) name.length then
        let r := cookie_value_loop data (n - 1).toNat (p + 1) (n - 1) max buf 0
        if r.2.2 = 0 then (2, r.1, max)
        else (0, upd r.1 r.2.1 0, r.2.1)
      else cookie_scan data name buf max fuel (p + 1) (n - 1)
    else (1, buf, max)

/-- The loop `while (f)` of the HTTP/2 branch of `lws_http_cookie_get`; `none`
when it never ends. `max - 1` is computed in `size_t`, taken as 64 bits. -/
def cookie_scan_h2 (ah : AH) (name : List Nat) (buf : Nat → Nat) (max : Nat) :
    Nat → Nat → Option (Int × (Nat → Nat) × Nat)
  | 0, _ => none
  | fuel + 1, f =>
    if f = 0 then some (-1, buf, max)
    else
      let p := (ah.frags f).offset
      let fl := (ah.frags f).len
      if name.length + 1 ≤ fl ∧ ah.data (p + name.length) = 61 ∧
          memcmp_eq (fun i => ah.data (p + i)) (fun i => name.getD i 0) name.length then
        let fl1 := fl - (name.length + 1)
        let fl2 := if (max + 18446744073709551615) % 18446744073709551616 < fl1 then
          (max + 18446744073709551615) % 18446744073709551616 else fl1
        let buf1 := if fl2 ≠ 0 then memcpy buf (fun i => ah.data (p + name.length + 1 + i)) fl2
          else buf
        some (0, upd buf1 fl2 0, fl2)
      else cookie_scan_h2 ah name buf max fuel (ah.frags f).nfrag

/-- `lws_http_cookie_get(wsi, name, buf, max_len)` for a connection that holds
an AH, with `name` the bytes of the C string before its NUL: the return value,
the buffer and `*max_len` afterwards; `none` when the call does not return. -/
def lws_http_cookie_get (ctx : Context) (wsi : lws) (name : List Nat) (buf : Nat → Nat)
    (max_len : Nat) : Option (Int × (Nat → Nat) × Nat) :=
  match lws_hdr_total_length wsi ctx.tk.WSI_TOKEN_HTTP_COOKIE with
  | none => none
  | some n =>
    if n.toNat % 4294967296 < name.length + 1 then some (1, buf, max_len)
    else
      match (if ctx.with_role_h2 = true then
          lws_hdr_total_length wsi ctx.tk.WSI_TOKEN_HTTP_COLON_METHOD else some 0) with
      | none => none
      | some m =>
        if m ≠ 0 then
          match wsi.ah with
          | none => none
          | some ah =>
            cookie_scan_h2 ah name buf max_len 257 (ah.frag_index ctx.tk.WSI_TOKEN_HTTP_COOKIE)
        else
          match wsi.ah, lws_hdr_simple_ptr wsi ctx.tk.WSI_TOKEN_HTTP_COOKIE with
          | some ah, some p =>
            some (cookie_scan ah.data name buf max_len (n - name.length).toNat
              (p + name.length) (n - name.length))
          | _, _ => some (1, buf, max_len)

/-- A request with a header whose name, `Hos`, is the beginning of the known
name `Host`, followed by a `Host` header. -/
def request_short_name : List Nat := bytes "GET / HTTP/1.1\r\nHos: v\r\nHost: h\r\n\r\n"

/-- A request with a header whose name no known name begins with. -/
def request_custom : List Nat := bytes "GET / HTTP/1.1\r\nX-Foo: bar\r\nHost: h\r\n\r\n"

/-- A request whose path holds an unencoded `&`. -/
def request_amp_in_path : List Nat := bytes "GET /a&b HTTP/1.1\r\n\r\n"

/-- A request whose query value holds a percent-encoded NUL. -/
def request_nul_value : List Nat := bytes "GET /?k=%00a HTTP/1.1\r\n\r\n"

/-- A request whose Cookie header has a pair named `xid` and a pair named
`id`. -/
def request_cookies : List Nat := bytes "GET / HTTP/1.1\r\nCookie: xid=1; id=2\r\n\r\n"

/-- A request whose Cookie header has no pair named `id`. -/
def request_cookie_xid : List Nat := bytes "GET / HTTP/1.1\r\nCookie: xid=1\r\n\r\n"

/-- As many `lws_hdr_simple_create` calls as the fragment table of
`lws_context` has entries. -/
def ops_fill_frags : List ah_op :=
  List.replicate 96 (ah_op.create WSI_TOKEN_HOST (bytes "x"))

/-- The value of an ASCII hexadecimal digit, either case. -/
def hex_value (c : Nat) : Option Nat :=
  if 48 ≤ c ∧ c ≤ 57 then some (c - 48)
  else if 97 ≤ c ∧ c ≤ 102 then some (c - 87)
  else if 65 ≤ c ∧ c ≤ 70 then some (c - 55)
  else none

/-- The bytes up to the colon of a first `Host` header. -/
def prefix_host : List Nat := bytes "GET / HTTP/1.1\r\nHost:"

/-- A request whose `Host` value follows two spaces. -/
def request_two_spaces : List Nat := bytes "GET / HTTP/1.1\r\nHost:  v\r\n\r\n"

/-- A request with the `Host` header given twice. -/
def request_host_twice : List Nat := bytes "GET / HTTP/1.1\r\nHost: a\r\nHost: b\r\n\r\n"

/-- A request whose path has a percent-encoded `?` right after `/..`. -/
def request_enc_question : List Nat := bytes "GET /a/..%3Fx HTTP/1.1\r\n\r\n"

/-- A request whose path and query hold percent-encoded `&`, `;` and `?`. -/
def request_enc_delims : List Nat := bytes "GET /a%26b%3Bc%3Fd?x%26y=1 HTTP/1.1\r\n\r\n"

/-! ## Stores into `data` and the limit `max_http_header_data` -/

/-- The AH `a` comes from `ah` by steps that leave every byte of `data` from
index `max_http_header_data` on as it was, leave `unk_ll_tail` alone and leave
`unk_pos` alone or clear it. -/
structure keeps (ctx : Context) (ah a : AH) : Prop where
  data : ∀ j, ctx.max_http_header_data ≤ j → a.data j = ah.data j
  unk_pos : a.unk_pos = ah.unk_pos ∨ a.unk_pos = 0
  unk_ll_tail : a.unk_ll_tail = ah.unk_ll_tail

/-- The path `s` has a `..` path segment in the sense of the specification: it
contains `/../` or ends with `/..`. -/
def dot_dot_segment (s : List Nat) : Prop := bytes "/../" <:+: s ∨ bytes "/.." <:+ s

instance (s : List Nat) : Decidable (dot_dot_segment s) := by
  unfold dot_dot_segment
  infer_instance

/-- A request line without a version whose URI ends in `/..` right before the
CR. -/
def request_dot_dot_cr : List Nat := bytes "GET /a/..\r\n\r\n"

/-- The same request line ended by a bare LF. -/
def request_dot_dot_lf : List Nat := bytes "GET /a/..\n\r\n"

/-- The same request line with the two dots percent-encoded. -/
def request_enc_dot_dot_cr : List Nat := bytes "GET /a/%2e%2E\r\n\r\n"

/-- The same URI ended by a space and the HTTP version. -/
def request_dot_dot_space : List Nat := bytes "GET /a/.. HTTP/1.1\r\n\r\n"

end Lws

/-! # Theorems -/

namespace Lws

/-! ## C1: the first end-to-end scenario -/

/-- C1. From a freshly created and reset AH (its data buffer zero-filled, or
filled with slashes) on an HTTP/1 server connection, `lws_parse` on
`GET /a/b/../c?x=1&y=2 HTTP/1.1 CRLF Host: h CRLF CRLF` returns `LPR_OK` with
every byte consumed, `hdr_parsing_completed` set and the parser state
`WSI_PARSING_COMPLETE`; the GET-URI token then has the one fragment `/a/c`,
the query-args token the fragments `x=1` and `y=2` in that order, the HTTP
version token the fragment `HTTP/1.1` and the Host token the fragment `h`. -/
theorem C1_get_request_parsed :
    (scenario_1 0).map (view_of [lws_tokens.WSI_TOKEN_GET_URI,
        lws_tokens.WSI_TOKEN_HTTP_URI_ARGS, lws_tokens.WSI_TOKEN_HTTP, WSI_TOKEN_HOST]) =
      some ⟨LPR_OK, 0, true, some lws_tokens.WSI_PARSING_COMPLETE,
        [some [bytes "/a/c"], some [bytes "x=1", bytes "y=2"], some [bytes "HTTP/1.1"],
          some [bytes "h"]]⟩ ∧
    (scenario_1 47).map (view_of [lws_tokens.WSI_TOKEN_GET_URI,
        lws_tokens.WSI_TOKEN_HTTP_URI_ARGS, lws_tokens.WSI_TOKEN_HTTP, WSI_TOKEN_HOST]) =
      some ⟨LPR_OK, 0, true, some lws_tokens.WSI_PARSING_COMPLETE,
        [some [bytes "/a/c"], some [bytes "x=1", bytes "y=2"], some [bytes "HTTP/1.1"],
          some [bytes "h"]]⟩ := by
  decide!

/-! ## C2: attach on a full pool -/

theorem count_le_one_of_mem {l : List Nat} {w : Nat} (h : l.count w ≤ 1) (hm : w ∈ l) :
    l.count w = 1 := by
  have := List.count_pos_iff.mpr hm
  omega

/-- C2. When `ah_count_in_use` equals `max_http_header_pool` and the HTTP
connection `w` owns no AH, `lws_header_table_attach` returns 1 (BUSY, which is
not the OK value 0), leaves `w` without AH, leaves `ah_count_in_use`, the AH
list and every connection's AH pointer unchanged, and leaves `w` on the wait
list exactly once, the other waiters as they were; a further attach of `w`
returns 1 again and changes nothing. -/
theorem C2_attach_busy_when_pool_full (ctx : Context) (e : env) (s : pt_state) (w : Nat)
    (autoservice : Bool)
    (hhttp : (s.wsi w).role_http = true) (hmqtt : (s.wsi w).role_mqtt = false)
    (hah : (s.wsi w).ah = none)
    (hfull : s.ah_count_in_use = (ctx.max_http_header_pool : Int))
    (hwl : s.ah_wait_list.count w ≤ 1) :
    ∃ s1, lws_header_table_attach ctx e s w autoservice = some (1, s1) ∧ (1 : Int) ≠ 0 ∧
      (s1.wsi w).ah = none ∧ s1.ah_count_in_use = s.ah_count_in_use ∧
      s1.ah_list = s.ah_list ∧ s1.ah_pool_length = s.ah_pool_length ∧
      (∀ v, (s1.wsi v).ah = (s.wsi v).ah) ∧
      s1.ah_wait_list.count w = 1 ∧
      (∀ v, v ≠ w → s1.ah_wait_list.count v = s.ah_wait_list.count v) ∧
      ∀ e2 au2, lws_header_table_attach ctx e2 s1 w au2 = some (1, s1) := by
  by_cases hm : w ∈ s.ah_wait_list
  · refine ⟨s, ?_, by decide, hah, rfl, rfl, rfl, fun _ => rfl, count_le_one_of_mem hwl hm,
      fun _ _ => rfl, ?_⟩
    · simp [lws_header_table_attach, attach_refused, hhttp, hmqtt, hah, hfull,
        _lws_header_ensure_we_are_on_waiting_list, hm]
    · intro e2 au2
      simp [lws_header_table_attach, attach_refused, hhttp, hmqtt, hah, hfull,
        _lws_header_ensure_we_are_on_waiting_list, hm]
  · have hc : s.ah_wait_list.count w = 0 := List.count_eq_zero.mpr hm
    refine ⟨_lws_header_ensure_we_are_on_waiting_list s w, ?_, by decide, ?_, ?_, ?_, ?_, ?_, ?_,
      ?_, ?_⟩
    · simp [lws_header_table_attach, attach_refused, hhttp, hmqtt, hah, hfull]
    all_goals
      simp only [_lws_header_ensure_we_are_on_waiting_list, hm, if_false, _lws_change_pollfd]
    · split <;> simp [upd, hah]
    · split <;> simp [hfull]
    · split <;> simp
    · split <;> simp
    · intro v
      split
      · by_cases hv : v = w <;> simp [upd, hv, hah]
      · rfl
    · split <;> simp [hc]
    · intro v hv
      split <;> simp [List.count_cons, Ne.symm hv]
    · intro e2 au2
      have hw1 : ((_lws_header_ensure_we_are_on_waiting_list s w).wsi w).role_http = true := by
        simp only [_lws_header_ensure_we_are_on_waiting_list, hm, if_false, _lws_change_pollfd]
        split <;> simp [upd, hhttp]
      have hw2 : ((_lws_header_ensure_we_are_on_waiting_list s w).wsi w).role_mqtt = false := by
        simp only [_lws_header_ensure_we_are_on_waiting_list, hm, if_false, _lws_change_pollfd]
        split <;> simp [upd, hmqtt]
      have hw3 : ((_lws_header_ensure_we_are_on_waiting_list s w).wsi w).ah = none := by
        simp only [_lws_header_ensure_we_are_on_waiting_list, hm, if_false, _lws_change_pollfd]
        split <;> simp [upd, hah]
      have hw4 : (_lws_header_ensure_we_are_on_waiting_list s w).ah_count_in_use =
          (ctx.max_http_header_pool : Int) := by
        simp only [_lws_header_ensure_we_are_on_waiting_list, hm, if_false, _lws_change_pollfd]
        split <;> simp [hfull]
      have hw5 : w ∈ (_lws_header_ensure_we_are_on_waiting_list s w).ah_wait_list := by
        simp only [_lws_header_ensure_we_are_on_waiting_list, hm, if_false, _lws_change_pollfd]
        split <;> simp
      have := hw5
      simp only [_lws_header_ensure_we_are_on_waiting_list, hm, if_false, _lws_change_pollfd] at *
      simp [lws_header_table_attach, attach_refused, hw1, hw2, hw3, hw4,
        _lws_header_ensure_we_are_on_waiting_list, hw5]

/-- Witness of C2 on `pt_full`: the connection 7 is refused and parked. -/
theorem C2_attach_busy_witness :
    ∃ s1, lws_header_table_attach lws_context env_ok pt_full 7 false = some (1, s1) ∧
      (1 : Int) ≠ 0 ∧
      (s1.wsi 7).ah = none ∧ s1.ah_count_in_use = pt_full.ah_count_in_use ∧
      s1.ah_list = pt_full.ah_list ∧ s1.ah_pool_length = pt_full.ah_pool_length ∧
      (∀ v, (s1.wsi v).ah = (pt_full.wsi v).ah) ∧
      s1.ah_wait_list.count 7 = 1 ∧
      (∀ v, v ≠ 7 → s1.ah_wait_list.count v = pt_full.ah_wait_list.count v) ∧
      ∀ e2 au2, lws_header_table_attach lws_context e2 s1 7 au2 = some (1, s1) :=
  C2_attach_busy_when_pool_full lws_context env_ok pt_full 7 false (by decide) (by decide)
    (by decide) (by decide) (by decide)

/-! ## Lemmas on the AH list -/

theorem mem_modify_ah {a : Nat} {f : ah_node → ah_node} {l : List ah_node} {x : ah_node} :
    x ∈ modify_ah a f l ↔ ∃ n ∈ l, (if n.addr = a then f n else n) = x := by
  simp [modify_ah]

theorem map_addr_modify_ah {a : Nat} {f : ah_node → ah_node} (l : List ah_node)
    (hf : ∀ n, (f n).addr = n.addr) :
    (modify_ah a f l).map ah_node.addr = l.map ah_node.addr := by
  induction l with
  | nil => rfl
  | cons n l ih =>
    simp only [modify_ah, List.map_cons, List.map_map] at ih ⊢
    by_cases h : n.addr = a <;> simp [h, hf, ih]

theorem length_modify_ah {a : Nat} {f : ah_node → ah_node} (l : List ah_node) :
    (modify_ah a f l).length = l.length := by
  simp [modify_ah]

theorem find_ah_some {a : Nat} {l : List ah_node} {n : ah_node} (h : find_ah a l = some n) :
    n ∈ l ∧ n.addr = a := by
  unfold find_ah at h
  exact ⟨List.mem_of_find?_eq_some h, by simpa using List.find?_some h⟩

theorem find_ah_isSome {a : Nat} {l : List ah_node} {n : ah_node} (hm : n ∈ l)
    (ha : n.addr = a) : ∃ m, find_ah a l = some m := by
  unfold find_ah
  cases h : l.find? fun n => n.addr = a with
  | some m => exact ⟨m, rfl⟩
  | none =>
    rw [List.find?_eq_none] at h
    exact absurd (by simpa using ha) (h n hm)

theorem addr_inj {l : List ah_node} (hnd : (l.map ah_node.addr).Nodup) {n m : ah_node}
    (hn : n ∈ l) (hm : m ∈ l) (h : n.addr = m.addr) : n = m :=
  List.inj_on_of_nodup_map hnd hn hm h

theorem unlink_ah_spec {a : Nat} {l : List ah_node} (hnd : (l.map ah_node.addr).Nodup)
    (hex : ∃ n ∈ l, n.addr = a) :
    ∃ l1, unlink_ah a l = some l1 ∧ l1.length + 1 = l.length ∧
      (∀ x, x ∈ l1 ↔ x ∈ l ∧ x.addr ≠ a) ∧ (l1.map ah_node.addr).Nodup := by
  induction l with
  | nil => simp at hex
  | cons n l ih =>
    simp only [List.map_cons, List.nodup_cons, List.mem_map, not_exists, not_and] at hnd
    by_cases h : n.addr = a
    · refine ⟨l, by simp [unlink_ah, h], rfl, ?_, hnd.2⟩
      intro x
      constructor
      · intro hx
        refine ⟨List.mem_cons_of_mem _ hx, ?_⟩
        intro hxa
        exact hnd.1 x hx (by rw [hxa, h])
      · rintro ⟨hx, hxa⟩
        rcases List.mem_cons.mp hx with rfl | hx
        · exact absurd h hxa
        · exact hx
    · obtain ⟨m, hm, hma⟩ := hex
      have hml : m ∈ l := by
        rcases List.mem_cons.mp hm with rfl | hm
        · exact absurd hma h
        · exact hm
      obtain ⟨l1, h1, h2, h3, h4⟩ := ih hnd.2 ⟨m, hml, hma⟩
      refine ⟨n :: l1, by simp [unlink_ah, h, h1], by simp [h2], ?_, ?_⟩
      · intro x
        simp only [List.mem_cons, h3]
        constructor
        · rintro (rfl | ⟨hx, hxa⟩)
          · exact ⟨Or.inl rfl, h⟩
          · exact ⟨Or.inr hx, hxa⟩
        · rintro ⟨rfl | hx, hxa⟩
          · exact Or.inl rfl
          · exact Or.inr ⟨hx, hxa⟩
      · simp only [List.map_cons, List.nodup_cons, List.mem_map, not_exists, not_and]
        exact ⟨fun x hx => hnd.1 x ((h3 x).mp hx).1, h4⟩

/-! ## Frame lemmas of the pool -/

theorem nodup_length_le {l : List Nat} {N : Nat} (hnd : l.Nodup) (hlt : ∀ x ∈ l, x < N) :
    l.length ≤ N := by
  have hsub : l ⊆ List.range N := fun x hx => List.mem_range.mpr (hlt x hx)
  have := (List.subperm_of_subset hnd hsub).length_le
  simpa using this

/-- The part of a node the pool invariant looks at. -/
theorem core_mem {l l1 : List ah_node}
    (h : l1.map (fun n => (n.addr, n.wsi, n.in_use)) = l.map (fun n => (n.addr, n.wsi, n.in_use)))
    {n : ah_node} (hn : n ∈ l1) :
    ∃ m ∈ l, m.addr = n.addr ∧ m.wsi = n.wsi ∧ m.in_use = n.in_use := by
  have : (n.addr, n.wsi, n.in_use) ∈ l1.map (fun n => (n.addr, n.wsi, n.in_use)) :=
    List.mem_map_of_mem _ hn
  rw [h] at this
  obtain ⟨m, hm, he⟩ := List.mem_map.mp this
  simp only [Prod.mk.injEq] at he
  exact ⟨m, hm, he.1, he.2.1, he.2.2⟩

theorem core_map_addr {l l1 : List ah_node}
    (h : l1.map (fun n => (n.addr, n.wsi, n.in_use)) = l.map (fun n => (n.addr, n.wsi, n.in_use))) :
    l1.map ah_node.addr = l.map ah_node.addr := by
  have := congrArg (List.map Prod.fst) h
  simpa [List.map_map, Function.comp_def] using this

theorem pool_inv_frame {ctx : Context} {wsi0 : Nat → conn} {N : Nat} {s s1 : pt_state}
    (h : pool_inv ctx wsi0 N s)
    (hl : s1.ah_list.map (fun n => (n.addr, n.wsi, n.in_use)) =
      s.ah_list.map (fun n => (n.addr, n.wsi, n.in_use)))
    (hc : s1.ah_count_in_use = s.ah_count_in_use) (hp : s1.ah_pool_length = s.ah_pool_length)
    (hw : s1.ah_wait_list = s.ah_wait_list)
    (hwl : s1.ah_wait_list_length = s.ah_wait_list_length)
    (hn : s1.next_addr = s.next_addr)
    (hwsi : ∀ v, (s1.wsi v).ah = (s.wsi v).ah ∧ (s1.wsi v).role_http = (s.wsi v).role_http ∧
      (s1.wsi v).role_mqtt = (s.wsi v).role_mqtt) :
    pool_inv ctx wsi0 N s1 := by
  obtain ⟨h1, h2, h3, h4, h5, h6, h7, h8, h9, h10, h11⟩ := h
  have hlen : s1.ah_list.length = s.ah_list.length := by
    simpa using congrArg List.length hl
  refine ⟨?_, ?_, ?_, ?_, ?_, ?_, ?_, ?_, ?_, ?_, ?_⟩
  · intro n hn1
    obtain ⟨m, hm, ha, hw1, hi⟩ := core_mem hl hn1
    obtain ⟨hin, w, hw2, hw3⟩ := h1 m hm
    exact ⟨hi ▸ hin, w, hw1 ▸ hw2, by rw [(hwsi w).1, hw3, ha]⟩
  · rw [core_map_addr hl]; exact h2
  · intro w a hwa
    rw [(hwsi w).1] at hwa
    obtain ⟨n, hn1, ha, hw1⟩ := h3 w a hwa
    obtain ⟨m, hm, ha2, hw2, _⟩ := core_mem hl.symm hn1
    exact ⟨m, hm, ha2.trans ha, hw2.trans hw1⟩
  · intro n hn1
    obtain ⟨m, hm, ha, _, _⟩ := core_mem hl hn1
    rw [hn, ← ha]; exact h4 m hm
  · rw [hc, hlen]; exact h5
  · rw [hp, hlen]; exact h6
  · rw [hlen]; exact h7
  · rw [hw]; exact h8
  · intro w hw1
    rw [hw] at hw1
    rw [(hwsi w).1]; exact h9 w hw1
  · rw [hwl, hw]; exact h10
  · intro w
    rw [(hwsi w).2.1, (hwsi w).2.2]; exact h11 w

theorem pool_inv_change_pollfd {ctx : Context} {wsi0 : Nat → conn} {N : Nat} {s : pt_state}
    (h : pool_inv ctx wsi0 N s) (w : Nat) (b : Bool) :
    pool_inv ctx wsi0 N (_lws_change_pollfd s w b) := by
  apply pool_inv_frame h <;> unfold _lws_change_pollfd <;> split <;> try rfl
  · intro v
    by_cases hv : v = w <;> simp [upd, hv]
  · exact fun _ => ⟨rfl, rfl, rfl⟩

theorem pool_inv_peer_count_inc {ctx : Context} {wsi0 : Nat → conn} {N : Nat} {s : pt_state}
    (h : pool_inv ctx wsi0 N s) (p : Option Nat) :
    pool_inv ctx wsi0 N (peer_count_inc s p) := by
  cases p with
  | none => exact h
  | some p => exact pool_inv_frame h rfl rfl rfl rfl rfl rfl (fun _ => ⟨rfl, rfl, rfl⟩)

theorem pool_inv_ensure {ctx : Context} {wsi0 : Nat → conn} {N : Nat} {s : pt_state}
    (hN : N ≤ 4294967295) (h : pool_inv ctx wsi0 N s) {w : Nat} (hah : (s.wsi w).ah = none)
    (hw : w < N) : pool_inv ctx wsi0 N (_lws_header_ensure_we_are_on_waiting_list s w) := by
  unfold _lws_header_ensure_we_are_on_waiting_list
  split
  · exact h
  · rename_i hm
    apply pool_inv_change_pollfd
    obtain ⟨h1, h2, h3, h4, h5, h6, h7, h8, h9, h10, h11⟩ := h
    have hnd : (w :: s.ah_wait_list).Nodup := List.nodup_cons.mpr ⟨hm, h8⟩
    have hlt : ∀ x ∈ w :: s.ah_wait_list, x < N := by
      intro x hx
      rcases List.mem_cons.mp hx with rfl | hx
      · exact hw
      · exact (h9 x hx).2
    have hlen := nodup_length_le hnd hlt
    refine ⟨h1, h2, h3, h4, h5, h6, h7, hnd, ?_, ?_, h11⟩
    · intro x hx
      rcases List.mem_cons.mp hx with rfl | hx
      · exact ⟨hah, hw⟩
      · exact h9 x hx
    · simp only [List.length_cons] at hlen ⊢
      simp only [inc32, h10]
      omega

theorem pool_inv_remove {ctx : Context} {wsi0 : Nat → conn} {N : Nat} {s : pt_state}
    (hN : N ≤ 4294967295) (h : pool_inv ctx wsi0 N s) (w : Nat) :
    pool_inv ctx wsi0 N (__lws_remove_from_ah_waiting_list s w).2 := by
  unfold __lws_remove_from_ah_waiting_list
  split
  · rename_i hm
    obtain ⟨h1, h2, h3, h4, h5, h6, h7, h8, h9, h10, h11⟩ := h
    refine ⟨h1, h2, h3, h4, h5, h6, h7, h8.erase w, ?_, ?_, h11⟩
    · intro x hx
      exact h9 x (List.mem_of_mem_erase hx)
    · have hpos : 0 < s.ah_wait_list.length := List.length_pos_of_mem hm
      have hN2 := nodup_length_le h8 (fun x hx => (h9 x hx).2)
      simp only [dec32, h10, List.length_erase_of_mem hm]
      omega
  · exact h

theorem remove_frame (s : pt_state) (w : Nat) :
    (__lws_remove_from_ah_waiting_list s w).2.ah_list = s.ah_list ∧
    (__lws_remove_from_ah_waiting_list s w).2.ah_count_in_use = s.ah_count_in_use ∧
    (__lws_remove_from_ah_waiting_list s w).2.ah_pool_length = s.ah_pool_length ∧
    (__lws_remove_from_ah_waiting_list s w).2.wsi = s.wsi ∧
    (__lws_remove_from_ah_waiting_list s w).2.count_ah = s.count_ah ∧
    (__lws_remove_from_ah_waiting_list s w).2.next_addr = s.next_addr ∧
    (__lws_remove_from_ah_waiting_list s w).2.ah_wait_list = s.ah_wait_list.erase w := by
  unfold __lws_remove_from_ah_waiting_list
  split
  · simp
  · rename_i hm
    simp [List.erase_of_not_mem hm]

theorem map_core_modify_ah {a : Nat} {f : ah_node → ah_node} (l : List ah_node)
    (hf : ∀ n, (f n).addr = n.addr ∧ (f n).wsi = n.wsi ∧ (f n).in_use = n.in_use) :
    (modify_ah a f l).map (fun n => (n.addr, n.wsi, n.in_use)) =
      l.map (fun n => (n.addr, n.wsi, n.in_use)) := by
  induction l with
  | nil => rfl
  | cons n l ih =>
    simp only [modify_ah, List.map_cons, List.map_map] at ih ⊢
    by_cases h : n.addr = a <;> simp [h, hf, ih]

theorem modify_ah_of_not_mem {a : Nat} {f : ah_node → ah_node} {l : List ah_node}
    (h : ∀ n ∈ l, n.addr ≠ a) : modify_ah a f l = l := by
  induction l with
  | nil => rfl
  | cons n l ih =>
    have h1 := h n (List.mem_cons_self _ _)
    have h2 := ih fun m hm => h m (List.mem_cons_of_mem _ hm)
    simp only [modify_ah, List.map_cons] at h2 ⊢
    simp [h1, h2]

/-- `__lws_header_table_reset` returns when the connection owns a listed AH
that names it as owner; it resets that AH and touches nothing the pool
invariant looks at. -/
theorem reset_eq_some (ctx : Context) (e : env) {s : pt_state} {w a : Nat} {n : ah_node}
    (au : Bool) (hah : (s.wsi w).ah = some a) (hfind : find_ah a s.ah_list = some n)
    (hown : n.wsi = some w) :
    ∃ s1, __lws_header_table_reset ctx e s w au = some s1 ∧
      s1.ah_list = modify_ah a
        (fun n => { n with hdr := _lws_header_table_reset ctx n.hdr, assigned := e.now })
        s.ah_list ∧
      s1.ah_count_in_use = s.ah_count_in_use ∧ s1.ah_pool_length = s.ah_pool_length ∧
      s1.ah_wait_list = s.ah_wait_list ∧ s1.ah_wait_list_length = s.ah_wait_list_length ∧
      s1.next_addr = s.next_addr ∧ s1.count_ah = s.count_ah ∧
      ∀ v, (s1.wsi v).ah = (s.wsi v).ah ∧ (s1.wsi v).role_http = (s.wsi v).role_http ∧
        (s1.wsi v).role_mqtt = (s.wsi v).role_mqtt ∧ (s1.wsi v).peer = (s.wsi v).peer ∧
        (s1.wsi v).has_fds_pos = (s.wsi v).has_fds_pos ∧
        (s1.wsi v).role_client = (s.wsi v).role_client ∧
        (s1.wsi v).unconnected = (s.wsi v).unconnected := by
  unfold __lws_header_table_reset
  simp only [hah, hfind, hown, ne_eq, not_true_eq_false, if_false]
  split
  · refine ⟨_, rfl, rfl, rfl, rfl, rfl, rfl, rfl, rfl, ?_⟩
    intro v
    by_cases hv : v = w <;> simp [upd, hv, hah]
  · refine ⟨_, rfl, rfl, rfl, rfl, rfl, rfl, rfl, rfl, ?_⟩
    intro v
    by_cases hv : v = w <;> simp [upd, hv, hah]

theorem pool_inv_reset {ctx : Context} {wsi0 : Nat → conn} {N : Nat} {s : pt_state}
    (h : pool_inv ctx wsi0 N s) (e : env) {w a : Nat} (au : Bool)
    (hah : (s.wsi w).ah = some a) :
    ∃ s1, __lws_header_table_reset ctx e s w au = some s1 ∧ pool_inv ctx wsi0 N s1 ∧
      s1.ah_wait_list = s.ah_wait_list ∧ s1.ah_count_in_use = s.ah_count_in_use ∧
      s1.ah_pool_length = s.ah_pool_length ∧
      s1.ah_list.map (fun n => (n.addr, n.wsi, n.in_use)) =
        s.ah_list.map (fun n => (n.addr, n.wsi, n.in_use)) ∧
      ∀ v, (s1.wsi v).ah = (s.wsi v).ah := by
  obtain ⟨n, hn, hna, hnw⟩ := h.2.2.1 w a hah
  obtain ⟨m, hm⟩ := find_ah_isSome hn hna
  have hmn : m = n := addr_inj h.2.1 (find_ah_some hm).1 hn ((find_ah_some hm).2.trans hna.symm)
  obtain ⟨s1, h1, h2, h3, h4, h5, h6, h7, h8, h9⟩ :=
    reset_eq_some ctx e au hah hm (hmn ▸ hnw)
  have hcore : s1.ah_list.map (fun n => (n.addr, n.wsi, n.in_use)) =
      s.ah_list.map (fun n => (n.addr, n.wsi, n.in_use)) := by
    rw [h2]; exact map_core_modify_ah _ (fun _ => ⟨rfl, rfl, rfl⟩)
  exact ⟨s1, h1, pool_inv_frame h hcore h3 h4 h5 h6 h7
    (fun v => ⟨(h9 v).1, (h9 v).2.1, (h9 v).2.2.1⟩), h5, h3, h4, hcore, fun v => (h9 v).1⟩

/-! ## The pool invariant is kept by attach -/

theorem pool_inv_bind_new {ctx : Context} {wsi0 : Nat → conn} {N : Nat} {s : pt_state}
    (hmax : ctx.max_http_header_pool < 4294967296) (h : pool_inv ctx wsi0 N s) {w : Nat}
    (hah : (s.wsi w).ah = none) (hw : w ∉ s.ah_wait_list)
    (hroom : s.ah_count_in_use ≠ (ctx.max_http_header_pool : Int)) (node : ah_node)
    (hna : node.addr = s.next_addr) (hnw : node.wsi = some w) (hni : node.in_use = true) :
    pool_inv ctx wsi0 N
      { s with
        ah_list := node :: s.ah_list
        ah_pool_length := inc32 s.ah_pool_length
        next_addr := s.next_addr + 1
        wsi := upd s.wsi w { s.wsi w with ah := some s.next_addr }
        ah_count_in_use := s.ah_count_in_use + 1 } := by
  obtain ⟨h1, h2, h3, h4, h5, h6, h7, h8, h9, h10, h11⟩ := h
  have hlt : s.ah_list.length < ctx.max_http_header_pool := by
    rw [h5] at hroom
    have : s.ah_list.length ≠ ctx.max_http_header_pool := fun hc => hroom (by rw [hc])
    omega
  refine ⟨?_, ?_, ?_, ?_, ?_, ?_, ?_, h8, ?_, h10, ?_⟩
  · intro n hn
    rcases List.mem_cons.mp hn with rfl | hn
    · exact ⟨hni, w, hnw, by simp [upd, hna]⟩
    · obtain ⟨hin, u, hu1, hu2⟩ := h1 n hn
      refine ⟨hin, u, hu1, ?_⟩
      have huw : u ≠ w := by
        rintro rfl
        rw [hah] at hu2
        exact absurd hu2 (by simp)
      simp [upd, huw, hu2]
  · simp only [List.map_cons, List.nodup_cons, List.mem_map, not_exists, not_and]
    refine ⟨fun n hn hc => ?_, h2⟩
    have := h4 n hn
    omega
  · intro u a hua
    by_cases huw : u = w
    · subst huw
      simp only [upd, if_true] at hua
      refine ⟨node, List.mem_cons_self _ _, ?_, hnw⟩
      rw [hna]
      exact Option.some.inj hua
    · simp only [upd, huw, if_false] at hua
      obtain ⟨n, hn, hna2, hnw2⟩ := h3 u a hua
      exact ⟨n, List.mem_cons_of_mem _ hn, hna2, hnw2⟩
  · intro n hn
    rcases List.mem_cons.mp hn with rfl | hn
    · simp only [hna]; omega
    · have := h4 n hn
      simp only
      omega
  · simp only [List.length_cons, h5]
    push_cast
    ring
  · simp only [List.length_cons, inc32, h6]
    omega
  · simp only [List.length_cons]
    omega
  · intro u hu
    have huw : u ≠ w := fun hc => hw (hc ▸ hu)
    simp only [upd, huw, if_false]
    exact h9 u hu
  · intro u
    by_cases huw : u = w
    · subst huw
      simpa [upd] using h11 u
    · simpa [upd, huw] using h11 u

theorem attach_connect_snd (ctx : Context) (e : env) (s : pt_state) (w : Nat) :
    (attach_connect ctx e s w).2 = s := by
  unfold attach_connect
  split <;> rfl

theorem pool_inv_attach_bind {ctx : Context} {wsi0 : Nat → conn} {N : Nat} {s : pt_state}
    (hmax : ctx.max_http_header_pool < 4294967296) (h : pool_inv ctx wsi0 N s) (e : env) {w : Nat}
    (hah : (s.wsi w).ah = none) (hw : w ∉ s.ah_wait_list)
    (hroom : s.ah_count_in_use ≠ (ctx.max_http_header_pool : Int)) :
    pool_inv ctx wsi0 N (attach_bind ctx e s w) ∧
      ((attach_bind ctx e s w).wsi w).ah = some s.next_addr ∧
      (attach_bind ctx e s w).ah_wait_list = s.ah_wait_list ∧
      (∀ v, v ≠ w → ((attach_bind ctx e s w).wsi v).ah = (s.wsi v).ah) := by
  have hfresh : ∀ n ∈ s.ah_list, n.addr ≠ s.next_addr := by
    intro n hn hc
    have := h.2.2.2.1 n hn
    omega
  have hbind := pool_inv_bind_new hmax h hah hw hroom
    { addr := s.next_addr, wsi := some w, in_use := true, assigned := 0,
      hdr := created_ah e.fresh_data } rfl rfl rfl
  have hm := modify_ah_of_not_mem (f := fun n => { n with in_use := true, wsi := some w }) hfresh
  unfold attach_bind
  simp only [_lws_create_ah, modify_ah, List.map_cons, if_true] at hm ⊢
  rw [hm]
  refine ⟨?_, ?_, ?_, ?_⟩
  · apply pool_inv_change_pollfd
    split
    · exact pool_inv_peer_count_inc hbind _
    · exact hbind
  · unfold _lws_change_pollfd
    split <;> split <;> (try cases hp : (s.wsi w).peer) <;> simp [upd, peer_count_inc, *]
  · unfold _lws_change_pollfd
    split <;> split <;> (try cases hp : (s.wsi w).peer) <;> simp [upd, peer_count_inc, *]
  · intro v hv
    unfold _lws_change_pollfd
    split <;> split <;> (try cases hp : (s.wsi w).peer) <;> simp [upd, peer_count_inc, *]

/-- `lws_header_table_attach` on a connection the thread serves returns and
keeps the pool invariant. -/
theorem attach_keeps_inv {ctx : Context} {wsi0 : Nat → conn} {N : Nat} {s : pt_state}
    (hN : N ≤ 4294967295) (hmax : ctx.max_http_header_pool < 4294967296)
    (h : pool_inv ctx wsi0 N s) (e : env) {w : Nat} (au : Bool)
    (hop : op_ok ctx wsi0 N (.attach w au e)) :
    ∃ r, lws_header_table_attach ctx e s w au = some r ∧ pool_inv ctx wsi0 N r.2 := by
  obtain ⟨hwN, hrole⟩ := hop
  unfold lws_header_table_attach
  split
  · exact ⟨_, rfl, by rw [attach_connect_snd]; exact h⟩
  · rename_i hmq
    have hhttp : (s.wsi w).role_http = true := by
      rcases hrole with hr | ⟨h1, h2, h3⟩
      · rw [(h.2.2.2.2.2.2.2.2.2.2 w).1]; exact hr
      · exact absurd ⟨h1, h2, by rw [(h.2.2.2.2.2.2.2.2.2.2 w).2]; exact h3⟩ hmq
    simp only [hhttp, Bool.true_eq_false, if_false]
    split
    · rename_i hah
      obtain ⟨a, ha⟩ := Option.ne_none_iff_exists'.mp hah
      obtain ⟨s1, hs1, hinv, -⟩ := pool_inv_reset h e au ha
      exact ⟨_, by rw [hs1]; rfl, by simp only [attach_connect_snd]; exact hinv⟩
    · rename_i hah
      have hah : (s.wsi w).ah = none := by simpa using hah
      split
      · exact ⟨_, rfl, pool_inv_ensure hN h hah hwN⟩
      · rename_i hadm
        have hinv0 := pool_inv_remove hN h w
        obtain ⟨f1, f2, f3, f4, f5, f6, f7⟩ := remove_frame s w
        have hah0 : ((__lws_remove_from_ah_waiting_list s w).2.wsi w).ah = none := by
          rw [f4]; exact hah
        split
        · exact ⟨_, rfl, pool_inv_ensure hN hinv0 hah0 hwN⟩
        · have hroom : (__lws_remove_from_ah_waiting_list s w).2.ah_count_in_use ≠
              (ctx.max_http_header_pool : Int) := by
            rw [f2]; exact fun hc => hadm (Or.inl hc)
          have hnot : w ∉ (__lws_remove_from_ah_waiting_list s w).2.ah_wait_list := by
            rw [f7]; exact fun hc => (List.Nodup.mem_erase_iff h.2.2.2.2.2.2.2.1).mp hc |>.1 rfl
          obtain ⟨hb1, hb2, -⟩ := pool_inv_attach_bind hmax hinv0 e hah0 hnot hroom
          obtain ⟨s5, hs5, hinv5, -⟩ := pool_inv_reset hb1 e au hb2
          exact ⟨_, by rw [hs5]; rfl, by simp only [attach_connect_snd]; exact hinv5⟩

/-! ## The pool invariant is kept by detach -/

theorem modify_ah_comp {a : Nat} {f g : ah_node → ah_node} (l : List ah_node)
    (hg : ∀ n, (g n).addr = n.addr) :
    modify_ah a f (modify_ah a g l) = modify_ah a (fun n => f (g n)) l := by
  induction l with
  | nil => rfl
  | cons n l ih =>
    simp only [modify_ah, List.map_cons, List.map_map] at ih ⊢
    by_cases h : n.addr = a <;> simp [h, hg, ih]

theorem reverse_erase_reverse {l : List Nat} (hnd : l.Nodup) (v : Nat) :
    (l.reverse.erase v).reverse = l.erase v := by
  rw [List.Nodup.erase_eq_filter (List.nodup_reverse.mpr hnd), List.Nodup.erase_eq_filter hnd,
    List.filter_reverse, List.reverse_reverse]

theorem pool_inv_transfer {ctx : Context} {wsi0 : Nat → conn} {N : Nat} {s s6 : pt_state}
    (hN : N ≤ 4294967295) (h : pool_inv ctx wsi0 N s) {w v a : Nat}
    (hah : (s.wsi w).ah = some a) (hv : v ∈ s.ah_wait_list) (G : ah_node → ah_node)
    (hG : ∀ n, (G n).addr = n.addr ∧ (G n).in_use = n.in_use ∧ (G n).wsi = some v)
    (hl : s6.ah_list = modify_ah a G s.ah_list)
    (hc : s6.ah_count_in_use = s.ah_count_in_use) (hp : s6.ah_pool_length = s.ah_pool_length)
    (hn : s6.next_addr = s.next_addr) (hw : s6.ah_wait_list = s.ah_wait_list.erase v)
    (hwl : s6.ah_wait_list_length = dec32 s.ah_wait_list_length)
    (hwsi : ∀ u, (s6.wsi u).ah = (if u = v then some a else if u = w then none else (s.wsi u).ah) ∧
      (s6.wsi u).role_http = (s.wsi u).role_http ∧ (s6.wsi u).role_mqtt = (s.wsi u).role_mqtt) :
    pool_inv ctx wsi0 N s6 := by
  obtain ⟨h1, h2, h3, h4, h5, h6, h7, h8, h9, h10, h11⟩ := h
  have hvw : v ≠ w := by
    rintro rfl
    rw [(h9 v hv).1] at hah
    exact absurd hah (by simp)
  have hlen : s6.ah_list.length = s.ah_list.length := by rw [hl, length_modify_ah]
  obtain ⟨na, hna, hnaa, hnaw⟩ := h3 w a hah
  refine ⟨?_, ?_, ?_, ?_, ?_, ?_, ?_, ?_, ?_, ?_, ?_⟩
  · intro n hn1
    rw [hl] at hn1
    obtain ⟨m, hm, hmn⟩ := mem_modify_ah.mp hn1
    obtain ⟨hin, u, hu1, hu2⟩ := h1 m hm
    by_cases hma : m.addr = a
    · rw [if_pos hma] at hmn
      subst hmn
      refine ⟨by rw [(hG m).2.1]; exact hin, v, (hG m).2.2, ?_⟩
      rw [(hwsi v).1, if_pos rfl, (hG m).1, hma]
    · rw [if_neg hma] at hmn
      subst hmn
      refine ⟨hin, u, hu1, ?_⟩
      have huv : u ≠ v := by
        rintro rfl
        rw [(h9 u hv).1] at hu2
        exact absurd hu2 (by simp)
      have huw : u ≠ w := by
        rintro rfl
        rw [hah] at hu2
        exact hma (Option.some.inj hu2).symm
      rw [(hwsi u).1, if_neg huv, if_neg huw, hu2]
  · rw [hl, map_addr_modify_ah _ (fun n => (hG n).1)]; exact h2
  · intro u b hub
    rw [(hwsi u).1] at hub
    by_cases huv : u = v
    · subst huv
      rw [if_pos rfl] at hub
      refine ⟨G na, ?_, ?_, (hG na).2.2⟩
      · rw [hl]; exact mem_modify_ah.mpr ⟨na, hna, by rw [if_pos hnaa]⟩
      · rw [(hG na).1, hnaa]; exact Option.some.inj hub
    · rw [if_neg huv] at hub
      by_cases huw : u = w
      · rw [if_pos huw] at hub
        exact absurd hub (by simp)
      · rw [if_neg huw] at hub
        obtain ⟨n, hn1, hnb, hnu⟩ := h3 u b hub
        have hba : n.addr ≠ a := by
          intro hc
          have := addr_inj h2 hn1 hna (hc.trans hnaa.symm)
          rw [this, hnaw] at hnu
          exact huw (Option.some.inj hnu).symm
        exact ⟨n, by rw [hl]; exact mem_modify_ah.mpr ⟨n, hn1, by rw [if_neg hba]⟩, hnb, hnu⟩
  · intro n hn1
    rw [hl] at hn1
    obtain ⟨m, hm, hmn⟩ := mem_modify_ah.mp hn1
    have hma : n.addr = m.addr := by
      by_cases hc : m.addr = a
      · rw [if_pos hc] at hmn; rw [← hmn, (hG m).1]
      · rw [if_neg hc] at hmn; rw [← hmn]
    rw [hn, hma]; exact h4 m hm
  · rw [hc, hlen]; exact h5
  · rw [hp, hlen]; exact h6
  · rw [hlen]; exact h7
  · rw [hw]; exact h8.erase v
  · intro u hu
    rw [hw] at hu
    have hu2 := List.mem_of_mem_erase hu
    have huv : u ≠ v := fun hc => ((List.Nodup.mem_erase_iff h8).mp hu).1 hc
    have huw : u ≠ w := by
      rintro rfl
      rw [(h9 u hu2).1] at hah
      exact absurd hah (by simp)
    rw [(hwsi u).1, if_neg huv, if_neg huw]
    exact h9 u hu2
  · have hpos : 0 < s.ah_wait_list.length := List.length_pos_of_mem hv
    have hN2 := nodup_length_le h8 (fun x hx => (h9 x hx).2)
    rw [hwl, hw, h10, List.length_erase_of_mem hv]
    simp only [dec32]
    omega
  · intro u
    rw [(hwsi u).2.1, (hwsi u).2.2]; exact h11 u

theorem pool_inv_destroy {ctx : Context} {wsi0 : Nat → conn} {N : Nat} {s s6 : pt_state}
    (hmax : ctx.max_http_header_pool < 4294967296) (h : pool_inv ctx wsi0 N s) {w a : Nat}
    (hah : (s.wsi w).ah = some a) (l1 : List ah_node)
    (hl1 : ∀ x, x ∈ l1 ↔ x ∈ s.ah_list ∧ x.addr ≠ a) (hlen : l1.length + 1 = s.ah_list.length)
    (hnd : (l1.map ah_node.addr).Nodup)
    (hl : s6.ah_list = l1)
    (hc : s6.ah_count_in_use = s.ah_count_in_use - 1)
    (hp : s6.ah_pool_length = dec32 s.ah_pool_length)
    (hn : s6.next_addr = s.next_addr) (hw : s6.ah_wait_list = s.ah_wait_list)
    (hwl : s6.ah_wait_list_length = s.ah_wait_list_length)
    (hwsi : ∀ u, (s6.wsi u).ah = (if u = w then none else (s.wsi u).ah) ∧
      (s6.wsi u).role_http = (s.wsi u).role_http ∧ (s6.wsi u).role_mqtt = (s.wsi u).role_mqtt) :
    pool_inv ctx wsi0 N s6 := by
  obtain ⟨h1, h2, h3, h4, h5, h6, h7, h8, h9, h10, h11⟩ := h
  obtain ⟨na, hna, hnaa, hnaw⟩ := h3 w a hah
  refine ⟨?_, ?_, ?_, ?_, ?_, ?_, ?_, ?_, ?_, ?_, ?_⟩
  · intro n hn1
    rw [hl] at hn1
    obtain ⟨hn2, hna2⟩ := (hl1 n).mp hn1
    obtain ⟨hin, u, hu1, hu2⟩ := h1 n hn2
    refine ⟨hin, u, hu1, ?_⟩
    have huw : u ≠ w := by
      rintro rfl
      rw [hah] at hu2
      exact hna2 (Option.some.inj hu2).symm
    rw [(hwsi u).1, if_neg huw, hu2]
  · rw [hl]; exact hnd
  · intro u b hub
    rw [(hwsi u).1] at hub
    by_cases huw : u = w
    · rw [if_pos huw] at hub
      exact absurd hub (by simp)
    · rw [if_neg huw] at hub
      obtain ⟨n, hn1, hnb, hnu⟩ := h3 u b hub
      have hba : n.addr ≠ a := by
        intro hc
        have := addr_inj h2 hn1 hna (hc.trans hnaa.symm)
        rw [this, hnaw] at hnu
        exact huw (Option.some.inj hnu).symm
      exact ⟨n, by rw [hl]; exact (hl1 n).mpr ⟨hn1, hba⟩, hnb, hnu⟩
  · intro n hn1
    rw [hl] at hn1
    rw [hn]; exact h4 n ((hl1 n).mp hn1).1
  · rw [hc, hl, h5, ← hlen]
    push_cast
    ring
  · rw [hp, hl, h6, ← hlen]
    simp only [dec32]
    omega
  · rw [hl]; omega
  · rw [hw]; exact h8
  · intro u hu
    rw [hw] at hu
    have huw : u ≠ w := by
      rintro rfl
      rw [(h9 u hu).1] at hah
      exact absurd hah (by simp)
    rw [(hwsi u).1, if_neg huw]
    exact h9 u hu
  · rw [hwl, hw]; exact h10
  · intro u
    rw [(hwsi u).2.1, (hwsi u).2.2]; exact h11 u

theorem last_eligible_none {ctx : Context} {s : pt_state} {l : List Nat}
    (h : last_eligible ctx s l = none) : ∀ u ∈ l, ¬ eligible ctx s u := by
  induction l with
  | nil => simp
  | cons x l ih =>
    unfold last_eligible at h
    cases hl : last_eligible ctx s l with
    | some u => rw [hl] at h; simp at h
    | none =>
      rw [hl] at h
      simp only at h
      intro u hu
      rcases List.mem_cons.mp hu with rfl | hu
      · intro he
        unfold eligible at he
        rw [if_pos he] at h
        simp at h
      · exact ih hl u hu

theorem last_eligible_some {ctx : Context} {s : pt_state} {l : List Nat} {v : Nat}
    (h : last_eligible ctx s l = some v) :
    eligible ctx s v ∧ ∃ pre post, l = pre ++ v :: post ∧ ∀ u ∈ post, ¬ eligible ctx s u := by
  induction l with
  | nil => simp [last_eligible] at h
  | cons x l ih =>
    unfold last_eligible at h
    cases hl : last_eligible ctx s l with
    | some u =>
      rw [hl] at h
      simp only [Option.some.injEq] at h
      subst h
      obtain ⟨he, pre, post, hpp, hpost⟩ := ih hl
      exact ⟨he, x :: pre, post, by rw [hpp]; rfl, hpost⟩
    | none =>
      rw [hl] at h
      simp only at h
      split at h
      · rename_i he
        simp only [Option.some.injEq] at h
        subst h
        exact ⟨he, [], l, rfl, last_eligible_none hl⟩
      · simp at h

theorem track_fields (s : pt_state) (p : Option Nat) :
    (lws_peer_track_ah_detach s p).ah_list = s.ah_list ∧
    (lws_peer_track_ah_detach s p).ah_count_in_use = s.ah_count_in_use ∧
    (lws_peer_track_ah_detach s p).ah_pool_length = s.ah_pool_length ∧
    (lws_peer_track_ah_detach s p).ah_wait_list = s.ah_wait_list ∧
    (lws_peer_track_ah_detach s p).ah_wait_list_length = s.ah_wait_list_length ∧
    (lws_peer_track_ah_detach s p).next_addr = s.next_addr ∧
    (lws_peer_track_ah_detach s p).wsi = s.wsi := by
  cases p <;> simp [lws_peer_track_ah_detach]

theorem peer_inc_fields (s : pt_state) (p : Option Nat) :
    (peer_count_inc s p).ah_list = s.ah_list ∧
    (peer_count_inc s p).ah_count_in_use = s.ah_count_in_use ∧
    (peer_count_inc s p).ah_pool_length = s.ah_pool_length ∧
    (peer_count_inc s p).ah_wait_list = s.ah_wait_list ∧
    (peer_count_inc s p).ah_wait_list_length = s.ah_wait_list_length ∧
    (peer_count_inc s p).next_addr = s.next_addr ∧
    (peer_count_inc s p).wsi = s.wsi := by
  cases p <;> simp [peer_count_inc]

theorem pollfd_fields (s : pt_state) (v : Nat) (b : Bool) :
    (_lws_change_pollfd s v b).ah_list = s.ah_list ∧
    (_lws_change_pollfd s v b).ah_count_in_use = s.ah_count_in_use ∧
    (_lws_change_pollfd s v b).ah_pool_length = s.ah_pool_length ∧
    (_lws_change_pollfd s v b).ah_wait_list = s.ah_wait_list ∧
    (_lws_change_pollfd s v b).ah_wait_list_length = s.ah_wait_list_length ∧
    (_lws_change_pollfd s v b).next_addr = s.next_addr ∧
    (_lws_change_pollfd s v b).count_ah = s.count_ah ∧
    ∀ u, ((_lws_change_pollfd s v b).wsi u).ah = (s.wsi u).ah ∧
      ((_lws_change_pollfd s v b).wsi u).role_http = (s.wsi u).role_http ∧
      ((_lws_change_pollfd s v b).wsi u).role_mqtt = (s.wsi u).role_mqtt ∧
      ((_lws_change_pollfd s v b).wsi u).peer = (s.wsi u).peer ∧
      ((_lws_change_pollfd s v b).wsi u).has_fds_pos = (s.wsi u).has_fds_pos ∧
      ((_lws_change_pollfd s v b).wsi u).role_client = (s.wsi u).role_client ∧
      ((_lws_change_pollfd s v b).wsi u).unconnected = (s.wsi u).unconnected := by
  unfold _lws_change_pollfd
  split
  · refine ⟨rfl, rfl, rfl, rfl, rfl, rfl, rfl, fun u => ?_⟩
    by_cases hu : u = v <;> simp [upd, hu]
  · exact ⟨rfl, rfl, rfl, rfl, rfl, rfl, rfl, fun u => ⟨rfl, rfl, rfl, rfl, rfl, rfl, rfl⟩⟩

theorem detach_unbind_fields (ctx : Context) (s : pt_state) (w a : Nat) (b : Bool) :
    (detach_unbind ctx s w a b).ah_list =
      modify_ah a (fun n => { n with wsi := none, assigned := 0 }) s.ah_list ∧
    (detach_unbind ctx s w a b).ah_count_in_use = s.ah_count_in_use ∧
    (detach_unbind ctx s w a b).ah_pool_length = s.ah_pool_length ∧
    (detach_unbind ctx s w a b).ah_wait_list = s.ah_wait_list ∧
    (detach_unbind ctx s w a b).ah_wait_list_length = s.ah_wait_list_length ∧
    (detach_unbind ctx s w a b).next_addr = s.next_addr ∧
    ∀ u, ((detach_unbind ctx s w a b).wsi u).ah = (if u = w then none else (s.wsi u).ah) ∧
      ((detach_unbind ctx s w a b).wsi u).role_http = (s.wsi u).role_http ∧
      ((detach_unbind ctx s w a b).wsi u).role_mqtt = (s.wsi u).role_mqtt ∧
      ((detach_unbind ctx s w a b).wsi u).peer = (s.wsi u).peer := by
  unfold detach_unbind
  have hu : ∀ u, ((upd s.wsi w { s.wsi w with ah := none }) u).ah =
        (if u = w then none else (s.wsi u).ah) ∧
      ((upd s.wsi w { s.wsi w with ah := none }) u).role_http = (s.wsi u).role_http ∧
      ((upd s.wsi w { s.wsi w with ah := none }) u).role_mqtt = (s.wsi u).role_mqtt ∧
      ((upd s.wsi w { s.wsi w with ah := none }) u).peer = (s.wsi u).peer := by
    intro u
    by_cases h : u = w <;> simp [upd, h]
  split
  · refine ⟨congrArg _ (track_fields _ _).1, (track_fields _ _).2.1, (track_fields _ _).2.2.1,
      (track_fields _ _).2.2.2.1, (track_fields _ _).2.2.2.2.1, (track_fields _ _).2.2.2.2.2.1,
      fun u => ?_⟩
    simp only []
    rw [(track_fields _ _).2.2.2.2.2.2]
    exact hu u
  · exact ⟨rfl, rfl, rfl, rfl, rfl, rfl, hu⟩

theorem detach_unpark_fields (ctx : Context) (s : pt_state) (v : Nat) :
    (detach_unpark ctx s v).ah_list = s.ah_list ∧
    (detach_unpark ctx s v).ah_count_in_use = s.ah_count_in_use ∧
    (detach_unpark ctx s v).ah_pool_length = s.ah_pool_length ∧
    (detach_unpark ctx s v).ah_wait_list = (s.ah_wait_list.reverse.erase v).reverse ∧
    (detach_unpark ctx s v).ah_wait_list_length = dec32 s.ah_wait_list_length ∧
    (detach_unpark ctx s v).next_addr = s.next_addr ∧
    ∀ u, ((detach_unpark ctx s v).wsi u).ah = (s.wsi u).ah ∧
      ((detach_unpark ctx s v).wsi u).role_http = (s.wsi u).role_http ∧
      ((detach_unpark ctx s v).wsi u).role_mqtt = (s.wsi u).role_mqtt := by
  unfold detach_unpark
  have h4 : ∀ t : pt_state, (if ctx.with_peer_limits = true then peer_count_inc t (t.wsi v).peer
      else t).ah_list = t.ah_list ∧
      (if ctx.with_peer_limits = true then peer_count_inc t (t.wsi v).peer
      else t).ah_count_in_use = t.ah_count_in_use ∧
      (if ctx.with_peer_limits = true then peer_count_inc t (t.wsi v).peer
      else t).ah_pool_length = t.ah_pool_length ∧
      (if ctx.with_peer_limits = true then peer_count_inc t (t.wsi v).peer
      else t).ah_wait_list = t.ah_wait_list ∧
      (if ctx.with_peer_limits = true then peer_count_inc t (t.wsi v).peer
      else t).ah_wait_list_length = t.ah_wait_list_length ∧
      (if ctx.with_peer_limits = true then peer_count_inc t (t.wsi v).peer
      else t).next_addr = t.next_addr ∧
      (if ctx.with_peer_limits = true then peer_count_inc t (t.wsi v).peer
      else t).wsi = t.wsi := by
    intro t
    split
    · exact peer_inc_fields t _
    · exact ⟨rfl, rfl, rfl, rfl, rfl, rfl, rfl⟩
  obtain ⟨g1, g2, g3, g4, g5, g6, g7⟩ := h4 s
  generalize (if ctx.with_peer_limits = true then peer_count_inc s (s.wsi v).peer else s) = t
    at g1 g2 g3 g4 g5 g6 g7 ⊢
  simp only []
  split
  · obtain ⟨p1, p2, p3, p4, p5, p6, -, p8⟩ := pollfd_fields t v true
    refine ⟨p1.trans g1, p2.trans g2, p3.trans g3, by rw [p4, g4], by rw [p5, g5],
      p6.trans g6, fun u => ?_⟩
    rw [(p8 u).1, (p8 u).2.1, (p8 u).2.2.1, g7]
    exact ⟨rfl, rfl, rfl⟩
  · exact ⟨g1, g2, g3, by rw [g4], by rw [g5], g6, fun u => by rw [g7]; exact ⟨rfl, rfl, rfl⟩⟩

theorem find_ah_modify {a : Nat} {f : ah_node → ah_node} {l : List ah_node} {n : ah_node}
    (hf : ∀ n, (f n).addr = n.addr) (h : find_ah a l = some n) :
    find_ah a (modify_ah a f l) = some (f n) := by
  induction l with
  | nil => simp [find_ah] at h
  | cons m l ih =>
    unfold find_ah modify_ah at *
    by_cases hm : m.addr = a
    · simp only [List.find?_cons, hm, decide_True, Option.some.injEq] at h
      subst h
      simp [List.find?_cons, hm, hf]
    · simp only [List.find?_cons, hm, decide_False] at h
      simp [List.find?_cons, hm, ih h]

theorem remove_of_not_mem {s : pt_state} {w : Nat} (h : w ∉ s.ah_wait_list) :
    __lws_remove_from_ah_waiting_list s w = (0, s) := by
  simp [__lws_remove_from_ah_waiting_list, h]

theorem bound_not_waiting {ctx : Context} {wsi0 : Nat → conn} {N : Nat} {s : pt_state}
    (h : pool_inv ctx wsi0 N s) {w a : Nat} (hah : (s.wsi w).ah = some a) :
    w ∉ s.ah_wait_list := by
  intro hc
  rw [(h.2.2.2.2.2.2.2.2.1 w hc).1] at hah
  exact absurd hah (by simp)

theorem bound_node {ctx : Context} {wsi0 : Nat → conn} {N : Nat} {s : pt_state}
    (h : pool_inv ctx wsi0 N s) {w a : Nat} (hah : (s.wsi w).ah = some a) :
    ∃ n, find_ah a s.ah_list = some n ∧ n ∈ s.ah_list ∧ n.addr = a ∧ n.wsi = some w ∧
      n.in_use = true ∧ 0 < s.ah_count_in_use := by
  obtain ⟨n, hn, hna, hnw⟩ := h.2.2.1 w a hah
  obtain ⟨m, hm⟩ := find_ah_isSome hn hna
  have hmn : m = n := addr_inj h.2.1 (find_ah_some hm).1 hn ((find_ah_some hm).2.trans hna.symm)
  subst hmn
  refine ⟨m, hm, hn, hna, hnw, (h.1 m hn).1, ?_⟩
  rw [h.2.2.2.2.1]
  have := List.length_pos_of_mem hn
  omega

/-- Detach of a connection without AH only takes it off the wait list. -/
theorem detach_unbound (ctx : Context) (e : env) {s : pt_state} {w : Nat} (au : Bool)
    (hah : (s.wsi w).ah = none) :
    __lws_header_table_detach ctx e s w au =
      some (0, (__lws_remove_from_ah_waiting_list s w).2) := by
  simp [__lws_header_table_detach, hah]

/-- Detach of a bound connection when the scan finds nobody: the AH is
destroyed and the count goes down by one. -/
theorem detach_destroys {ctx : Context} {wsi0 : Nat → conn} {N : Nat} {s : pt_state}
    (hmax : ctx.max_http_header_pool < 4294967296) (h : pool_inv ctx wsi0 N s) (e : env)
    {w a : Nat} (au : Bool) (hah : (s.wsi w).ah = some a)
    (hscan : last_eligible ctx (detach_unbind ctx s w a true) s.ah_wait_list = none) :
    ∃ s6, __lws_header_table_detach ctx e s w au = some (0, s6) ∧ pool_inv ctx wsi0 N s6 ∧
      s6.ah_count_in_use = s.ah_count_in_use - 1 ∧
      s6.ah_list.length + 1 = s.ah_list.length ∧ (∀ n ∈ s6.ah_list, n.addr ≠ a) ∧
      s6.ah_wait_list = s.ah_wait_list ∧
      ∀ u, (s6.wsi u).ah = (if u = w then none else (s.wsi u).ah) := by
  obtain ⟨n, hfind, hn, hna, hnw, hin, hpos⟩ := bound_node h hah
  have hrem := remove_of_not_mem (bound_not_waiting h hah)
  obtain ⟨u1, u2, u3, u4, u5, u6, u7⟩ := detach_unbind_fields ctx s w a true
  have hnd : ((detach_unbind ctx s w a true).ah_list.map ah_node.addr).Nodup := by
    rw [u1, map_addr_modify_ah (f := fun n => { n with wsi := none, assigned := 0 }) _
      (fun _ => rfl)]
    exact h.2.1
  have hex : ∃ m ∈ (detach_unbind ctx s w a true).ah_list, m.addr = a := by
    rw [u1]
    exact ⟨{ n with wsi := none, assigned := 0 }, mem_modify_ah.mpr ⟨n, hn, by rw [if_pos hna]⟩,
      hna⟩
  obtain ⟨l1, hl1, hlen, hmem, hnd1⟩ := unlink_ah_spec hnd hex
  have hmem2 : ∀ x, x ∈ l1 ↔ x ∈ s.ah_list ∧ x.addr ≠ a := by
    intro x
    rw [hmem, u1]
    constructor
    · rintro ⟨hx, hxa⟩
      obtain ⟨m, hm, hmx⟩ := mem_modify_ah.mp hx
      by_cases hma : m.addr = a
      · rw [if_pos hma] at hmx
        exact absurd (by rw [← hmx]; exact hma) hxa
      · rw [if_neg hma] at hmx
        exact ⟨hmx ▸ hm, hxa⟩
    · rintro ⟨hx, hxa⟩
      exact ⟨mem_modify_ah.mpr ⟨x, hx, by rw [if_neg hxa]⟩, hxa⟩
  have hres : __lws_header_table_detach ctx e s w au =
      some (nobody_usable_waiting (detach_unbind ctx s w a true) a) := by
    unfold __lws_header_table_detach
    simp only [hah, hrem, hfind, hpos, hin, hnw, Option.isSome_some, u4, hscan]
    simp
  have hlen2 : l1.length + 1 = s.ah_list.length := by
    rw [hlen, u1, length_modify_ah]
  refine ⟨(nobody_usable_waiting (detach_unbind ctx s w a true) a).2, hres, ?_, ?_, ?_, ?_, ?_, ?_⟩
  · apply pool_inv_destroy hmax h hah l1 hmem2 hlen2 hnd1
    · simp [nobody_usable_waiting, _lws_destroy_ah, hl1]
    · simp [nobody_usable_waiting, _lws_destroy_ah, hl1, u2]
    · simp [nobody_usable_waiting, _lws_destroy_ah, hl1, u3]
    · simp [nobody_usable_waiting, _lws_destroy_ah, hl1, u6]
    · simp [nobody_usable_waiting, _lws_destroy_ah, hl1, u4]
    · simp [nobody_usable_waiting, _lws_destroy_ah, hl1, u5]
    · intro u
      simp only [nobody_usable_waiting, _lws_destroy_ah, hl1]
      exact ⟨(u7 u).1, (u7 u).2.1, (u7 u).2.2.1⟩
  · simp [nobody_usable_waiting, _lws_destroy_ah, hl1, u2]
  · simp only [nobody_usable_waiting, _lws_destroy_ah, hl1]
    exact hlen2
  · intro m hm
    simp only [nobody_usable_waiting, _lws_destroy_ah, hl1] at hm
    exact ((hmem2 m).mp hm).2
  · simp [nobody_usable_waiting, _lws_destroy_ah, hl1, u4]
  · intro u
    simp only [nobody_usable_waiting, _lws_destroy_ah, hl1]
    exact (u7 u).1

/-- Detach of a bound connection when the scan finds the waiter `v`: the AH
goes to `v`, reset, and `v` leaves the wait list. -/
theorem detach_hands_over {ctx : Context} {wsi0 : Nat → conn} {N : Nat} {s : pt_state}
    (hN : N ≤ 4294967295) (h : pool_inv ctx wsi0 N s) (e : env)
    {w a v : Nat} (au : Bool) (hah : (s.wsi w).ah = some a)
    (hscan : last_eligible ctx (detach_unbind ctx s w a true) s.ah_wait_list = some v) :
    ∃ r s6, __lws_header_table_detach ctx e s w au = some (r, s6) ∧ pool_inv ctx wsi0 N s6 ∧
      s6.ah_count_in_use = s.ah_count_in_use ∧
      s6.ah_wait_list = s.ah_wait_list.erase v ∧
      (∀ u, (s6.wsi u).ah = (if u = v then some a else if u = w then none else (s.wsi u).ah)) ∧
      ∃ n0 n6, find_ah a s.ah_list = some n0 ∧ find_ah a s6.ah_list = some n6 ∧
        n6.wsi = some v ∧ n6.in_use = true ∧ n6.hdr = _lws_header_table_reset ctx n0.hdr := by
  obtain ⟨n, hfind, hn, hna, hnw, hin, hpos⟩ := bound_node h hah
  have hrem := remove_of_not_mem (bound_not_waiting h hah)
  obtain ⟨u1, u2, u3, u4, u5, u6, u7⟩ := detach_unbind_fields ctx s w a true
  obtain ⟨helig, pre, post, hpp, hpost⟩ := last_eligible_some hscan
  have hv : v ∈ s.ah_wait_list := by rw [hpp]; simp
  have hvw : v ≠ w := fun hc => bound_not_waiting h hah (hc ▸ hv)
  -- the state handed to the reset
  have hDl : (detach_give (detach_unbind ctx s w a true) v a).ah_list =
      modify_ah a (fun n => { n with wsi := some v, assigned := 0 }) s.ah_list := by
    simp only [detach_give, u1]
    exact @modify_ah_comp a (fun n => { n with wsi := some v })
      (fun n => { n with wsi := none, assigned := 0 }) s.ah_list (fun _ => rfl)
  have hDfind : find_ah a (detach_give (detach_unbind ctx s w a true) v a).ah_list =
      some { n with wsi := some v, assigned := 0 } := by
    rw [hDl]
    exact @find_ah_modify a (fun n => { n with wsi := some v, assigned := 0 }) _ _ (fun _ => rfl)
      hfind
  have hDah : ((detach_give (detach_unbind ctx s w a true) v a).wsi v).ah = some a := by
    simp [detach_give, upd]
  obtain ⟨s3, hs3, r1, r2, r3, r4, r5, r6, r7, r8⟩ :=
    reset_eq_some ctx e au hDah hDfind rfl
  obtain ⟨p1, p2, p3, p4, p5, p6, p7⟩ := detach_unpark_fields ctx s3 v
  have hl6 : (detach_unpark ctx s3 v).ah_list = modify_ah a
      (fun n => ⟨n.addr, some v, n.in_use, e.now, _lws_header_table_reset ctx n.hdr⟩)
      s.ah_list := by
    rw [p1, r1, hDl]
    exact @modify_ah_comp a
      (fun n => { n with hdr := _lws_header_table_reset ctx n.hdr, assigned := e.now })
      (fun n => { n with wsi := some v, assigned := 0 }) s.ah_list (fun _ => rfl)
  have hw6 : (detach_unpark ctx s3 v).ah_wait_list = s.ah_wait_list.erase v := by
    rw [p4, r4]
    simp only [detach_give, u4]
    exact reverse_erase_reverse h.2.2.2.2.2.2.2.1 v
  have hwsi6 : ∀ u, ((detach_unpark ctx s3 v).wsi u).ah =
        (if u = v then some a else if u = w then none else (s.wsi u).ah) ∧
      ((detach_unpark ctx s3 v).wsi u).role_http = (s.wsi u).role_http ∧
      ((detach_unpark ctx s3 v).wsi u).role_mqtt = (s.wsi u).role_mqtt := by
    intro u
    rw [(p7 u).1, (p7 u).2.1, (p7 u).2.2, (r8 u).1, (r8 u).2.1, (r8 u).2.2.1]
    by_cases huv : u = v
    · subst huv
      simp only [detach_give, upd, if_true]
      exact ⟨trivial, (u7 u).2.1, (u7 u).2.2.1⟩
    · simp only [detach_give, upd, huv, if_false]
      exact ⟨(u7 u).1, (u7 u).2.1, (u7 u).2.2.1⟩
  have hinv6 : pool_inv ctx wsi0 N (detach_unpark ctx s3 v) := by
    apply pool_inv_transfer hN h hah hv
      (fun n => ⟨n.addr, some v, n.in_use, e.now, _lws_header_table_reset ctx n.hdr⟩)
      (fun m => ⟨rfl, rfl, rfl⟩) hl6
    · rw [p2, r2]; simp only [detach_give]; exact u2
    · rw [p3, r3]; simp only [detach_give]; exact u3
    · rw [p6, r6]; simp only [detach_give]; exact u6
    · exact hw6
    · rw [p5, r5]; simp only [detach_give]; rw [u5]
    · exact hwsi6
  have hassert : decide ((detach_unpark ctx s3 v).ah_wait_list_length ≠ 0) =
      decide ((detach_unpark ctx s3 v).ah_wait_list ≠ []) := by
    rw [hinv6.2.2.2.2.2.2.2.2.2.1]
    cases (detach_unpark ctx s3 v).ah_wait_list <;> simp
  have hfind6 : find_ah a (detach_unpark ctx s3 v).ah_list =
      some ⟨n.addr, some v, n.in_use, e.now, _lws_header_table_reset ctx n.hdr⟩ := by
    rw [hl6]
    exact @find_ah_modify a
      (fun n => ⟨n.addr, some v, n.in_use, e.now, _lws_header_table_reset ctx n.hdr⟩)
      _ _ (fun _ => rfl) hfind
  have hcount6 : (detach_unpark ctx s3 v).ah_count_in_use = s.ah_count_in_use := by
    rw [p2, r2]; simp only [detach_give]; exact u2
  have hres : ∃ r, __lws_header_table_detach ctx e s w au = some (r, detach_unpark ctx s3 v) := by
    unfold __lws_header_table_detach
    simp only [hah, hrem, hfind, hpos, hin, hnw, Option.isSome_some, u4, hscan, hs3]
    simp only [not_true_eq_false, if_false, Bool.true_eq_false, hassert, ne_eq]
    split
    · split
      · exact ⟨_, rfl⟩
      · exact ⟨_, rfl⟩
    · exact ⟨_, rfl⟩
  obtain ⟨r, hr⟩ := hres
  exact ⟨r, _, hr, hinv6, hcount6, hw6, fun u => (hwsi6 u).1, n, _, hfind, hfind6, rfl, hin, rfl⟩

theorem last_eligible_of_none {ctx : Context} {s : pt_state} {l : List Nat}
    (h : ∀ u ∈ l, ¬ eligible ctx s u) : last_eligible ctx s l = none := by
  cases hl : last_eligible ctx s l with
  | none => rfl
  | some v =>
    obtain ⟨he, pre, post, hpp, -⟩ := last_eligible_some hl
    exact absurd he (h v (by rw [hpp]; simp))

/-- `__lws_header_table_detach` returns and keeps the pool invariant. -/
theorem detach_keeps_inv {ctx : Context} {wsi0 : Nat → conn} {N : Nat} {s : pt_state}
    (hN : N ≤ 4294967295) (hmax : ctx.max_http_header_pool < 4294967296)
    (h : pool_inv ctx wsi0 N s) (e : env) (w : Nat) (au : Bool) :
    ∃ r, __lws_header_table_detach ctx e s w au = some r ∧ pool_inv ctx wsi0 N r.2 := by
  cases hah : (s.wsi w).ah with
  | none => exact ⟨_, detach_unbound ctx e au hah, pool_inv_remove hN h w⟩
  | some a =>
    cases hscan : last_eligible ctx (detach_unbind ctx s w a true) s.ah_wait_list with
    | none =>
      obtain ⟨s6, h1, h2, -⟩ := detach_destroys hmax h e au hah hscan
      exact ⟨_, h1, h2⟩
    | some v =>
      obtain ⟨r, s6, h1, h2, -⟩ := detach_hands_over hN h e au hah hscan
      exact ⟨_, h1, h2⟩

theorem pool_step_keeps_inv {ctx : Context} {wsi0 : Nat → conn} {N : Nat} {s : pt_state}
    (hN : N ≤ 4294967295) (hmax : ctx.max_http_header_pool < 4294967296)
    (h : pool_inv ctx wsi0 N s) {op : pool_op} (hop : op_ok ctx wsi0 N op) :
    ∃ r, pool_step ctx s op = some r ∧ pool_inv ctx wsi0 N r.2 := by
  cases op with
  | attach w au e => exact attach_keeps_inv hN hmax h e au hop
  | detach w au e => exact detach_keeps_inv hN hmax h e w au

theorem pool_run_keeps_inv {ctx : Context} {wsi0 : Nat → conn} {N : Nat}
    (hN : N ≤ 4294967295) (hmax : ctx.max_http_header_pool < 4294967296)
    (ops : List pool_op) :
    ∀ s, pool_inv ctx wsi0 N s → (∀ op ∈ ops, op_ok ctx wsi0 N op) →
      ∃ s1, pool_run ctx s ops = some s1 ∧ pool_inv ctx wsi0 N s1 := by
  induction ops with
  | nil => exact fun s h _ => ⟨s, rfl, h⟩
  | cons op ops ih =>
    intro s h hops
    obtain ⟨r, hr, hinv⟩ := pool_step_keeps_inv hN hmax h (hops op (List.mem_cons_self _ _))
    obtain ⟨s1, hs1, hinv1⟩ := ih r.2 hinv (fun o ho => hops o (List.mem_cons_of_mem _ ho))
    exact ⟨s1, by simp only [pool_run, hr, hs1], hinv1⟩

theorem pool_inv_init (ctx : Context) (wsi0 : Nat → conn) (cnt : Nat → Nat) (N : Nat) :
    pool_inv ctx wsi0 N (pt_init wsi0 cnt) := by
  refine ⟨?_, ?_, ?_, ?_, ?_, ?_, ?_, ?_, ?_, ?_, ?_⟩ <;> simp [pt_init]

theorem bound_card {ctx : Context} {wsi0 : Nat → conn} {N : Nat} {s : pt_state}
    (h : pool_inv ctx wsi0 N s) :
    Set.ncard {w | (s.wsi w).ah ≠ none} = s.ah_list.length := by
  obtain ⟨h1, h2, h3, -⟩ := h
  have hset : {w | (s.wsi w).ah ≠ none} =
      ↑((s.ah_list.map fun n => n.wsi.getD 0).toFinset) := by
    ext w
    simp only [Set.mem_setOf_eq, List.coe_toFinset, List.mem_map]
    constructor
    · intro hw
      obtain ⟨a, ha⟩ := Option.ne_none_iff_exists'.mp hw
      obtain ⟨n, hn, -, hnw⟩ := h3 w a ha
      exact ⟨n, hn, by rw [hnw]; rfl⟩
    · rintro ⟨n, hn, hnw⟩
      obtain ⟨-, u, hu1, hu2⟩ := h1 n hn
      rw [hu1] at hnw
      simp only [Option.getD_some] at hnw
      subst hnw
      rw [hu2]
      simp
  have hnd : (s.ah_list.map fun n => n.wsi.getD 0).Nodup := by
    apply List.Nodup.map_on _ (List.Nodup.of_map _ h2)
    intro x hx y hy hxy
    obtain ⟨-, u, hu1, hu2⟩ := h1 x hx
    obtain ⟨-, u', hu1', hu2'⟩ := h1 y hy
    rw [hu1, hu1'] at hxy
    simp only [Option.getD_some] at hxy
    subst hxy
    rw [hu2] at hu2'
    exact addr_inj h2 hx hy (Option.some.inj hu2')
  rw [hset, Set.ncard_coe_Finset, List.toFinset_card_of_nodup hnd, List.length_map]

theorem filter_in_use_length {ctx : Context} {wsi0 : Nat → conn} {N : Nat} {s : pt_state}
    (h : pool_inv ctx wsi0 N s) :
    (s.ah_list.filter fun n => n.in_use).length = s.ah_list.length := by
  rw [List.filter_eq_self.mpr]
  intro n hn
  exact (h.1 n hn).1

/-! ## C4: the pool counters -/

/-- C4. From an empty per-thread pool, every sequence of attach and detach
calls on the connections of the thread (ids below `N`, attach only on HTTP or
MQTT-client connections) runs through without a failed assertion, and in the
state reached `ah_count_in_use` equals the number of connections whose `ah` is
bound, equals the number of AHs of `ah_list` marked `in_use`, and
`ah_count_in_use ≤ ah_pool_length ≤ max_http_header_pool`; a detach of a bound
connection when no waiter is eligible returns 0, destroys the AH (it is gone
from `ah_list`, the pool is one shorter) and lowers `ah_count_in_use` by
exactly one. -/
theorem C4_pool_counters (ctx : Context) (wsi0 : Nat → conn) (cnt : Nat → Nat) (N : Nat)
    (hN : N ≤ 4294967295) (hmax : ctx.max_http_header_pool < 4294967296)
    (ops : List pool_op) (hops : ∀ op ∈ ops, op_ok ctx wsi0 N op) :
    ∃ s, pool_run ctx (pt_init wsi0 cnt) ops = some s ∧
      s.ah_count_in_use = (Set.ncard {w | (s.wsi w).ah ≠ none} : Nat) ∧
      s.ah_count_in_use = ((s.ah_list.filter fun n => n.in_use).length : Nat) ∧
      s.ah_count_in_use ≤ (s.ah_pool_length : Int) ∧
      s.ah_pool_length ≤ ctx.max_http_header_pool ∧
      ∀ w a e au, (s.wsi w).ah = some a →
        (∀ v ∈ s.ah_wait_list, ¬ eligible ctx (detach_unbind ctx s w a true) v) →
        ∃ s6, lws_header_table_detach ctx e s w au = some (0, s6) ∧
          s6.ah_count_in_use = s.ah_count_in_use - 1 ∧
          find_ah a s6.ah_list = none ∧ s6.ah_pool_length + 1 = s.ah_pool_length ∧
          (s6.wsi w).ah = none := by
  obtain ⟨s, hs, hinv⟩ := pool_run_keeps_inv hN hmax ops _ (pool_inv_init ctx wsi0 cnt N) hops
  refine ⟨s, hs, ?_, ?_, ?_, ?_, ?_⟩
  · rw [bound_card hinv]; exact hinv.2.2.2.2.1
  · rw [filter_in_use_length hinv]; exact hinv.2.2.2.2.1
  · rw [hinv.2.2.2.2.1, hinv.2.2.2.2.2.1]
  · rw [hinv.2.2.2.2.2.1]; exact hinv.2.2.2.2.2.2.1
  · intro w a e au hah hnone
    obtain ⟨s6, h1, h2, h3, h4, h5, h6, h7⟩ :=
      detach_destroys hmax hinv e au hah (last_eligible_of_none hnone)
    refine ⟨s6, h1, h3, ?_, ?_, ?_⟩
    · unfold find_ah
      rw [List.find?_eq_none]
      intro n hn
      simpa using h5 n hn
    · rw [h2.2.2.2.2.2.1, hinv.2.2.2.2.2.1]; exact h4
    · rw [h7 w, if_pos rfl]

/-- Witness of C4: two attaches and a detach on a thread of `lws_context`
serving eight HTTP/1 connections. -/
theorem C4_pool_counters_witness :
    ∃ s, pool_run lws_context (pt_init (fun _ => conn_h1) fun _ => 0)
        [.attach 1 false env_ok, .attach 2 false env_ok, .detach 1 false env_ok] = some s ∧
      s.ah_count_in_use = (Set.ncard {w | (s.wsi w).ah ≠ none} : Nat) ∧
      s.ah_count_in_use = ((s.ah_list.filter fun n => n.in_use).length : Nat) ∧
      s.ah_count_in_use ≤ (s.ah_pool_length : Int) ∧
      s.ah_pool_length ≤ lws_context.max_http_header_pool ∧
      ∀ w a e au, (s.wsi w).ah = some a →
        (∀ v ∈ s.ah_wait_list, ¬ eligible lws_context (detach_unbind lws_context s w a true) v) →
        ∃ s6, lws_header_table_detach lws_context e s w au = some (0, s6) ∧
          s6.ah_count_in_use = s.ah_count_in_use - 1 ∧
          find_ah a s6.ah_list = none ∧ s6.ah_pool_length + 1 = s.ah_pool_length ∧
          (s6.wsi w).ah = none :=
  C4_pool_counters lws_context (fun _ => conn_h1) (fun _ => 0) 8 (by decide) (by decide) _
    (by simp [op_ok, conn_h1])

/-! ## What attach and detach do to the wait list -/

theorem ensure_fields (s : pt_state) (w : Nat) :
    (_lws_header_ensure_we_are_on_waiting_list s w).ah_wait_list =
      (if w ∈ s.ah_wait_list then s.ah_wait_list else w :: s.ah_wait_list) ∧
    ∀ u, ((_lws_header_ensure_we_are_on_waiting_list s w).wsi u).ah = (s.wsi u).ah := by
  unfold _lws_header_ensure_we_are_on_waiting_list
  split
  · exact ⟨rfl, fun _ => rfl⟩
  · exact ⟨(pollfd_fields _ _ _).2.2.2.1, fun u => ((pollfd_fields _ _ _).2.2.2.2.2.2.2 u).1⟩

theorem attach_connect_fst_ne_one (ctx : Context) (e : env) (s : pt_state) (w : Nat) :
    (attach_connect ctx e s w).1 ≠ 1 := by
  unfold attach_connect
  split <;> simp

theorem attach_connect_eq (ctx : Context) (e : env) (s : pt_state) (w : Nat) :
    attach_connect ctx e s w = ((attach_connect ctx e s w).1, s) :=
  Prod.ext rfl (attach_connect_snd ctx e s w)

/-- What `lws_header_table_attach` of `v` does: it returns, keeps the pool
invariant, leaves the other connections' AH pointers alone, changes the wait
list only by taking `v` off or putting `v` at its head, parks `v` when it
returns 1, and never unbinds `v`. -/
theorem attach_effect {ctx : Context} {wsi0 : Nat → conn} {N : Nat} {s : pt_state}
    (hN : N ≤ 4294967295) (hmax : ctx.max_http_header_pool < 4294967296)
    (h : pool_inv ctx wsi0 N s) (e : env) {v : Nat} (au : Bool)
    (hop : op_ok ctx wsi0 N (.attach v au e)) :
    ∃ r s1, lws_header_table_attach ctx e s v au = some (r, s1) ∧ pool_inv ctx wsi0 N s1 ∧
      (∀ u, u ≠ v → (s1.wsi u).ah = (s.wsi u).ah) ∧
      (s1.ah_wait_list = s.ah_wait_list ∨ s1.ah_wait_list = s.ah_wait_list.erase v ∨
        s1.ah_wait_list = v :: s.ah_wait_list.erase v) ∧
      (r = 1 → v ∈ s1.ah_wait_list) ∧
      ((s.wsi v).ah ≠ none → (s1.wsi v).ah ≠ none) ∧
      (v ∈ s.ah_wait_list → v ∈ s1.ah_wait_list ∨ (s1.wsi v).ah ≠ none) := by
  obtain ⟨hwN, hrole⟩ := hop
  have hnd := h.2.2.2.2.2.2.2.1
  unfold lws_header_table_attach
  split
  · exact ⟨(attach_connect ctx e s v).1, s, by rw [← attach_connect_eq], h, fun _ _ => rfl,
      Or.inl rfl, fun hc => absurd hc (attach_connect_fst_ne_one ctx e s v), id, Or.inl⟩
  · rename_i hmq
    have hhttp : (s.wsi v).role_http = true := by
      rcases hrole with hr | ⟨h1, h2, h3⟩
      · rw [(h.2.2.2.2.2.2.2.2.2.2 v).1]; exact hr
      · exact absurd ⟨h1, h2, by rw [(h.2.2.2.2.2.2.2.2.2.2 v).2]; exact h3⟩ hmq
    simp only [hhttp, Bool.true_eq_false, if_false]
    split
    · rename_i hah
      obtain ⟨a, ha⟩ := Option.ne_none_iff_exists'.mp hah
      obtain ⟨s1, hs1, hinv, hw, -, -, -, hahs⟩ := pool_inv_reset h e au ha
      refine ⟨(attach_connect ctx e s1 v).1, s1, ?_, hinv, fun u _ => hahs u, Or.inl hw, ?_, ?_, ?_⟩
      · rw [hs1]
        simp only [Option.map_some']
        rw [← attach_connect_eq]
      · exact fun hc => absurd hc (attach_connect_fst_ne_one ctx e s1 v)
      · rw [hahs]; exact id
      · rw [hahs]; exact fun _ => Or.inr hah
    · rename_i hah
      have hah : (s.wsi v).ah = none := by simpa using hah
      split
      · obtain ⟨e1, e2⟩ := ensure_fields s v
        refine ⟨1, _, rfl, pool_inv_ensure hN h hah hwN, fun u _ => e2 u, ?_, ?_, ?_, ?_⟩
        · rw [e1]
          split
          · exact Or.inl rfl
          · rename_i hm
            right; right
            rw [List.erase_of_not_mem hm]
        · intro _
          rw [e1]
          split
          · assumption
          · exact List.mem_cons_self _ _
        · exact fun hc => absurd hah hc
        · intro hm
          left
          rw [e1, if_pos hm]; exact hm
      · rename_i hadm
        have hinv0 := pool_inv_remove hN h v
        obtain ⟨f1, f2, f3, f4, f5, f6, f7⟩ := remove_frame s v
        have hah0 : ((__lws_remove_from_ah_waiting_list s v).2.wsi v).ah = none := by
          rw [f4]; exact hah
        have hnot : v ∉ (__lws_remove_from_ah_waiting_list s v).2.ah_wait_list := by
          rw [f7]; exact fun hc => (List.Nodup.mem_erase_iff hnd).mp hc |>.1 rfl
        split
        · obtain ⟨e1, e2⟩ := ensure_fields (__lws_remove_from_ah_waiting_list s v).2 v
          refine ⟨1, _, rfl, pool_inv_ensure hN hinv0 hah0 hwN, ?_, ?_, ?_, ?_, ?_⟩
          · intro u _
            rw [e2, f4]
          · right; right
            rw [e1, if_neg hnot, f7]
          · intro _
            rw [e1, if_neg hnot]
            exact List.mem_cons_self _ _
          · exact fun hc => absurd hah hc
          · intro _
            left
            rw [e1, if_neg hnot]
            exact List.mem_cons_self _ _
        · have hroom : (__lws_remove_from_ah_waiting_list s v).2.ah_count_in_use ≠
              (ctx.max_http_header_pool : Int) := by
            rw [f2]; exact fun hc => hadm (Or.inl hc)
          obtain ⟨hb1, hb2, hb3, hb4⟩ := pool_inv_attach_bind hmax hinv0 e hah0 hnot hroom
          obtain ⟨s5, hs5, hinv5, hw5, -, -, -, hah5⟩ := pool_inv_reset hb1 e au hb2
          refine ⟨(attach_connect ctx e s5 v).1, s5, ?_, hinv5, ?_, ?_, ?_, ?_, ?_⟩
          · rw [hs5]
            simp only [Option.map_some']
            rw [← attach_connect_eq]
          · intro u hu
            rw [hah5, hb4 u hu, f4]
          · right; left
            rw [hw5, hb3, f7]
          · exact fun hc => absurd hc (attach_connect_fst_ne_one ctx e s5 v)
          · intro _
            rw [hah5, hb2]; simp
          · intro _
            right
            rw [hah5, hb2]; simp

/-- What `__lws_header_table_detach` of `w` does to the wait list and to the
other connections: it returns, keeps the pool invariant, only takes
connections off the wait list, and a connection other than `w` that was parked
or bound is parked or bound afterwards. -/
theorem detach_effect {ctx : Context} {wsi0 : Nat → conn} {N : Nat} {s : pt_state}
    (hN : N ≤ 4294967295) (hmax : ctx.max_http_header_pool < 4294967296)
    (h : pool_inv ctx wsi0 N s) (e : env) (w : Nat) (au : Bool) :
    ∃ r s1, __lws_header_table_detach ctx e s w au = some (r, s1) ∧ pool_inv ctx wsi0 N s1 ∧
      s1.ah_wait_list.Sublist s.ah_wait_list ∧
      ∀ u, u ≠ w → (u ∈ s.ah_wait_list ∨ (s.wsi u).ah ≠ none) →
        (u ∈ s1.ah_wait_list ∨ (s1.wsi u).ah ≠ none) := by
  cases hah : (s.wsi w).ah with
  | none =>
    obtain ⟨f1, f2, f3, f4, f5, f6, f7⟩ := remove_frame s w
    refine ⟨0, _, detach_unbound ctx e au hah, pool_inv_remove hN h w, ?_, ?_⟩
    · rw [f7]; exact List.erase_sublist _ _
    · intro u hu hc
      rw [f7, f4]
      rcases hc with hc | hc
      · exact Or.inl ((List.mem_erase_of_ne hu).mpr hc)
      · exact Or.inr hc
  | some a =>
    cases hscan : last_eligible ctx (detach_unbind ctx s w a true) s.ah_wait_list with
    | none =>
      obtain ⟨s6, h1, h2, -, -, -, h6, h7⟩ := detach_destroys hmax h e au hah hscan
      refine ⟨0, s6, h1, h2, by rw [h6], ?_⟩
      intro u hu hc
      rw [h6, h7, if_neg hu]
      exact hc
    | some v =>
      obtain ⟨r, s6, h1, h2, -, h4, h5, -⟩ := detach_hands_over hN h e au hah hscan
      refine ⟨r, s6, h1, h2, by rw [h4]; exact List.erase_sublist _ _, ?_⟩
      intro u hu hc
      rw [h4, h5]
      by_cases huv : u = v
      · right
        rw [if_pos huv]; simp
      · rw [if_neg huv, if_neg hu]
        rcases hc with hc | hc
        · exact Or.inl ((List.mem_erase_of_ne huv).mpr hc)
        · exact Or.inr hc

/-- One call on the pool: it returns, keeps the pool invariant, changes the wait
list only by taking connections off or by putting one connection at the head,
and leaves parked or bound every connection that was so and is not detached by
this call. -/
theorem step_effect {ctx : Context} {wsi0 : Nat → conn} {N : Nat} {s : pt_state}
    (hN : N ≤ 4294967295) (hmax : ctx.max_http_header_pool < 4294967296)
    (h : pool_inv ctx wsi0 N s) {op : pool_op} (hop : op_ok ctx wsi0 N op) :
    ∃ r s1, pool_step ctx s op = some (r, s1) ∧ pool_inv ctx wsi0 N s1 ∧
      (s1.ah_wait_list.Sublist s.ah_wait_list ∨
        ∃ v rest, s1.ah_wait_list = v :: rest ∧ rest.Sublist s.ah_wait_list) ∧
      (∀ u, (∀ au e, op ≠ .detach u au e) → (u ∈ s.ah_wait_list ∨ (s.wsi u).ah ≠ none) →
        (u ∈ s1.ah_wait_list ∨ (s1.wsi u).ah ≠ none)) ∧
      (∀ w au e, op = .attach w au e → r = 1 → w ∈ s1.ah_wait_list) := by
  cases op with
  | attach v au e =>
    obtain ⟨r, s1, h1, h2, h3, h4, h5, h6, h7⟩ := attach_effect hN hmax h e au hop
    refine ⟨r, s1, h1, h2, ?_, ?_, ?_⟩
    · rcases h4 with h4 | h4 | h4
      · exact Or.inl (by rw [h4])
      · exact Or.inl (by rw [h4]; exact List.erase_sublist _ _)
      · exact Or.inr ⟨v, _, h4, List.erase_sublist _ _⟩
    · intro u _ hc
      by_cases huv : u = v
      · subst huv
        rcases hc with hc | hc
        · exact h7 hc
        · exact Or.inr (h6 hc)
      · rw [h3 u huv]
        rcases hc with hc | hc
        · left
          rcases h4 with h4 | h4 | h4 <;> rw [h4]
          · exact hc
          · exact (List.mem_erase_of_ne huv).mpr hc
          · exact List.mem_cons_of_mem _ ((List.mem_erase_of_ne huv).mpr hc)
        · exact Or.inr hc
    · intro w au' e' hw hr
      injection hw with hw1
      subst hw1
      exact h5 hr
  | detach w au e =>
    obtain ⟨r, s1, h1, h2, h3, h4⟩ := detach_effect hN hmax h e w au
    refine ⟨r, s1, h1, h2, Or.inl h3, ?_, ?_⟩
    · intro u hu hc
      have huw : u ≠ w := fun hc2 => hu au e (by rw [hc2])
      exact h4 u huw hc
    · intro w' au' e' hw
      exact absurd hw (by simp)

/-! ## C5: the wait list -/

theorem pool_run_append (ctx : Context) (a b : List pool_op) :
    ∀ s, pool_run ctx s (a ++ b) = (pool_run ctx s a).bind fun s1 => pool_run ctx s1 b := by
  induction a with
  | nil => intro s; rfl
  | cons op a ih =>
    intro s
    simp only [List.cons_append, pool_run]
    cases pool_step ctx s op with
    | none => rfl
    | some r => exact ih r.2

theorem parked_or_bound_persists {ctx : Context} {wsi0 : Nat → conn} {N : Nat}
    (hN : N ≤ 4294967295) (hmax : ctx.max_http_header_pool < 4294967296) (w : Nat)
    (ops : List pool_op) :
    ∀ s, pool_inv ctx wsi0 N s → (∀ op ∈ ops, op_ok ctx wsi0 N op) →
      (∀ op ∈ ops, ∀ au e, op ≠ .detach w au e) →
      (w ∈ s.ah_wait_list ∨ (s.wsi w).ah ≠ none) →
      ∀ s1, pool_run ctx s ops = some s1 → (w ∈ s1.ah_wait_list ∨ (s1.wsi w).ah ≠ none) := by
  induction ops with
  | nil =>
    intro s _ _ _ hc s1 hs1
    simp only [pool_run, Option.some.injEq] at hs1
    exact hs1 ▸ hc
  | cons op ops ih =>
    intro s h hops hnd hc s1 hs1
    obtain ⟨r, s2, h1, h2, -, h4, -⟩ := step_effect hN hmax h (hops op (List.mem_cons_self _ _))
    simp only [pool_run, h1] at hs1
    exact ih s2 h2 (fun o ho => hops o (List.mem_cons_of_mem _ ho))
      (fun o ho => hnd o (List.mem_cons_of_mem _ ho))
      (h4 w (hnd op (List.mem_cons_self _ _)) hc) s1 hs1

/-- C5. From an empty per-thread pool, after every sequence of attach and
detach calls on the connections of the thread (ids below `N`) the wait list is
well formed: no connection on `ah_wait_list` has an AH bound, no connection is
on it twice, `ah_wait_list_length` is the number of connections on it (so it is
non-zero exactly when the list is non-empty, which is what the assertion in
`__lws_header_table_detach` tests), and a connection whose attach returned 1
(BUSY) and that has not been detached since is on the list unless it has
received an AH. -/
theorem C5_wait_list_well_formed (ctx : Context) (wsi0 : Nat → conn) (cnt : Nat → Nat) (N : Nat)
    (hN : N ≤ 4294967295) (hmax : ctx.max_http_header_pool < 4294967296)
    (ops : List pool_op) (hops : ∀ op ∈ ops, op_ok ctx wsi0 N op) :
    ∃ s, pool_run ctx (pt_init wsi0 cnt) ops = some s ∧
      (∀ w ∈ s.ah_wait_list, (s.wsi w).ah = none) ∧
      s.ah_wait_list.Nodup ∧
      s.ah_wait_list_length = s.ah_wait_list.length ∧
      (s.ah_wait_list_length ≠ 0 ↔ s.ah_wait_list ≠ []) ∧
      ∀ ops1 w au e ops2 s1 s2, ops = ops1 ++ pool_op.attach w au e :: ops2 →
        pool_run ctx (pt_init wsi0 cnt) ops1 = some s1 →
        lws_header_table_attach ctx e s1 w au = some (1, s2) →
        (∀ op ∈ ops2, ∀ au1 e1, op ≠ pool_op.detach w au1 e1) →
        w ∈ s.ah_wait_list ∨ (s.wsi w).ah ≠ none := by
  obtain ⟨s, hs, hinv⟩ := pool_run_keeps_inv hN hmax ops _ (pool_inv_init ctx wsi0 cnt N) hops
  refine ⟨s, hs, fun w hw => (hinv.2.2.2.2.2.2.2.2.1 w hw).1, hinv.2.2.2.2.2.2.2.1,
    hinv.2.2.2.2.2.2.2.2.2.1, ?_, ?_⟩
  · rw [hinv.2.2.2.2.2.2.2.2.2.1]
    cases s.ah_wait_list <;> simp
  · intro ops1 w au e ops2 s1 s2 hsplit hs1 hatt hnd
    subst hsplit
    have hops1 : ∀ op ∈ ops1, op_ok ctx wsi0 N op :=
      fun o ho => hops o (List.mem_append_left _ ho)
    have hop : op_ok ctx wsi0 N (.attach w au e) :=
      hops _ (List.mem_append_right _ (List.mem_cons_self _ _))
    have hops2 : ∀ op ∈ ops2, op_ok ctx wsi0 N op :=
      fun o ho => hops o (List.mem_append_right _ (List.mem_cons_of_mem _ ho))
    obtain ⟨s1', hs1', hinv1⟩ :=
      pool_run_keeps_inv hN hmax ops1 _ (pool_inv_init ctx wsi0 cnt N) hops1
    rw [hs1] at hs1'
    simp only [Option.some.injEq] at hs1'
    subst hs1'
    obtain ⟨r, s2', h1, h2, -, -, h5⟩ := step_effect hN hmax hinv1 hop
    simp only [pool_step, hatt, Option.some.injEq, Prod.mk.injEq] at h1
    obtain ⟨hr, hs2⟩ := h1
    subst hr hs2
    have hpark : w ∈ s2.ah_wait_list := h5 w au e rfl rfl
    rw [pool_run_append, hs1] at hs
    simp only [pool_run, pool_step, Option.some_bind, hatt] at hs
    exact parked_or_bound_persists hN hmax w ops2 s2 h2 hops2 hnd (Or.inl hpark) s hs

/-- Witness of C5: with a pool of `lws_context` (four AHs), five attaches
park the fifth connection; a detach then hands it an AH. -/
theorem C5_wait_list_witness :
    ∃ s, pool_run lws_context (pt_init (fun _ => conn_h1) fun _ => 0)
        [.attach 1 false env_ok, .attach 2 false env_ok, .attach 3 false env_ok,
          .attach 4 false env_ok, .attach 5 false env_ok, .detach 2 false env_ok] = some s ∧
      (∀ w ∈ s.ah_wait_list, (s.wsi w).ah = none) ∧
      s.ah_wait_list.Nodup ∧
      s.ah_wait_list_length = s.ah_wait_list.length ∧
      (s.ah_wait_list_length ≠ 0 ↔ s.ah_wait_list ≠ []) ∧
      ∀ ops1 w au e ops2 s1 s2,
        [pool_op.attach 1 false env_ok, .attach 2 false env_ok, .attach 3 false env_ok,
          .attach 4 false env_ok, .attach 5 false env_ok, .detach 2 false env_ok] =
          ops1 ++ pool_op.attach w au e :: ops2 →
        pool_run lws_context (pt_init (fun _ => conn_h1) fun _ => 0) ops1 = some s1 →
        lws_header_table_attach lws_context e s1 w au = some (1, s2) →
        (∀ op ∈ ops2, ∀ au1 e1, op ≠ pool_op.detach w au1 e1) →
        w ∈ s.ah_wait_list ∨ (s.wsi w).ah ≠ none :=
  C5_wait_list_well_formed lws_context (fun _ => conn_h1) (fun _ => 0) 8 (by decide) (by decide) _
    (by simp [op_ok, conn_h1])

/-! ## C3: which waiter the detached AH goes to -/

theorem times_fit_keep {l l1 : List Nat} {t t1 : Nat → Option Nat} {clock : Nat}
    (h : times_fit l t clock) (hsub : l1.Sublist l) (ht : ∀ w ∈ l1, t1 w = t w) :
    times_fit l1 t1 (clock + 1) := by
  refine ⟨?_, ?_⟩
  · intro w hw
    obtain ⟨k, hk, hlt⟩ := h.1 w (hsub.subset hw)
    exact ⟨k, by rw [ht w hw, hk], by omega⟩
  · refine List.Pairwise.imp_of_mem ?_ (h.2.sublist hsub)
    intro u v hu hv hR ku kv h1 h2
    rw [ht u hu] at h1
    rw [ht v hv] at h2
    exact hR ku kv h1 h2

theorem times_fit_update {l l1 : List Nat} {t : Nat → Option Nat} {clock : Nat}
    (h : times_fit l t clock) (hnd : l1.Nodup)
    (hshape : l1.Sublist l ∨ ∃ v rest, l1 = v :: rest ∧ rest.Sublist l) :
    times_fit l1 (queue_update l l1 t clock) (clock + 1) := by
  by_cases hsub : l1.Sublist l
  · apply times_fit_keep h hsub
    intro w hw
    simp [queue_update, hw, hsub]
  · rcases hshape with hs | ⟨v, rest, hl1, hrest⟩
    · exact absurd hs hsub
    · subst hl1
      have hv : v ∉ rest := (List.nodup_cons.mp hnd).1
      have hrk : ∀ u ∈ rest, queue_update l (v :: rest) t clock u = t u := by
        intro u hu
        have huv : v ≠ u := fun hc => hv (hc ▸ hu)
        simp [queue_update, hu, huv]
      have hvk : queue_update l (v :: rest) t clock v = some clock := by
        simp [queue_update, hsub]
      have hfit : times_fit rest (queue_update l (v :: rest) t clock) (clock + 1) :=
        times_fit_keep h hrest hrk
      refine ⟨?_, ?_⟩
      · intro w hw
        rcases List.mem_cons.mp hw with rfl | hw
        · exact ⟨clock, hvk, by omega⟩
        · exact hfit.1 w hw
      · refine List.pairwise_cons.mpr ⟨?_, hfit.2⟩
        intro u hu ku kv h1 h2
        rw [hvk] at h1
        obtain ⟨k, hk, hlt⟩ := h.1 u (hrest.subset hu)
        rw [hrk u hu, hk] at h2
        simp only [Option.some.injEq] at h1 h2
        omega

theorem times_fit_run {ctx : Context} {wsi0 : Nat → conn} {N : Nat}
    (hN : N ≤ 4294967295) (hmax : ctx.max_http_header_pool < 4294967296)
    (ops : List pool_op) :
    ∀ s t clock, pool_inv ctx wsi0 N s → times_fit s.ah_wait_list t clock →
      (∀ op ∈ ops, op_ok ctx wsi0 N op) →
      ∀ s1, pool_run ctx s ops = some s1 →
        times_fit s1.ah_wait_list (queue_times ctx s t clock ops) (clock + ops.length) := by
  induction ops with
  | nil =>
    intro s t clock _ hfit _ s1 hs1
    simp only [pool_run, Option.some.injEq] at hs1
    subst hs1
    exact hfit
  | cons op ops ih =>
    intro s t clock h hfit hops s1 hs1
    obtain ⟨r, s2, h1, h2, h3, -⟩ := step_effect hN hmax h (hops op (List.mem_cons_self _ _))
    simp only [pool_run, h1] at hs1
    have hfit2 : times_fit s2.ah_wait_list (queue_update s.ah_wait_list s2.ah_wait_list t clock)
        (clock + 1) := times_fit_update hfit h2.2.2.2.2.2.2.2.1 h3
    have := ih s2 _ (clock + 1) h2 hfit2 (fun o ho => hops o (List.mem_cons_of_mem _ ho)) s1 hs1
    simp only [queue_times, h1, List.length_cons]
    rw [show clock + (ops.length + 1) = clock + 1 + ops.length by omega]
    exact this

/-- The hand-over by list order. In every state reached from an empty
per-thread pool, when a connection `w` that holds an AH detaches while some
parked connection is eligible (the peer check lets it take an AH; with per-peer
limits compiled out every parked connection is), the AH is handed to the
eligible connection `v` that stands last in the wait list: of all eligible
parked connections `v` is the one whose last entry into the list is the
earliest. `v` becomes the owner of that AH (both pointers), the header table is
reset, `v` leaves the wait list, the other waiters keep their relative order,
and `ah_count_in_use` is unchanged. -/
theorem detach_hands_to_last_queued (ctx : Context) (wsi0 : Nat → conn) (cnt : Nat → Nat)
    (N : Nat) (hN : N ≤ 4294967295) (hmax : ctx.max_http_header_pool < 4294967296)
    (ops : List pool_op) (hops : ∀ op ∈ ops, op_ok ctx wsi0 N op) :
    ∃ s, pool_run ctx (pt_init wsi0 cnt) ops = some s ∧
      ∀ w a e au, (s.wsi w).ah = some a →
        (∃ u ∈ s.ah_wait_list, eligible ctx (detach_unbind ctx s w a true) u) →
        ∃ r s6 v kv, lws_header_table_detach ctx e s w au = some (r, s6) ∧
          v ∈ s.ah_wait_list ∧ eligible ctx (detach_unbind ctx s w a true) v ∧
          queued_since ctx wsi0 cnt ops v = some kv ∧
          (∀ u ∈ s.ah_wait_list, eligible ctx (detach_unbind ctx s w a true) u →
            ∃ ku, queued_since ctx wsi0 cnt ops u = some ku ∧ kv ≤ ku) ∧
          (s6.wsi v).ah = some a ∧
          (∃ n0 n6, find_ah a s.ah_list = some n0 ∧ find_ah a s6.ah_list = some n6 ∧
            n6.wsi = some v ∧ n6.hdr = _lws_header_table_reset ctx n0.hdr) ∧
          s6.ah_wait_list = s.ah_wait_list.erase v ∧
          s6.ah_wait_list.Sublist s.ah_wait_list ∧
          s6.ah_count_in_use = s.ah_count_in_use := by
  obtain ⟨s, hs, hinv⟩ := pool_run_keeps_inv hN hmax ops _ (pool_inv_init ctx wsi0 cnt N) hops
  have hfit := times_fit_run hN hmax ops _ (fun _ => none) 0 (pool_inv_init ctx wsi0 cnt N)
    ⟨by simp [pt_init], by simp [pt_init]⟩ hops s hs
  refine ⟨s, hs, ?_⟩
  intro w a e au hah hex
  cases hscan : last_eligible ctx (detach_unbind ctx s w a true) s.ah_wait_list with
  | none =>
    obtain ⟨u, hu, helig⟩ := hex
    exact absurd helig (last_eligible_none hscan u hu)
  | some v =>
    obtain ⟨r, s6, h1, h2, h3, h4, h5, n0, n6, h6, h7, h8, -, h9⟩ :=
      detach_hands_over hN hinv e au hah hscan
    obtain ⟨helig, pre, post, hpp, hpost⟩ := last_eligible_some hscan
    have hv : v ∈ s.ah_wait_list := by rw [hpp]; simp
    obtain ⟨kv, hkv, -⟩ := hfit.1 v hv
    refine ⟨r, s6, v, kv, h1, hv, helig, hkv, ?_, ?_, ⟨n0, n6, h6, h7, h8, h9⟩, h4, ?_, h3⟩
    · intro u hu hue
      obtain ⟨ku, hku, -⟩ := hfit.1 u hu
      refine ⟨ku, hku, ?_⟩
      have hpw := hfit.2
      rw [hpp, List.pairwise_append] at hpw
      rw [hpp] at hu
      rcases List.mem_append.mp hu with hu | hu
      · have := hpw.2.2 u hu v (List.mem_cons_self _ _) ku kv hku hkv
        omega
      · rcases List.mem_cons.mp hu with rfl | hu
        · rw [hku] at hkv
          simp only [Option.some.injEq] at hkv
          omega
        · exact absurd hue (hpost u hu)
    · rw [h5 v, if_pos rfl]
    · rw [h4]; exact List.erase_sublist _ _

/-- On a full pool of `lws_context` the connections 5 and then 6 are parked;
when 2 detaches its AH goes to 5. -/
theorem detach_hands_to_last_queued_witness :
    ∃ s, pool_run lws_context (pt_init (fun _ => conn_h1) fun _ => 0)
        [.attach 1 false env_ok, .attach 2 false env_ok, .attach 3 false env_ok,
          .attach 4 false env_ok, .attach 5 false env_ok, .attach 6 false env_ok] = some s ∧
      ∀ w a e au, (s.wsi w).ah = some a →
        (∃ u ∈ s.ah_wait_list, eligible lws_context (detach_unbind lws_context s w a true) u) →
        ∃ r s6 v kv, lws_header_table_detach lws_context e s w au = some (r, s6) ∧
          v ∈ s.ah_wait_list ∧ eligible lws_context (detach_unbind lws_context s w a true) v ∧
          queued_since lws_context (fun _ => conn_h1) (fun _ => 0)
            [.attach 1 false env_ok, .attach 2 false env_ok, .attach 3 false env_ok,
              .attach 4 false env_ok, .attach 5 false env_ok, .attach 6 false env_ok] v =
            some kv ∧
          (∀ u ∈ s.ah_wait_list, eligible lws_context (detach_unbind lws_context s w a true) u →
            ∃ ku, queued_since lws_context (fun _ => conn_h1) (fun _ => 0)
              [.attach 1 false env_ok, .attach 2 false env_ok, .attach 3 false env_ok,
                .attach 4 false env_ok, .attach 5 false env_ok, .attach 6 false env_ok] u =
              some ku ∧ kv ≤ ku) ∧
          (s6.wsi v).ah = some a ∧
          (∃ n0 n6, find_ah a s.ah_list = some n0 ∧ find_ah a s6.ah_list = some n6 ∧
            n6.wsi = some v ∧ n6.hdr = _lws_header_table_reset lws_context n0.hdr) ∧
          s6.ah_wait_list = s.ah_wait_list.erase v ∧
          s6.ah_wait_list.Sublist s.ah_wait_list ∧
          s6.ah_count_in_use = s.ah_count_in_use :=
  detach_hands_to_last_queued lws_context (fun _ => conn_h1) (fun _ => 0) 8 (by decide) (by decide)
    _ (by simp [op_ok, conn_h1])

/-- The wait list after an attach that can allocate: connections are only
taken off, or the connection itself, which was not on the list, is put at its
head. -/
theorem attach_wait_list {ctx : Context} {wsi0 : Nat → conn} {N : Nat} {s : pt_state}
    (hN : N ≤ 4294967295) (hmax : ctx.max_http_header_pool < 4294967296)
    (h : pool_inv ctx wsi0 N s) (e : env) {v : Nat} (au : Bool)
    (hop : op_ok ctx wsi0 N (.attach v au e)) (hal : e.alloc_ok = true) (r : Int)
    (s1 : pt_state) (hr : lws_header_table_attach ctx e s v au = some (r, s1)) :
    s1.ah_wait_list.Sublist s.ah_wait_list ∨
      (v ∉ s.ah_wait_list ∧ s1.ah_wait_list = v :: s.ah_wait_list) := by
  obtain ⟨hwN, hrole⟩ := hop
  unfold lws_header_table_attach at hr
  split at hr
  · rw [attach_connect_eq] at hr
    simp only [Option.some.injEq, Prod.mk.injEq] at hr
    rw [← hr.2]
    exact Or.inl (List.Sublist.refl _)
  · rename_i hmq
    have hhttp : (s.wsi v).role_http = true := by
      rcases hrole with hr1 | ⟨h1, h2, h3⟩
      · rw [(h.2.2.2.2.2.2.2.2.2.2 v).1]; exact hr1
      · exact absurd ⟨h1, h2, by rw [(h.2.2.2.2.2.2.2.2.2.2 v).2]; exact h3⟩ hmq
    simp only [hhttp, Bool.true_eq_false, if_false] at hr
    split at hr
    · rename_i hah
      obtain ⟨a, ha⟩ := Option.ne_none_iff_exists'.mp hah
      obtain ⟨s2, hs2, -, hw, -, -, -, -⟩ := pool_inv_reset h e au ha
      rw [hs2] at hr
      simp only [Option.map_some', Option.some.injEq] at hr
      rw [attach_connect_eq] at hr
      simp only [Prod.mk.injEq] at hr
      rw [← hr.2, hw]
      exact Or.inl (List.Sublist.refl _)
    · rename_i hah
      have hah : (s.wsi v).ah = none := by simpa using hah
      split at hr
      · obtain ⟨e1, -⟩ := ensure_fields s v
        simp only [Option.some.injEq, Prod.mk.injEq] at hr
        rw [← hr.2, e1]
        split
        · exact Or.inl (List.Sublist.refl _)
        · rename_i hm
          exact Or.inr ⟨hm, rfl⟩
      · rename_i hadm
        have hinv0 := pool_inv_remove hN h v
        have hnd := h.2.2.2.2.2.2.2.1
        obtain ⟨f1, f2, f3, f4, f5, f6, f7⟩ := remove_frame s v
        have hah0 : ((__lws_remove_from_ah_waiting_list s v).2.wsi v).ah = none := by
          rw [f4]; exact hah
        have hnot : v ∉ (__lws_remove_from_ah_waiting_list s v).2.ah_wait_list := by
          rw [f7]; exact fun hc => (List.Nodup.mem_erase_iff hnd).mp hc |>.1 rfl
        simp only [hal, Bool.true_eq_false, if_false] at hr
        have hroom : (__lws_remove_from_ah_waiting_list s v).2.ah_count_in_use ≠
            (ctx.max_http_header_pool : Int) := by
          rw [f2]; exact fun hc => hadm (Or.inl hc)
        obtain ⟨hb1, hb2, hb3, hb4⟩ := pool_inv_attach_bind hmax hinv0 e hah0 hnot hroom
        obtain ⟨s5, hs5, -, hw5, -, -, -, -⟩ := pool_inv_reset hb1 e au hb2
        rw [hs5] at hr
        simp only [Option.map_some', Option.some.injEq] at hr
        rw [attach_connect_eq] at hr
        simp only [Prod.mk.injEq] at hr
        rw [← hr.2, hw5, hb3, f7]
        exact Or.inl (List.erase_sublist _ _)

/-- The waiting times stay fitted to the wait list through a call that only
takes connections off the list or parks one that was not on it. -/
theorem wait_fit_update {l l1 : List Nat} {t : Nat → Option Nat} {clock : Nat}
    (h : times_fit l t clock)
    (hshape : l1.Sublist l ∨ ∃ v, v ∉ l ∧ l1 = v :: l) :
    times_fit l1 (wait_update l l1 t clock) (clock + 1) := by
  rcases hshape with hsub | ⟨v, hv, hl1⟩
  · apply times_fit_keep h hsub
    intro w hw
    simp [wait_update, hw, hsub.subset hw]
  · subst hl1
    have hrk : ∀ u ∈ l, wait_update l (v :: l) t clock u = t u := by
      intro u hu
      simp [wait_update, hu]
    have hvk : wait_update l (v :: l) t clock v = some clock := by
      simp [wait_update, hv]
    have hfit : times_fit l (wait_update l (v :: l) t clock) (clock + 1) :=
      times_fit_keep h (List.Sublist.refl _) hrk
    refine ⟨?_, ?_⟩
    · intro w hw
      rcases List.mem_cons.mp hw with rfl | hw
      · exact ⟨clock, hvk, by omega⟩
      · exact hfit.1 w hw
    · refine List.pairwise_cons.mpr ⟨?_, hfit.2⟩
      intro u hu ku kv h1 h2
      rw [hvk] at h1
      obtain ⟨k, hk, hlt⟩ := h.1 u hu
      rw [hrk u hu, hk] at h2
      simp only [Option.some.injEq] at h1 h2
      omega

theorem wait_fit_run {ctx : Context} {wsi0 : Nat → conn} {N : Nat}
    (hN : N ≤ 4294967295) (hmax : ctx.max_http_header_pool < 4294967296)
    (ops : List pool_op) :
    ∀ s t clock, pool_inv ctx wsi0 N s → times_fit s.ah_wait_list t clock →
      (∀ op ∈ ops, op_ok ctx wsi0 N op ∧ op.can_allocate) →
      ∀ s1, pool_run ctx s ops = some s1 →
        times_fit s1.ah_wait_list (wait_times ctx s t clock ops) (clock + ops.length) := by
  induction ops with
  | nil =>
    intro s t clock _ hfit _ s1 hs1
    simp only [pool_run, Option.some.injEq] at hs1
    subst hs1
    exact hfit
  | cons op ops ih =>
    intro s t clock h hfit hops s1 hs1
    obtain ⟨hok, hal⟩ := hops op (List.mem_cons_self _ _)
    obtain ⟨r, s2, h1, h2, -, -⟩ := step_effect hN hmax h hok
    have hshape : s2.ah_wait_list.Sublist s.ah_wait_list ∨
        ∃ v, v ∉ s.ah_wait_list ∧ s2.ah_wait_list = v :: s.ah_wait_list := by
      cases op with
      | attach v au e =>
        rcases attach_wait_list hN hmax h e au hok hal r s2 h1 with hs | hs
        · exact Or.inl hs
        · exact Or.inr ⟨v, hs⟩
      | detach w au e =>
        obtain ⟨r1, s3, g1, -, g3, -⟩ := detach_effect hN hmax h e w au
        have e1 : pool_step ctx s (.detach w au e) = some (r1, s3) := g1
        rw [h1] at e1
        simp only [Option.some.injEq, Prod.mk.injEq] at e1
        rw [e1.2]
        exact Or.inl g3
    simp only [pool_run, h1] at hs1
    have hfit2 : times_fit s2.ah_wait_list (wait_update s.ah_wait_list s2.ah_wait_list t clock)
        (clock + 1) := wait_fit_update hfit hshape
    have := ih s2 _ (clock + 1) h2 hfit2 (fun o ho => hops o (List.mem_cons_of_mem _ ho)) s1 hs1
    simp only [wait_times, h1, List.length_cons]
    rw [show clock + (ops.length + 1) = clock + 1 + ops.length by omega]
    exact this

/-- The hand-over when no allocation has failed. In every state reached from
an empty per-thread pool by calls none of which failed to allocate an AH, when
a connection `w` that holds an AH detaches while some parked connection is
eligible, the AH is handed to the eligible connection `v` that has been
waiting longest: of all eligible parked connections `v` has been on the wait
list since the earliest call. `v` becomes the owner of that AH (both
pointers), the header table is reset, `v` leaves the wait list, the other
waiters keep their relative order, and `ah_count_in_use` is unchanged. -/
theorem detach_hands_to_longest_waiting (ctx : Context) (wsi0 : Nat → conn) (cnt : Nat → Nat)
    (N : Nat) (hN : N ≤ 4294967295) (hmax : ctx.max_http_header_pool < 4294967296)
    (ops : List pool_op) (hops : ∀ op ∈ ops, op_ok ctx wsi0 N op ∧ op.can_allocate) :
    ∃ s, pool_run ctx (pt_init wsi0 cnt) ops = some s ∧
      ∀ w a e au, (s.wsi w).ah = some a →
        (∃ u ∈ s.ah_wait_list, eligible ctx (detach_unbind ctx s w a true) u) →
        ∃ r s6 v kv, lws_header_table_detach ctx e s w au = some (r, s6) ∧
          v ∈ s.ah_wait_list ∧ eligible ctx (detach_unbind ctx s w a true) v ∧
          waiting_since ctx wsi0 cnt ops v = some kv ∧
          (∀ u ∈ s.ah_wait_list, eligible ctx (detach_unbind ctx s w a true) u →
            ∃ ku, waiting_since ctx wsi0 cnt ops u = some ku ∧ kv ≤ ku) ∧
          (s6.wsi v).ah = some a ∧
          (∃ n0 n6, find_ah a s.ah_list = some n0 ∧ find_ah a s6.ah_list = some n6 ∧
            n6.wsi = some v ∧ n6.hdr = _lws_header_table_reset ctx n0.hdr) ∧
          s6.ah_wait_list = s.ah_wait_list.erase v ∧
          s6.ah_wait_list.Sublist s.ah_wait_list ∧
          s6.ah_count_in_use = s.ah_count_in_use := by
  have hops1 : ∀ op ∈ ops, op_ok ctx wsi0 N op := fun op ho => (hops op ho).1
  obtain ⟨s, hs, hinv⟩ := pool_run_keeps_inv hN hmax ops _ (pool_inv_init ctx wsi0 cnt N) hops1
  have hfit := wait_fit_run hN hmax ops _ (fun _ => none) 0 (pool_inv_init ctx wsi0 cnt N)
    ⟨by simp [pt_init], by simp [pt_init]⟩ hops s hs
  refine ⟨s, hs, ?_⟩
  intro w a e au hah hex
  cases hscan : last_eligible ctx (detach_unbind ctx s w a true) s.ah_wait_list with
  | none =>
    obtain ⟨u, hu, helig⟩ := hex
    exact absurd helig (last_eligible_none hscan u hu)
  | some v =>
    obtain ⟨r, s6, h1, h2, h3, h4, h5, n0, n6, h6, h7, h8, -, h9⟩ :=
      detach_hands_over hN hinv e au hah hscan
    obtain ⟨helig, pre, post, hpp, hpost⟩ := last_eligible_some hscan
    have hv : v ∈ s.ah_wait_list := by rw [hpp]; simp
    obtain ⟨kv, hkv, -⟩ := hfit.1 v hv
    refine ⟨r, s6, v, kv, h1, hv, helig, hkv, ?_, ?_, ⟨n0, n6, h6, h7, h8, h9⟩, h4, ?_, h3⟩
    · intro u hu hue
      obtain ⟨ku, hku, -⟩ := hfit.1 u hu
      refine ⟨ku, hku, ?_⟩
      have hpw := hfit.2
      rw [hpp, List.pairwise_append] at hpw
      rw [hpp] at hu
      rcases List.mem_append.mp hu with hu | hu
      · have := hpw.2.2 u hu v (List.mem_cons_self _ _) ku kv hku hkv
        omega
      · rcases List.mem_cons.mp hu with rfl | hu
        · rw [hku] at hkv
          simp only [Option.some.injEq] at hkv
          omega
        · exact absurd hue (hpost u hu)
    · rw [h5 v, if_pos rfl]
    · rw [h4]; exact List.erase_sublist _ _

/-- On a full pool of `lws_context`, with every allocation succeeding, the
connections 5 and then 6 are parked; when 2 detaches its AH goes to 5, which
has been waiting longest. -/
theorem detach_hands_to_longest_waiting_witness :
    ∃ s, pool_run lws_context (pt_init (fun _ => conn_h1) fun _ => 0)
        [.attach 1 false env_ok, .attach 2 false env_ok, .attach 3 false env_ok,
          .attach 4 false env_ok, .attach 5 false env_ok, .attach 6 false env_ok] = some s ∧
      ∀ w a e au, (s.wsi w).ah = some a →
        (∃ u ∈ s.ah_wait_list, eligible lws_context (detach_unbind lws_context s w a true) u) →
        ∃ r s6 v kv, lws_header_table_detach lws_context e s w au = some (r, s6) ∧
          v ∈ s.ah_wait_list ∧ eligible lws_context (detach_unbind lws_context s w a true) v ∧
          waiting_since lws_context (fun _ => conn_h1) (fun _ => 0)
            [.attach 1 false env_ok, .attach 2 false env_ok, .attach 3 false env_ok,
              .attach 4 false env_ok, .attach 5 false env_ok, .attach 6 false env_ok] v =
            some kv ∧
          (∀ u ∈ s.ah_wait_list, eligible lws_context (detach_unbind lws_context s w a true) u →
            ∃ ku, waiting_since lws_context (fun _ => conn_h1) (fun _ => 0)
              [.attach 1 false env_ok, .attach 2 false env_ok, .attach 3 false env_ok,
                .attach 4 false env_ok, .attach 5 false env_ok, .attach 6 false env_ok] u =
              some ku ∧ kv ≤ ku) ∧
          (s6.wsi v).ah = some a ∧
          (∃ n0 n6, find_ah a s.ah_list = some n0 ∧ find_ah a s6.ah_list = some n6 ∧
            n6.wsi = some v ∧ n6.hdr = _lws_header_table_reset lws_context n0.hdr) ∧
          s6.ah_wait_list = s.ah_wait_list.erase v ∧
          s6.ah_wait_list.Sublist s.ah_wait_list ∧
          s6.ah_count_in_use = s.ah_count_in_use :=
  detach_hands_to_longest_waiting lws_context (fun _ => conn_h1) (fun _ => 0) 8 (by decide)
    (by decide) _ (by simp [op_ok, conn_h1, pool_op.can_allocate, env_ok])

/-- C3 (divergence). On a thread of `lws_context` (a pool of four AHs, every
parked connection eligible): connection 1 attaches and gets the AH at address
1; the attach of 5 (call 1), the attach of 6 (call 2) and a second attach of 5
(call 3) are admitted and cannot allocate, so each returns 1 with the wait list
`[5]`, `[6, 5]` and then `[5, 6]`: the failed retry has taken 5 off the list
and put it back at the head. Connection 5 has been waiting since call 1 and
6 since call 2, both are eligible, none holds an AH. When 1 detaches, the scan
takes the last eligible node of the list: the AH goes to 6, and 5, parked
earlier, stays on the wait list without an AH. -/
theorem C3_requeued_waiter_passed_over :
    pool_trace lws_context (pt_init (fun _ => conn_h1) fun _ => 0)
        (ops_requeue ++ [pool_op.detach 1 false env_ok]) =
      [some (0, []), some (1, [5]), some (1, [6, 5]), some (1, [5, 6]), some (0, [5])] ∧
    waiting_since lws_context (fun _ => conn_h1) (fun _ => 0) ops_requeue 5 = some 1 ∧
    waiting_since lws_context (fun _ => conn_h1) (fun _ => 0) ops_requeue 6 = some 2 ∧
    (pool_run lws_context (pt_init (fun _ => conn_h1) fun _ => 0) ops_requeue).map
        (fun s => (s.ah_wait_list, (s.wsi 1).ah, (s.wsi 5).ah, (s.wsi 6).ah,
          decide (eligible lws_context s 5), decide (eligible lws_context s 6))) =
      some ([5, 6], some 1, none, none, true, true) ∧
    (pool_run lws_context (pt_init (fun _ => conn_h1) fun _ => 0)
        (ops_requeue ++ [pool_op.detach 1 false env_ok])).map
        (fun s => (s.ah_wait_list, (s.wsi 1).ah, (s.wsi 5).ah, (s.wsi 6).ah)) =
      some ([5], none, none, some 1) ∧
    (pool_run lws_context (pt_init (fun _ => conn_h1) fun _ => 0)
        (ops_requeue ++ [pool_op.detach 1 false env_ok])).map
        (fun s => s.ah_list.map fun n => (n.addr, n.wsi)) = some [(1, some 6)] := by
  refine ⟨?_, ?_, ?_, ?_, ?_, ?_⟩ <;> decide!

/-! ## C6: chunking -/

theorem parse_byte_flags (ctx : Context) (wsi : lws) (x : Option AH) (ah : AH) (c : Nat) :
    lws_parse_byte ctx { wsi with ah := x } ah c = lws_parse_byte ctx wsi ah c := rfl

theorem set_parsing_complete_flags (ctx : Context) (wsi : lws) (x : Option AH) (ah : AH) :
    set_parsing_complete ctx { wsi with ah := x } ah = set_parsing_complete ctx wsi ah := rfl

theorem parse_loop_flags (ctx : Context) (wsi : lws) (x : Option AH) (cs : List Nat) :
    ∀ ah, parse_loop ctx { wsi with ah := x } cs ah = parse_loop ctx wsi cs ah := by
  induction cs with
  | nil => intro ah; rfl
  | cons c cs ih =>
    intro ah
    simp only [parse_loop, parse_byte_flags]
    cases lws_parse_byte ctx wsi ah c with
    | brk ah1 => exact ih ah1
    | fail ah1 => rfl
    | fallback ah1 => rfl
    | forbid ah1 => rfl
    | complete ah1 => rfl
    | hang => rfl

theorem set_parsing_complete_some (ctx : Context) (wsi : lws) (ah : AH)
    (r : lws_parser_return_t × lws) (h : set_parsing_complete ctx wsi ah = some r) :
    r.1 = LPR_FORBIDDEN ∨ (r.2.hdr_parsing_completed = true ∧
      ∃ a, r.2.ah = some a ∧ a.parser_state = ctx.tk.WSI_PARSING_COMPLETE) := by
  unfold set_parsing_complete at h
  by_cases hu : ah.ues ≠ URIES_IDLE
  · rw [if_pos hu] at h
    left
    rw [← Option.some.inj h]
    rfl
  · rw [if_neg hu] at h
    cases ht : ah.total_length ctx.tk.WSI_TOKEN_UPGRADE with
    | none => rw [ht] at h; simp at h
    | some tl =>
      rw [ht] at h
      right
      rw [← Option.some.inj h]
      exact ⟨rfl, _, rfl, rfl⟩

theorem parse_loop_split (ctx : Context) (wsi wsi1 : lws) (n : Nat) (S1 : List Nat) :
    ∀ ah, parse_loop ctx wsi S1 ah = some (LPR_OK, wsi1, n) →
      (wsi1.hdr_parsing_completed = false ∨
        ∀ ah1, wsi1.ah = some ah1 → ah1.parser_state ≠ ctx.tk.WSI_PARSING_COMPLETE) →
      ∃ ah1, wsi1 = { wsi with ah := some ah1 } ∧
        ∀ S2, parse_loop ctx wsi (S1 ++ S2) ah = parse_loop ctx wsi S2 ah1 := by
  induction S1 with
  | nil =>
    intro ah h _
    simp only [parse_loop, Option.some.injEq, Prod.mk.injEq, true_and] at h
    exact ⟨ah, h.1.symm, fun _ => rfl⟩
  | cons c cs ih =>
    intro ah h hnc
    simp only [parse_loop, List.cons_append] at h ⊢
    cases hstep : lws_parse_byte ctx wsi ah c with
    | brk ah1 =>
      rw [hstep] at h
      exact ih ah1 h hnc
    | fail ah1 => rw [hstep] at h; simp at h
    | fallback ah1 => rw [hstep] at h; simp at h
    | forbid ah1 => rw [hstep] at h; simp [forbid_label] at h
    | hang => rw [hstep] at h; simp at h
    | complete ah1 =>
      rw [hstep] at h
      simp only at h
      cases hsp : set_parsing_complete ctx wsi ah1 with
      | none => rw [hsp] at h; simp at h
      | some r =>
        rw [hsp] at h
        simp only [Option.some.injEq, Prod.mk.injEq] at h
        obtain ⟨hr, hw, -⟩ := h
        rcases set_parsing_complete_some ctx wsi ah1 r hsp with hfb | ⟨hc, a, ha, hs⟩
        · rw [hfb] at hr
          exact absurd hr (by decide)
        · rw [hw] at hc ha
          rcases hnc with hnc | hnc
          · rw [hnc] at hc
            exact absurd hc (by decide)
          · exact absurd hs (hnc a ha)

theorem parse_bytewise_loop (ctx : Context) (wsi : lws) (hf : wsi.hdr_parsing_completed = false)
    (S : List Nat) :
    ∀ ah, S ≠ [] → parse_bytewise ctx { wsi with ah := some ah } S =
      (parse_loop ctx wsi S ah).map fun r => (r.1, r.2.1) := by
  induction S with
  | nil => intro ah h; exact absurd rfl h
  | cons c cs ih =>
    intro ah _
    simp only [parse_bytewise, lws_parse, parse_loop, parse_byte_flags]
    cases hstep : lws_parse_byte ctx wsi ah c with
    | brk ah1 =>
      simp only
      rw [if_pos ⟨trivial, hf⟩]
      cases cs with
      | nil => rfl
      | cons d ds => exact ih ah1 (by simp)
    | fail ah1 => simp
    | fallback ah1 => simp
    | forbid ah1 => simp [forbid_label]
    | hang => rfl
    | complete ah1 =>
      simp only [set_parsing_complete_flags]
      cases hsp : set_parsing_complete ctx wsi ah1 with
      | none => rfl
      | some r =>
        simp only [Option.map_some']
        rcases set_parsing_complete_some ctx wsi ah1 r hsp with hfb | ⟨hc, -⟩
        · simp [hfb]
        · simp [hc]

theorem lws_eta (wsi : lws) (ah : AH) (h : wsi.ah = some ah) : { wsi with ah := some ah } = wsi := by
  cases wsi
  simp only at h
  subst h
  rfl

/-- C6. For every connection state, every byte stream split into two non-empty
parts `S1 ++ S2`: when `lws_parse` on `S1` returns `LPR_OK` (whatever it
leaves in `*len`) without having completed the headers (`hdr_parsing_completed` is
clear, or the parser state is not `WSI_PARSING_COMPLETE`), `lws_parse` on `S2`
run afterwards gives the same return value, the same connection and AH (frags,
frag_index, nfrag, pos, parser_state and all the rest) and the same `*len` as
one call on `S1 ++ S2`; and, starting with `hdr_parsing_completed` clear,
feeding the stream one byte per call gives the return value and the connection
state of the one call on the whole stream, wherever CR and LF fall. -/
theorem C6_chunking (ctx : Context) (wsi wsi1 : lws) (n : Nat) (S1 S2 : List Nat)
    (hS1 : S1 ≠ []) (_hS2 : S2 ≠ [])
    (h1 : lws_parse ctx wsi S1 = some (LPR_OK, wsi1, n))
    (hnc : wsi1.hdr_parsing_completed = false ∨
      ∀ ah1, wsi1.ah = some ah1 → ah1.parser_state ≠ ctx.tk.WSI_PARSING_COMPLETE) :
    lws_parse ctx wsi (S1 ++ S2) = lws_parse ctx wsi1 S2 ∧
    (wsi.hdr_parsing_completed = false →
      parse_bytewise ctx wsi (S1 ++ S2) =
        (lws_parse ctx wsi (S1 ++ S2)).map fun r => (r.1, r.2.1)) := by
  unfold lws_parse at h1 ⊢
  cases hah : wsi.ah with
  | none => rw [hah] at h1; simp at h1
  | some ah =>
    rw [hah] at h1
    simp only at h1 ⊢
    obtain ⟨ah1, hw1, hsplit⟩ := parse_loop_split ctx wsi wsi1 n S1 ah h1 hnc
    refine ⟨?_, ?_⟩
    · rw [hsplit S2, hw1]
      simp only [parse_loop_flags]
    · intro hf
      have := parse_bytewise_loop ctx wsi hf (S1 ++ S2) ah (by simp [hS1])
      rw [lws_eta wsi ah hah] at this
      exact this

theorem C6_chunking_witness :
    chunk_1 ≠ [] ∧ chunk_2 ≠ [] ∧
    lws_parse lws_context wsi_fresh chunk_1 = some (LPR_OK, after_chunk_1, 0) ∧
    after_chunk_1.hdr_parsing_completed = false ∧
    (lws_parse lws_context wsi_fresh (chunk_1 ++ chunk_2) =
        lws_parse lws_context after_chunk_1 chunk_2 ∧
      (wsi_fresh.hdr_parsing_completed = false →
        parse_bytewise lws_context wsi_fresh (chunk_1 ++ chunk_2) =
          (lws_parse lws_context wsi_fresh (chunk_1 ++ chunk_2)).map fun r => (r.1, r.2.1))) := by
  have hv : (lws_parse lws_context wsi_fresh chunk_1).map
      (fun r => (r.1, r.2.2, r.2.1.hdr_parsing_completed)) = some (LPR_OK, 0, false) := by
    decide!
  have h1 : lws_parse lws_context wsi_fresh chunk_1 = some (LPR_OK, after_chunk_1, 0) ∧
      after_chunk_1.hdr_parsing_completed = false := by
    unfold after_chunk_1
    cases h : lws_parse lws_context wsi_fresh chunk_1 with
    | none => rw [h] at hv; simp at hv
    | some r =>
      rw [h] at hv
      simp only [Option.map_some', Option.some.injEq, Prod.mk.injEq] at hv
      obtain ⟨a, b, c⟩ := hv
      refine ⟨?_, c⟩
      rw [← a, ← b]
  have n1 : chunk_1 ≠ [] := by decide
  have n2 : chunk_2 ≠ [] := by decide
  exact ⟨n1, n2, h1.1, h1.2,
    C6_chunking lws_context wsi_fresh after_chunk_1 0 chunk_1 chunk_2 n1 n2 h1.1 (Or.inl h1.2)⟩

/-- C10. `_lws_header_table_reset` leaves `ah->ues` as it is: the parse of
`GET /%z` ends in `LPR_FORBIDDEN` with `ues = URIES_SEEN_PERCENT`; after a
reset of that AH the parse of `GET / HTTP/1.1 CRLF CRLF` returns
`LPR_FORBIDDEN` (the `/` is taken for the byte after the `%`), whereas on a
freshly created, reset AH it returns `LPR_OK`. -/
theorem C10_reset_keeps_escape_state :
    (lws_parse lws_context wsi_fresh request_bad_escape).map (fun r => r.1) =
      some LPR_FORBIDDEN ∧
    (_lws_header_table_reset lws_context stale_ah).ues = URIES_SEEN_PERCENT ∧
    (lws_parse lws_context (h1_server (_lws_header_table_reset lws_context stale_ah))
      request_2).map (fun r => r.1) = some LPR_FORBIDDEN ∧
    (lws_parse lws_context wsi_fresh request_2).map (fun r => r.1) = some LPR_OK := by
  decide!

set_option maxRecDepth 100000 in
/-- C9. On `GET /` followed by 96 bytes `&` (with 96 fragment records) the last
`&` makes `lws_parse` return `LPR_FAIL`, and the AH it leaves has the chain of
`WSI_TOKEN_GET_URI` start at fragment 1 and end at index 96, which is
`LWS_ARRAY_SIZE(ah->frags)`: fragment 95 links to a record past the array. -/
theorem C9_link_past_last_fragment :
    (lws_parse lws_context wsi_fresh request_many_args).map (fun r => r.1) = some LPR_FAIL ∧
    ah_many_args.frag_index lws_tokens.WSI_TOKEN_GET_URI = 1 ∧
    (ah_many_args.frags 95).nfrag = 96 ∧
    chain_last ah_many_args.frags 256 1 = some 96 ∧
    lws_context.frags_size = 96 := by
  decide!

theorem moves_refl (ah : AH) : moves ah ah :=
  ⟨rfl, fun _ => rfl, fun _ _ => rfl, by omega, rfl, rfl, rfl⟩

theorem moves_trans {a b c : AH} (h1 : moves a b) (h2 : moves b c) : moves a c := by
  refine ⟨h2.nfrag.trans h1.nfrag, fun i => (h2.offset i).trans (h1.offset i), ?_, ?_,
    h2.unk_pos.trans h1.unk_pos, h2.parser_state.trans h1.parser_state,
    h2.lextable_pos.trans h1.lextable_pos⟩
  · intro i hi
    rw [h2.len i (by rw [h1.nfrag]; exact hi), h1.len i hi]
  · have s1 := h1.slack
    have s2 := h2.slack
    rw [h1.nfrag] at s2
    omega

theorem moves_of_eq {ah a : AH} (h1 : a.frags = ah.frags) (h2 : a.nfrag = ah.nfrag)
    (h3 : a.pos = ah.pos) (h4 : a.unk_pos = ah.unk_pos)
    (h5 : a.parser_state = ah.parser_state) (h6 : a.lextable_pos = ah.lextable_pos) :
    moves ah a :=
  ⟨h2, fun i => by rw [h1], fun i _ => by rw [h1], by rw [h1, h3]; omega, h4, h5, h6⟩

theorem weak_of_vcore {ctx : Context} {ah : AH} (h : vcore ctx ah) : weak_inv ctx ah := h.1

theorem vcore_of_moves {ctx : Context} {ah a : AH} (h : vcore ctx ah) (m : moves ah a)
    (hp : a.pos ≤ ctx.max_http_header_data + 1) : vcore ctx a := by
  obtain ⟨⟨-, ha⟩, hb⟩ := h
  have hs := m.slack
  have key : ∀ i, i ≠ ah.nfrag → frag_end (a.frags i) + (a.frags ah.nfrag).len ≤ a.pos := by
    intro i hi
    have := hb i hi
    unfold frag_end at this ⊢
    rw [m.offset i, m.len i hi]
    omega
  refine ⟨⟨hp, ?_⟩, ?_⟩
  · intro i
    by_cases hi : i = ah.nfrag
    · subst hi
      have := ha ah.nfrag
      unfold frag_end at this ⊢
      rw [m.offset]
      omega
    · have := key i hi
      omega
  · intro i hi
    rw [m.nfrag] at hi ⊢
    exact key i hi

theorem weak_of_moves {ctx : Context} {ah a : AH} (h : vcore ctx ah) (m : moves ah a)
    (hp : a.pos ≤ ctx.max_http_header_data + 1) : weak_inv ctx a :=
  (vcore_of_moves h m hp).1

theorem moves_put (ah : AH) (c : Nat) (hp : ah.pos < 4294967295) : moves ah (ah.put c) := by
  refine ⟨rfl, fun _ => rfl, fun _ _ => rfl, ?_, rfl, rfl, rfl⟩
  simp only [AH.put, inc32]
  omega

theorem moves_put_inc (ah : AH) (c : Nat) (hp : ah.pos < 4294967295) :
    moves ah (ah.put c).len_inc := by
  refine ⟨rfl, ?_, ?_, ?_, rfl, rfl, rfl⟩
  · intro i
    by_cases hi : i = ah.nfrag <;> simp [AH.put, AH.len_inc, upd, hi]
  · intro i hi
    simp [AH.put, AH.len_inc, upd, hi]
  · simp only [AH.put, AH.len_inc, upd, inc32, inc16, if_true]
    omega

theorem moves_put_inc_dec (ah : AH) (c : Nat) (hp : ah.pos < 4294967295) :
    moves ah (ah.put c).len_inc.len_dec := by
  refine ⟨rfl, ?_, ?_, ?_, rfl, rfl, rfl⟩
  · intro i
    by_cases hi : i = ah.nfrag <;> simp [AH.put, AH.len_inc, AH.len_dec, upd, hi]
  · intro i hi
    simp [AH.put, AH.len_inc, AH.len_dec, upd, hi]
  · simp only [AH.put, AH.len_inc, AH.len_dec, upd, inc32, inc16, dec16, if_true]
    omega

theorem moves_len_dec (ah : AH) (hl : 1 ≤ (ah.frags ah.nfrag).len) : moves ah ah.len_dec := by
  refine ⟨rfl, ?_, ?_, ?_, rfl, rfl, rfl⟩
  · intro i
    by_cases hi : i = ah.nfrag <;> simp [AH.len_dec, upd, hi]
  · intro i hi
    simp [AH.len_dec, upd, hi]
  · simp only [AH.len_dec, upd, dec16, if_true]
    omega

theorem moves_back (ah : AH) (hl : 1 ≤ (ah.frags ah.nfrag).len) (hp : 1 ≤ ah.pos)
    (hq : ah.pos < 4294967296) :
    moves ah ({ ah with pos := dec32 ah.pos } : AH).len_dec := by
  refine ⟨rfl, ?_, ?_, ?_, rfl, rfl, rfl⟩
  · intro i
    by_cases hi : i = ah.nfrag <;> simp [AH.len_dec, upd, hi]
  · intro i hi
    simp [AH.len_dec, upd, hi]
  · simp only [AH.len_dec, upd, dec16, dec32, if_true]
    omega

theorem in_bounds_iff (ctx : Context) (ah : AH) :
    lws_pos_in_bounds ctx ah = 0 ↔ ah.pos < ctx.max_http_header_data := by
  unfold lws_pos_in_bounds
  by_cases h : ah.pos < ctx.max_http_header_data
  · simp [h]
  · simp only [h, if_false, iff_false]
    split <;> decide

theorem issue_char_spec (ctx : Context) (ah : AH) (c : Nat)
    (hC : ctx.max_http_header_data + 1 < 4294967296) :
    moves ah (issue_char ctx ah c).2 ∧
    ((issue_char ctx ah c).1 < 0 → (issue_char ctx ah c).2 = ah) ∧
    (0 ≤ (issue_char ctx ah c).1 →
      (issue_char ctx ah c).2.pos ≤ ctx.max_http_header_data ∧
      moves ah (issue_char ctx ah c).2.len_dec) ∧
    (ah.pos ≤ ctx.max_http_header_data + 1 →
      (issue_char ctx ah c).2.pos ≤ ctx.max_http_header_data + 1) := by
  by_cases hb : lws_pos_in_bounds ctx ah = 0
  · have hlt := (in_bounds_iff ctx ah).mp hb
    have hp : ah.pos < 4294967295 := by omega
    have hput : ∀ d, (ah.put d).pos = ah.pos + 1 := by
      intro d
      simp only [AH.put, inc32]
      omega
    by_cases h1 : ah.current_token_limit = 0 ∨ (ah.frags ah.nfrag).len < ah.current_token_limit
    · have e : issue_char ctx ah c = (0, (ah.put c).len_inc) := by
        unfold issue_char
        simp [hb, h1]
      rw [e]
      have hq : ((ah.put c).len_inc).pos = ah.pos + 1 := hput c
      refine ⟨moves_put_inc ah c hp, fun h => ?_,
        fun _ => ⟨?_, moves_put_inc_dec ah c hp⟩, fun _ => ?_⟩
      · simp at h
      · show ((ah.put c).len_inc).pos ≤ _
        omega
      · show ((ah.put c).len_inc).pos ≤ _
        omega
    · have hl : 1 ≤ (ah.frags ah.nfrag).len := by omega
      have h1a : ¬ah.current_token_limit = 0 := fun h => h1 (Or.inl h)
      have h1b : ¬(ah.frags ah.nfrag).len < ah.current_token_limit := fun h => h1 (Or.inr h)
      by_cases h2 : (ah.frags ah.nfrag).len = ah.current_token_limit
      · have e : issue_char ctx ah c = (1, ah.put 0) := by
          unfold issue_char
          simp [hb, h1a, h1b, h2]
        rw [e]
        have hl2 : 1 ≤ ((ah.put 0).frags (ah.put 0).nfrag).len := hl
        refine ⟨moves_put ah 0 hp, fun h => ?_,
          fun _ => ⟨?_, moves_trans (moves_put ah 0 hp) (moves_len_dec _ hl2)⟩, fun _ => ?_⟩
        · simp at h
        · show (ah.put 0).pos ≤ _
          rw [hput 0]
          omega
        · show (ah.put 0).pos ≤ _
          rw [hput 0]
          omega
      · have e : issue_char ctx ah c = (1, ah) := by
          unfold issue_char
          simp [hb, h1a, h1b, h2]
        rw [e]
        refine ⟨moves_refl ah, fun h => ?_, fun _ => ⟨?_, moves_len_dec ah hl⟩, fun h => h⟩
        · simp at h
        · show ah.pos ≤ _
          omega
  · have e : issue_char ctx ah c = (-1, ah) := by
      unfold issue_char
      simp [hb]
    rw [e]
    refine ⟨moves_refl ah, fun _ => rfl, fun h => ?_, fun h => h⟩
    simp at h

theorem vcore_fresh (ctx : Context) (a : AH) (hp : a.pos ≤ ctx.max_http_header_data + 1)
    (h0 : (a.frags a.nfrag).len = 0) (hoff : (a.frags a.nfrag).offset ≤ a.pos)
    (hf : ∀ i, i ≠ a.nfrag → frag_end (a.frags i) ≤ a.pos) : vcore ctx a := by
  refine ⟨⟨hp, ?_⟩, ?_⟩
  · intro i
    by_cases hi : i = a.nfrag
    · subst hi
      unfold frag_end
      omega
    · exact hf i hi
  · intro i hi
    have := hf i hi
    omega

theorem back_step (ah : AH) (h1 : 1 ≤ (ah.frags ah.nfrag).len)
    (hle : (ah.frags ah.nfrag).len ≤ ah.pos) (hq : ah.pos < 4294967296) :
    ∃ d, d = ({ ah with pos := dec32 ah.pos } : AH).len_dec ∧ moves ah d ∧ d.pos = ah.pos - 1 ∧
      (d.frags d.nfrag).len ≤ (ah.frags ah.nfrag).len - 1 := by
  refine ⟨_, rfl, moves_back ah h1 (by omega) hq, ?_, ?_⟩
  · simp only [AH.len_dec, dec32]
    omega
  · simp only [AH.len_dec, upd, dec16, if_true]
    omega

theorem back_up_loop_moves (fuel : Nat) : ∀ ah : AH, 1 ≤ (ah.frags ah.nfrag).len →
    (ah.frags ah.nfrag).len ≤ ah.pos → ah.pos < 4294967296 →
    moves ah (back_up_loop fuel ah) ∧ (back_up_loop fuel ah).pos ≤ ah.pos := by
  induction fuel with
  | zero => intro ah _ _ _; exact ⟨moves_refl ah, le_refl _⟩
  | succ fuel ih =>
    intro ah h2 hle hq
    obtain ⟨d, hd, m1, hpos, hlen⟩ := back_step ah (by omega) hle hq
    unfold back_up_loop
    simp only
    rw [← hd]
    split
    · rename_i hc
      obtain ⟨m2, hp2⟩ := ih d (by omega) (by omega) (by omega)
      exact ⟨moves_trans m1 m2, by omega⟩
    · exact ⟨m1, by omega⟩

theorem back_up_one_dir_moves (ah : AH) (hle : (ah.frags ah.nfrag).len ≤ ah.pos)
    (hq : ah.pos < 4294967296) :
    moves ah (back_up_one_dir ah) ∧ (back_up_one_dir ah).pos ≤ ah.pos := by
  unfold back_up_one_dir
  split
  · rename_i h2
    obtain ⟨d, hd, m1, hpos, hlen⟩ := back_step ah (by omega) hle hq
    simp only
    rw [← hd]
    by_cases h3 : 1 ≤ (d.frags d.nfrag).len
    · obtain ⟨m2, hp2⟩ := back_up_loop_moves (d.frags d.nfrag).len d h3 (by omega) (by omega)
      exact ⟨moves_trans m1 m2, by omega⟩
    · have h0 : (d.frags d.nfrag).len = 0 := by omega
      rw [h0]
      exact ⟨m1, by rw [back_up_loop]; omega⟩
  · exact ⟨moves_refl ah, le_refl _⟩

theorem vcore_len_le {ctx : Context} {ah : AH} (h : vcore ctx ah) :
    (ah.frags ah.nfrag).len ≤ ah.pos := by
  have := h.1.2 ah.nfrag
  unfold frag_end at this
  omega

theorem vcore_congr {ctx : Context} {a b : AH} (h : vcore ctx b) (h1 : a.frags = b.frags)
    (h2 : a.nfrag = b.nfrag) (h3 : a.pos = b.pos) : vcore ctx a := by
  unfold vcore weak_inv at h ⊢
  rw [h1, h2, h3]
  exact h

theorem weak_congr {ctx : Context} {a b : AH} (h : weak_inv ctx b)
    (h1 : ∀ i, frag_end (a.frags i) = frag_end (b.frags i)) (h3 : a.pos = b.pos) :
    weak_inv ctx a := by
  unfold weak_inv at h ⊢
  rw [h3]
  exact ⟨h.1, fun i => by rw [h1 i]; exact h.2 i⟩

theorem issue_dec (ctx : Context) (ah : AH) (c : Nat)
    (hC : ctx.max_http_header_data + 1 < 4294967296) (hv : vcore ctx ah)
    (h0 : 0 ≤ (issue_char ctx ah c).1) :
    vcore ctx (issue_char ctx ah c).2.len_dec ∧
    (issue_char ctx ah c).2.len_dec.pos ≤ ctx.max_http_header_data ∧
    moves ah (issue_char ctx ah c).2.len_dec := by
  obtain ⟨-, -, h3, -⟩ := issue_char_spec ctx ah c hC
  obtain ⟨hp, m⟩ := h3 h0
  have hp2 : (issue_char ctx ah c).2.len_dec.pos ≤ ctx.max_http_header_data := hp
  exact ⟨vcore_of_moves hv m (by omega), hp2, m⟩

theorem issue_keep (ctx : Context) (ah : AH) (c : Nat)
    (hC : ctx.max_http_header_data + 1 < 4294967296) (hv : vcore ctx ah) :
    vcore ctx (issue_char ctx ah c).2 ∧ moves ah (issue_char ctx ah c).2 := by
  obtain ⟨m, -, -, h4⟩ := issue_char_spec ctx ah c hC
  exact ⟨vcore_of_moves hv m (h4 hv.1.1), m⟩

theorem open_after_delimiter_vcore (ctx : Context) (ah : AH)
    (hC : ctx.max_http_header_data + 1 < 4294967296) (hw : weak_inv ctx ah)
    (hp : ah.pos ≤ ctx.max_http_header_data) : vcore ctx (open_after_delimiter ah) := by
  have hpos : (open_after_delimiter ah).pos = ah.pos + 1 := by
    simp only [open_after_delimiter, inc32]
    omega
  apply vcore_fresh
  · omega
  · simp [open_after_delimiter, upd]
  · simp [open_after_delimiter, upd]
  · intro i hi
    have hi2 : i ≠ ah.nfrag := hi
    have := hw.2 i
    rw [hpos]
    simp only [open_after_delimiter, upd, hi2, if_false]
    omega

theorem udec_post_of_moves {ctx : Context} {ah b : AH}
    {r : lws_parse_urldecode_results × AH × Nat} (m : moves ah b) (h : udec_post ctx b r) :
    udec_post ctx ah r :=
  ⟨h.1, h.2.1, h.2.2.1.trans m.unk_pos, h.2.2.2.1.trans m.parser_state,
    h.2.2.2.2.trans m.lextable_pos⟩

theorem urldecode_query_post (ctx : Context) (ah : AH) (c : Nat) (enc : Bool)
    (hC : ctx.max_http_header_data + 1 < 4294967296) (hv : vcore ctx ah) :
    udec_post ctx ah (urldecode_query ctx ah c enc) := by
  unfold urldecode_query
  split
  · split
    · exact ⟨hv.1, fun h => by simp at h, rfl, rfl, rfl⟩
    · simp only
      split
      · rename_i hneg
        have := (issue_char_spec ctx ah 0 hC).2.1 hneg
        rw [this]
        exact ⟨hv.1, fun h => by simp at h, rfl, rfl, rfl⟩
      · rename_i hneg
        obtain ⟨hv1, hp1, m1⟩ := issue_dec ctx ah 0 hC hv (by omega)
        split
        · exact ⟨weak_congr hv1.1 (fun _ => rfl) rfl, fun h => by simp at h, m1.unk_pos,
            m1.parser_state, m1.lextable_pos⟩
        · have hv3 := open_after_delimiter_vcore ctx
            { (issue_char ctx ah 0).2.len_dec with
              nfrag := inc8 (issue_char ctx ah 0).2.len_dec.nfrag } hC
            (weak_congr hv1.1 (fun _ => rfl) rfl) hp1
          exact ⟨(vcore_congr hv3 rfl rfl rfl).1, fun _ => vcore_congr hv3 rfl rfl rfl,
            m1.unk_pos, m1.parser_state, m1.lextable_pos⟩
  · exact ⟨hv.1, fun _ => hv, rfl, rfl, rfl⟩

theorem udec_of {ctx : Context} {ah a : AH} (res : lws_parse_urldecode_results) (c : Nat)
    (hv : vcore ctx a) (m : moves ah a) : udec_post ctx ah (res, a, c) :=
  ⟨hv.1, fun _ => hv, m.unk_pos, m.parser_state, m.lextable_pos⟩

theorem udec_weak {ctx : Context} {ah a : AH} (res : lws_parse_urldecode_results) (c : Nat)
    (hr : res ≠ LPUR_CONTINUE ∧ res ≠ LPUR_SWALLOW) (hw : weak_inv ctx a) (m : moves ah a) :
    udec_post ctx ah (res, a, c) :=
  ⟨hw, fun h => by rcases h with h | h <;> simp_all, m.unk_pos, m.parser_state, m.lextable_pos⟩

theorem udec_query_of {ctx : Context} {ah a : AH} (c : Nat) (enc : Bool)
    (hC : ctx.max_http_header_data + 1 < 4294967296) (hv : vcore ctx a) (m : moves ah a) :
    udec_post ctx ah (urldecode_query ctx a c enc) :=
  udec_post_of_moves m (urldecode_query_post ctx a c enc hC hv)

theorem frag_end_link (f : Nat → Frag) (n x i : Nat) :
    frag_end (upd f n { f n with nfrag := x } i) = frag_end (f i) := by
  by_cases hi : i = n
  · subst hi
    simp [upd, frag_end]
  · simp [upd, hi]

theorem urldecode_path_post (ctx : Context) (ah : AH) (c : Nat) (enc : Bool)
    (hC : ctx.max_http_header_data + 1 < 4294967296) (hv : vcore ctx ah) :
    udec_post ctx ah (urldecode_path ctx ah c enc) := by
  unfold urldecode_path
  split
  · exact udec_weak _ _ (by simp) hv.1 (moves_refl ah)
  · split
    · -- URIPS_IDLE
      split
      · simp only
        split
        · rename_i hneg
          rw [(issue_char_spec ctx ah 0 hC).2.1 hneg]
          exact udec_weak _ _ (by simp) hv.1 (moves_refl ah)
        · obtain ⟨hv1, hp1, m1⟩ := issue_dec ctx ah 0 hC hv (by omega)
          have hw3 : ∀ a : AH, a.pos = (issue_char ctx ah 0).2.len_dec.pos →
              (∀ i, frag_end (a.frags i) = frag_end ((issue_char ctx ah 0).2.len_dec.frags i)) →
              weak_inv ctx a := fun a h1 h2 => weak_congr hv1.1 h2 h1
          split
          · refine ⟨hw3 _ rfl (fun i => frag_end_link _ _ _ i), fun h => by simp at h,
              m1.unk_pos, m1.parser_state, m1.lextable_pos⟩
          · have hv3 := open_after_delimiter_vcore ctx _ hC
              (hw3 { { (issue_char ctx ah 0).2.len_dec with
                  frags := upd (issue_char ctx ah 0).2.len_dec.frags
                    (issue_char ctx ah 0).2.len_dec.nfrag
                    { (issue_char ctx ah 0).2.len_dec.frags (issue_char ctx ah 0).2.len_dec.nfrag with
                      nfrag := ((issue_char ctx ah 0).2.len_dec.nfrag + 1) % 256 },
                  nfrag := inc8 (issue_char ctx ah 0).2.len_dec.nfrag } with
                post_literal_equal := 0 } rfl (fun i => frag_end_link _ _ _ i)) hp1
            exact ⟨hv3.1, fun _ => hv3, m1.unk_pos, m1.parser_state, m1.lextable_pos⟩
      · simp only
        have key : ∀ (a : AH) (c1 : Nat), a.frags = ah.frags → a.nfrag = ah.nfrag →
            a.pos = ah.pos → a.unk_pos = ah.unk_pos → a.parser_state = ah.parser_state →
            a.lextable_pos = ah.lextable_pos →
            udec_post ctx ah (urldecode_query ctx a c1 enc) :=
          fun a c1 h1 h2 h3 h4 h5 h6 =>
            udec_query_of c1 enc hC (vcore_congr hv h1 h2 h3) (moves_of_eq h1 h2 h3 h4 h5 h6)
        apply key <;> (split_ifs <;> rfl)
    · -- URIPS_SEEN_SLASH
      split
      · exact udec_of _ _ hv (moves_refl ah)
      · split
        · exact udec_of _ _ (vcore_congr hv rfl rfl rfl) (moves_of_eq rfl rfl rfl rfl rfl rfl)
        · exact udec_query_of c enc hC (vcore_congr hv rfl rfl rfl)
            (moves_of_eq rfl rfl rfl rfl rfl rfl)
    · -- URIPS_SEEN_SLASH_DOT
      split
      · exact udec_of _ _ (vcore_congr hv rfl rfl rfl) (moves_of_eq rfl rfl rfl rfl rfl rfl)
      · split
        · exact udec_of _ _ (vcore_congr hv rfl rfl rfl) (moves_of_eq rfl rfl rfl rfl rfl rfl)
        · simp only
          have hva : vcore ctx { ah with ups := URIPS_IDLE } := vcore_congr hv rfl rfl rfl
          have hma : moves ah { ah with ups := URIPS_IDLE } :=
            moves_of_eq rfl rfl rfl rfl rfl rfl
          obtain ⟨hv1, m1⟩ := issue_keep ctx { ah with ups := URIPS_IDLE } 46 hC hva
          split
          · exact udec_weak _ _ (by simp) hv1.1 (moves_trans hma m1)
          · exact udec_query_of c enc hC hv1 (moves_trans hma m1)
    · -- URIPS_SEEN_SLASH_DOT_DOT
      split
      · obtain ⟨mb, hpb⟩ := back_up_one_dir_moves ah (vcore_len_le hv) (by have := hv.1.1; omega)
        have hvb : vcore ctx (back_up_one_dir ah) :=
          vcore_of_moves hv mb (by have := hv.1.1; omega)
        have hv1 : vcore ctx { back_up_one_dir ah with ups := URIPS_SEEN_SLASH } :=
          vcore_congr hvb rfl rfl rfl
        have m1 : moves ah { back_up_one_dir ah with ups := URIPS_SEEN_SLASH } :=
          moves_trans mb (moves_of_eq rfl rfl rfl rfl rfl rfl)
        simp only
        split
        · exact udec_query_of c enc hC hv1 m1
        · exact udec_of _ _ hv1 m1
      · simp only
        obtain ⟨hv1, m1⟩ := issue_keep ctx ah 46 hC hv
        split
        · exact udec_weak _ _ (by simp) hv1.1 m1
        · obtain ⟨hv2, m2⟩ := issue_keep ctx (issue_char ctx ah 46).2 46 hC hv1
          split
          · exact udec_weak _ _ (by simp) hv2.1 (moves_trans m1 m2)
          · exact udec_query_of c enc hC (vcore_congr hv2 rfl rfl rfl)
              (moves_trans (moves_trans m1 m2) (moves_of_eq rfl rfl rfl rfl rfl rfl))

theorem lws_parse_urldecode_post (ctx : Context) (ah : AH) (c : Nat)
    (hC : ctx.max_http_header_data + 1 < 4294967296) (hv : vcore ctx ah) :
    udec_post ctx ah (lws_parse_urldecode ctx ah c) := by
  unfold lws_parse_urldecode
  split
  · split
    · exact udec_of _ _ (vcore_congr hv rfl rfl rfl) (moves_of_eq rfl rfl rfl rfl rfl rfl)
    · exact urldecode_path_post ctx ah c false hC hv
  · split
    · exact udec_weak _ _ (by simp) hv.1 (moves_refl ah)
    · exact udec_of _ _ (vcore_congr hv rfl rfl rfl) (moves_of_eq rfl rfl rfl rfl rfl rfl)
  · split
    · exact udec_weak _ _ (by simp) hv.1 (moves_refl ah)
    · exact udec_post_of_moves (moves_of_eq rfl rfl rfl rfl rfl rfl)
        (urldecode_path_post ctx { ah with ues := URIES_IDLE } _ true hC
          (vcore_congr hv rfl rfl rfl))

theorem inv_of_vgood {ctx : Context} {S : List Nat} {a : AH} (wsi : lws) (h : vgood ctx S a) :
    parse_inv ctx S wsi a := by
  obtain ⟨hv, hu, hn⟩ := h
  refine ⟨hv.1, fun _ => hv.2, by omega, fun h => absurd hu h, fun _ => hu, fun _ => hu, hn⟩

theorem not_name_of_value {ctx : Context} {a : AH} (h : in_value_part ctx a) :
    ¬in_name_part ctx a := fun hn => h.2.1 hn.2

theorem vgood_of_inv {ctx : Context} {S : List Nat} {wsi : lws} {a : AH}
    (h : parse_inv ctx S wsi a) (hv : in_value_part ctx a) : vgood ctx S a :=
  ⟨⟨h.1, h.2.1 hv⟩, h.2.2.2.2.1 hv, h.2.2.2.2.2.2⟩

theorem inv_to_complete {ctx : Context} {S : List Nat} {wsi : lws} {a : AH}
    (hT : tokens_apart ctx) (hw : weak_inv ctx a) (h1 : a.unk_pos ≤ a.pos)
    (h2 : a.unk_pos ≠ 0 → ∀ i, frag_end (a.frags i) ≤ a.unk_pos)
    (h3 : wsi.mux_substream = true → a.unk_pos = 0) :
    parse_inv ctx S wsi { a with parser_state := ctx.tk.WSI_PARSING_COMPLETE } := by
  have hv : ¬in_value_part ctx { a with parser_state := ctx.tk.WSI_PARSING_COMPLETE } :=
    fun h => h.2.2.2.2 rfl
  have hn : ¬in_name_part ctx { a with parser_state := ctx.tk.WSI_PARSING_COMPLETE } :=
    fun h => hT.2.2.2 h.2
  exact ⟨hw, fun h => absurd h hv, h1, h2, fun h => absurd h hv, h3, fun h => absurd h hn⟩

theorem inv_complete_of_inv {ctx : Context} {S : List Nat} {wsi : lws} {a : AH}
    (hT : tokens_apart ctx) (h : parse_inv ctx S wsi a) :
    parse_inv ctx S wsi { a with parser_state := ctx.tk.WSI_PARSING_COMPLETE } :=
  inv_to_complete hT h.1 h.2.2.1 h.2.2.2.1 h.2.2.2.2.2.1

theorem swallow_post {ctx : Context} {S : List Nat} (wsi : lws) {a : AH}
    (hT : tokens_apart ctx) (h : parse_inv ctx S wsi a) :
    step_post ctx S wsi (swallow_label ctx a) := by
  unfold swallow_label
  split
  · exact inv_complete_of_inv hT h
  · exact h

theorem vgood_of_moves {ctx : Context} {S : List Nat} {a b : AH} (h : vgood ctx S a)
    (m : moves a b) (hp : b.pos ≤ ctx.max_http_header_data + 1) : vgood ctx S b := by
  refine ⟨vcore_of_moves h.1 m hp, m.unk_pos.trans h.2.1, ?_⟩
  intro hn
  have : in_name_part ctx a := by
    unfold in_name_part at hn ⊢
    rw [← m.parser_state]
    exact hn
  rw [m.lextable_pos]
  exact h.2.2 this

theorem vgood_of_vcore {ctx : Context} {S : List Nat} {a b : AH} (h : vgood ctx S a)
    (hv : vcore ctx b) (h1 : b.unk_pos = a.unk_pos) (h2 : b.parser_state = a.parser_state)
    (h3 : b.lextable_pos = a.lextable_pos) : vgood ctx S b := by
  refine ⟨hv, h1.trans h.2.1, ?_⟩
  intro hn
  have : in_name_part ctx a := by
    unfold in_name_part at hn ⊢
    rw [← h2]
    exact hn
  rw [h3]
  exact h.2.2 this

theorem moves_link (a : AH) (m x : Nat) :
    moves a { a with frags := upd a.frags m { a.frags m with nfrag := x } } := by
  refine ⟨rfl, ?_, ?_, ?_, rfl, rfl, rfl⟩
  · intro i
    by_cases hi : i = m
    · subst hi
      simp [upd]
    · simp [upd, hi]
  · intro i _
    by_cases hi : i = m
    · subst hi
      simp [upd]
    · simp [upd, hi]
  · by_cases hi : a.nfrag = m
    · simp only [upd, hi, if_true]
      omega
    · simp only [upd, hi, if_false]
      omega

theorem excessive_post (ctx : Context) (S : List Nat) (wsi : lws) (ah : AH)
    (hC : ctx.max_http_header_data + 1 < 4294967296)
    (hw : weak_inv ctx ah) (hu : ah.unk_pos = 0) (hn : ¬in_name_part ctx ah) :
    step_post ctx S wsi (excessive_label ctx ah) := by
  unfold excessive_label
  split
  · exact hw
  · have hv1 : vcore ctx { ah with
        frags := upd ah.frags ah.nfrag
          { ah.frags ah.nfrag with offset := ah.pos, len := 0, nfrag := 0, flags := 2 } } := by
      apply vcore_fresh
      · exact hw.1
      · simp [upd]
      · simp [upd]
      · intro i hi
        have hi2 : i ≠ ah.nfrag := hi
        have := hw.2 i
        simp only [upd, hi2, if_false]
        exact this
    simp only
    split
    · exact inv_of_vgood wsi ⟨vcore_congr hv1 rfl rfl rfl, hu, fun h => absurd h hn⟩
    · split
      · trivial
      · rename_i m _
        have hv2 := vcore_of_moves hv1 (moves_link _ m ah.nfrag) hw.1
        obtain ⟨hv3, m3⟩ := issue_keep ctx _ 32 hC hv2
        split
        · exact hv3.1
        · refine inv_of_vgood wsi ⟨hv3, m3.unk_pos.trans hu, fun h => absurd ?_ hn⟩
          unfold in_name_part at h ⊢
          rw [m3.parser_state] at h
          exact h

theorem start_fragment_post (ctx : Context) (S : List Nat) (wsi : lws) (ah : AH)
    (hC : ctx.max_http_header_data + 1 < 4294967296)
    (hw : weak_inv ctx ah) (hu : ah.unk_pos = 0) (hn : ¬in_name_part ctx ah) :
    step_post ctx S wsi (start_fragment ctx ah) := by
  unfold start_fragment
  exact excessive_post ctx S wsi _ hC (weak_congr hw (fun _ => rfl) rfl) hu hn

theorem check_eol_tail (ctx : Context) (S : List Nat) (wsi : lws) (ah1 : AH) (c1 : Nat)
    (hC : ctx.max_http_header_data + 1 < 4294967296) (hT : tokens_apart ctx)
    (hg : vgood ctx S ah1) :
    step_post ctx S wsi
      (if (issue_char ctx ah1 c1).1 < 0 then .fail (issue_char ctx ah1 c1).2
      else if 0 < (issue_char ctx ah1 c1).1 then
        swallow_label ctx
          { (issue_char ctx ah1 c1).2 with parser_state := ctx.tk.WSI_TOKEN_SKIPPING }
      else if c1 = 0 ∧ (issue_char ctx ah1 c1).2.parser_state ≠ ctx.tk.WSI_TOKEN_HTTP_URI_ARGS then
        swallow_label ctx (issue_char ctx ah1 c1).2.len_dec
      else swallow_label ctx (issue_char ctx ah1 c1).2) := by
  obtain ⟨hv, m⟩ := issue_keep ctx ah1 c1 hC hg.1
  split
  · exact hv.1
  · rename_i hneg
    split
    · apply swallow_post wsi hT
      apply inv_of_vgood
      refine ⟨vcore_congr hv rfl rfl rfl, m.unk_pos.trans hg.2.1, fun h => absurd h.2 hT.2.1⟩
    · split
      · obtain ⟨hv2, -, m2⟩ := issue_dec ctx ah1 c1 hC hg.1 (by omega)
        exact swallow_post wsi hT (inv_of_vgood wsi (vgood_of_moves hg m2 hv2.1.1))
      · exact swallow_post wsi hT (inv_of_vgood wsi (vgood_of_moves hg m hv.1.1))

theorem check_eol_post (ctx : Context) (S : List Nat) (wsi : lws) (ah : AH) (c : Nat)
    (hC : ctx.max_http_header_data + 1 < 4294967296) (hT : tokens_apart ctx) (hS : 0 ∈ S)
    (hg : vgood ctx S ah) (hn : ¬in_name_part ctx ah) :
    step_post ctx S wsi (check_eol ctx ah c) := by
  unfold check_eol
  split
  · exact hg.1.1
  · apply check_eol_tail ctx S wsi _ _ hC hT
    split
    · split
      · exact ⟨vcore_congr hg.1 rfl rfl rfl, rfl, fun _ => Or.inr hS⟩
      · exact ⟨vcore_congr hg.1 rfl rfl rfl, hg.2.1, fun h => absurd h.2 hT.2.2.1⟩
    · exact ⟨hg.1, hg.2.1, fun h => absurd h hn⟩

theorem value_part_post (ctx : Context) (S : List Nat) (wsi : lws) (ah : AH) (c : Nat)
    (hC : ctx.max_http_header_data + 1 < 4294967296) (hT : tokens_apart ctx) (hS : 0 ∈ S)
    (hg : vgood ctx S ah) (hn : ¬in_name_part ctx ah) :
    step_post ctx S wsi (value_part ctx ah c) := by
  have hnn : ∀ a : AH, a.parser_state = ah.parser_state → ¬in_name_part ctx a := by
    intro a ha h
    apply hn
    unfold in_name_part at h ⊢
    rw [← ha]
    exact h
  unfold value_part
  split
  · exact inv_of_vgood wsi hg
  · split
    · exact check_eol_post ctx S wsi ah c hC hT hS hg hn
    · split
      · -- the space that ends the URI
        have g0 : vgood ctx S
            (if (ah.frags ah.nfrag).len = 0 then issue_char ctx ah 47 else (0, ah)).2 ∧
            ((if (ah.frags ah.nfrag).len = 0 then issue_char ctx ah 47 else (0, ah)).1 < 0 →
              weak_inv ctx (if (ah.frags ah.nfrag).len = 0 then issue_char ctx ah 47
                else (0, ah)).2) := by
          split
          · obtain ⟨hv, m⟩ := issue_keep ctx ah 47 hC hg.1
            exact ⟨vgood_of_moves hg m hv.1.1, fun _ => hv.1⟩
          · exact ⟨hg, fun _ => hg.1.1⟩
        simp only
        generalize (if (ah.frags ah.nfrag).len = 0 then issue_char ctx ah 47 else (0, ah)) = r0
          at g0 ⊢
        obtain ⟨g0, w0⟩ := g0
        split
        · rename_i h
          exact w0 h
        · have g1 : vgood ctx S
              (if r0.2.ups = URIPS_SEEN_SLASH_DOT_DOT then back_up_one_dir r0.2 else r0.2) := by
            split
            · obtain ⟨mb, hpb⟩ := back_up_one_dir_moves r0.2 (vcore_len_le g0.1)
                (by have := g0.1.1.1; omega)
              exact vgood_of_moves g0 mb (by have := g0.1.1.1; omega)
            · exact g0
          generalize (if r0.2.ups = URIPS_SEEN_SLASH_DOT_DOT then back_up_one_dir r0.2
            else r0.2) = ah1 at g1 ⊢
          obtain ⟨hv, m⟩ := issue_keep ctx ah1 0 hC g1.1
          split
          · exact hv.1
          · obtain ⟨hv2, -, m2⟩ := issue_dec ctx ah1 0 hC g1.1 (by omega)
            apply start_fragment_post ctx S wsi _ hC
            · exact weak_congr hv2.1 (fun _ => rfl) rfl
            · exact m2.unk_pos.trans g1.2.1
            · exact fun h => hT.1 h.2
      · -- a byte of the URI
        have hp := lws_parse_urldecode_post ctx ah c hC hg.1
        generalize lws_parse_urldecode ctx ah c = r at hp ⊢
        obtain ⟨hw, hv, h1, h2, h3⟩ := hp
        simp only
        split
        · rename_i hr
          exact check_eol_post ctx S wsi r.2.1 r.2.2 hC hT hS
            (vgood_of_vcore hg (hv (Or.inl hr)) h1 h2 h3) (hnn _ h2)
        · rename_i hr
          exact swallow_post wsi hT
            (inv_of_vgood wsi (vgood_of_vcore hg (hv (Or.inr hr)) h1 h2 h3))
        · exact hw
        · exact excessive_post ctx S wsi r.2.1 hC hw (h1.trans hg.2.1) (hnn _ h2)
        · exact hw

theorem inv_mk {ctx : Context} {S : List Nat} {wsi : lws} {a : AH}
    (hnv : ¬in_value_part ctx a) (hw : weak_inv ctx a) (h1 : a.unk_pos ≤ a.pos)
    (h2 : a.unk_pos ≠ 0 → ∀ i, frag_end (a.frags i) ≤ a.unk_pos)
    (h3 : wsi.mux_substream = true → a.unk_pos = 0)
    (h4 : in_name_part ctx a → a.lextable_pos < 0 ∨ a.lextable_pos.toNat ∈ S) :
    parse_inv ctx S wsi a :=
  ⟨hw, fun h => absurd h hnv, h1, h2, fun h => absurd h hnv, h3, h4⟩

theorem inv_name_start {ctx : Context} {S : List Nat} {wsi : lws} {a : AH} (hS : 0 ∈ S)
    (hw : weak_inv ctx a) (hst : a.parser_state = ctx.tk.WSI_TOKEN_NAME_PART)
    (hu : a.unk_pos = 0) (hl : a.lextable_pos = 0) : parse_inv ctx S wsi a := by
  refine inv_mk (fun h => h.2.1 hst) hw (by omega) (fun h => absurd hu h) (fun _ => hu) ?_
  intro _
  right
  rw [hl]
  exact hS

theorem unknown_value_part_post (ctx : Context) (S : List Nat) (wsi : lws) (ah : AH) (c : Nat)
    (hC : ctx.max_http_header_data + 1 < 4294967296) (hS : 0 ∈ S)
    (hI : parse_inv ctx S wsi ah)
    (hst : ctx.with_custom_headers = true ∧
      ah.parser_state = ctx.tk.WSI_TOKEN_UNKNOWN_VALUE_PART) :
    step_post ctx S wsi (unknown_value_part ctx ah c) := by
  unfold unknown_value_part
  split
  · exact hI
  · split
    · exact inv_name_start hS (weak_congr hI.1 (fun _ => rfl) rfl) rfl rfl rfl
    · split
      · split
        · exact hI.1
        · rename_i hb
          have hb2 : ah.pos < ctx.max_http_header_data :=
            (in_bounds_iff ctx ah).mp (by simpa using hb)
          have hp : (ah.put c).pos = ah.pos + 1 := by
            simp only [AH.put, inc32]
            omega
          have hw : weak_inv ctx (ah.put c) := by
            refine ⟨by omega, fun i => ?_⟩
            have := hI.1.2 i
            rw [hp]
            exact Nat.le_succ_of_le this
          refine inv_mk (fun h => h.1 hst) hw ?_ hI.2.2.2.1 hI.2.2.2.2.2.1 (fun h => absurd hst h.1)
          have := hI.2.2.1
          show ah.unk_pos ≤ (ah.put c).pos
          omega
      · exact hI

theorem skipping_post (ctx : Context) (S : List Nat) (wsi : lws) (ah : AH) (c : Nat)
    (hT : tokens_apart ctx) (hS : 0 ∈ S) (hI : parse_inv ctx S wsi ah) :
    step_post ctx S wsi (skipping ctx ah c) := by
  unfold skipping
  simp only
  by_cases h13 : c = 13
  · have h10 : c ≠ 10 := by omega
    simp only [h13, if_true]
    norm_num
    exact inv_mk (fun h => h.2.2.2.1 rfl) hI.1 hI.2.2.1 hI.2.2.2.1 hI.2.2.2.2.2.1
      (fun h => absurd h.2 hT.2.2.1)
  · simp only [h13, if_false]
    split
    · exact inv_name_start hS (weak_congr hI.1 (fun _ => rfl) rfl) rfl rfl rfl
    · exact hI

theorem skipping_saw_cr_post (ctx : Context) (S : List Nat) (wsi : lws) (ah : AH) (c : Nat)
    (hT : tokens_apart ctx) (hS : 0 ∈ S) (hI : parse_inv ctx S wsi ah) :
    step_post ctx S wsi (skipping_saw_cr ctx ah c) := by
  unfold skipping_saw_cr
  split
  · exact hI.1
  · split
    · exact inv_name_start hS (weak_congr hI.1 (fun _ => rfl) rfl) rfl rfl rfl
    · exact inv_mk (fun h => h.2.2.1 rfl) hI.1 hI.2.2.1 hI.2.2.2.1 hI.2.2.2.2.2.1
        (fun h => absurd h.2 hT.2.1)

theorem reserve_spec (ctx : Context) (hC : ctx.max_http_header_data + 1 < 4294967296)
    (n : Nat) : ∀ ah : AH,
    (reserve_unknown_entry ctx n ah).frags = ah.frags ∧
    (reserve_unknown_entry ctx n ah).nfrag = ah.nfrag ∧
    (reserve_unknown_entry ctx n ah).unk_pos = ah.unk_pos ∧
    (reserve_unknown_entry ctx n ah).parser_state = ah.parser_state ∧
    (reserve_unknown_entry ctx n ah).lextable_pos = ah.lextable_pos ∧
    ah.pos ≤ (reserve_unknown_entry ctx n ah).pos ∧
    (ah.pos ≤ ctx.max_http_header_data + 1 →
      (reserve_unknown_entry ctx n ah).pos ≤ ctx.max_http_header_data + 1) := by
  induction n with
  | zero => intro ah; exact ⟨rfl, rfl, rfl, rfl, rfl, le_refl _, fun h => h⟩
  | succ n ih =>
    intro ah
    unfold reserve_unknown_entry
    by_cases hb : lws_pos_in_bounds ctx ah = 0
    · have hlt := (in_bounds_iff ctx ah).mp hb
      simp only [hb, if_true]
      obtain ⟨h1, h2, h3, h4, h5, h6, h7⟩ := ih (ah.put 0)
      have hp : (ah.put 0).pos = ah.pos + 1 := by
        simp only [AH.put, inc32]
        omega
      exact ⟨h1, h2, h3, h4, h5, by omega, fun _ => h7 (by omega)⟩
    · simp only [hb, if_false]
      exact ih ah

theorem name_setup_spec (ctx : Context) (S : List Nat) (wsi : lws) (ah : AH)
    (hC : ctx.max_http_header_data + 1 < 4294967296) (hI : parse_inv ctx S wsi ah) :
    ∃ ah1 : AH,
      ah1 = (if wsi.mux_substream = false ∧ ah.unk_pos = 0 then
          if ctx.with_custom_headers = true then
            reserve_unknown_entry ctx 8 { ah with unk_pos := ah.pos }
          else { ah with unk_pos := ah.pos }
        else ah) ∧
      ah1.frags = ah.frags ∧ ah1.parser_state = ah.parser_state ∧
      ah1.lextable_pos = ah.lextable_pos ∧ weak_inv ctx ah1 ∧ ah1.unk_pos ≤ ah1.pos ∧
      (wsi.mux_substream = false → ∀ i, frag_end (ah1.frags i) ≤ ah1.unk_pos) ∧
      (wsi.mux_substream = true → ah1.unk_pos = 0) := by
  refine ⟨_, rfl, ?_⟩
  obtain ⟨hw, -, hu1, hu2, -, hu3, -⟩ := hI
  split
  · rename_i h
    obtain ⟨hm, hu⟩ := h
    have hm2 : ¬wsi.mux_substream = true := by simp [hm]
    split
    · obtain ⟨h1, h2, h3, h4, h5, h6, h7⟩ :=
        reserve_spec ctx hC 8 { ah with unk_pos := ah.pos }
      refine ⟨h1, h4, h5, ⟨h7 hw.1, fun i => ?_⟩, ?_, fun _ i => ?_, fun h => absurd h hm2⟩
      · rw [h1]
        exact le_trans (hw.2 i) h6
      · rw [h3]
        exact h6
      · rw [h1, h3]
        exact hw.2 i
    · exact ⟨rfl, rfl, rfl, hw, le_refl _, fun _ i => hw.2 i, fun h => absurd h hm2⟩
  · rename_i h
    refine ⟨rfl, rfl, rfl, hw, hu1, fun hm i => ?_, hu3⟩
    have hne : ah.unk_pos ≠ 0 := fun hu => h ⟨hm, hu⟩
    exact hu2 hne i

theorem name_part_known_post (ctx : Context) (S : List Nat) (wsi : lws) (a : AH)
    (hC : ctx.max_http_header_data + 1 < 4294967296) (hT : tokens_apart ctx)
    (hw : weak_inv ctx a) (hu1 : a.unk_pos ≤ a.pos)
    (hu2 : wsi.mux_substream = false → ∀ i, frag_end (a.frags i) ≤ a.unk_pos)
    (hu3 : wsi.mux_substream = true → a.unk_pos = 0)
    (hin : in_name_part ctx a)
    (hcur : a.lextable_pos < 0 ∨
      (if ctx.lextable_h1.getD a.lextable_pos.toNat 0 < FAIL_CHAR then
        token_state ctx a.lextable_pos.toNat ≠ ctx.tk.WSI_TOKEN_NAME_PART
      else a.lextable_pos.toNat ∈ S)) :
    step_post ctx S wsi (name_part_known ctx wsi a) := by
  have hc : a.unk_pos ≠ 0 → ∀ i, frag_end (a.frags i) ≤ a.unk_pos := by
    intro hne i
    cases hm : wsi.mux_substream with
    | false => exact hu2 hm i
    | true => exact absurd (hu3 hm) hne
  have hskip : parse_inv ctx S wsi { a with parser_state := ctx.tk.WSI_TOKEN_SKIPPING } :=
    inv_mk (fun h => h.2.2.1 rfl) hw hu1 hc hu3 (fun h => absurd h.2 hT.2.1)
  have hsame : (a.lextable_pos < 0 ∨ a.lextable_pos.toNat ∈ S) → parse_inv ctx S wsi a :=
    fun h => inv_mk (fun h => h.2.1 hin.2) hw hu1 hc hu3 (fun _ => h)
  unfold name_part_known
  split
  · rename_i h
    split
    · simp only
      split_ifs
      · exact hskip
      · exact hskip
      · exact hskip
      · exact hsame (Or.inl h.1)
    · split
      · exact hw
      · exact hw
  · split
    · rename_i h
      split
      · exact hsame (Or.inl h)
      · exact hskip
    · rename_i hneg
      split
      · rename_i hterm
        have hts : token_state ctx a.lextable_pos.toNat ≠ ctx.tk.WSI_TOKEN_NAME_PART := by
          rcases hcur with h | h
          · exact absurd h hneg
          · rw [if_pos hterm] at h
            exact h
        simp only
        split
        · exact hw
        · have hw1 : weak_inv ctx
              (if wsi.mux_substream = false then { a with pos := a.unk_pos, unk_pos := 0 }
                else a) ∧
              (if wsi.mux_substream = false then { a with pos := a.unk_pos, unk_pos := 0 }
                else a).unk_pos = 0 := by
            split
            · rename_i hm
              have : a.unk_pos ≤ ctx.max_http_header_data + 1 := le_trans hu1 hw.1
              exact ⟨⟨this, fun i => hu2 hm i⟩, rfl⟩
            · rename_i hm
              exact ⟨hw, hu3 (by simpa using hm)⟩
          generalize (if wsi.mux_substream = false then
            { a with pos := a.unk_pos, unk_pos := 0 } else a) = a1 at hw1 ⊢
          obtain ⟨hw1, hz⟩ := hw1
          change step_post ctx S wsi
            (if token_state ctx a.lextable_pos.toNat = ctx.tk.WSI_TOKEN_CHALLENGE then
              parse_step.complete
                { a1 with
                  parser_state := token_state ctx a.lextable_pos.toNat
                  ups := URIPS_IDLE
                  current_token_limit :=
                    match ctx.token_limits with
                    | some limit => limit (token_state ctx a.lextable_pos.toNat)
                    | none => ctx.max_http_header_data }
            else
              start_fragment ctx
                { a1 with
                  parser_state := token_state ctx a.lextable_pos.toNat
                  ups := URIPS_IDLE
                  current_token_limit :=
                    match ctx.token_limits with
                    | some limit => limit (token_state ctx a.lextable_pos.toNat)
                    | none => ctx.max_http_header_data })
          generalize token_state ctx a.lextable_pos.toNat = st at hts
          by_cases hch : st = ctx.tk.WSI_TOKEN_CHALLENGE
          · rw [if_pos hch]
            have hle : a1.unk_pos ≤ a1.pos := by omega
            show parse_inv ctx S wsi _
            refine inv_mk ?_ ?_ ?_ ?_ ?_ ?_
            · exact fun h => h.2.2.2.2 rfl
            · exact weak_congr hw1 (fun _ => rfl) rfl
            · exact hle
            · exact fun h => absurd hz h
            · exact fun _ => hz
            · exact fun h => absurd h.2 hT.2.2.2
          · rw [if_neg hch]
            refine start_fragment_post ctx S wsi _ hC ?_ ?_ ?_
            · exact weak_congr hw1 (fun _ => rfl) rfl
            · exact hz
            · exact fun h => hts h.2
      · rename_i hterm
        apply hsame
        rcases hcur with h | h
        · exact Or.inl h
        · rw [if_neg hterm] at h
          exact Or.inr h

theorem lex_closed_zero {ctx : Context} {S : List Nat} (h : lex_closed ctx S = true) : 0 ∈ S := by
  unfold lex_closed at h
  simp only [Bool.and_eq_true, decide_eq_true_eq] at h
  exact h.1

theorem lex_closed_entry {ctx : Context} {S : List Nat} (h : lex_closed ctx S = true)
    {p c : Nat} (hp : p ∈ S) (hc : c < 256) : lex_entry_ok ctx S p c = true := by
  unfold lex_closed at h
  simp only [Bool.and_eq_true, decide_eq_true_eq, List.all_eq_true] at h
  exact h.2 p hp c (List.mem_range.mpr hc)

theorem toInt16_of_lt (q : Nat) (h : q < 32768) : toInt16 (q : Int) = (q : Int) := by
  unfold toInt16
  omega

theorem apply_lex_walk_moved (wsi : lws) (a : AH) (q : Nat) (hq : q < 32768) :
    apply_lex_walk wsi a (.moved q) = { a with lextable_pos := (q : Int) } := by
  unfold apply_lex_walk
  simp only
  rw [toInt16_of_lt q hq]

theorem name_part_post (ctx : Context) (S : List Nat) (wsi : lws) (ah : AH) (c0 : Nat)
    (hC : ctx.max_http_header_data + 1 < 4294967296) (hT : tokens_apart ctx)
    (hcl : lex_closed ctx S = true) (hc0 : c0 < 256)
    (hI : parse_inv ctx S wsi ah) (hin : in_name_part ctx ah) :
    step_post ctx S wsi (name_part ctx wsi ah c0) := by
  unfold name_part
  by_cases hfirst : ah.unk_pos = 0 ∧ c0 = 10
  · rw [if_pos hfirst]
    exact inv_complete_of_inv hT hI
  rw [if_neg hfirst]
  obtain ⟨ah1, he, hf, hs, hl, hw, hu1, hu2, hu3⟩ := name_setup_spec ctx S wsi ah hC hI
  dsimp only
  rw [← he]
  have hc : (if 65 ≤ c0 ∧ c0 ≤ 90 then (c0 + 32) % 256 else c0) < 256 := by
    split <;> omega
  generalize (if 65 ≤ c0 ∧ c0 ≤ 90 then (c0 + 32) % 256 else c0) = c at hc ⊢
  have hin1 : ∀ X : AH, X.parser_state = ah1.parser_state → in_name_part ctx X := by
    intro X hX
    unfold in_name_part at hin ⊢
    rw [hX, hs]
    exact hin
  by_cases hb : lws_pos_in_bounds ctx ah1 ≠ 0
  · rw [if_pos hb]
    exact hw
  rw [if_neg hb]
  have hlt : ah1.pos < ctx.max_http_header_data :=
    (in_bounds_iff ctx ah1).mp (by simpa using hb)
  have hp : (ah1.put c).pos = ah1.pos + 1 := by
    simp only [AH.put, inc32]
    omega
  have hc2 : ah1.unk_pos ≠ 0 → ∀ i, frag_end (ah1.frags i) ≤ ah1.unk_pos := by
    intro hne i
    cases hm : wsi.mux_substream with
    | false => exact hu2 hm i
    | true => exact absurd (hu3 hm) hne
  have hX : ∀ X : AH, X.frags = (ah1.put c).frags → X.pos = (ah1.put c).pos →
      X.unk_pos = (ah1.put c).unk_pos →
      weak_inv ctx X ∧ X.unk_pos ≤ X.pos ∧
      (X.unk_pos ≠ 0 → ∀ i, frag_end (X.frags i) ≤ X.unk_pos) ∧
      (wsi.mux_substream = false → ∀ i, frag_end (X.frags i) ≤ X.unk_pos) ∧
      (wsi.mux_substream = true → X.unk_pos = 0) := by
    intro X h1 h2 h3
    have e1 : X.frags = ah1.frags := h1
    have e3 : X.unk_pos = ah1.unk_pos := h3
    refine ⟨⟨by rw [h2, hp]; omega, fun i => ?_⟩, by rw [h2, hp, e3]; omega,
      fun hne i => ?_, fun hm i => ?_, fun hm => ?_⟩
    · have := hw.2 i
      rw [h2, hp, e1]
      omega
    · rw [e3] at hne ⊢
      rw [e1]
      exact hc2 hne i
    · rw [e1, e3]
      exact hu2 hm i
    · rw [e3]
      exact hu3 hm
  by_cases hcust : ctx.with_custom_headers = true ∧ wsi.mux_substream = false ∧
      (ah1.put c).lextable_pos < 0 ∧ c = 58
  · rw [if_pos hcust]
    have hbrk : ∀ X : AH, X.frags = (ah1.put c).frags → X.pos = (ah1.put c).pos →
        X.unk_pos = (ah1.put c).unk_pos →
        X.parser_state = ctx.tk.WSI_TOKEN_UNKNOWN_VALUE_PART → parse_inv ctx S wsi X := by
      intro X h1 h2 h3 h4
      obtain ⟨k1, k2, k3, -, k5⟩ := hX X h1 h2 h3
      exact inv_mk (fun h => h.1 ⟨hcust.1, h4⟩) k1 k2 k3 k5 (fun h => absurd ⟨hcust.1, h4⟩ h.1)
    show parse_inv ctx S wsi _
    apply hbrk
    · dsimp only
      split_ifs <;> rfl
    · dsimp only
      split_ifs <;> rfl
    · dsimp only
      split_ifs <;> rfl
    · rfl
  rw [if_neg hcust]
  obtain ⟨k1, k2, k3, k4, k5⟩ := hX (ah1.put c) rfl rfl rfl
  by_cases hneg : (ah1.put c).lextable_pos < 0
  · rw [if_pos hneg]
    exact inv_mk (fun h => h.2.1 (hin1 _ rfl).2) k1 k2 k3 k5 (fun _ => Or.inl hneg)
  rw [if_neg hneg]
  have hpS : (ah1.put c).lextable_pos.toNat ∈ S := by
    have hcur := hI.2.2.2.2.2.2 hin
    have e : (ah1.put c).lextable_pos = ah.lextable_pos := hl
    rw [e] at hneg ⊢
    rcases hcur with h | h
    · exact absurd h hneg
    · exact h
  have hok := lex_closed_entry hcl hpS hc
  unfold lex_entry_ok at hok
  generalize lex_walk ctx.lextable_h1 c (ctx.lextable_h1.length + 1)
    (ah1.put c).lextable_pos.toNat = w at hok ⊢
  cases w with
  | nope =>
    obtain ⟨j1, j2, j3, j4, j5⟩ :=
      hX { ah1.put c with lextable_pos := -1 } rfl rfl rfl
    exact name_part_known_post ctx S wsi { ah1.put c with lextable_pos := -1 } hC hT j1 j2 j4 j5
      (hin1 _ rfl) (Or.inl (show (-1 : Int) < 0 by decide))
  | terminal p =>
    generalize name_part_known ctx wsi (apply_lex_walk wsi (ah1.put c) (.terminal p)) = g
    simp only at hok
    exact False.elim (Bool.false_ne_true hok)
  | moved q =>
    simp only [Bool.and_eq_true, decide_eq_true_eq] at hok
    have hq := hok.1
    have hq2 := hok.2
    rw [apply_lex_walk_moved wsi (ah1.put c) q hq]
    obtain ⟨j1, j2, j3, j4, j5⟩ :=
      hX { ah1.put c with lextable_pos := (q : Int) } rfl rfl rfl
    refine name_part_known_post ctx S wsi { ah1.put c with lextable_pos := (q : Int) } hC hT
      j1 j2 j4 j5 (hin1 _ rfl) (Or.inr ?_)
    have e : ({ ah1.put c with lextable_pos := (q : Int) } : AH).lextable_pos.toNat = q :=
      Int.toNat_ofNat q
    rw [e]
    split
    · rename_i ht
      rw [if_pos ht] at hq2
      simpa using hq2
    · rename_i ht
      rw [if_neg ht] at hq2
      simpa using hq2

theorem parse_byte_post (ctx : Context) (S : List Nat) (wsi : lws) (ah : AH) (c : Nat)
    (hC : ctx.max_http_header_data + 1 < 4294967296) (hT : tokens_apart ctx)
    (hcl : lex_closed ctx S = true) (hc : c < 256) (hI : parse_inv ctx S wsi ah) :
    step_post ctx S wsi (lws_parse_byte ctx wsi ah c) := by
  have hS := lex_closed_zero hcl
  unfold lws_parse_byte
  by_cases h1 : ctx.with_custom_headers = true ∧
      ah.parser_state = ctx.tk.WSI_TOKEN_UNKNOWN_VALUE_PART
  · rw [if_pos h1]
    exact unknown_value_part_post ctx S wsi ah c hC hS hI h1
  rw [if_neg h1]
  by_cases h2 : ah.parser_state = ctx.tk.WSI_TOKEN_NAME_PART
  · rw [if_pos h2]
    exact name_part_post ctx S wsi ah c hC hT hcl hc hI ⟨h1, h2⟩
  rw [if_neg h2]
  by_cases h3 : ah.parser_state = ctx.tk.WSI_TOKEN_SKIPPING
  · rw [if_pos h3]
    exact skipping_post ctx S wsi ah c hT hS hI
  rw [if_neg h3]
  by_cases h4 : ah.parser_state = ctx.tk.WSI_TOKEN_SKIPPING_SAW_CR
  · rw [if_pos h4]
    exact skipping_saw_cr_post ctx S wsi ah c hT hS hI
  rw [if_neg h4]
  by_cases h5 : ah.parser_state = ctx.tk.WSI_PARSING_COMPLETE
  · rw [if_pos h5]
    exact hI
  rw [if_neg h5]
  exact value_part_post ctx S wsi ah c hC hT hS (vgood_of_inv hI ⟨h1, h2, h3, h4, h5⟩)
    (fun h => h2 h.2)

theorem simple_create_loop_post (ctx : Context)
    (hC : ctx.max_http_header_data + 1 < 4294967296) (s : List Nat) :
    ∀ ah : AH, vcore ctx ah →
      vcore ctx (simple_create_loop ctx s ah).2 ∧ moves ah (simple_create_loop ctx s ah).2 := by
  induction s with
  | nil =>
    intro ah hv
    unfold simple_create_loop
    by_cases hb : lws_pos_in_bounds ctx ah ≠ 0
    · rw [if_pos hb]
      exact ⟨hv, moves_refl ah⟩
    · rw [if_neg hb]
      have hlt : ah.pos < ctx.max_http_header_data :=
        (in_bounds_iff ctx ah).mp (by simpa using hb)
      have m := moves_put ah 0 (by omega)
      have hp : (ah.put 0).pos = ah.pos + 1 := by
        simp only [AH.put, inc32]
        omega
      exact ⟨vcore_of_moves hv m (by rw [hp]; omega), m⟩
  | cons c cs ih =>
    intro ah hv
    unfold simple_create_loop
    by_cases hb : lws_pos_in_bounds ctx ah ≠ 0
    · rw [if_pos hb]
      exact ⟨hv, moves_refl ah⟩
    · rw [if_neg hb]
      have hlt : ah.pos < ctx.max_http_header_data :=
        (in_bounds_iff ctx ah).mp (by simpa using hb)
      have hp : ∀ d, (ah.put d).pos = ah.pos + 1 := by
        intro d
        simp only [AH.put, inc32]
        omega
      by_cases hc : c ≠ 0
      · rw [if_pos hc]
        have m := moves_put_inc ah c (by omega)
        have hv1 : vcore ctx (ah.put c).len_inc :=
          vcore_of_moves hv m (by show (ah.put c).pos ≤ _; rw [hp c]; omega)
        obtain ⟨hv2, m2⟩ := ih _ hv1
        exact ⟨hv2, moves_trans m m2⟩
      · rw [if_neg hc]
        have m := moves_put ah c (by omega)
        exact ⟨vcore_of_moves hv m (by rw [hp c]; omega), m⟩

theorem simple_create_post (ctx : Context) (S : List Nat) (wsi : lws) (ah : AH) (h : Nat)
    (s : List Nat) (hC : ctx.max_http_header_data + 1 < 4294967296)
    (hI : parse_inv ctx S wsi ah) (hu : ah.unk_pos = 0) :
    ((lws_hdr_simple_create ctx ah h s).1 = 0 →
      parse_inv ctx S wsi (lws_hdr_simple_create ctx ah h s).2) ∧
    weak_inv ctx (lws_hdr_simple_create ctx ah h s).2 := by
  have hname : ∀ X : AH, X.parser_state = ah.parser_state → X.lextable_pos = ah.lextable_pos →
      in_name_part ctx X → X.lextable_pos < 0 ∨ X.lextable_pos.toNat ∈ S := by
    intro X h1 h2 hn
    rw [h2]
    apply hI.2.2.2.2.2.2
    unfold in_name_part at hn ⊢
    rw [← h1]
    exact hn
  unfold lws_hdr_simple_create
  by_cases h0 : s.headD 0 = 0
  · rw [if_pos h0]
    exact ⟨fun _ => hI, hI.1⟩
  rw [if_neg h0]
  dsimp only
  by_cases hx : inc8 ah.nfrag = ctx.frags_size
  · rw [if_pos hx]
    exact ⟨fun h => by simp at h, hI.1⟩
  rw [if_neg hx]
  have hv2 : vcore ctx { ah with
      nfrag := inc8 ah.nfrag
      frag_index := upd ah.frag_index h (inc8 ah.nfrag)
      frags := upd ah.frags (inc8 ah.nfrag)
        { ah.frags (inc8 ah.nfrag) with offset := ah.pos, len := 0, nfrag := 0 } } := by
    apply vcore_fresh
    · exact hI.1.1
    · simp [upd]
    · simp [upd]
    · intro i hi
      have hi2 : i ≠ inc8 ah.nfrag := hi
      have := hI.1.2 i
      simp only [upd, hi2, if_false]
      exact this
  obtain ⟨hv3, m3⟩ := simple_create_loop_post ctx hC s _ hv2
  refine ⟨fun _ => inv_of_vgood wsi ⟨hv3, m3.unk_pos.trans hu, ?_⟩, hv3.1⟩
  exact hname _ m3.parser_state m3.lextable_pos

theorem ah_step_inv (ctx : Context) (S : List Nat) (wsi : lws) (ah : AH) (op : ah_op)
    (r : Bool × AH) (hC : ctx.max_http_header_data + 1 < 4294967296) (hT : tokens_apart ctx)
    (hcl : lex_closed ctx S = true) (hI : parse_inv ctx S wsi ah) (hop : op_in_range op)
    (hcr : ∀ h s, op = .create h s → ah.unk_pos = 0)
    (hr : ah_step ctx wsi ah op = some r) :
    (r.1 = true → parse_inv ctx S wsi r.2) ∧ weak_inv ctx r.2 := by
  cases op with
  | byte c =>
    have hp := parse_byte_post ctx S wsi ah c hC hT hcl hop hI
    unfold ah_step at hr
    simp only at hr
    generalize lws_parse_byte ctx wsi ah c = st at hp hr
    cases st with
    | brk a =>
      simp only [Option.some.injEq] at hr
      subst hr
      exact ⟨fun _ => hp, hp.1⟩
    | fail a =>
      simp only [Option.some.injEq] at hr
      subst hr
      exact ⟨fun h => Bool.noConfusion h, hp⟩
    | fallback a =>
      simp only [Option.some.injEq] at hr
      subst hr
      exact ⟨fun h => Bool.noConfusion h, hp⟩
    | forbid a =>
      simp only [Option.some.injEq] at hr
      subst hr
      exact ⟨fun h => Bool.noConfusion h, hp⟩
    | complete a =>
      have hp2 : parse_inv ctx S wsi { a with parser_state := ctx.tk.WSI_PARSING_COMPLETE } := hp
      have hwa : weak_inv ctx a := weak_congr hp2.1 (fun _ => rfl) rfl
      simp only at hr
      by_cases hu : a.ues ≠ URIES_IDLE
      · rw [if_pos hu] at hr
        simp only [Option.some.injEq] at hr
        subst hr
        exact ⟨fun h => Bool.noConfusion h, hwa⟩
      · rw [if_neg hu] at hr
        cases ht : a.total_length ctx.tk.WSI_TOKEN_UPGRADE with
        | none => rw [ht] at hr; simp at hr
        | some tl =>
          rw [ht] at hr
          simp only [Option.some.injEq] at hr
          subst hr
          exact ⟨fun _ => hp2, hp2.1⟩
    | hang => simp at hr
  | create h s =>
    have hp := simple_create_post ctx S wsi ah h s hC hI (hcr h s rfl)
    unfold ah_step at hr
    simp only [Option.some.injEq] at hr
    subst hr
    refine ⟨fun h1 => hp.1 ?_, hp.2⟩
    simpa using h1

theorem reset_inv (ctx : Context) (S : List Nat) (wsi : lws) (ah0 : AH) (hS : 0 ∈ S) :
    parse_inv ctx S wsi (_lws_header_table_reset ctx ah0) := by
  apply inv_name_start hS
  · exact ⟨Nat.zero_le _, fun _ => Nat.zero_le _⟩
  · rfl
  · rfl
  · rfl

theorem ah_run_inv (ctx : Context) (S : List Nat) (wsi : lws)
    (hC : ctx.max_http_header_data + 1 < 4294967296) (hT : tokens_apart ctx)
    (hcl : lex_closed ctx S = true) (ops : List ah_op) :
    ∀ (ah : AH) (r : Bool × AH), parse_inv ctx S wsi ah → (∀ op ∈ ops, op_in_range op) →
      creates_between_names ctx wsi ah ops = true → ah_run ctx wsi ah ops = some r →
      (r.1 = true → parse_inv ctx S wsi r.2) ∧ weak_inv ctx r.2 := by
  induction ops with
  | nil =>
    intro ah r hI _ _ hr
    simp only [ah_run, Option.some.injEq] at hr
    subst hr
    exact ⟨fun _ => hI, hI.1⟩
  | cons op ops ih =>
    intro ah r hI hops hcr hr
    unfold ah_run at hr
    unfold creates_between_names at hcr
    simp only [Bool.and_eq_true] at hcr
    obtain ⟨hcr1, hcr2⟩ := hcr
    cases hs : ah_step ctx wsi ah op with
    | none => rw [hs] at hr; simp at hr
    | some r1 =>
      rw [hs] at hr hcr2
      simp only at hr hcr2
      have hc : ∀ h s, op = .create h s → ah.unk_pos = 0 := by
        intro h s e
        subst e
        simpa using hcr1
      obtain ⟨k1, k2⟩ := ah_step_inv ctx S wsi ah op r1 hC hT hcl hI
        (hops op (List.mem_cons_self _ _)) hc hs
      by_cases h1 : r1.1 = true
      · rw [if_pos h1] at hr
        exact ih r1.2 r (k1 h1) (fun o ho => hops o (List.mem_cons_of_mem _ ho)) hcr2 hr
      · rw [if_neg h1] at hr
        by_cases h2 : ops = []
        · rw [if_pos h2] at hr
          simp only [Option.some.injEq] at hr
          subst hr
          exact ⟨fun h => absurd h h1, k2⟩
        · rw [if_neg h2] at hr
          simp at hr

/-- C7 (as the code has it). On a connection whose lex table is well formed
(`lex_closed`), whose token values keep the name state apart and whose
`max_http_header_data + 1` fits 32 bits: after every operation of a run from a
reset AH, made of `lws_parse` steps on bytes and of `lws_hdr_simple_create`
calls placed where no header name is being collected (`unk_pos = 0`), also
after a last operation that fails, every fragment record satisfies
`offset + len ≤ pos`. -/
theorem C7_fragments_end_before_pos (ctx : Context) (S : List Nat) (wsi : lws) (ah0 : AH)
    (ops : List ah_op) (r : Bool × AH)
    (hC : ctx.max_http_header_data + 1 < 4294967296) (hT : tokens_apart ctx)
    (hcl : lex_closed ctx S = true) (hops : ∀ op ∈ ops, op_in_range op)
    (hcr : creates_between_names ctx wsi (_lws_header_table_reset ctx ah0) ops = true)
    (hr : ah_run ctx wsi (_lws_header_table_reset ctx ah0) ops = some r) :
    ∀ i, (r.2.frags i).offset + (r.2.frags i).len ≤ r.2.pos :=
  (ah_run_inv ctx S wsi hC hT hcl ops _ r
    (reset_inv ctx S wsi ah0 (lex_closed_zero hcl)) hops hcr hr).2.2

/-- How far `pos` gets. Under the same conditions, after every operation of a
run from a reset AH `pos` is at most `max_http_header_data + 1`, and on the AH
reached `lws_pos_in_bounds` lets a byte be stored exactly when
`pos < max_http_header_data`: `issue_char` returns -1 exactly when
`max_http_header_data ≤ pos`. The value `max_http_header_data + 1` is taken
after a delimiter whose NUL went to the last index: the `++ah->pos` that
follows the NUL is not checked. -/
theorem run_pos_bound (ctx : Context) (S : List Nat) (wsi : lws) (ah0 : AH)
    (ops : List ah_op) (r : Bool × AH)
    (hC : ctx.max_http_header_data + 1 < 4294967296) (hT : tokens_apart ctx)
    (hcl : lex_closed ctx S = true) (hops : ∀ op ∈ ops, op_in_range op)
    (hcr : creates_between_names ctx wsi (_lws_header_table_reset ctx ah0) ops = true)
    (hr : ah_run ctx wsi (_lws_header_table_reset ctx ah0) ops = some r) :
    r.2.pos ≤ ctx.max_http_header_data + 1 ∧
    (lws_pos_in_bounds ctx r.2 = 0 ↔ r.2.pos < ctx.max_http_header_data) ∧
    ∀ c, ((issue_char ctx r.2 c).1 = -1 ↔ ctx.max_http_header_data ≤ r.2.pos) := by
  refine ⟨(ah_run_inv ctx S wsi hC hT hcl ops _ r
    (reset_inv ctx S wsi ah0 (lex_closed_zero hcl)) hops hcr hr).2.1, in_bounds_iff ctx r.2, ?_⟩
  intro c
  have hb := in_bounds_iff ctx r.2
  unfold issue_char
  by_cases h : lws_pos_in_bounds ctx r.2 = 0
  · have hlt := hb.mp h
    simp only [h, ne_eq, not_true_eq_false, if_false]
    constructor
    · intro h1
      split at h1
      · simp at h1
      · split at h1 <;> simp at h1
    · intro h1
      omega
  · have hge : ¬r.2.pos < ctx.max_http_header_data := fun h1 => h (hb.mpr h1)
    simp only [h, ne_eq, not_false_eq_true, if_true, true_iff]
    omega

theorem lex_closed_model : lex_closed lws_context lextable_model_states = true := by
  decide!

theorem result_of_run_eq (ctx : Context) (ops : List ah_op)
    (h : (ah_run ctx wsi_fresh (_lws_header_table_reset ctx (created_ah fun _ => 0))
      ops).isSome = true) :
    ah_run ctx wsi_fresh (_lws_header_table_reset ctx (created_ah fun _ => 0)) ops =
      some (result_of_run ctx ops) := by
  unfold result_of_run
  cases hr : ah_run ctx wsi_fresh (_lws_header_table_reset ctx (created_ah fun _ => 0)) ops with
  | none => rw [hr] at h; simp at h
  | some r => rfl

/-- C7 (as the claim has it) fails: `lws_hdr_simple_create` called in the
middle of the header name `Host` stores its fragment (number 3, `offset` 30,
`len` 7) after the bytes of the name; when the name is recognised the parser
takes `pos` back to `unk_pos`, and after the step on `:` the run has `pos = 21`
with 4 fragments, so fragment 3 ends at 37, beyond `pos`. -/
theorem C7_create_inside_name :
    (ah_run lws_context wsi_fresh (_lws_header_table_reset lws_context (created_ah fun _ => 0))
      ops_create_in_name).map
        (fun r => (r.1, r.2.nfrag, r.2.pos, (r.2.frags 3).offset, (r.2.frags 3).len)) =
      some (true, 4, 21, 30, 7) := by
  decide!

theorem C7_fragments_witness :
    ah_run lws_context wsi_fresh (_lws_header_table_reset lws_context (created_ah fun _ => 0))
      ops_create_between = some (result_of_run lws_context ops_create_between) ∧
    ∀ i, ((result_of_run lws_context ops_create_between).2.frags i).offset +
      ((result_of_run lws_context ops_create_between).2.frags i).len ≤
        (result_of_run lws_context ops_create_between).2.pos :=
  have hrun := result_of_run_eq lws_context ops_create_between (by decide!)
  ⟨hrun,
    C7_fragments_end_before_pos lws_context lextable_model_states wsi_fresh
      (created_ah fun _ => 0) ops_create_between (result_of_run lws_context ops_create_between)
      (by decide) (by decide) lex_closed_model (by decide!) (by decide!) hrun⟩

/-- C8 (as the claim has it) fails: with `max_http_header_data = 32` the run
`GET /aaaaaaaaaaaaaaaaaaaaa` ends with `pos = 31`; a further byte `a` is stored
and leaves `pos = 32`, and a further `&` instead stores the NUL and leaves
`pos = 33`; both steps let the parse go on. -/
theorem C8_pos_reaches_limit :
    small_context.max_http_header_data = 32 ∧
    (ah_run small_context wsi_fresh
      (_lws_header_table_reset small_context (created_ah fun _ => 0))
      ops_fill_data).map (fun r => (r.1, r.2.pos)) = some (true, 31) ∧
    (ah_run small_context wsi_fresh
      (_lws_header_table_reset small_context (created_ah fun _ => 0))
      (ops_fill_data ++ [ah_op.byte 97])).map (fun r => (r.1, r.2.pos)) = some (true, 32) ∧
    (ah_run small_context wsi_fresh
      (_lws_header_table_reset small_context (created_ah fun _ => 0))
      (ops_fill_data ++ [ah_op.byte 38])).map (fun r => (r.1, r.2.pos)) = some (true, 33) := by
  decide!

theorem run_pos_bound_witness :
    ah_run lws_context wsi_fresh (_lws_header_table_reset lws_context (created_ah fun _ => 0))
      (byte_ops request_1) = some (result_of_run lws_context (byte_ops request_1)) ∧
    ((result_of_run lws_context (byte_ops request_1)).2.pos ≤
        lws_context.max_http_header_data + 1 ∧
      (lws_pos_in_bounds lws_context (result_of_run lws_context (byte_ops request_1)).2 = 0 ↔
        (result_of_run lws_context (byte_ops request_1)).2.pos <
          lws_context.max_http_header_data) ∧
      ∀ c, ((issue_char lws_context (result_of_run lws_context (byte_ops request_1)).2 c).1 = -1 ↔
        lws_context.max_http_header_data ≤
          (result_of_run lws_context (byte_ops request_1)).2.pos)) :=
  have hrun := result_of_run_eq lws_context (byte_ops request_1) (by decide!)
  ⟨hrun,
    run_pos_bound lws_context lextable_model_states wsi_fresh (created_ah fun _ => 0)
      (byte_ops request_1) (result_of_run lws_context (byte_ops request_1))
      (by decide) (by decide) lex_closed_model (by decide!) (by decide!) hrun⟩

theorem put_pos_le (ctx : Context) (ah : AH) (c : Nat)
    (h : lws_pos_in_bounds ctx ah = 0) : (ah.put c).pos ≤ ctx.max_http_header_data := by
  have hlt := (in_bounds_iff ctx ah).mp h
  show inc32 ah.pos ≤ _
  unfold inc32
  have := Nat.mod_le (ah.pos + 1) 4294967296
  omega

theorem simple_create_loop_pos_le (ctx : Context) (s : List Nat) :
    ∀ ah : AH, ah.pos ≤ ctx.max_http_header_data →
      (simple_create_loop ctx s ah).2.pos ≤ ctx.max_http_header_data := by
  induction s with
  | nil =>
    intro ah hp
    unfold simple_create_loop
    by_cases h : lws_pos_in_bounds ctx ah = 0
    · rw [if_neg (by simpa using h)]
      exact put_pos_le ctx ah 0 h
    · rw [if_pos h]
      exact hp
  | cons c cs ih =>
    intro ah hp
    unfold simple_create_loop
    by_cases h : lws_pos_in_bounds ctx ah = 0
    · rw [if_neg (by simpa using h)]
      by_cases hc : c ≠ 0
      · rw [if_pos hc]
        exact ih _ (put_pos_le ctx ah c h)
      · rw [if_neg hc]
        exact put_pos_le ctx ah c h
    · rw [if_pos h]
      exact hp

/-- C8 (as the code has it). With `C = max_http_header_data`, on an AH with
`pos ≤ C`: `lws_pos_in_bounds` lets a byte be stored exactly when `pos < C`;
`issue_char` refuses the byte (returns -1, the AH untouched) exactly when
`C ≤ pos`, that is at `pos = C` and not from `C - 1` on, and leaves `pos ≤ C`
in every case; `lws_hdr_simple_create` leaves `pos ≤ C` as well, whatever it
returns. -/
theorem C8_append_refused_at_limit (ctx : Context) (ah : AH)
    (hp : ah.pos ≤ ctx.max_http_header_data) :
    (lws_pos_in_bounds ctx ah = 0 ↔ ah.pos < ctx.max_http_header_data) ∧
    (∀ c, ((issue_char ctx ah c).1 = -1 ↔ ctx.max_http_header_data ≤ ah.pos) ∧
      ((issue_char ctx ah c).1 = -1 → (issue_char ctx ah c).2 = ah) ∧
      (issue_char ctx ah c).2.pos ≤ ctx.max_http_header_data) ∧
    (∀ h s, (lws_hdr_simple_create ctx ah h s).2.pos ≤ ctx.max_http_header_data) := by
  have hb := in_bounds_iff ctx ah
  refine ⟨hb, ?_, ?_⟩
  · intro c
    unfold issue_char
    by_cases h : lws_pos_in_bounds ctx ah = 0
    · have hlt := hb.mp h
      have hput : ∀ d, (ah.put d).pos ≤ ctx.max_http_header_data := fun d => put_pos_le ctx ah d h
      simp only [h, ne_eq, not_true_eq_false, if_false]
      split
      · exact ⟨⟨fun h1 => by simp at h1, fun h1 => by omega⟩, fun h1 => by simp at h1, hput c⟩
      · split
        · exact ⟨⟨fun h1 => by simp at h1, fun h1 => by omega⟩, fun h1 => by simp at h1, hput 0⟩
        · exact ⟨⟨fun h1 => by simp at h1, fun h1 => by omega⟩, fun h1 => by simp at h1, hp⟩
    · have hge : ¬ah.pos < ctx.max_http_header_data := fun h1 => h (hb.mpr h1)
      simp only [h, ne_eq, not_false_eq_true, if_true, true_iff]
      exact ⟨by omega, fun _ => trivial, hp⟩
  · intro h s
    unfold lws_hdr_simple_create
    split
    · exact hp
    · dsimp only
      split
      · exact hp
      · exact simple_create_loop_pos_le ctx s _ hp

/-- Witness of C8: the AH with `pos = 32 = C` that the run
`GET /aaaaaaaaaaaaaaaaaaaaaa` leaves under `small_context`. -/
theorem C8_append_refused_at_limit_witness :
    (result_of_run small_context (ops_fill_data ++ [ah_op.byte 97])).2.pos ≤
      small_context.max_http_header_data ∧
    ((lws_pos_in_bounds small_context
        (result_of_run small_context (ops_fill_data ++ [ah_op.byte 97])).2 = 0 ↔
      (result_of_run small_context (ops_fill_data ++ [ah_op.byte 97])).2.pos <
        small_context.max_http_header_data) ∧
    (∀ c, ((issue_char small_context
          (result_of_run small_context (ops_fill_data ++ [ah_op.byte 97])).2 c).1 = -1 ↔
        small_context.max_http_header_data ≤
          (result_of_run small_context (ops_fill_data ++ [ah_op.byte 97])).2.pos) ∧
      ((issue_char small_context
          (result_of_run small_context (ops_fill_data ++ [ah_op.byte 97])).2 c).1 = -1 →
        (issue_char small_context
          (result_of_run small_context (ops_fill_data ++ [ah_op.byte 97])).2 c).2 =
          (result_of_run small_context (ops_fill_data ++ [ah_op.byte 97])).2) ∧
      (issue_char small_context
        (result_of_run small_context (ops_fill_data ++ [ah_op.byte 97])).2 c).2.pos ≤
          small_context.max_http_header_data) ∧
    (∀ h s, (lws_hdr_simple_create small_context
        (result_of_run small_context (ops_fill_data ++ [ah_op.byte 97])).2 h s).2.pos ≤
          small_context.max_http_header_data)) :=
  ⟨by decide!,
    C8_append_refused_at_limit small_context
      (result_of_run small_context (ops_fill_data ++ [ah_op.byte 97])).2 (by decide!)⟩

theorem total_length_loop_chain (frags : Nat → Frag) (fuel : Nat) :
    ∀ (n : Nat) (acc : Int) (l : List Nat), frag_chain frags fuel n = some l →
      total_length_loop frags fuel n acc = some (acc + chain_total frags l) := by
  induction fuel with
  | zero => intro n acc l h; simp [frag_chain] at h
  | succ fuel ih =>
    intro n acc l h
    unfold frag_chain at h
    unfold total_length_loop
    by_cases hn : (frags n).nfrag ≠ 0
    · rw [if_pos hn] at h
      simp only [hn, ne_eq, not_false_eq_true, if_true]
      cases hc : frag_chain frags fuel (frags n).nfrag with
      | none => rw [hc] at h; simp at h
      | some l1 =>
        rw [hc] at h
        simp only [Option.map_some', Option.some.injEq] at h
        subst h
        rw [ih _ _ l1 hc]
        have hl : l1 ≠ [] := by
          intro e
          subst e
          cases fuel with
          | zero => simp [frag_chain] at hc
          | succ f =>
            unfold frag_chain at hc
            split at hc
            · cases hc2 : frag_chain frags f (frags (frags n).nfrag).nfrag with
              | none => rw [hc2] at hc; simp at hc
              | some l2 => rw [hc2] at hc; simp at hc
            · simp at hc
        have hlen : 1 ≤ l1.length := by
          cases l1 with
          | nil => exact absurd rfl hl
          | cons a t => simp
        congr 1
        simp only [chain_total, List.map_cons, List.sum_cons, List.length_cons]
        push_cast
        ring
    · rw [if_neg hn] at h
      simp only [Option.some.injEq] at h
      subst h
      simp only [hn, if_false]
      simp [chain_total]

theorem frag_chain_length (frags : Nat → Frag) (fuel : Nat) :
    ∀ (n : Nat) (l : List Nat), frag_chain frags fuel n = some l → 1 ≤ l.length := by
  induction fuel with
  | zero => intro n l h; simp [frag_chain] at h
  | succ fuel ih =>
    intro n l h
    unfold frag_chain at h
    split at h
    · cases hc : frag_chain frags fuel (frags n).nfrag with
      | none => rw [hc] at h; simp at h
      | some l1 =>
        rw [hc] at h
        simp only [Option.map_some', Option.some.injEq] at h
        subst h
        simp
    · simp only [Option.some.injEq] at h
      subst h
      simp

/-- C17. `lws_hdr_total_length` returns 0 when the connection has no AH or
`frag_index[h]` is 0; otherwise, with `l = [f1, ..., fk]` the fragments reached
from `frag_index[h]` by `nfrag` links (`k ≥ 1`), it returns
`len(f1) + ... + len(fk) + (k - 1)`. -/
theorem C17_total_length (wsi : lws) (h : Nat) :
    (wsi.ah = none → lws_hdr_total_length wsi h = some 0) ∧
    (∀ ah, wsi.ah = some ah → ah.frag_index h = 0 → lws_hdr_total_length wsi h = some 0) ∧
    (∀ ah l, wsi.ah = some ah → ah.frag_index h ≠ 0 →
      frag_chain ah.frags 256 (ah.frag_index h) = some l →
      1 ≤ l.length ∧
      lws_hdr_total_length wsi h =
        some ((l.map fun i => ((ah.frags i).len : Int)).sum + ((l.length : Int) - 1))) := by
  refine ⟨?_, ?_, ?_⟩
  · intro h0
    simp [lws_hdr_total_length, h0]
  · intro ah h0 h1
    simp [lws_hdr_total_length, h0, AH.total_length, h1]
  · intro ah l h0 h1 h2
    refine ⟨frag_chain_length _ _ _ _ h2, ?_⟩
    have := total_length_loop_chain ah.frags 256 (ah.frag_index h) 0 l h2
    simp only [lws_hdr_total_length, h0, AH.total_length, h1, if_false, this, zero_add]
    rfl

theorem copy_fragment_walk_eq (frags : Nat → Frag) (k : Nat) :
    ∀ n, copy_fragment_walk frags k n = nth_frag frags k n := by
  induction k with
  | zero => intro n; rfl
  | succ k ih =>
    intro n
    unfold copy_fragment_walk nth_frag
    split
    · rfl
    · exact ih _

theorem fragment_length_loop_eq (frags : Nat → Frag) (k : Nat) :
    ∀ (fuel n : Nat), k < fuel →
      fragment_length_loop frags fuel n (k : Int) =
        some (match nth_frag frags k n with
          | some f => ((frags f).len : Int)
          | none => 0) := by
  induction k with
  | zero =>
    intro fuel n hf
    cases fuel with
    | zero => omega
    | succ fuel => simp [fragment_length_loop, nth_frag]
  | succ k ih =>
    intro fuel n hf
    cases fuel with
    | zero => omega
    | succ fuel =>
      unfold fragment_length_loop nth_frag
      have hk : ((k + 1 : Nat) : Int) ≠ 0 := by omega
      rw [if_neg hk]
      by_cases hn : (frags n).nfrag = 0
      · simp [hn]
      · have e : ((k + 1 : Nat) : Int) - 1 = (k : Int) := by omega
        simp only [hn, ne_eq, not_false_eq_true, if_true, if_false, e]
        exact ih fuel _ (by omega)

/-- C20. For fragment number `k ≥ 0` of token `h` and a buffer of `cap` bytes:
`lws_hdr_copy_fragment` returns -1 (buffer untouched) when the connection has
no AH, `frag_index[h]` is 0, or the chain of `h` has fewer than `k + 1`
fragments, and in each of these cases `lws_hdr_fragment_length` returns 0;
when fragment `f` is number `k` of the chain, `lws_hdr_fragment_length`
returns its length, and `lws_hdr_copy_fragment` returns -2 (buffer untouched)
when that length is `≥ cap`, and otherwise returns the length after storing
the bytes of the fragment, then a NUL, and nothing else. -/
theorem C20_copy_fragment (wsi : lws) (dst : Nat → Nat) (cap : Int) (h k : Nat) :
    (wsi.ah = none →
      lws_hdr_copy_fragment wsi dst cap h k = (-1, dst) ∧
      lws_hdr_fragment_length wsi h k = some 0) ∧
    (∀ ah, wsi.ah = some ah →
      (ah.frag_index h = 0 →
        lws_hdr_copy_fragment wsi dst cap h k = (-1, dst) ∧
        lws_hdr_fragment_length wsi h k = some 0) ∧
      (ah.frag_index h ≠ 0 → nth_frag ah.frags k (ah.frag_index h) = none →
        lws_hdr_copy_fragment wsi dst cap h k = (-1, dst) ∧
        lws_hdr_fragment_length wsi h k = some 0) ∧
      (∀ f, ah.frag_index h ≠ 0 → nth_frag ah.frags k (ah.frag_index h) = some f →
        lws_hdr_fragment_length wsi h k = some ((ah.frags f).len : Int) ∧
        (cap ≤ ((ah.frags f).len : Int) → lws_hdr_copy_fragment wsi dst cap h k = (-2, dst)) ∧
        (¬cap ≤ ((ah.frags f).len : Int) →
          (lws_hdr_copy_fragment wsi dst cap h k).1 = ((ah.frags f).len : Int) ∧
          (∀ j, j < (ah.frags f).len →
            (lws_hdr_copy_fragment wsi dst cap h k).2 j = ah.data ((ah.frags f).offset + j)) ∧
          (lws_hdr_copy_fragment wsi dst cap h k).2 (ah.frags f).len = 0 ∧
          (∀ j, (ah.frags f).len < j → (lws_hdr_copy_fragment wsi dst cap h k).2 j = dst j)))) := by
  refine ⟨?_, ?_⟩
  · intro h0
    simp [lws_hdr_copy_fragment, lws_hdr_fragment_length, h0]
  · intro ah h0
    have hfl : ah.frag_index h ≠ 0 → lws_hdr_fragment_length wsi h k =
        some (match nth_frag ah.frags k (ah.frag_index h) with
          | some f => ((ah.frags f).len : Int)
          | none => 0) := by
      intro h1
      simp only [lws_hdr_fragment_length, h0, h1, if_false]
      exact fragment_length_loop_eq ah.frags k _ _ (by simp)
    refine ⟨?_, ?_, ?_⟩
    · intro h1
      simp [lws_hdr_copy_fragment, lws_hdr_fragment_length, h0, h1]
    · intro h1 h2
      refine ⟨?_, ?_⟩
      · simp [lws_hdr_copy_fragment, h0, h1, copy_fragment_walk_eq, h2]
      · rw [hfl h1, h2]
    · intro f h1 h2
      have hw : copy_fragment_walk ah.frags (k : Int).toNat (ah.frag_index h) = some f := by
        rw [copy_fragment_walk_eq]
        simpa using h2
      refine ⟨?_, ?_, ?_⟩
      · rw [hfl h1, h2]
      · intro hc
        simp only [lws_hdr_copy_fragment, h0, h1, if_false, hw, hc, if_true]
      · intro hc
        simp only [lws_hdr_copy_fragment, h0, h1, if_false, hw, hc]
        refine ⟨trivial, ?_, ?_, ?_⟩
        · intro j hj
          have : j ≠ (ah.frags f).len := by omega
          simp [upd, memcpy, this, hj]
        · simp [upd]
        · intro j hj
          have h3 : j ≠ (ah.frags f).len := by omega
          have h4 : ¬j < (ah.frags f).len := by omega
          simp [upd, memcpy, h3, h4]

theorem chain_total_nonneg (frags : Nat → Frag) (l : List Nat) (hl : 1 ≤ l.length) :
    0 ≤ chain_total frags l := by
  unfold chain_total
  have : 0 ≤ (l.map fun i => ((frags i).len : Int)).sum := by
    apply List.sum_nonneg
    intro x hx
    simp only [List.mem_map] at hx
    obtain ⟨i, -, rfl⟩ := hx
    exact Int.ofNat_nonneg _
  omega

theorem strncpy_outside (dst : Nat → Nat) (d : Nat) (src : Nat → Nat) (n j : Nat)
    (h : j < d ∨ d + n ≤ j) : strncpy dst d src n j = dst j := by
  unfold strncpy
  have : ¬(d ≤ j ∧ j < d + n) := by omega
  rw [if_neg this]

theorem hdr_copy_loop_spec (ctx : Context) (ah : AH) (h : Nat) (fuel : Nat) :
    ∀ (n d : Nat) (len : Int) (dst : Nat → Nat) (l : List Nat),
      frag_chain ah.frags fuel n = some l → chain_total ah.frags l < len →
      ∃ b, hdr_copy_loop ctx ah h fuel n d len dst =
          some (.done b (d + (chain_total ah.frags l).toNat)) ∧
        ∀ j : Nat, (j < d ∨ (d : Int) + chain_total ah.frags l ≤ j) → b j = dst j := by
  induction fuel with
  | zero => intro n d len dst l hc; simp [frag_chain] at hc
  | succ fuel ih =>
    intro n d len dst l hc hlt
    unfold frag_chain at hc
    unfold hdr_copy_loop
    by_cases hn : (ah.frags n).nfrag ≠ 0
    · rw [if_pos hn] at hc
      cases hc1 : frag_chain ah.frags fuel (ah.frags n).nfrag with
      | none => rw [hc1] at hc; simp at hc
      | some l1 =>
        rw [hc1] at hc
        simp only [Option.map_some', Option.some.injEq] at hc
        subst hc
        have hl1 := frag_chain_length _ _ _ _ hc1
        have hnn := chain_total_nonneg ah.frags l1 hl1
        have ht : chain_total ah.frags (n :: l1) =
            ((ah.frags n).len : Int) + 1 + chain_total ah.frags l1 := by
          simp only [chain_total, List.map_cons, List.sum_cons, List.length_cons]
          push_cast
          ring
        rw [ht] at hlt ⊢
        simp only [hn, ne_eq, not_false_eq_true, if_true, one_ne_zero]
        have hnb : ¬len ≤ (((ah.frags n).len + 1 : Nat) : Int) := by
          push_cast
          omega
        rw [if_neg hnb]
        obtain ⟨b, hb, hout⟩ := ih (ah.frags n).nfrag (d + (ah.frags n).len + 1)
          (len - (ah.frags n).len - 1)
          (upd (strncpy dst d (fun i => ah.data ((ah.frags n).offset + i)) (ah.frags n).len)
            (d + (ah.frags n).len) (separator ctx h)) l1 hc1 (by omega)
        refine ⟨b, ?_, ?_⟩
        · rw [hb]
          congr 2
          omega
        · intro j hj
          rw [hout j (by push_cast; omega)]
          have hne : j ≠ d + (ah.frags n).len := by omega
          simp only [upd, hne, if_false]
          exact strncpy_outside _ _ _ _ _ (by omega)
    · rw [if_neg hn] at hc
      simp only [Option.some.injEq] at hc
      subst hc
      have ht : chain_total ah.frags [n] = ((ah.frags n).len : Int) := by
        simp [chain_total]
      rw [ht] at hlt ⊢
      simp only [hn, if_false, add_zero, ne_eq, not_true_eq_false]
      have hnb : ¬len ≤ ((ah.frags n).len : Int) := by omega
      rw [if_neg hnb]
      refine ⟨strncpy dst d (fun i => ah.data ((ah.frags n).offset + i)) (ah.frags n).len,
        ?_, ?_⟩
      · simp
      · intro j hj
        exact strncpy_outside _ _ _ _ _ (by omega)

/-- C19. For a connection with an AH on which the chain of token `h` is well
formed (it reaches a link 0), and every `cap ≥ 1`: `lws_hdr_copy` returns, and
returns -1 exactly when `lws_hdr_total_length(h) ≥ cap`; when the total is
below `cap` it returns the total, so that the "blowout" test inside the loop
was never true (a non-zero total makes the loop run to the end of the chain);
no byte at or beyond `dst[cap]` is written; and when `h` has no fragment it
returns 0 and stores the empty string. -/
theorem C19_copy_overflow (ctx : Context) (wsi : lws) (ah : AH) (dst : Nat → Nat) (cap : Int)
    (h : Nat) (hah : wsi.ah = some ah) (hcap : 1 ≤ cap)
    (hwf : ah.frag_index h ≠ 0 → ∃ l, frag_chain ah.frags 256 (ah.frag_index h) = some l) :
    ∃ total r, lws_hdr_total_length wsi h = some total ∧
      lws_hdr_copy ctx wsi dst cap h = some r ∧
      (r.1 = -1 ↔ cap ≤ total) ∧ (¬cap ≤ total → r.1 = total) ∧
      (¬cap ≤ total → total ≠ 0 →
        ∃ b d, hdr_copy_loop ctx ah h 256 (ah.frag_index h) 0 cap (upd dst 0 0) =
          some (.done b d)) ∧
      (∀ j : Nat, cap ≤ (j : Int) → r.2 j = dst j) ∧
      (ah.frag_index h = 0 → r.1 = 0 ∧ r.2 0 = 0) := by
  have hupd : ∀ j : Nat, cap ≤ (j : Int) → upd dst 0 0 j = dst j := by
    intro j hj
    have : j ≠ 0 := by omega
    simp [upd, this]
  by_cases h0 : ah.frag_index h = 0
  · have ht : lws_hdr_total_length wsi h = some 0 := by
      simp [lws_hdr_total_length, hah, AH.total_length, h0]
    refine ⟨0, (0, upd dst 0 0), ht, ?_, ?_, ?_, ?_, hupd, ?_⟩
    · simp [lws_hdr_copy, ht]
    · constructor
      · intro h1
        simp at h1
      · intro h1
        omega
    · intro _
      rfl
    · intro _ h1
      exact absurd rfl h1
    · intro _
      exact ⟨rfl, by simp [upd]⟩
  · obtain ⟨l, hl⟩ := hwf h0
    have hlen := frag_chain_length _ _ _ _ hl
    have hnn := chain_total_nonneg ah.frags l hlen
    have ht : lws_hdr_total_length wsi h = some (chain_total ah.frags l) := by
      have := total_length_loop_chain ah.frags 256 (ah.frag_index h) 0 l hl
      simp only [lws_hdr_total_length, hah, AH.total_length, h0, if_false, this, zero_add]
    by_cases hz : chain_total ah.frags l = 0
    · refine ⟨_, (0, upd dst 0 0), ht, ?_, ?_, ?_, ?_, hupd, fun h1 => absurd h1 h0⟩
      · simp [lws_hdr_copy, ht, hz]
      · rw [hz]
        constructor
        · intro h1
          simp at h1
        · intro h1
          omega
      · intro _
        exact hz.symm
      · intro _ h1
        exact absurd hz h1
    · by_cases hc : cap ≤ chain_total ah.frags l
      · refine ⟨_, (-1, upd dst 0 0), ht, ?_, ?_, ?_, ?_, hupd, fun h1 => absurd h1 h0⟩
        · simp [lws_hdr_copy, ht, hz, hc]
        · exact ⟨fun _ => hc, fun _ => rfl⟩
        · intro h1
          exact absurd hc h1
        · intro h1
          exact absurd hc h1
      · obtain ⟨b, hb, hout⟩ := hdr_copy_loop_spec ctx ah h 256 (ah.frag_index h) 0 cap
          (upd dst 0 0) l hl (by omega)
        refine ⟨_, (chain_total ah.frags l,
          upd b (0 + (chain_total ah.frags l).toNat) 0), ht, ?_, ?_, ?_, ?_, ?_,
          fun h1 => absurd h1 h0⟩
        · simp only [lws_hdr_copy, ht, hz, if_false, hc, hah, h0, hb]
        · constructor
          · intro h1
            have : chain_total ah.frags l = -1 := h1
            omega
          · intro h1
            exact absurd h1 hc
        · intro _
          rfl
        · intro _ _
          exact ⟨b, _, hb⟩
        · intro j hj
          have hne : j ≠ 0 + (chain_total ah.frags l).toNat := by omega
          simp only [upd, hne, if_false]
          rw [hout j (by right; push_cast; omega)]
          exact hupd j hj

theorem C19_copy_overflow_witness :
    (1 : Int) ≤ 8 ∧
    frag_chain ah_two_frags.frags 256 (ah_two_frags.frag_index 26) = some [1, 2] ∧
    ∃ total r, lws_hdr_total_length (h1_server ah_two_frags) 26 = some total ∧
      lws_hdr_copy lws_context (h1_server ah_two_frags) (fun _ => 255) 8 26 = some r ∧
      (r.1 = -1 ↔ (8 : Int) ≤ total) ∧ (¬(8 : Int) ≤ total → r.1 = total) ∧
      (¬(8 : Int) ≤ total → total ≠ 0 →
        ∃ b d, hdr_copy_loop lws_context ah_two_frags 26 256 (ah_two_frags.frag_index 26) 0 8
          (upd (fun _ => 255) 0 0) = some (.done b d)) ∧
      (∀ j : Nat, (8 : Int) ≤ (j : Int) → r.2 j = (fun _ => 255) j) ∧
      (ah_two_frags.frag_index 26 = 0 → r.1 = 0 ∧ r.2 0 = 0) :=
  ⟨by decide, by decide!,
    C19_copy_overflow lws_context (h1_server ah_two_frags) ah_two_frags (fun _ => 255) 8 26 rfl
      (by decide) (fun _ => ⟨[1, 2], by decide!⟩)⟩

/-- C18. On the AH left by the parse of `GET /?a=%00bc HTTP/1.1`, whose query
fragment holds the four bytes `a`, `=`, NUL, `b`, `lws_hdr_total_length` is 4
and `lws_hdr_copy` into a buffer of 16 bytes returns 4 but stores `a`, `=`,
NUL, NUL and the final NUL: `strncpy` stops at the NUL of the fragment and
pads, so the byte `b` is not copied. `lws_hdr_copy_fragment` copies all four
bytes. -/
theorem C18_copy_stops_at_nul :
    ah_nul_arg.token_bytes lws_tokens.WSI_TOKEN_HTTP_URI_ARGS = some [[97, 61, 0, 98]] ∧
    lws_hdr_total_length (h1_server ah_nul_arg) lws_tokens.WSI_TOKEN_HTTP_URI_ARGS = some 4 ∧
    (lws_hdr_copy lws_context (h1_server ah_nul_arg) (fun _ => 255) 16
      lws_tokens.WSI_TOKEN_HTTP_URI_ARGS).map (fun r => (r.1, (List.range 6).map r.2)) =
      some (4, [97, 61, 0, 0, 0, 255]) ∧
    (List.range 6).map (lws_hdr_copy_fragment (h1_server ah_nul_arg) (fun _ => 255) 16
      lws_tokens.WSI_TOKEN_HTTP_URI_ARGS 0).2 = [97, 61, 0, 98, 0, 255] := by
  decide!

theorem parse_resume (ctx : Context) (wsi wsi1 : lws) (ah : AH) (pre cs : List Nat)
    (h1 : lws_parse ctx wsi pre = some (LPR_OK, wsi1, 0)) (hah : wsi1.ah = some ah)
    (hnc : wsi1.hdr_parsing_completed = false) :
    lws_parse ctx wsi (pre ++ cs) = parse_loop ctx wsi cs ah := by
  unfold lws_parse at h1 ⊢
  cases h0 : wsi.ah with
  | none => rw [h0] at h1; simp at h1
  | some a0 =>
    rw [h0] at h1
    simp only at h1 ⊢
    obtain ⟨ah1, hw, hs⟩ := parse_loop_split ctx wsi wsi1 0 pre a0 h1 (Or.inl hnc)
    rw [hs cs]
    rw [hw] at hah
    simp only [Option.some.injEq] at hah
    rw [hah]

theorem reserve_fields (ctx : Context) (n : Nat) : ∀ ah : AH,
    (reserve_unknown_entry ctx n ah).frag_index = ah.frag_index ∧
    (reserve_unknown_entry ctx n ah).lextable_pos = ah.lextable_pos ∧
    (reserve_unknown_entry ctx n ah).pos ≤ ah.pos + n := by
  induction n with
  | zero => intro ah; exact ⟨rfl, rfl, le_refl _⟩
  | succ n ih =>
    intro ah
    unfold reserve_unknown_entry
    split
    · obtain ⟨h1, h2, h3⟩ := ih (ah.put 0)
      refine ⟨h1, h2, le_trans h3 ?_⟩
      simp only [AH.put, inc32]
      omega
    · obtain ⟨h1, h2, h3⟩ := ih ah
      exact ⟨h1, h2, by omega⟩

theorem name_setup_fields (ctx : Context) (wsi : lws) (ah : AH) :
    ∃ ah1 : AH,
      ah1 = (if wsi.mux_substream = false ∧ ah.unk_pos = 0 then
          if ctx.with_custom_headers = true then
            reserve_unknown_entry ctx 8 { ah with unk_pos := ah.pos }
          else { ah with unk_pos := ah.pos }
        else ah) ∧
      ah1.frag_index = ah.frag_index ∧ ah1.lextable_pos = ah.lextable_pos ∧
      ah1.pos ≤ ah.pos + 8 := by
  refine ⟨_, rfl, ?_⟩
  split
  · split
    · exact reserve_fields ctx 8 { ah with unk_pos := ah.pos }
    · exact ⟨rfl, rfl, Nat.le_add_right _ _⟩
  · exact ⟨rfl, rfl, Nat.le_add_right _ _⟩

theorem name_exit_step (ctx : Context) (wsi : lws) (ah : AH) (c0 : Nat)
    (hrole : wsi.role_h1 = true ∧ wsi.role_server = true)
    (hin : in_name_part ctx ah) (hfirst : ¬(ah.unk_pos = 0 ∧ c0 = 10))
    (hcur : 0 ≤ ah.lextable_pos) (hnm : ∀ m ∈ methods ctx, ah.frag_index m = 0)
    (hroom : ah.pos + 8 < ctx.max_http_header_data)
    (hexit : lex_walk ctx.lextable_h1 (if 65 ≤ c0 ∧ c0 ≤ 90 then (c0 + 32) % 256 else c0)
      (ctx.lextable_h1.length + 1) ah.lextable_pos.toNat = .nope) :
    ∃ a, lws_parse_byte ctx wsi ah c0 =
      if wsi.vhost_fallback = true then .fallback a else .forbid a := by
  unfold lws_parse_byte
  rw [if_neg hin.1, if_pos hin.2]
  unfold name_part
  rw [if_neg hfirst]
  obtain ⟨ah1, he, hf, hl, hp⟩ := name_setup_fields ctx wsi ah
  dsimp only
  rw [← he]
  generalize (if 65 ≤ c0 ∧ c0 ≤ 90 then (c0 + 32) % 256 else c0) = c at hexit ⊢
  have hb : ¬lws_pos_in_bounds ctx ah1 ≠ 0 := by
    have : lws_pos_in_bounds ctx ah1 = 0 := (in_bounds_iff ctx ah1).mpr (by omega)
    simp [this]
  rw [if_neg hb]
  have hl2 : (ah1.put c).lextable_pos = ah.lextable_pos := hl
  have hneg : ¬(ah1.put c).lextable_pos < 0 := by
    rw [hl2]
    omega
  have hcust : ¬(ctx.with_custom_headers = true ∧ wsi.mux_substream = false ∧
      (ah1.put c).lextable_pos < 0 ∧ c = 58) := fun h => hneg h.2.2.1
  rw [if_neg hcust, if_neg hneg, hl2, hexit]
  refine ⟨{ ah1.put c with lextable_pos := -1 }, ?_⟩
  show name_part_known ctx wsi { ah1.put c with lextable_pos := -1 } = _
  unfold name_part_known
  have h1 : (({ ah1.put c with lextable_pos := -1 } : AH).lextable_pos < 0 ∧
      wsi.role_h1 = true ∧ wsi.role_server = true) :=
    ⟨show (-1 : Int) < 0 by decide, hrole.1, hrole.2⟩
  rw [if_pos h1]
  have h2 : ¬∃ m ∈ methods ctx, ({ ah1.put c with lextable_pos := -1 } : AH).frag_index m ≠ 0 := by
    rintro ⟨m, hm, hne⟩
    apply hne
    show ah1.frag_index m = 0
    rw [hf]
    exact hnm m hm
  rw [if_neg h2]

/-- C11. On an HTTP/1 server connection (`role_h1`, `role_server`) whose parse
of the bytes `pre` has returned `LPR_OK` and left the parser in the name part
with the lex cursor inside the table, no method token stored and room for the
name byte (`pos + 8 < max_http_header_data`): when the next byte makes the walk
over the lex table exit (`nope`), `lws_parse` on `pre` followed by that byte
and any further bytes `rest` stops at that byte, with `rest` left in `*len`,
and returns `LPR_DO_FALLBACK` when the vhost has the fallback option and
`LPR_FORBIDDEN`, after sending the 403, otherwise; never `LPR_OK`. -/
theorem C11_unknown_method (ctx : Context) (wsi wsi1 : lws) (ah : AH) (pre rest : List Nat)
    (c0 : Nat)
    (hrole : wsi.role_h1 = true ∧ wsi.role_server = true)
    (h1 : lws_parse ctx wsi pre = some (LPR_OK, wsi1, 0)) (hah : wsi1.ah = some ah)
    (hnc : wsi1.hdr_parsing_completed = false)
    (hin : in_name_part ctx ah) (hfirst : ¬(ah.unk_pos = 0 ∧ c0 = 10))
    (hcur : 0 ≤ ah.lextable_pos) (hnm : ∀ m ∈ methods ctx, ah.frag_index m = 0)
    (hroom : ah.pos + 8 < ctx.max_http_header_data)
    (hexit : lex_walk ctx.lextable_h1 (if 65 ≤ c0 ∧ c0 ≤ 90 then (c0 + 32) % 256 else c0)
      (ctx.lextable_h1.length + 1) ah.lextable_pos.toNat = .nope) :
    (lws_parse ctx wsi (pre ++ c0 :: rest)).map (fun r => (r.1, r.2.2)) =
      some (if wsi.vhost_fallback = true then LPR_DO_FALLBACK else LPR_FORBIDDEN,
        rest.length) ∧
    (wsi.vhost_fallback = false →
      (lws_parse ctx wsi (pre ++ c0 :: rest)).map (fun r => r.2.1.forbidden_sent) =
        some (wsi.forbidden_sent || ctx.with_server)) := by
  rw [parse_resume ctx wsi wsi1 ah pre (c0 :: rest) h1 hah hnc]
  obtain ⟨a, ha⟩ := name_exit_step ctx wsi ah c0 hrole hin hfirst hcur hnm hroom hexit
  unfold parse_loop
  rw [ha]
  cases hfb : wsi.vhost_fallback with
  | true => simp
  | false => simp [forbid_label]

theorem wsi_after_eq (ctx : Context) (wsi : lws) (buf : List Nat)
    (h : (lws_parse ctx wsi buf).map (fun r => (r.1, r.2.2, r.2.1.ah.isSome)) =
      some (LPR_OK, 0, true)) :
    lws_parse ctx wsi buf = some (LPR_OK, wsi_after ctx wsi buf, 0) ∧
    (wsi_after ctx wsi buf).ah = some (ah_parsed ctx wsi buf) := by
  unfold ah_parsed wsi_after
  cases hr : lws_parse ctx wsi buf with
  | none => rw [hr] at h; simp at h
  | some r =>
    rw [hr] at h
    simp only [Option.map_some', Option.some.injEq, Prod.mk.injEq] at h
    obtain ⟨a, b, c⟩ := h
    refine ⟨?_, ?_⟩
    · rw [← a, ← b]
    · simp only
      cases ha : r.2.1.ah with
      | none => rw [ha] at c; simp at c
      | some x => rfl

theorem C11_unknown_method_witness :
    (lws_parse lws_context wsi_fresh (bytes "GE")).map
      (fun r => (r.1, r.2.2, r.2.1.ah.isSome)) = some (LPR_OK, 0, true) ∧
    lex_walk lws_context.lextable_h1 (if 65 ≤ 88 ∧ 88 ≤ 90 then (88 + 32) % 256 else 88)
      (lws_context.lextable_h1.length + 1)
      (ah_parsed lws_context wsi_fresh (bytes "GE")).lextable_pos.toNat = .nope ∧
    ((lws_parse lws_context wsi_fresh (bytes "GE" ++ 88 :: bytes " / HTTP/1.1\r\n\r\n")).map
        (fun r => (r.1, r.2.2)) =
      some (if wsi_fresh.vhost_fallback = true then LPR_DO_FALLBACK else LPR_FORBIDDEN,
        (bytes " / HTTP/1.1\r\n\r\n").length) ∧
      (wsi_fresh.vhost_fallback = false →
        (lws_parse lws_context wsi_fresh
          (bytes "GE" ++ 88 :: bytes " / HTTP/1.1\r\n\r\n")).map
            (fun r => r.2.1.forbidden_sent) =
          some (wsi_fresh.forbidden_sent || lws_context.with_server))) :=
  have hv : (lws_parse lws_context wsi_fresh (bytes "GE")).map
      (fun r => (r.1, r.2.2, r.2.1.ah.isSome)) = some (LPR_OK, 0, true) := by decide!
  have hx : lex_walk lws_context.lextable_h1 (if 65 ≤ 88 ∧ 88 ≤ 90 then (88 + 32) % 256 else 88)
      (lws_context.lextable_h1.length + 1)
      (ah_parsed lws_context wsi_fresh (bytes "GE")).lextable_pos.toNat = .nope := by decide!
  ⟨hv, hx,
    C11_unknown_method lws_context wsi_fresh (wsi_after lws_context wsi_fresh (bytes "GE"))
      (ah_parsed lws_context wsi_fresh (bytes "GE")) (bytes "GE") (bytes " / HTTP/1.1\r\n\r\n") 88
      ⟨rfl, rfl⟩ (wsi_after_eq lws_context wsi_fresh (bytes "GE") hv).1
      (wsi_after_eq lws_context wsi_fresh (bytes "GE") hv).2 (by decide!) (by decide!)
      (by decide!) (by decide!) (by decide!) (by decide!) hx⟩

theorem value_dispatch (ctx : Context) (wsi : lws) (ah : AH) (c : Nat)
    (hv : in_value_part ctx ah) : lws_parse_byte ctx wsi ah c = value_part ctx ah c := by
  unfold lws_parse_byte
  rw [if_neg hv.1, if_neg hv.2.1, if_neg hv.2.2.1, if_neg hv.2.2.2.1, if_neg hv.2.2.2.2]

theorem nul_literal_step (ctx : Context) (wsi : lws) (ah : AH)
    (hv : in_value_part ctx ah) (hm : ah.parser_state ∈ methods ctx)
    (hkey : ah.frag_index ctx.tk.WSI_TOKEN_HTTP_URI_ARGS = 0 ∨ ah.post_literal_equal = 0)
    (hu : ah.ues = URIES_IDLE) : lws_parse_byte ctx wsi ah 0 = .fail ah := by
  rw [value_dispatch ctx wsi ah 0 hv]
  unfold value_part
  have h1 : ¬((ah.frags (ah.frag_index ah.parser_state)).len = 0 ∧ (0 : Nat) = 32) :=
    fun h => absurd h.2 (by decide)
  have h2 : ¬ah.parser_state ∉ methods ctx := fun h => h hm
  have h3 : ¬(0 : Nat) = 32 := by decide
  rw [if_neg h1, if_neg h2, if_neg h3]
  have e : lws_parse_urldecode ctx ah 0 = (LPUR_MINUS_ONE, ah, 0) := by
    unfold lws_parse_urldecode
    rw [hu]
    simp only
    rw [if_neg (by decide)]
    unfold urldecode_path
    rw [if_pos ⟨rfl, hkey⟩]
  rw [e]

theorem nul_decoded_step (ctx : Context) (wsi : lws) (ah : AH)
    (hv : in_value_part ctx ah) (hm : ah.parser_state ∈ methods ctx)
    (hkey : ah.frag_index ctx.tk.WSI_TOKEN_HTTP_URI_ARGS = 0 ∨ ah.post_literal_equal = 0)
    (hu : ah.ues = URIES_SEEN_PERCENT_H1) (he : ah.esc_stash = 48) :
    lws_parse_byte ctx wsi ah 48 = .fail { ah with ues := URIES_IDLE } := by
  rw [value_dispatch ctx wsi ah 48 hv]
  unfold value_part
  have h1 : ¬((ah.frags (ah.frag_index ah.parser_state)).len = 0 ∧ (48 : Nat) = 32) :=
    fun h => absurd h.2 (by decide)
  have h2 : ¬ah.parser_state ∉ methods ctx := fun h => h hm
  have h3 : ¬(48 : Nat) = 32 := by decide
  rw [if_neg h1, if_neg h2, if_neg h3]
  have e : lws_parse_urldecode ctx ah 48 = (LPUR_MINUS_ONE, { ah with ues := URIES_IDLE }, 0) := by
    unfold lws_parse_urldecode
    rw [hu]
    simp only
    rw [if_neg (by decide), he]
    have hd : Int.toNat ((char_to_hex 48 * 16 + char_to_hex 48) % 256) = 0 := by decide
    rw [hd]
    unfold urldecode_path
    rw [if_pos ⟨rfl, hkey⟩]
  rw [e]

theorem nul_in_escape_step (ctx : Context) (wsi : lws) (ah : AH)
    (hv : in_value_part ctx ah) (hm : ah.parser_state ∈ methods ctx)
    (hu : ah.ues ≠ URIES_IDLE) : lws_parse_byte ctx wsi ah 0 = .forbid ah := by
  rw [value_dispatch ctx wsi ah 0 hv]
  unfold value_part
  have h1 : ¬((ah.frags (ah.frag_index ah.parser_state)).len = 0 ∧ (0 : Nat) = 32) :=
    fun h => absurd h.2 (by decide)
  have h2 : ¬ah.parser_state ∉ methods ctx := fun h => h hm
  have h3 : ¬(0 : Nat) = 32 := by decide
  rw [if_neg h1, if_neg h2, if_neg h3]
  have e : lws_parse_urldecode ctx ah 0 = (LPUR_FORBID, ah, 0) := by
    unfold lws_parse_urldecode
    cases h : ah.ues with
    | URIES_IDLE => exact absurd h hu
    | URIES_SEEN_PERCENT =>
      simp only
      rw [if_pos (by decide)]
    | URIES_SEEN_PERCENT_H1 =>
      simp only
      rw [if_pos (by decide)]
  rw [e]

/-- C12 (as the code has it). After a parse of `pre` that returned `LPR_OK` and
left the parser inside a method URI, outside the query or before the literal
`=` of the current query pair: a literal NUL that arrives while no escape is
open makes `lws_parse` return `LPR_FAIL` with the AH untouched; the second `0`
of `%00` makes it return `LPR_FAIL` with nothing stored; a literal NUL that
arrives as one of the two bytes after a `%` makes it return `LPR_FORBIDDEN`
with the AH untouched. In each case the bytes after the NUL are left in
`*len`. -/
theorem C12_nul_in_uri (ctx : Context) (wsi wsi1 : lws) (ah : AH) (pre rest : List Nat)
    (h1 : lws_parse ctx wsi pre = some (LPR_OK, wsi1, 0)) (hah : wsi1.ah = some ah)
    (hnc : wsi1.hdr_parsing_completed = false)
    (hv : in_value_part ctx ah) (hm : ah.parser_state ∈ methods ctx)
    (hkey : ah.frag_index ctx.tk.WSI_TOKEN_HTTP_URI_ARGS = 0 ∨ ah.post_literal_equal = 0) :
    (ah.ues = URIES_IDLE →
      lws_parse ctx wsi (pre ++ 0 :: rest) =
        some (LPR_FAIL, { wsi with ah := some ah }, rest.length)) ∧
    (ah.ues = URIES_SEEN_PERCENT_H1 → ah.esc_stash = 48 →
      lws_parse ctx wsi (pre ++ 48 :: rest) =
        some (LPR_FAIL, { wsi with ah := some { ah with ues := URIES_IDLE } }, rest.length)) ∧
    (ah.ues ≠ URIES_IDLE →
      lws_parse ctx wsi (pre ++ 0 :: rest) =
        some (LPR_FORBIDDEN,
          { wsi with ah := some ah, forbidden_sent := wsi.forbidden_sent || ctx.with_server },
          rest.length)) := by
  refine ⟨?_, ?_, ?_⟩
  · intro hu
    rw [parse_resume ctx wsi wsi1 ah pre (0 :: rest) h1 hah hnc]
    unfold parse_loop
    rw [nul_literal_step ctx wsi ah hv hm hkey hu]
  · intro hu he
    rw [parse_resume ctx wsi wsi1 ah pre (48 :: rest) h1 hah hnc]
    unfold parse_loop
    rw [nul_decoded_step ctx wsi ah hv hm hkey hu he]
  · intro hu
    rw [parse_resume ctx wsi wsi1 ah pre (0 :: rest) h1 hah hnc]
    unfold parse_loop
    rw [nul_in_escape_step ctx wsi ah hv hm hu]
    rfl

/-- C12 (as the claim has it) fails: in `GET /%` followed by a NUL byte the NUL
arrives in the method URI, outside the query, and `lws_parse` returns
`LPR_FORBIDDEN`, not `LPR_FAIL`. The request `GET /%00 HTTP/1.1` of the claim
returns `LPR_FAIL`. -/
theorem C12_nul_after_percent :
    (lws_parse lws_context wsi_fresh (bytes "GET /%" ++ 0 :: bytes " HTTP/1.1\r\n\r\n")).map
      (fun r => (r.1, r.2.2)) = some (LPR_FORBIDDEN, 13) ∧
    (lws_parse lws_context wsi_fresh (bytes "GET /%00 HTTP/1.1\r\n\r\n")).map
      (fun r => (r.1, r.2.2)) = some (LPR_FAIL, 13) := by
  decide!

theorem C12_nul_in_uri_witness :
    (lws_parse lws_context wsi_fresh (bytes "GET /%0")).map
      (fun r => (r.1, r.2.2, r.2.1.ah.isSome)) = some (LPR_OK, 0, true) ∧
    (ah_parsed lws_context wsi_fresh (bytes "GET /%0")).ues = URIES_SEEN_PERCENT_H1 ∧
    (ah_parsed lws_context wsi_fresh (bytes "GET /%0")).esc_stash = 48 ∧
    lws_parse lws_context wsi_fresh (bytes "GET /%0" ++ 48 :: bytes " HTTP/1.1\r\n\r\n") =
      some (LPR_FAIL,
        { wsi_fresh with
          ah := some { ah_parsed lws_context wsi_fresh (bytes "GET /%0") with
            ues := URIES_IDLE } },
        (bytes " HTTP/1.1\r\n\r\n").length) :=
  have hv : (lws_parse lws_context wsi_fresh (bytes "GET /%0")).map
      (fun r => (r.1, r.2.2, r.2.1.ah.isSome)) = some (LPR_OK, 0, true) := by decide!
  have hu : (ah_parsed lws_context wsi_fresh (bytes "GET /%0")).ues = URIES_SEEN_PERCENT_H1 := by
    decide!
  have he : (ah_parsed lws_context wsi_fresh (bytes "GET /%0")).esc_stash = 48 := by decide!
  ⟨hv, hu, he,
    (C12_nul_in_uri lws_context wsi_fresh (wsi_after lws_context wsi_fresh (bytes "GET /%0"))
      (ah_parsed lws_context wsi_fresh (bytes "GET /%0")) (bytes "GET /%0")
      (bytes " HTTP/1.1\r\n\r\n")
      (wsi_after_eq lws_context wsi_fresh (bytes "GET /%0") hv).1
      (wsi_after_eq lws_context wsi_fresh (bytes "GET /%0") hv).2 (by decide!) (by decide!)
      (by decide!) (by decide!)).2.1 hu he⟩

/-! ## C13: a percent-encoded `=` in the query -/

/-- C13 (as the claim has it) fails: after `lws_parse` on
`GET /a%2Fb?k=%3D HTTP/1.1 CRLF CRLF` from a reset AH the query-args token is
not the one fragment `k=_`. The `%3D` comes after the literal `=` of the pair,
where `post_literal_equal` is set and the decoded byte is kept. -/
theorem C13_encoded_eq_after_literal :
    (lws_parse lws_context wsi_fresh request_enc_eq_value).map
        (view_of [lws_tokens.WSI_TOKEN_HTTP_URI_ARGS]) ≠
      some ⟨LPR_OK, 0, true, some lws_tokens.WSI_PARSING_COMPLETE, [some [bytes "k=_"]]⟩ := by
  decide!

/-- C13 (as the code has it). Parsing `GET /a%2Fb?k=%3D HTTP/1.1 CRLF CRLF` from
a reset AH returns `LPR_OK` with the headers complete, the URI fragment `/a/b`
and exactly one query-args fragment, whose bytes are `k==`; the
percent-encoded `=` is rewritten to `_` when it comes before the literal `=`
of its pair: `GET /a%2Fb?k%3D=1 HTTP/1.1 CRLF CRLF` stores the URI fragment
`/a/b` and the one query-args fragment `k_=1`. -/
theorem C13_encoded_eq :
    (lws_parse lws_context wsi_fresh request_enc_eq_value).map
        (view_of [lws_tokens.WSI_TOKEN_GET_URI, lws_tokens.WSI_TOKEN_HTTP_URI_ARGS]) =
      some ⟨LPR_OK, 0, true, some lws_tokens.WSI_PARSING_COMPLETE,
        [some [bytes "/a/b"], some [bytes "k=="]]⟩ ∧
    (lws_parse lws_context wsi_fresh request_enc_eq_key).map
        (view_of [lws_tokens.WSI_TOKEN_GET_URI, lws_tokens.WSI_TOKEN_HTTP_URI_ARGS]) =
      some ⟨LPR_OK, 0, true, some lws_tokens.WSI_PARSING_COMPLETE,
        [some [bytes "/a/b"], some [bytes "k_=1"]]⟩ := by
  decide!

/-! ## C16: a value of exactly `current_token_limit` bytes -/

/-- C16 (divergence). With a limit of 8 bytes on the GET URI and of 4 bytes on
Host, `lws_parse` on `GET /abcdefg HTTP/1.1 CRLF Host: wxyz CRLF CRLF` stores
the Host value `wxyz` in full but the URI of exactly 8 bytes as the 7 bytes
`/abcdef`: at the space `issue_char` is at the limit and does not count the
terminator, and the caller lowers `len` all the same. A URI and a Host value
one byte over their limits are stored as their first 8 and 4 bytes, and the
header after them is parsed. -/
theorem C16_uri_at_limit_loses_byte :
    (lws_parse limit_context wsi_limited request_at_limit).map
        (view_of [lws_tokens.WSI_TOKEN_GET_URI, lws_tokens.WSI_TOKEN_HTTP, WSI_TOKEN_HOST]) =
      some ⟨LPR_OK, 0, true, some lws_tokens.WSI_PARSING_COMPLETE,
        [some [bytes "/abcdef"], some [bytes "HTTP/1.1"], some [bytes "wxyz"]]⟩ ∧
    (lws_parse limit_context wsi_limited request_over_limit).map
        (view_of [lws_tokens.WSI_TOKEN_GET_URI, WSI_TOKEN_HOST,
          lws_tokens.WSI_TOKEN_ORIGIN]) =
      some ⟨LPR_OK, 0, true, some lws_tokens.WSI_PARSING_COMPLETE,
        [some [bytes "/abcdefg"], some [bytes "wxyz"], some [bytes "q"]]⟩ := by
  decide!

/-! ## C14: the path of a method URI -/

theorem suffix_concat_concat (l s : List Nat) (b c : Nat) :
    l ++ [b] <:+ s ++ [c] ↔ b = c ∧ l <:+ s := by
  rw [← List.reverse_prefix, ← List.reverse_prefix]
  simp

theorem no_dup_concat (s : List Nat) (c : Nat) :
    no_dup_slash (s ++ [c]) ↔
      no_dup_slash s ∧ ¬(c = 47 ∧ ([47] <:+ s ∨ [47, 46] <:+ s)) := by
  have e1 := suffix_concat_concat [47] s 47 c
  have e2 := suffix_concat_concat [47, 46] s 47 c
  simp only [List.singleton_append, List.cons_append, List.nil_append] at e1 e2
  unfold no_dup_slash
  rw [List.infix_concat_iff, List.infix_concat_iff, e1, e2]
  constructor
  · rintro ⟨h1, h2⟩
    refine ⟨⟨fun h => h1 (Or.inr h), fun h => h2 (Or.inr h)⟩, ?_⟩
    rintro ⟨hc, h | h⟩
    · exact h1 (Or.inl ⟨hc.symm, h⟩)
    · exact h2 (Or.inl ⟨hc.symm, h⟩)
  · rintro ⟨⟨h1, h2⟩, h3⟩
    refine ⟨?_, ?_⟩
    · rintro (⟨hc, h⟩ | h)
      · exact h3 ⟨hc.symm, Or.inl h⟩
      · exact h1 h
    · rintro (⟨hc, h⟩ | h)
      · exact h3 ⟨hc.symm, Or.inr h⟩
      · exact h2 h

theorem no_dup_take (s : List Nat) (m : Nat) (h : no_dup_slash s) : no_dup_slash (s.take m) :=
  ⟨fun h1 => h.1 (h1.trans (List.IsPrefix.isInfix ( List.take_prefix m s))),
    fun h1 => h.2 (h1.trans (List.IsPrefix.isInfix ( List.take_prefix m s)))⟩

theorem take_concat_slash (s : List Nat) (m : Nat) (hm : m < s.length) (h : s.getD m 0 = 47) :
    s.take m ++ [47] = s.take (m + 1) := by
  rw [List.take_succ]
  have : s[m]? = some 47 := by
    rw [List.getD_eq_getElem?_getD, List.getElem?_eq_getElem hm] at h
    rw [List.getElem?_eq_getElem hm]
    simpa using h
  rw [this]
  rfl

theorem stores_bytes (ah : AH) (k : Nat) (s : List Nat) (h : stores ah k s) :
    ah.frag_bytes k = s := by
  unfold AH.frag_bytes
  apply List.ext_getElem
  · simp [h.1]
  · intro i h1 h2
    have := h.2 i h2
    rw [List.getD_eq_getElem?_getD, List.getElem?_eq_getElem h2] at this
    simpa using this

theorem path_core_congr {ctx : Context} {k : Nat} {ah a : AH} (h : path_core ctx k ah)
    (e1 : a.parser_state = ah.parser_state) (e2 : a.frag_index = ah.frag_index)
    (e3 : a.current_token_limit = ah.current_token_limit) : path_core ctx k a := by
  refine ⟨?_, ?_, ?_, ?_, ?_, ?_⟩
  · have := h.value
    unfold in_value_part at this ⊢
    rw [e1]
    exact this
  · rw [e1]; exact h.method
  · rw [e1]; exact h.not_challenge
  · rw [e1, e2]; exact h.first
  · rw [e2]; exact h.no_args
  · rw [e3]; exact h.limit

theorem stores_of_eq {ah a : AH} {k : Nat} {s : List Nat} (h : stores ah k s)
    (e1 : (a.frags k).offset = (ah.frags k).offset) (e2 : (a.frags k).len = (ah.frags k).len)
    (e3 : ∀ j, j < (ah.frags k).offset + (ah.frags k).len → a.data j = ah.data j) :
    stores a k s := by
  refine ⟨by rw [e2]; exact h.1, fun i hi => ?_⟩
  rw [e1, e3 _ (by rw [h.1]; omega)]
  exact h.2 i hi

theorem inc8_ne (k : Nat) : inc8 k ≠ k := by
  unfold inc8
  omega

theorem holds_put_inc {ah : AH} {k : Nat} {s : List Nat} (c : Nat) (h : holds ah k s)
    (hp : ah.pos < 4294967295) (hs : s.length < 65535) :
    holds ((ah.put c).len_inc) k (s ++ [c]) := by
  obtain ⟨⟨h1, h2⟩, h3, h4⟩ := h
  have e16 : inc16 s.length = s.length + 1 := by unfold inc16; omega
  have e32 : inc32 ah.pos = ah.pos + 1 := by unfold inc32; omega
  refine ⟨⟨?_, ?_⟩, h3, ?_⟩
  · simp [AH.len_inc, AH.put, upd, h3, h1, e16]
  · intro i hi
    simp only [List.length_append, List.length_singleton] at hi
    simp only [AH.len_inc, AH.put, upd, h3, if_true]
    by_cases hi2 : i < s.length
    · have : (ah.frags k).offset + i ≠ ah.pos := by omega
      rw [if_neg this, h2 i hi2, List.getD_append _ _ _ _ hi2]
    · have hi3 : i = s.length := by omega
      subst hi3
      rw [if_pos h4, List.getD_append_right _ _ _ _ (le_refl _)]
      simp
  · simp only [AH.len_inc, AH.put, upd, h3, if_true, List.length_append, List.length_singleton,
      e32]
    omega

theorem issue_char_ok {ctx : Context} {k : Nat} {ah : AH} {s : List Nat} (c : Nat)
    (hc : ah.current_token_limit = 0 ∨ ctx.max_http_header_data ≤ ah.current_token_limit)
    (h : holds ah k s) (hb : ah.pos < ctx.max_http_header_data) :
    issue_char ctx ah c = (0, (ah.put c).len_inc) := by
  have hb0 := (in_bounds_iff ctx ah).mpr hb
  have hl : ah.current_token_limit = 0 ∨ (ah.frags ah.nfrag).len < ah.current_token_limit := by
    rcases hc with h0 | h0
    · exact Or.inl h0
    · right
      rw [h.2.1, h.1.1]
      have := h.2.2
      omega
  unfold issue_char
  simp [hb0, hl]

theorem issue_char_full (ctx : Context) (ah : AH) (c : Nat)
    (hb : ¬ah.pos < ctx.max_http_header_data) : issue_char ctx ah c = (-1, ah) := by
  have hb0 : lws_pos_in_bounds ctx ah ≠ 0 := fun h => hb ((in_bounds_iff ctx ah).mp h)
  unfold issue_char
  simp [hb0]

theorem stores_seal {ah : AH} {k : Nat} {s : List Nat} (c : Nat) (h : holds ah k s)
    (hp : ah.pos < 4294967295) (hs : s.length < 65535) :
    stores ((ah.put c).len_inc).len_dec k s ∧ ((ah.put c).len_inc).len_dec.nfrag = k ∧
      ((ah.put c).len_inc).len_dec.pos = ah.pos + 1 ∧
      (((ah.put c).len_inc).len_dec.frags k).offset = (ah.frags k).offset := by
  obtain ⟨⟨h1, h2⟩, h3, h4⟩ := h
  have e16 : dec16 (inc16 s.length) = s.length := by unfold inc16 dec16; omega
  have e32 : inc32 ah.pos = ah.pos + 1 := by unfold inc32; omega
  refine ⟨⟨?_, ?_⟩, h3, ?_, ?_⟩
  · simp [AH.len_dec, AH.len_inc, AH.put, upd, h3, h1, e16]
  · intro i hi
    have : (ah.frags k).offset + i ≠ ah.pos := by omega
    simp only [AH.len_dec, AH.len_inc, AH.put, upd, h3, if_true, if_neg this]
    exact h2 i hi
  · simp only [AH.len_dec, AH.len_inc, AH.put, e32]
  · simp [AH.len_dec, AH.len_inc, AH.put, upd, h3]

theorem holds_trim {ah : AH} {k : Nat} {s : List Nat} (m : Nat) (h : holds ah k s)
    (hm : m ≤ s.length) : holds (ah.trim m) k (s.take m) := by
  obtain ⟨⟨h1, h2⟩, h3, h4⟩ := h
  have hl : (s.take m).length = m := by simp [hm]
  refine ⟨⟨?_, ?_⟩, h3, ?_⟩
  · simp [AH.trim, upd, h3, hl]
  · intro i hi
    rw [hl] at hi
    simp only [AH.trim, upd, h3, if_true]
    rw [h2 i (by omega), List.getD_eq_getElem?_getD, List.getD_eq_getElem?_getD,
      List.getElem?_take_of_lt hi]
  · simp [AH.trim, upd, h3, hl]

theorem trim_trim (ah : AH) (m n : Nat) : (ah.trim m).trim n = ah.trim n := by
  simp only [AH.trim]
  congr 1
  · funext j
    by_cases hj : j = ah.nfrag <;> simp [upd, hj]
  · simp [upd]

theorem trim_pos_le {ah : AH} {k : Nat} {s : List Nat} (m : Nat) (h : holds ah k s)
    (hm : m ≤ s.length) : (ah.trim m).pos ≤ ah.pos := by
  simp only [AH.trim]
  rw [h.2.1]
  have := h.2.2
  omega

theorem trim_self {ah : AH} {k : Nat} {s : List Nat} (h : holds ah k s) :
    ah.trim s.length = ah := by
  obtain ⟨⟨h1, h2⟩, h3, h4⟩ := h
  subst h3
  have e : upd ah.frags ah.nfrag { ah.frags ah.nfrag with len := s.length } = ah.frags := by
    funext j
    by_cases hj : j = ah.nfrag
    · subst hj
      simp only [upd, if_true]
      rw [← h1]
    · simp [upd, hj]
  unfold AH.trim
  rw [e, h4]

theorem back_step_trim {ah : AH} {k : Nat} {s : List Nat} (h : holds ah k s)
    (h1 : 1 ≤ s.length) (hs : s.length < 65536) (hp : ah.pos < 4294967296) :
    ({ ah with pos := dec32 ah.pos } : AH).len_dec = ah.trim (s.length - 1) := by
  obtain ⟨⟨h1a, h2⟩, h3, h4⟩ := h
  have e16 : dec16 s.length = s.length - 1 := by unfold dec16; omega
  have e32 : dec32 ah.pos = (ah.frags ah.nfrag).offset + (s.length - 1) := by
    unfold dec32
    rw [h3]
    omega
  rw [← h3] at h1a
  simp only [AH.len_dec, AH.trim, e32, h1a, e16]

theorem back_up_loop_trim (k : Nat) (fuel : Nat) : ∀ (ah : AH) (s : List Nat), holds ah k s →
    1 ≤ s.length → s.length ≤ fuel → s.length < 65536 → ah.pos < 4294967296 →
    ∃ m, m < s.length ∧ (2 ≤ s.length → 1 ≤ m) ∧ (1 < m → s.getD m 0 = 47) ∧
      back_up_loop fuel ah = ah.trim m := by
  induction fuel with
  | zero => intro ah s _ h1 h2 _ _; omega
  | succ fuel ih =>
    intro ah s h h1 hf hs hp
    have e := back_step_trim h h1 hs hp
    have ht := holds_trim (s.length - 1) h (by omega)
    have hl : (s.take (s.length - 1)).length = s.length - 1 := by simp
    have hlen : ((ah.trim (s.length - 1)).frags (ah.trim (s.length - 1)).nfrag).len =
        s.length - 1 := by
      rw [ht.2.1, ht.1.1, hl]
    have hdat : (ah.trim (s.length - 1)).data (ah.trim (s.length - 1)).pos =
        s.getD (s.length - 1) 0 := by
      have : (ah.trim (s.length - 1)).pos = (ah.frags k).offset + (s.length - 1) := by
        simp [AH.trim, h.2.1]
      rw [this]
      exact h.1.2 _ (by omega)
    unfold back_up_loop
    simp only
    rw [e, hlen, hdat]
    by_cases hc : 1 < s.length - 1 ∧ s.getD (s.length - 1) 0 ≠ 47
    · rw [if_pos hc]
      obtain ⟨m, hm1, hm2, hm3, hm4⟩ := ih (ah.trim (s.length - 1)) _ ht (by omega) (by omega)
        (by omega) (by have := trim_pos_le (s.length - 1) h (by omega); omega)
      rw [hl] at hm1 hm2
      refine ⟨m, by omega, fun _ => hm2 (by omega), fun h5 => ?_, ?_⟩
      · have := hm3 h5
        rw [List.getD_eq_getElem?_getD, List.getElem?_take_of_lt hm1] at this
        rw [List.getD_eq_getElem?_getD]
        exact this
      · rw [hm4, trim_trim]
    · rw [if_neg hc]
      refine ⟨s.length - 1, by omega, fun _ => by omega, fun h5 => ?_, rfl⟩
      by_contra h6
      exact hc ⟨h5, h6⟩

theorem back_up_one_dir_trim {ah : AH} {k : Nat} {s : List Nat} (h : holds ah k s)
    (hs : s.length < 65536) (hp : ah.pos < 4294967296) :
    ∃ m, 1 ≤ m + (if s.length = 0 then 1 else 0) ∧ m ≤ s.length ∧
      back_up_one_dir ah = ah.trim m ∧
      (2 < s.length → 1 ≤ m ∧ m + 2 ≤ s.length ∧ (1 < m → s.getD m 0 = 47)) ∧
      (s.length ≤ 2 → m = s.length) := by
  have hlen : (ah.frags ah.nfrag).len = s.length := by rw [h.2.1, h.1.1]
  unfold back_up_one_dir
  rw [hlen]
  by_cases h2 : 2 < s.length
  · rw [if_pos h2]
    simp only
    have e := back_step_trim h (by omega) hs hp
    have ht := holds_trim (s.length - 1) h (by omega)
    have hl : (s.take (s.length - 1)).length = s.length - 1 := by simp
    have hlen1 : ((ah.trim (s.length - 1)).frags (ah.trim (s.length - 1)).nfrag).len =
        s.length - 1 := by
      rw [ht.2.1, ht.1.1, hl]
    rw [e, hlen1]
    obtain ⟨m, hm1, hm2, hm3, hm4⟩ := back_up_loop_trim k (s.length - 1)
      (ah.trim (s.length - 1)) _ ht (by omega) (by omega) (by omega)
      (by have := trim_pos_le (s.length - 1) h (by omega); omega)
    rw [hl] at hm1 hm2
    have hm : 1 ≤ m := hm2 (by omega)
    refine ⟨m, by omega, by omega, by rw [hm4, trim_trim], fun _ => ⟨hm, by omega, fun h5 => ?_⟩,
      fun h6 => by omega⟩
    have := hm3 h5
    rw [List.getD_eq_getElem?_getD, List.getElem?_take_of_lt hm1] at this
    rw [List.getD_eq_getElem?_getD]
    exact this
  · rw [if_neg h2]
    refine ⟨s.length, ?_, le_refl _, (trim_self h).symm, fun h6 => absurd h6 h2, fun _ => rfl⟩
    split <;> omega

theorem holds_pos_lt {ctx : Context} {ah : AH} {k : Nat} {s : List Nat} (h : holds ah k s)
    (hC : ctx.max_http_header_data < 65536) (hb : ah.pos < ctx.max_http_header_data) :
    ah.pos < 4294967295 ∧ s.length < 65535 := by
  have := h.2.2
  omega

theorem query_post {ctx : Context} {k : Nat} {ah : AH} {s : List Nat} (c : Nat) (enc : Bool)
    (hC : ctx.max_http_header_data < 65536)
    (core : path_core ctx k ah) (h : holds ah k s) (hclean : no_dup_slash s)
    (hpend : ¬(c = 63 ∧ enc = false) → path_pending ctx k s ah c) :
    path_udec_post ctx k (urldecode_query ctx ah c enc) := by
  unfold urldecode_query
  by_cases hq : c = 63 ∧ enc = false
  · rw [if_pos ⟨hq.1, hq.2, core.no_args⟩]
    by_cases hu : ah.ues ≠ URIES_IDLE
    · rw [if_pos hu]
      exact ⟨s, h.1, hclean⟩
    · rw [if_neg hu]
      by_cases hb : ah.pos < ctx.max_http_header_data
      · obtain ⟨hp, hs⟩ := holds_pos_lt h hC hb
        obtain ⟨hst, hn, hpos, hofs⟩ := stores_seal 0 h hp hs
        rw [issue_char_ok 0 core.limit h hb]
        simp only
        rw [if_neg (by decide)]
        have hoff : (ah.frags k).offset + s.length = ah.pos := h.2.2
        by_cases hx : ctx.frags_size ≤ inc8 ((ah.put 0).len_inc).len_dec.nfrag
        · rw [if_pos hx]
          refine ⟨s, stores_of_eq hst rfl rfl (fun _ _ => rfl), hclean, ?_, ?_⟩
          · show inc8 ((ah.put 0).len_inc).len_dec.nfrag ≠ k
            rw [hn]
            exact inc8_ne k
          · show (((ah.put 0).len_inc).len_dec.frags k).offset + s.length ≤
              ((ah.put 0).len_inc).len_dec.pos
            rw [hpos]
            rw [hofs]
            omega
        · rw [if_neg hx]
          right
          have hne : k ≠ inc8 ((ah.put 0).len_inc).len_dec.nfrag := by
            rw [hn]
            exact (inc8_ne k).symm
          refine ⟨s, stores_of_eq hst ?_ ?_ (fun _ _ => rfl), hclean, ?_, ?_⟩
          · simp only [open_after_delimiter, upd, if_neg hne]
          · simp only [open_after_delimiter, upd, if_neg hne]
          · show inc8 ((ah.put 0).len_inc).len_dec.nfrag ≠ k
            exact hne.symm
          · simp only [open_after_delimiter, upd, if_neg hne]
            have e1 := hofs
            have e2 : inc32 ((ah.put 0).len_inc).len_dec.pos = ah.pos + 2 := by
              rw [hpos]
              unfold inc32
              omega
            rw [e1, e2]
            omega
      · rw [issue_char_full ctx ah 0 hb]
        simp only
        rw [if_pos (by decide)]
        exact ⟨s, h.1, hclean⟩
  · rw [if_neg (fun hh => hq ⟨hh.1, hh.2.1⟩)]
    exact ⟨s, hpend hq⟩

theorem not_suffix_slash_dot (s : List Nat) (c : Nat) (h : c ≠ 46 ∨ ¬[47] <:+ s) :
    ¬[47, 46] <:+ s ++ [c] := by
  intro h1
  have := (suffix_concat_concat [47] s 46 c).mp h1
  rcases h with h | h
  · exact h this.1.symm
  · exact h this.2

theorem suffix_slash (s : List Nat) : [47] <:+ s ++ [47] :=
  (suffix_concat_concat [] s 47 47).mpr ⟨rfl, List.nil_suffix⟩

theorem no_dup_concat_other {s : List Nat} {c : Nat} (h : no_dup_slash s) (hc : c ≠ 47) :
    no_dup_slash (s ++ [c]) :=
  (no_dup_concat s c).mpr ⟨h, fun h1 => hc h1.1⟩

theorem head_concat {s : List Nat} (c : Nat) (h : [47] <+: s) : [47] <+: s ++ [c] :=
  h.trans (List.prefix_append s [c])

theorem two_slashes {s : List Nat} (h2 : s.length = 2) (hp : [47] <+: s) (hs : [47] <:+ s) :
    [47, 47] <:+: s := by
  match s, h2 with
  | [a, b], _ =>
    have ha : a = 47 := by
      have := (List.cons_prefix_cons.mp hp).1
      exact this.symm
    have hb : b = 47 := by
      have := (suffix_concat_concat [] [a] 47 b).mp hs
      exact this.1.symm
    subst ha hb
    exact List.infix_refl _

theorem delim_post {ctx : Context} {k : Nat} {ah : AH} {s : List Nat} (c : Nat)
    (hC : ctx.max_http_header_data < 65536)
    (core : path_core ctx k ah) (h : holds ah k s) (hclean : no_dup_slash s) :
    path_udec_post ctx k
      (let r := issue_char ctx ah 0
       if r.1 < 0 then (LPUR_MINUS_ONE, r.2, c)
       else
         let ah1 := r.2.len_dec
         let ah2 := { ah1 with
           frags := upd ah1.frags ah1.nfrag
             { ah1.frags ah1.nfrag with nfrag := (ah1.nfrag + 1) % 256 } }
         let ah3 := { ah2 with nfrag := inc8 ah2.nfrag }
         if ctx.frags_size ≤ ah3.nfrag then (LPUR_EXCESSIVE, ah3, c)
         else (LPUR_SWALLOW, open_after_delimiter { ah3 with post_literal_equal := 0 }, c)) := by
  by_cases hb : ah.pos < ctx.max_http_header_data
  · obtain ⟨hp, hs⟩ := holds_pos_lt h hC hb
    obtain ⟨hst, hn, hpos, hofs⟩ := stores_seal 0 h hp hs
    rw [issue_char_ok 0 core.limit h hb]
    simp only
    rw [if_neg (by decide)]
    have hoff : (ah.frags k).offset + s.length = ah.pos := h.2.2
    have hst2 : stores ({ ((ah.put 0).len_inc).len_dec with
        frags := upd ((ah.put 0).len_inc).len_dec.frags ((ah.put 0).len_inc).len_dec.nfrag
          { ((ah.put 0).len_inc).len_dec.frags ((ah.put 0).len_inc).len_dec.nfrag with
            nfrag := (((ah.put 0).len_inc).len_dec.nfrag + 1) % 256 } } : AH) k s := by
      refine stores_of_eq hst ?_ ?_ (fun _ _ => rfl)
      · simp only [upd]
        split
        · rename_i hk
          rw [hk]
        · rfl
      · simp only [upd]
        split
        · rename_i hk
          rw [hk]
        · rfl
    have hofs2 : ((upd ((ah.put 0).len_inc).len_dec.frags ((ah.put 0).len_inc).len_dec.nfrag
          { ((ah.put 0).len_inc).len_dec.frags ((ah.put 0).len_inc).len_dec.nfrag with
            nfrag := (((ah.put 0).len_inc).len_dec.nfrag + 1) % 256 }) k).offset =
        (ah.frags k).offset := by
      rw [← hofs]
      simp only [upd]
      split
      · rename_i hk
        rw [hk]
      · rfl
    have hne : k ≠ inc8 ((ah.put 0).len_inc).len_dec.nfrag := by
      rw [hn]
      exact (inc8_ne k).symm
    by_cases hx : ctx.frags_size ≤ inc8 ((ah.put 0).len_inc).len_dec.nfrag
    · rw [if_pos hx]
      refine ⟨s, stores_of_eq hst2 rfl rfl (fun _ _ => rfl), hclean, hne.symm, ?_⟩
      show _ + s.length ≤ ((ah.put 0).len_inc).len_dec.pos
      rw [hofs2, hpos]
      omega
    · rw [if_neg hx]
      right
      refine ⟨s, stores_of_eq hst2 ?_ ?_ (fun _ _ => rfl), hclean, hne.symm, ?_⟩
      · simp only [open_after_delimiter]
        rw [upd, if_neg hne]
      · simp only [open_after_delimiter]
        rw [upd, if_neg hne]
      · simp only [open_after_delimiter]
        rw [upd, if_neg hne, hofs2]
        have e2 : inc32 ((ah.put 0).len_inc).len_dec.pos = ah.pos + 2 := by
          rw [hpos]
          unfold inc32
          omega
        rw [e2]
        omega
  · rw [issue_char_full ctx ah 0 hb]
    simp only
    rw [if_pos (by decide)]
    exact ⟨s, h.1, hclean⟩

theorem slash_ne_idle : ¬(URIPS_SEEN_SLASH = URIPS_IDLE) := by decide

theorem udec_idle_tail {ctx : Context} {k : Nat} {ah : AH} {s : List Nat} (enc : Bool)
    (hC : ctx.max_http_header_data < 65536) (inv : path_inv ctx k s ah)
    (hups : ah.ups = URIPS_IDLE) (a1 : AH) (hcore : path_core ctx k a1) (hh : holds a1 k s)
    (hu1 : a1.ups = URIPS_IDLE) (hb1 : a1.pos ≤ ctx.max_http_header_data) (c2 : Nat)
    (hc2 : c2 ≠ 0) :
    path_udec_post ctx k (urldecode_query ctx
      (if c2 = 47 ∧ a1.frag_index ctx.tk.WSI_TOKEN_HTTP_URI_ARGS = 0 then
        { a1 with ups := URIPS_SEEN_SLASH } else a1) c2 enc) := by
  by_cases h47 : c2 = 47
  · rw [if_pos ⟨h47, hcore.no_args⟩]
    refine query_post c2 enc hC (path_core_congr hcore rfl rfl rfl) hh inv.clean
      (fun _ => ⟨path_core_congr hcore rfl rfl rfl, hh, hc2, head_concat c2 inv.head,
        inv.clean, ?_, fun hh2 => absurd hh2 slash_ne_idle, fun _ => Or.inl h47, hb1⟩)
    exact (no_dup_concat s c2).mpr ⟨inv.clean, fun h1 =>
      h1.2.elim (inv.idle hups).1 (inv.idle hups).2⟩
  · rw [if_neg (fun hh2 => h47 hh2.1)]
    refine query_post c2 enc hC hcore hh inv.clean
      (fun _ => ⟨hcore, hh, hc2, head_concat c2 inv.head, inv.clean,
        no_dup_concat_other inv.clean h47,
        fun _ => ⟨h47, not_suffix_slash_dot s c2 (Or.inr (inv.idle hups).1)⟩,
        fun hh2 => absurd hu1 hh2, hb1⟩)

theorem udec_idle {ctx : Context} {k : Nat} {ah : AH} {s : List Nat} (c : Nat) (enc : Bool)
    (hC : ctx.max_http_header_data < 65536) (inv : path_inv ctx k s ah)
    (hups : ah.ups = URIPS_IDLE) (h0 : c ≠ 0) :
    path_udec_post ctx k (urldecode_path ctx ah c enc) := by
  unfold urldecode_path
  rw [if_neg (fun hh => h0 hh.1), hups]
  simp only
  by_cases hd : (c = 38 ∨ c = 59) ∧ enc = false
  · rw [if_pos hd]
    exact delim_post c hC inv.core inv.h inv.clean
  · rw [if_neg hd]
    have hna := inv.core.no_args
    have hc1 : ¬(c = 61 ∧ enc = true ∧ ah.frag_index ctx.tk.WSI_TOKEN_HTTP_URI_ARGS ≠ 0 ∧
        ah.post_literal_equal = 0) := fun hh => hh.2.2.1 hna
    rw [if_neg hc1]
    by_cases h61 : c = 61 ∧ enc = false
    · rw [if_pos h61]
      by_cases h43 : c = 43 ∧ enc = false
      · rw [if_pos h43]
        refine udec_idle_tail enc hC inv hups _ ?_ ?_ ?_ ?_ 32 (by decide)
        · exact path_core_congr inv.core rfl rfl rfl
        · exact inv.h
        · rfl
        · exact inv.bound
      · rw [if_neg h43]
        refine udec_idle_tail enc hC inv hups _ ?_ ?_ ?_ ?_ c h0
        · exact path_core_congr inv.core rfl rfl rfl
        · exact inv.h
        · rfl
        · exact inv.bound
    · rw [if_neg h61]
      by_cases h43 : c = 43 ∧ enc = false
      · rw [if_pos h43]
        exact udec_idle_tail enc hC inv hups _ inv.core inv.h hups inv.bound 32 (by decide)
      · rw [if_neg h43]
        exact udec_idle_tail enc hC inv hups _ inv.core inv.h hups inv.bound c h0

theorem dot_ne_idle : ¬(URIPS_SEEN_SLASH_DOT = URIPS_IDLE) := by decide

theorem dot_dot_ne_idle : ¬(URIPS_SEEN_SLASH_DOT_DOT = URIPS_IDLE) := by decide

theorem udec_slash {ctx : Context} {k : Nat} {ah : AH} {s : List Nat} (c : Nat) (enc : Bool)
    (hC : ctx.max_http_header_data < 65536) (inv : path_inv ctx k s ah)
    (hups : ah.ups = URIPS_SEEN_SLASH) (h0 : c ≠ 0) :
    path_udec_post ctx k (urldecode_path ctx ah c enc) := by
  have hni : ah.ups ≠ URIPS_IDLE := by rw [hups]; exact slash_ne_idle
  unfold urldecode_path
  rw [if_neg (fun hh => h0 hh.1), hups]
  simp only
  by_cases h47 : c = 47
  · rw [if_pos h47]
    exact Or.inl ⟨s, inv⟩
  · rw [if_neg h47]
    by_cases h46 : c = 46
    · rw [if_pos h46]
      exact Or.inl ⟨s, path_core_congr inv.core rfl rfl rfl, inv.h, inv.head, inv.clean,
        fun hh => absurd hh dot_ne_idle, fun _ => inv.slash hni, inv.bound⟩
    · rw [if_neg h46]
      refine query_post c enc hC (path_core_congr inv.core rfl rfl rfl) inv.h inv.clean
        (fun _ => ⟨path_core_congr inv.core rfl rfl rfl, inv.h, h0, head_concat c inv.head,
          inv.clean, no_dup_concat_other inv.clean h47,
          fun _ => ⟨h47, not_suffix_slash_dot s c (Or.inl h46)⟩,
          fun hh => absurd rfl hh, inv.bound⟩)

theorem udec_slash_dot {ctx : Context} {k : Nat} {ah : AH} {s : List Nat} (c : Nat) (enc : Bool)
    (hC : ctx.max_http_header_data < 65536) (inv : path_inv ctx k s ah)
    (hups : ah.ups = URIPS_SEEN_SLASH_DOT) (h0 : c ≠ 0) :
    path_udec_post ctx k (urldecode_path ctx ah c enc) := by
  have hni : ah.ups ≠ URIPS_IDLE := by rw [hups]; exact dot_ne_idle
  unfold urldecode_path
  rw [if_neg (fun hh => h0 hh.1), hups]
  simp only
  by_cases h46 : c = 46
  · rw [if_pos h46]
    exact Or.inl ⟨s, path_core_congr inv.core rfl rfl rfl, inv.h, inv.head, inv.clean,
      fun hh => absurd hh dot_dot_ne_idle, fun _ => inv.slash hni, inv.bound⟩
  · rw [if_neg h46]
    by_cases h47 : c = 47
    · rw [if_pos h47]
      exact Or.inl ⟨s, path_core_congr inv.core rfl rfl rfl, inv.h, inv.head, inv.clean,
        fun hh => absurd hh slash_ne_idle, fun _ => inv.slash hni, inv.bound⟩
    · rw [if_neg h47]
      have hcore1 : path_core ctx k { ah with ups := URIPS_IDLE } :=
        path_core_congr inv.core rfl rfl rfl
      have hh1 : holds { ah with ups := URIPS_IDLE } k s := inv.h
      by_cases hb : ah.pos < ctx.max_http_header_data
      · obtain ⟨hp, hs⟩ := holds_pos_lt inv.h hC hb
        rw [issue_char_ok 46 hcore1.limit hh1 hb]
        simp only
        rw [if_neg (by decide)]
        have hh2 := holds_put_inc 46 hh1 hp hs
        have hpos2 : ((({ ah with ups := URIPS_IDLE } : AH).put 46).len_inc).pos ≤
            ctx.max_http_header_data := by
          simp only [AH.len_inc, AH.put, inc32]
          omega
        have hcl2 : no_dup_slash (s ++ [46]) := no_dup_concat_other inv.clean (by decide)
        refine query_post c enc hC (path_core_congr hcore1 rfl rfl rfl) hh2 hcl2
          (fun _ => ⟨path_core_congr hcore1 rfl rfl rfl, hh2, h0,
            head_concat c (head_concat 46 inv.head), hcl2, no_dup_concat_other hcl2 h47,
            fun _ => ⟨h47, not_suffix_slash_dot _ c (Or.inl h46)⟩,
            fun hh => absurd rfl hh, hpos2⟩)
      · rw [issue_char_full ctx { ah with ups := URIPS_IDLE } 46 hb]
        simp only
        rw [if_pos (by decide)]
        exact ⟨s, inv.h.1, inv.clean⟩

theorem take_one_slash {s : List Nat} (h : [47] <+: s) : s.take 1 = [47] := by
  obtain ⟨t, rfl⟩ := h
  rfl

theorem udec_dot_dot {ctx : Context} {k : Nat} {ah : AH} {s : List Nat} (c : Nat) (enc : Bool)
    (hC : ctx.max_http_header_data < 65536) (inv : path_inv ctx k s ah)
    (hups : ah.ups = URIPS_SEEN_SLASH_DOT_DOT) (h0 : c ≠ 0) :
    path_udec_post ctx k (urldecode_path ctx ah c enc) := by
  have hni : ah.ups ≠ URIPS_IDLE := by rw [hups]; exact dot_dot_ne_idle
  have hlen1 : 1 ≤ s.length := by
    have := inv.head.length_le
    simpa using this
  have hpos := inv.bound
  have hslen : s.length < 65536 := by
    have := inv.h.2.2
    omega
  unfold urldecode_path
  rw [if_neg (fun hh => h0 hh.1), hups]
  simp only
  by_cases hc : c = 47 ∨ c = 63
  · rw [if_pos hc]
    obtain ⟨m, hm0, hm1, hm2, hm3, hm4⟩ := back_up_one_dir_trim inv.h hslen (by omega)
    rw [if_neg (by omega)] at hm0
    have hm0 : 1 ≤ m := by omega
    have hht := holds_trim m inv.h hm1
    have hcore1 : path_core ctx k { ah.trim m with ups := URIPS_SEEN_SLASH } :=
      path_core_congr inv.core rfl rfl rfl
    have hh1 : holds { ah.trim m with ups := URIPS_SEEN_SLASH } k (s.take m) := hht
    have hl : (s.take m).length = m := by simp [hm1]
    have hlen : (({ ah.trim m with ups := URIPS_SEEN_SLASH } : AH).frags
        ({ ah.trim m with ups := URIPS_SEEN_SLASH } : AH).nfrag).len = m := by
      have := hh1.1.1
      rw [hl, ← hh1.2.1] at this
      exact this
    have hhead : [47] <+: s.take m := List.prefix_take_iff.mpr ⟨inv.head, hm0⟩
    have hpt : ({ ah.trim m with ups := URIPS_SEEN_SLASH } : AH).pos ≤
        ctx.max_http_header_data := le_trans (trim_pos_le m inv.h hm1) hpos
    rw [hm2]
    split
    · rename_i h1
      have h1m : 1 < m := lt_of_lt_of_eq h1 hlen
      refine query_post c enc hC hcore1 hh1 (no_dup_take s m inv.clean)
        (fun _ => ⟨hcore1, hh1, h0, head_concat c hhead, no_dup_take s m inv.clean, ?_,
          fun hh => absurd hh slash_ne_idle, fun _ => Or.inr (by omega), hpt⟩)
      by_cases h47 : c = 47
      · subst h47
        by_cases h2 : 2 < s.length
        · obtain ⟨_, hm5, hm6⟩ := hm3 h2
          rw [take_concat_slash s m (by omega) (hm6 h1m)]
          exact no_dup_take s (m + 1) inv.clean
        · have hm7 := hm4 (by omega)
          have hs2 : s.length = 2 := by omega
          rcases inv.slash hni with h3 | h3
          · exact absurd (two_slashes hs2 inv.head h3) inv.clean.1
          · omega
      · exact no_dup_concat_other (no_dup_take s m inv.clean) h47
    · rename_i h1
      have h1m : ¬1 < m := fun hh => h1 (lt_of_lt_of_eq hh hlen.symm)
      have hm1e : m = 1 := by omega
      refine Or.inl ⟨s.take m, hcore1, hh1, hhead, no_dup_take s m inv.clean,
        fun hh => absurd hh slash_ne_idle, fun _ => Or.inl ?_, hpt⟩
      rw [hm1e, take_one_slash inv.head]
  · rw [if_neg hc]
    have h47 : c ≠ 47 := fun hh => hc (Or.inl hh)
    by_cases hb : ah.pos < ctx.max_http_header_data
    · obtain ⟨hp, hs⟩ := holds_pos_lt inv.h hC hb
      rw [issue_char_ok 46 inv.core.limit inv.h hb]
      simp only
      rw [if_neg (by decide)]
      have hh1 := holds_put_inc 46 inv.h hp hs
      have hcore1 : path_core ctx k ((ah.put 46).len_inc) :=
        path_core_congr inv.core rfl rfl rfl
      have hcl1 : no_dup_slash (s ++ [46]) := no_dup_concat_other inv.clean (by decide)
      have hpos1 : ((ah.put 46).len_inc).pos = ah.pos + 1 := by
        simp only [AH.len_inc, AH.put, inc32]
        omega
      by_cases hb1 : ah.pos + 1 < ctx.max_http_header_data
      · have hb1a : ((ah.put 46).len_inc).pos < ctx.max_http_header_data := by
          rw [hpos1]; exact hb1
        obtain ⟨hp1, hs1⟩ := holds_pos_lt hh1 hC hb1a
        rw [issue_char_ok 46 hcore1.limit hh1 hb1a]
        simp only
        rw [if_neg (by decide)]
        have hh2 := holds_put_inc 46 hh1 hp1 hs1
        have hpos2 : (((ah.put 46).len_inc.put 46).len_inc).pos ≤ ctx.max_http_header_data := by
          simp only [AH.len_inc, AH.put, inc32]
          omega
        have hcl2 : no_dup_slash (s ++ [46] ++ [46]) := no_dup_concat_other hcl1 (by decide)
        refine query_post c enc hC (path_core_congr inv.core rfl rfl rfl) hh2 hcl2
          (fun _ => ⟨path_core_congr inv.core rfl rfl rfl, hh2, h0,
            head_concat c (head_concat 46 (head_concat 46 inv.head)), hcl2,
            no_dup_concat_other hcl2 h47,
            fun _ => ⟨h47, not_suffix_slash_dot _ c (Or.inr ?_)⟩,
            fun hh => absurd rfl hh, hpos2⟩)
        intro h5
        have := (suffix_concat_concat [] (s ++ [46]) 47 46).mp h5
        exact absurd this.1 (by decide)
      · have hb1a : ¬((ah.put 46).len_inc).pos < ctx.max_http_header_data := by
          rw [hpos1]; exact hb1
        rw [issue_char_full ctx _ 46 hb1a]
        simp only
        rw [if_pos (by decide)]
        exact ⟨s ++ [46], hh1.1, hcl1⟩
    · rw [issue_char_full ctx ah 46 hb]
      simp only
      rw [if_pos (by decide)]
      exact ⟨s, inv.h.1, inv.clean⟩

theorem udec_path_post {ctx : Context} {k : Nat} {ah : AH} {s : List Nat} (c : Nat) (enc : Bool)
    (hC : ctx.max_http_header_data < 65536) (inv : path_inv ctx k s ah) :
    path_udec_post ctx k (urldecode_path ctx ah c enc) := by
  by_cases h0 : c = 0
  · unfold urldecode_path
    rw [if_pos ⟨h0, Or.inl inv.core.no_args⟩]
    exact ⟨s, inv.h.1, inv.clean⟩
  · cases hups : ah.ups with
    | URIPS_IDLE => exact udec_idle c enc hC inv hups h0
    | URIPS_SEEN_SLASH => exact udec_slash c enc hC inv hups h0
    | URIPS_SEEN_SLASH_DOT => exact udec_slash_dot c enc hC inv hups h0
    | URIPS_SEEN_SLASH_DOT_DOT => exact udec_dot_dot c enc hC inv hups h0

theorem path_inv_esc {ctx : Context} {k : Nat} {ah : AH} {s : List Nat}
    (inv : path_inv ctx k s ah) (u : uri_esc_states) (e : Nat) :
    path_inv ctx k s { ah with ues := u, esc_stash := e } :=
  ⟨path_core_congr inv.core rfl rfl rfl, inv.h, inv.head, inv.clean, inv.idle, inv.slash,
    inv.bound⟩

theorem urldecode_post {ctx : Context} {k : Nat} {ah : AH} {s : List Nat} (c : Nat)
    (hC : ctx.max_http_header_data < 65536) (inv : path_inv ctx k s ah) :
    path_udec_post ctx k (lws_parse_urldecode ctx ah c) := by
  unfold lws_parse_urldecode
  cases hues : ah.ues with
  | URIES_IDLE =>
    simp only
    by_cases h37 : c = 37
    · rw [if_pos h37]
      exact Or.inl ⟨s, path_inv_esc inv URIES_SEEN_PERCENT ah.esc_stash⟩
    · rw [if_neg h37]
      exact udec_path_post c false hC inv
  | URIES_SEEN_PERCENT =>
    simp only
    split
    · exact ⟨s, inv.h.1, inv.clean⟩
    · exact Or.inl ⟨s, path_inv_esc inv URIES_SEEN_PERCENT_H1 c⟩
  | URIES_SEEN_PERCENT_H1 =>
    simp only
    split
    · exact ⟨s, inv.h.1, inv.clean⟩
    · exact udec_path_post _ true hC (path_inv_esc inv URIES_IDLE ah.esc_stash)

theorem not_in_path_of_nfrag {ctx : Context} {k : Nat} {a : AH} (h : a.nfrag ≠ k) :
    ¬in_path ctx k a := fun hh => h hh.1

theorem clean_of_stores {a : AH} {k : Nat} {s : List Nat} (h : stores a k s)
    (hc : no_dup_slash s) : no_dup_slash (a.frag_bytes k) := by
  rw [stores_bytes a k s h]
  exact hc

theorem stores_put {a : AH} {k : Nat} {s : List Nat} (c : Nat) (h : stores a k s)
    (hpos : (a.frags k).offset + s.length ≤ a.pos) : stores (a.put c) k s := by
  refine stores_of_eq h rfl rfl (fun j hj => ?_)
  have : j ≠ a.pos := by
    rw [h.1] at hj
    omega
  simp only [AH.put, upd, if_neg this]

theorem stores_len_inc {a : AH} {k : Nat} {s : List Nat} (h : stores a k s)
    (hn : a.nfrag ≠ k) : stores a.len_inc k s := by
  have hkn : k ≠ a.nfrag := fun hh => hn hh.symm
  refine stores_of_eq h ?_ ?_ (fun _ _ => rfl)
  · simp only [AH.len_inc, upd, if_neg hkn]
  · simp only [AH.len_inc, upd, if_neg hkn]

theorem issue_char_stores {a : AH} {k : Nat} {s : List Nat} (ctx : Context) (c : Nat)
    (h : stores a k s) (hn : a.nfrag ≠ k) (hpos : (a.frags k).offset + s.length ≤ a.pos) :
    stores (issue_char ctx a c).2 k s ∧ (issue_char ctx a c).2.nfrag = a.nfrag := by
  unfold issue_char
  split
  · exact ⟨h, rfl⟩
  · simp only
    split
    · exact ⟨stores_len_inc (stores_put c h hpos) hn, rfl⟩
    · split
      · exact ⟨stores_put 0 h hpos, rfl⟩
      · exact ⟨h, rfl⟩

theorem excessive_path_post {ctx : Context} {k : Nat} {a : AH} {s : List Nat}
    (hl : path_left k s a) : path_post ctx k (excessive_label ctx a) := by
  obtain ⟨hst, hcl, hn, hpos⟩ := hl
  have hkn : k ≠ a.nfrag := fun h => hn h.symm
  unfold excessive_label
  by_cases h1 : a.nfrag = ctx.frags_size
  · rw [if_pos h1]
    exact clean_of_stores hst hcl
  · rw [if_neg h1]
    simp only
    have hst1 : stores ({ a with
        frags := upd a.frags a.nfrag
          { a.frags a.nfrag with offset := a.pos, len := 0, nfrag := 0, flags := 2 } } : AH)
        k s := by
      refine stores_of_eq hst ?_ ?_ (fun _ _ => rfl)
      · simp only [upd, if_neg hkn]
      · simp only [upd, if_neg hkn]
    split
    · exact Or.inr ⟨not_in_path_of_nfrag hn,
        clean_of_stores (stores_of_eq hst1 rfl rfl (fun _ _ => rfl)) hcl⟩
    · split
      · trivial
      · rename_i m hm
        have hst2 : stores ({ a with
            frags := upd (upd a.frags a.nfrag
              { a.frags a.nfrag with offset := a.pos, len := 0, nfrag := 0, flags := 2 }) m
              { upd a.frags a.nfrag
                  { a.frags a.nfrag with offset := a.pos, len := 0, nfrag := 0, flags := 2 } m with
                nfrag := a.nfrag } } : AH) k s := by
          refine stores_of_eq hst1 ?_ ?_ (fun _ _ => rfl)
          · by_cases hk : k = m
            · subst hk
              simp only [upd, if_true, if_neg hkn]
            · simp only [upd, if_neg hk, if_neg hkn]
          · by_cases hk : k = m
            · subst hk
              simp only [upd, if_true, if_neg hkn]
            · simp only [upd, if_neg hk, if_neg hkn]
        have hofs2 : (({ a with
            frags := upd (upd a.frags a.nfrag
              { a.frags a.nfrag with offset := a.pos, len := 0, nfrag := 0, flags := 2 }) m
              { upd a.frags a.nfrag
                  { a.frags a.nfrag with offset := a.pos, len := 0, nfrag := 0, flags := 2 } m with
                nfrag := a.nfrag } } : AH).frags k).offset = (a.frags k).offset := by
          by_cases hk : k = m
          · subst hk
            simp only [upd, if_true, if_neg hkn]
          · simp only [upd, if_neg hk, if_neg hkn]
        obtain ⟨hst3, hn3⟩ := issue_char_stores ctx 32 hst2 hn (by rw [hofs2]; exact hpos)
        split
        · exact clean_of_stores hst3 hcl
        · refine Or.inr ⟨not_in_path_of_nfrag ?_, clean_of_stores hst3 hcl⟩
          rw [hn3]
          exact hn

theorem swallow_left {ctx : Context} {k : Nat} {a : AH} {s : List Nat} (hst : stores a k s)
    (hcl : no_dup_slash s) (hout : ¬in_path ctx k a) : path_post ctx k (swallow_label ctx a) := by
  unfold swallow_label
  split
  · exact clean_of_stores hst hcl
  · exact Or.inr ⟨hout, clean_of_stores hst hcl⟩

theorem not_in_path_name {ctx : Context} {k : Nat} {a : AH}
    (h : a.parser_state = ctx.tk.WSI_TOKEN_NAME_PART) : ¬in_path ctx k a :=
  fun hh => hh.2.1.2.1 h

theorem not_in_path_saw_cr {ctx : Context} {k : Nat} {a : AH}
    (h : a.parser_state = ctx.tk.WSI_TOKEN_SKIPPING_SAW_CR) : ¬in_path ctx k a :=
  fun hh => hh.2.1.2.2.2.1 h

theorem eol_post {ctx : Context} {k : Nat} {a : AH} {s : List Nat}
    (hC : ctx.max_http_header_data < 65536)
    (hlim : a.current_token_limit = 0 ∨ ctx.max_http_header_data ≤ a.current_token_limit)
    (h : holds a k s) (hcl : no_dup_slash s)
    (hout : a.parser_state = ctx.tk.WSI_TOKEN_NAME_PART ∨
      a.parser_state = ctx.tk.WSI_TOKEN_SKIPPING_SAW_CR) :
    path_post ctx k
      (if (issue_char ctx a 0).1 < 0 then .fail (issue_char ctx a 0).2
       else if 0 < (issue_char ctx a 0).1 then
         swallow_label ctx { (issue_char ctx a 0).2 with parser_state := ctx.tk.WSI_TOKEN_SKIPPING }
       else if (0 : Nat) = 0 ∧
           (issue_char ctx a 0).2.parser_state ≠ ctx.tk.WSI_TOKEN_HTTP_URI_ARGS then
         swallow_label ctx (issue_char ctx a 0).2.len_dec
       else swallow_label ctx (issue_char ctx a 0).2) := by
  have hnp : ∀ b : AH, b.parser_state = a.parser_state → ¬in_path ctx k b := by
    intro b hb
    rcases hout with h1 | h1
    · exact not_in_path_name (hb.trans h1)
    · exact not_in_path_saw_cr (hb.trans h1)
  by_cases hb : a.pos < ctx.max_http_header_data
  · obtain ⟨hp, hs⟩ := holds_pos_lt h hC hb
    rw [issue_char_ok 0 hlim h hb]
    simp only
    rw [if_neg (by decide), if_neg (by decide)]
    split
    · exact swallow_left (stores_seal 0 h hp hs).1 hcl (hnp _ rfl)
    · exact swallow_left (holds_put_inc 0 h hp hs).1 (no_dup_concat_other hcl (by decide))
        (hnp _ rfl)
  · rw [issue_char_full ctx a 0 hb]
    simp only
    rw [if_pos (by decide)]
    exact clean_of_stores h.1 hcl

theorem check_eol_path_post {ctx : Context} {k : Nat} {ah : AH} {s : List Nat} {c : Nat}
    (hC : ctx.max_http_header_data < 65536) (hp : path_pending ctx k s ah c) :
    path_post ctx k (check_eol ctx ah c) := by
  unfold check_eol
  by_cases he : c = 13 ∨ c = 10
  · have heol : ah.parser_state ≠ ctx.tk.WSI_TOKEN_CHALLENGE ∧ (c = 13 ∨ c = 10) :=
      ⟨hp.core.not_challenge, he⟩
    by_cases hu : ah.ues ≠ URIES_IDLE
    · rw [if_pos ⟨heol.1, heol.2, hu⟩]
      exact clean_of_stores hp.h.1 hp.clean0
    · rw [if_neg (fun hh => hu hh.2.2)]
      simp only
      rw [if_pos heol, if_pos heol]
      by_cases h10 : c = 10
      · rw [if_pos h10]
        refine eol_post hC ?_ ?_ hp.clean0 ?_
        · exact hp.core.limit
        · exact hp.h
        · exact Or.inl rfl
      · rw [if_neg h10]
        refine eol_post hC ?_ ?_ hp.clean0 ?_
        · exact hp.core.limit
        · exact hp.h
        · exact Or.inr rfl
  · have heol : ¬(ah.parser_state ≠ ctx.tk.WSI_TOKEN_CHALLENGE ∧ (c = 13 ∨ c = 10)) :=
      fun hh => he hh.2
    rw [if_neg (fun hh => he hh.2.1)]
    simp only [if_neg heol]
    by_cases hb : ah.pos < ctx.max_http_header_data
    · obtain ⟨hpp, hs⟩ := holds_pos_lt hp.h hC hb
      rw [issue_char_ok c hp.core.limit hp.h hb]
      simp only
      rw [if_neg (by decide), if_neg (by decide), if_neg (fun hh => hp.byte hh.1)]
      unfold swallow_label
      have hnc : ¬((ah.put c).len_inc).parser_state = ctx.tk.WSI_TOKEN_CHALLENGE :=
        hp.core.not_challenge
      rw [if_neg hnc]
      have hh2 := holds_put_inc c hp.h hpp hs
      refine Or.inl ⟨s ++ [c], path_core_congr hp.core rfl rfl rfl, hh2, hp.head, hp.clean,
        fun hi => ⟨?_, (hp.idle hi).2⟩, fun hi => ?_, ?_⟩
      · intro h5
        have := (suffix_concat_concat [] s 47 c).mp h5
        exact (hp.idle hi).1 this.1.symm
      · rcases hp.slash hi with h6 | h6
        · left
          rw [h6]
          exact suffix_slash s
        · right
          simp only [List.length_append, List.length_singleton]
          omega
      · show ((ah.put c).len_inc).pos ≤ _
        simp only [AH.len_inc, AH.put, inc32]
        omega
    · rw [issue_char_full ctx ah c hb]
      simp only
      rw [if_pos (by decide)]
      exact clean_of_stores hp.h.1 hp.clean0

theorem value_glue {ctx : Context} {k : Nat} (hC : ctx.max_http_header_data < 65536)
    (r : lws_parse_urldecode_results × AH × Nat) (h : path_udec_post ctx k r) :
    path_post ctx k
      (match r.1 with
       | LPUR_CONTINUE => check_eol ctx r.2.1 r.2.2
       | LPUR_SWALLOW => swallow_label ctx r.2.1
       | LPUR_FORBID => .forbid r.2.1
       | LPUR_EXCESSIVE => excessive_label ctx r.2.1
       | LPUR_MINUS_ONE => .fail r.2.1) := by
  obtain ⟨r1, a, c⟩ := r
  cases r1 with
  | LPUR_CONTINUE =>
    obtain ⟨s, hp⟩ := h
    exact check_eol_path_post hC hp
  | LPUR_SWALLOW =>
    rcases h with ⟨s, inv⟩ | ⟨s, hl⟩
    · show path_post ctx k (swallow_label ctx a)
      unfold swallow_label
      rw [if_neg inv.core.not_challenge]
      exact Or.inl ⟨s, inv⟩
    · exact swallow_left hl.1 hl.2.1 (not_in_path_of_nfrag hl.2.2.1)
  | LPUR_FORBID =>
    obtain ⟨s, hst, hcl⟩ := h
    exact clean_of_stores hst hcl
  | LPUR_EXCESSIVE =>
    obtain ⟨s, hl⟩ := h
    exact excessive_path_post hl
  | LPUR_MINUS_ONE =>
    obtain ⟨s, hst, hcl⟩ := h
    exact clean_of_stores hst hcl

theorem space_tail {ctx : Context} {k : Nat} {a : AH} {s : List Nat}
    (hC : ctx.max_http_header_data < 65536)
    (hlim : a.current_token_limit = 0 ∨ ctx.max_http_header_data ≤ a.current_token_limit)
    (h : holds a k s) (hcl : no_dup_slash s) :
    path_post ctx k
      (if (issue_char ctx a 0).1 < 0 then .fail (issue_char ctx a 0).2
       else start_fragment ctx
         { (issue_char ctx a 0).2.len_dec with parser_state := ctx.tk.WSI_TOKEN_HTTP }) := by
  by_cases hb : a.pos < ctx.max_http_header_data
  · obtain ⟨hp, hs⟩ := holds_pos_lt h hC hb
    obtain ⟨hst, hn, hpos, hofs⟩ := stores_seal 0 h hp hs
    rw [issue_char_ok 0 hlim h hb]
    simp only
    rw [if_neg (by decide)]
    unfold start_fragment
    refine excessive_path_post (s := s) ⟨stores_of_eq hst rfl rfl (fun _ _ => rfl), hcl, ?_, ?_⟩
    · show inc8 ((a.put 0).len_inc).len_dec.nfrag ≠ k
      rw [hn]
      exact inc8_ne k
    · show (((a.put 0).len_inc).len_dec.frags k).offset + s.length ≤
        ((a.put 0).len_inc).len_dec.pos
      rw [hofs, hpos]
      have := h.2.2
      omega
  · rw [issue_char_full ctx a 0 hb]
    simp only
    rw [if_pos (by decide)]
    exact clean_of_stores h.1 hcl

theorem value_path_post {ctx : Context} {k : Nat} {ah : AH} {s : List Nat} (c : Nat)
    (hC : ctx.max_http_header_data < 65536) (inv : path_inv ctx k s ah) :
    path_post ctx k (value_part ctx ah c) := by
  have hlen1 : 1 ≤ s.length := by
    have := inv.head.length_le
    simpa using this
  have hlenk : (ah.frags k).len = s.length := inv.h.1.1
  have hslen : s.length < 65536 := by
    have := inv.h.2.2
    have := inv.bound
    omega
  unfold value_part
  have h1 : ¬((ah.frags (ah.frag_index ah.parser_state)).len = 0 ∧ c = 32) := by
    rw [inv.core.first, hlenk]
    omega
  have h2 : ¬ah.parser_state ∉ methods ctx := fun hh => hh inv.core.method
  rw [if_neg h1, if_neg h2]
  by_cases h32 : c = 32
  · rw [if_pos h32]
    have h3 : ¬(ah.frags ah.nfrag).len = 0 := by
      rw [inv.h.2.1, hlenk]
      omega
    rw [if_neg h3]
    simp only
    rw [if_neg (by decide)]
    by_cases hdd : ah.ups = URIPS_SEEN_SLASH_DOT_DOT
    · rw [if_pos hdd]
      obtain ⟨m, _, hm1, hm2, _, _⟩ := back_up_one_dir_trim inv.h hslen
        (by have := inv.bound; omega)
      rw [hm2]
      exact space_tail hC inv.core.limit (holds_trim m inv.h hm1) (no_dup_take s m inv.clean)
    · rw [if_neg hdd]
      exact space_tail hC inv.core.limit inv.h inv.clean
  · rw [if_neg h32]
    exact value_glue hC _ (urldecode_post c hC inv)

theorem path_step {ctx : Context} {k : Nat} {ah : AH} {s : List Nat} (wsi : lws) (c : Nat)
    (hC : ctx.max_http_header_data < 65536) (inv : path_inv ctx k s ah) :
    path_post ctx k (lws_parse_byte ctx wsi ah c) := by
  rw [value_dispatch ctx wsi ah c inv.core.value]
  exact value_path_post c hC inv

theorem path_run_clean {ctx : Context} {k : Nat} (wsi : lws)
    (hC : ctx.max_http_header_data < 65536) (cs : List Nat) : ∀ a : AH,
    ((∃ s, path_inv ctx k s a) ∨ (¬in_path ctx k a ∧ no_dup_slash (a.frag_bytes k))) →
    no_dup_slash ((path_run ctx wsi k cs a).frag_bytes k) := by
  induction cs with
  | nil =>
    intro a h
    rcases h with ⟨s, inv⟩ | h
    · exact clean_of_stores inv.h.1 inv.clean
    · exact h.2
  | cons c cs ih =>
    intro a h
    unfold path_run
    by_cases hin : in_path ctx k a
    · rw [if_pos hin]
      rcases h with ⟨s, inv⟩ | h
      · have hstep := path_step wsi c hC inv
        cases hb : lws_parse_byte ctx wsi a c with
        | brk a1 =>
          rw [hb] at hstep
          exact ih a1 hstep
        | fail a1 => rw [hb] at hstep; exact hstep
        | fallback a1 => rw [hb] at hstep; exact hstep
        | forbid a1 => rw [hb] at hstep; exact hstep
        | complete a1 => rw [hb] at hstep; exact hstep
        | hang => exact clean_of_stores inv.h.1 inv.clean
      · exact absurd hin h.1
    · rw [if_neg hin]
      rcases h with ⟨s, inv⟩ | h
      · exact clean_of_stores inv.h.1 inv.clean
      · exact h.2

theorem first_slash_post {ctx : Context} {ah : AH} (wsi : lws)
    (hC : ctx.max_http_header_data < 65536) (hs : uri_start ctx ah) :
    path_post ctx ah.nfrag (lws_parse_byte ctx wsi ah 47) := by
  obtain ⟨hv, hm, hnc, hfirst, hna, hlen, hoff, hbound, hups, hlim⟩ := hs
  have core : path_core ctx ah.nfrag ah := ⟨hv, hm, hnc, hfirst, hna, hlim⟩
  have hh : holds ah ah.nfrag [] :=
    ⟨⟨hlen, fun i hi => absurd hi (Nat.not_lt_zero i)⟩, rfl, hoff⟩
  have hcl0 : no_dup_slash [] := by decide
  have hcl1 : no_dup_slash ([] ++ [47]) := by decide
  rw [value_dispatch ctx wsi ah 47 hv]
  unfold value_part
  have h1 : ¬((ah.frags (ah.frag_index ah.parser_state)).len = 0 ∧ (47 : Nat) = 32) :=
    fun hh => absurd hh.2 (by decide)
  have h2 : ¬ah.parser_state ∉ methods ctx := fun hh => hh hm
  have h3 : ¬(47 : Nat) = 32 := by decide
  rw [if_neg h1, if_neg h2, if_neg h3]
  refine value_glue hC _ ?_
  unfold lws_parse_urldecode
  cases hues : ah.ues with
  | URIES_IDLE =>
    simp only
    rw [if_neg (by decide)]
    unfold urldecode_path
    have h4 : ¬((47 : Nat) = 0 ∧ (ah.frag_index ctx.tk.WSI_TOKEN_HTTP_URI_ARGS = 0 ∨
        ah.post_literal_equal = 0)) := fun hh => absurd hh.1 (by decide)
    rw [if_neg h4, hups]
    show path_udec_post ctx ah.nfrag (urldecode_query ctx
      (if (47 : Nat) = 47 ∧ ah.frag_index ctx.tk.WSI_TOKEN_HTTP_URI_ARGS = 0 then
        { ah with ups := URIPS_SEEN_SLASH } else ah) 47 false)
    rw [if_pos ⟨rfl, hna⟩]
    exact query_post 47 false hC (path_core_congr core rfl rfl rfl) hh hcl0
      (fun _ => ⟨path_core_congr core rfl rfl rfl, hh, by decide, List.prefix_refl _, hcl0,
        hcl1, fun hi => absurd hi slash_ne_idle, fun _ => Or.inl rfl, hbound⟩)
  | URIES_SEEN_PERCENT =>
    simp only
    rw [if_pos (by decide)]
    exact ⟨[], hh.1, hcl0⟩
  | URIES_SEEN_PERCENT_H1 =>
    simp only
    rw [if_pos (by decide)]
    exact ⟨[], hh.1, hcl0⟩

/-- C14 (as the code has it). From a parse state at the first byte of a method
URI (the fragment of the method token is current, empty and starts at `pos`,
the path state is idle), with a data buffer below 64 KiB and no token limit
below its size: for a URI that begins with a slash, whatever bytes follow,
literal or percent-encoded, the first fragment of the method URI holds no two
slashes in a row and no `/./`, at every point inside the path and after the
byte that ends the path (the space, an unencoded `?`, `&` or `;`, a line end)
or that makes `lws_parse` fail. -/
theorem C14_path_sanitized (ctx : Context) (wsi : lws) (ah : AH) (cs : List Nat)
    (hC : ctx.max_http_header_data < 65536) (hstart : uri_start ctx ah) :
    no_dup_slash ((path_run ctx wsi ah.nfrag (47 :: cs) ah).frag_bytes ah.nfrag) := by
  have hstep := first_slash_post wsi hC hstart
  obtain ⟨hv, hm, hnc, hfirst, hna, hlen, hoff, hbound, hups, hlim⟩ := hstart
  have hin : in_path ctx ah.nfrag ah := ⟨rfl, hv, hm, hna⟩
  have hh : stores ah ah.nfrag [] := ⟨hlen, fun i hi => absurd hi (Nat.not_lt_zero i)⟩
  have hcl0 : no_dup_slash [] := by decide
  unfold path_run
  rw [if_pos hin]
  cases hb : lws_parse_byte ctx wsi ah 47 with
  | brk a1 =>
    rw [hb] at hstep
    exact path_run_clean wsi hC cs a1 hstep
  | fail a1 => rw [hb] at hstep; exact hstep
  | fallback a1 => rw [hb] at hstep; exact hstep
  | forbid a1 => rw [hb] at hstep; exact hstep
  | complete a1 => rw [hb] at hstep; exact hstep
  | hang => exact clean_of_stores hh hcl0

/-- C14 (as the claim has it) fails: for the relative URI `a/../b` the stored
URI fragment is `a//b`, with two slashes in a row. The request of the claim,
`GET //./a//b HTTP/1.1`, stores `/a/b`. -/
theorem C14_relative_uri_keeps_slashes :
    (lws_parse lws_context wsi_fresh request_relative).map
        (view_of [lws_tokens.WSI_TOKEN_GET_URI]) =
      some ⟨LPR_OK, 0, true, some lws_tokens.WSI_PARSING_COMPLETE, [some [bytes "a//b"]]⟩ ∧
    ¬no_dup_slash (bytes "a//b") ∧
    (lws_parse lws_context wsi_fresh (bytes "GET //./a//b HTTP/1.1\r\n\r\n")).map
        (view_of [lws_tokens.WSI_TOKEN_GET_URI]) =
      some ⟨LPR_OK, 0, true, some lws_tokens.WSI_PARSING_COMPLETE, [some [bytes "/a/b"]]⟩ := by
  decide!

theorem C14_path_sanitized_witness :
    uri_start lws_context (ah_parsed lws_context wsi_fresh (bytes "GET ")) ∧
    (path_run lws_context wsi_fresh (ah_parsed lws_context wsi_fresh (bytes "GET ")).nfrag
        (47 :: bytes "/./a//b HTTP/1.1\r\n\r\n")
        (ah_parsed lws_context wsi_fresh (bytes "GET "))).frag_bytes
        (ah_parsed lws_context wsi_fresh (bytes "GET ")).nfrag = bytes "/a/b" ∧
    no_dup_slash ((path_run lws_context wsi_fresh
        (ah_parsed lws_context wsi_fresh (bytes "GET ")).nfrag
        (47 :: bytes "/./a//b HTTP/1.1\r\n\r\n")
        (ah_parsed lws_context wsi_fresh (bytes "GET "))).frag_bytes
        (ah_parsed lws_context wsi_fresh (bytes "GET ")).nfrag) :=
  ⟨by decide!, by decide!,
    C14_path_sanitized lws_context wsi_fresh (ah_parsed lws_context wsi_fresh (bytes "GET "))
      (bytes "/./a//b HTTP/1.1\r\n\r\n") (by decide) (by decide!)⟩

/-! ## C15: a URI that ends in `/..` -/

theorem stores_self (ah : AH) (k : Nat) : stores ah k (ah.frag_bytes k) := by
  refine ⟨by simp [AH.frag_bytes], fun i hi => ?_⟩
  have hi2 : i < (ah.frags k).len := by simpa [AH.frag_bytes] using hi
  rw [List.getD_eq_getElem?_getD, List.getElem?_eq_getElem hi]
  simp [AH.frag_bytes]

theorem space_brk {ctx : Context} {k : Nat} {a : AH} {s : List Nat}
    (hC : ctx.max_http_header_data < 65536)
    (hlim : a.current_token_limit = 0 ∨ ctx.max_http_header_data ≤ a.current_token_limit)
    (h : holds a k s) (hb : a.pos < ctx.max_http_header_data)
    (hfs : inc8 k ≠ ctx.frags_size) (hhttp : a.frag_index ctx.tk.WSI_TOKEN_HTTP = 0) :
    ∃ a1, (if (issue_char ctx a 0).1 < 0 then parse_step.fail (issue_char ctx a 0).2
       else start_fragment ctx
         { (issue_char ctx a 0).2.len_dec with parser_state := ctx.tk.WSI_TOKEN_HTTP }) =
        .brk a1 ∧ stores a1 k s := by
  obtain ⟨hp, hs⟩ := holds_pos_lt h hC hb
  obtain ⟨hst, hn, hpos, hofs⟩ := stores_seal 0 h hp hs
  rw [issue_char_ok 0 hlim h hb]
  simp only
  rw [if_neg (by decide)]
  unfold start_fragment excessive_label
  have hn1 : ¬inc8 ((a.put 0).len_inc).len_dec.nfrag = ctx.frags_size := by
    rw [hn]
    exact hfs
  have hkn : k ≠ inc8 ((a.put 0).len_inc).len_dec.nfrag := by
    rw [hn]
    exact (inc8_ne k).symm
  have hh0 : ((a.put 0).len_inc).len_dec.frag_index ctx.tk.WSI_TOKEN_HTTP = 0 := hhttp
  simp only
  rw [if_neg hn1, if_pos hh0]
  refine ⟨_, rfl, stores_of_eq hst ?_ ?_ (fun _ _ => rfl)⟩
  · simp only [upd, if_neg hkn]
  · simp only [upd, if_neg hkn]

theorem check_eol_plain {ctx : Context} {k : Nat} {a : AH} {s : List Nat} (c : Nat)
    (hlim : a.current_token_limit = 0 ∨ ctx.max_http_header_data ≤ a.current_token_limit)
    (h : holds a k s) (hb : a.pos < ctx.max_http_header_data)
    (hnc : a.parser_state ≠ ctx.tk.WSI_TOKEN_CHALLENGE) (he : ¬(c = 13 ∨ c = 10))
    (h0 : c ≠ 0) : check_eol ctx a c = .brk ((a.put c).len_inc) := by
  unfold check_eol
  have heol : ¬(a.parser_state ≠ ctx.tk.WSI_TOKEN_CHALLENGE ∧ (c = 13 ∨ c = 10)) :=
    fun hh => he hh.2
  rw [if_neg (fun hh => he hh.2.1)]
  simp only [if_neg heol]
  rw [issue_char_ok c hlim h hb]
  simp only
  rw [if_neg (by decide), if_neg (by decide), if_neg (fun hh => h0 hh.1)]
  unfold swallow_label
  have hnc1 : ¬((a.put c).len_inc).parser_state = ctx.tk.WSI_TOKEN_CHALLENGE := hnc
  rw [if_neg hnc1]

theorem space_step {ctx : Context} {k : Nat} {a : AH} {s : List Nat} (wsi : lws) (m : Nat)
    (hC : ctx.max_http_header_data < 65536) (core : path_core ctx k a) (h : holds a k s)
    (hlen : 1 ≤ s.length) (hb : a.pos < ctx.max_http_header_data)
    (hfs : inc8 k ≠ ctx.frags_size) (hhttp : a.frag_index ctx.tk.WSI_TOKEN_HTTP = 0)
    (hm : m ≤ s.length)
    (hbk : (if a.ups = URIPS_SEEN_SLASH_DOT_DOT then back_up_one_dir a else a) = a.trim m) :
    ∃ a1, lws_parse_byte ctx wsi a 32 = .brk a1 ∧ stores a1 k (s.take m) := by
  have hlenk : (a.frags k).len = s.length := h.1.1
  rw [value_dispatch ctx wsi a 32 core.value]
  unfold value_part
  have h1 : ¬((a.frags (a.frag_index a.parser_state)).len = 0 ∧ (32 : Nat) = 32) := by
    rw [core.first, hlenk]
    omega
  have h2 : ¬a.parser_state ∉ methods ctx := fun hh => hh core.method
  have h3 : ¬(a.frags a.nfrag).len = 0 := by
    rw [h.2.1, hlenk]
    omega
  rw [if_neg h1, if_neg h2, if_pos rfl, if_neg h3]
  simp only
  rw [if_neg (by decide), hbk]
  have hpt : (a.trim m).pos < ctx.max_http_header_data :=
    lt_of_le_of_lt (trim_pos_le m h hm) hb
  exact space_brk hC core.limit (holds_trim m h hm) hpt hfs hhttp

theorem slash_step_back {ctx : Context} {k : Nat} {a : AH} {s : List Nat} (wsi : lws) (m : Nat)
    (hC : ctx.max_http_header_data < 65536) (core : path_core ctx k a) (h : holds a k s)
    (hb : a.pos < ctx.max_http_header_data)
    (hups : a.ups = URIPS_SEEN_SLASH_DOT_DOT) (hues : a.ues = URIES_IDLE)
    (hm : m ≤ s.length) (hbk : back_up_one_dir a = a.trim m) :
    ∃ a2, lws_parse_byte ctx wsi a 47 = .brk a2 ∧
      holds a2 k (if 1 < m then s.take m ++ [47] else s.take m) ∧
      path_core ctx k a2 ∧ a2.ups = URIPS_SEEN_SLASH ∧ a2.pos ≤ a.pos + 1 ∧
      a2.frag_index = a.frag_index := by
  have hlenk : (a.frags k).len = s.length := h.1.1
  have hht := holds_trim m h hm
  have hl : (s.take m).length = m := by simp [hm]
  have hpt := trim_pos_le m h hm
  have hcore1 : path_core ctx k { a.trim m with ups := URIPS_SEEN_SLASH } :=
    path_core_congr core rfl rfl rfl
  have hh1 : holds { a.trim m with ups := URIPS_SEEN_SLASH } k (s.take m) := hht
  have hlen1 : (({ a.trim m with ups := URIPS_SEEN_SLASH } : AH).frags
      ({ a.trim m with ups := URIPS_SEEN_SLASH } : AH).nfrag).len = m := by
    have := hh1.1.1
    rw [hl, ← hh1.2.1] at this
    exact this
  rw [value_dispatch ctx wsi a 47 core.value]
  unfold value_part
  have h1 : ¬((a.frags (a.frag_index a.parser_state)).len = 0 ∧ (47 : Nat) = 32) :=
    fun hh => absurd hh.2 (by decide)
  have h2 : ¬a.parser_state ∉ methods ctx := fun hh => hh core.method
  have h3 : ¬(47 : Nat) = 32 := by decide
  rw [if_neg h1, if_neg h2, if_neg h3]
  have e : lws_parse_urldecode ctx a 47 =
      if 1 < m then (LPUR_CONTINUE, { a.trim m with ups := URIPS_SEEN_SLASH }, 47)
      else (LPUR_SWALLOW, { a.trim m with ups := URIPS_SEEN_SLASH }, 47) := by
    unfold lws_parse_urldecode
    rw [hues]
    simp only
    rw [if_neg (by decide)]
    unfold urldecode_path
    have h4 : ¬((47 : Nat) = 0 ∧ (a.frag_index ctx.tk.WSI_TOKEN_HTTP_URI_ARGS = 0 ∨
        a.post_literal_equal = 0)) := fun hh => absurd hh.1 (by decide)
    rw [if_neg h4, hups]
    simp only
    have h7 : True ∨ (47 : Nat) = 63 := Or.inl trivial
    rw [if_pos h7, hbk]
    by_cases h1m : 1 < m
    · rw [if_pos h1m]
      split
      · simp [urldecode_query]
      · rename_i h5
        exact absurd (lt_of_lt_of_eq h1m hlen1.symm) h5
    · rw [if_neg h1m]
      split
      · rename_i h5
        exact absurd (lt_of_lt_of_eq h5 hlen1) h1m
      · rfl
  rw [e]
  by_cases h1m : 1 < m
  · rw [if_pos h1m, if_pos h1m]
    simp only
    have hb1 : ({ a.trim m with ups := URIPS_SEEN_SLASH } : AH).pos <
        ctx.max_http_header_data := lt_of_le_of_lt hpt hb
    obtain ⟨hp, hs⟩ := holds_pos_lt hh1 hC hb1
    rw [check_eol_plain 47 hcore1.limit hh1 hb1 hcore1.not_challenge (by decide) (by decide)]
    refine ⟨_, rfl, holds_put_inc 47 hh1 hp hs, path_core_congr core rfl rfl rfl, rfl, ?_, rfl⟩
    show inc32 (a.trim m).pos ≤ a.pos + 1
    unfold inc32
    omega
  · rw [if_neg h1m, if_neg h1m]
    simp only
    unfold swallow_label
    have hnc1 : ¬({ a.trim m with ups := URIPS_SEEN_SLASH } : AH).parser_state =
        ctx.tk.WSI_TOKEN_CHALLENGE := core.not_challenge
    rw [if_neg hnc1]
    exact ⟨_, rfl, hh1, hcore1, rfl, Nat.le_succ_of_le hpt, rfl⟩

/-- C15 (as the code has it). Let `pre` be an input on which `lws_parse` has
returned `LPR_OK` inside the path of a method URI that so far ends in `/..`
(state `URIPS_SEEN_SLASH_DOT_DOT`). Ending the URI there (a space) and ending
it after one more slash (`/` and a space) both return `LPR_OK`; the path
fragment stored for the URI with the final slash is the one stored without it
followed by `/` when that one is longer than one byte, and the same one byte
otherwise. -/
theorem C15_dot_dot_then_slash (ctx : Context) (wsi wsi1 : lws) (ah : AH) (pre : List Nat)
    (hC : ctx.max_http_header_data < 65536)
    (h1 : lws_parse ctx wsi pre = some (LPR_OK, wsi1, 0)) (hah : wsi1.ah = some ah)
    (hnc : wsi1.hdr_parsing_completed = false) (hdd : path_ends_dot_dot ctx ah) :
    ∃ a1 a3,
      lws_parse ctx wsi (pre ++ [32]) = some (LPR_OK, { wsi with ah := some a1 }, 0) ∧
      lws_parse ctx wsi (pre ++ [47, 32]) = some (LPR_OK, { wsi with ah := some a3 }, 0) ∧
      a3.frag_bytes ah.nfrag =
        (if 1 < (a1.frag_bytes ah.nfrag).length then a1.frag_bytes ah.nfrag ++ [47]
         else a1.frag_bytes ah.nfrag) := by
  obtain ⟨hin, hnch, hfirst, hlim, htight, hlen, hups, hues, hroom, hfs, hhttp⟩ := hdd
  have core : path_core ctx ah.nfrag ah := ⟨hin.2.1, hin.2.2.1, hnch, hfirst, hin.2.2.2, hlim⟩
  have hsl : (ah.frag_bytes ah.nfrag).length = (ah.frags ah.nfrag).len := by
    simp [AH.frag_bytes]
  have hh : holds ah ah.nfrag (ah.frag_bytes ah.nfrag) :=
    ⟨stores_self ah ah.nfrag, rfl, by rw [hsl]; exact htight⟩
  have hslen : (ah.frag_bytes ah.nfrag).length < 65536 := by
    rw [hsl]
    omega
  obtain ⟨m, hm0, hm1, hm2, _, _⟩ := back_up_one_dir_trim hh hslen (by omega)
  have hm : 1 ≤ m := by
    rw [if_neg (by rw [hsl]; omega)] at hm0
    omega
  have hl : ((ah.frag_bytes ah.nfrag).take m).length = m := by simp [hm1]
  obtain ⟨a1, e1, hst1⟩ := space_step wsi m hC core hh (by rw [hsl]; exact hlen) (by omega)
    hfs hhttp hm1 (by rw [if_pos hups]; exact hm2)
  obtain ⟨a2, e2, hh2, core2, hups2, hpos2, hfi2⟩ := slash_step_back wsi m hC core hh
    (by omega) hups hues hm1 hm2
  have hn2 : a2.nfrag = ah.nfrag := hh2.2.1
  have hl2 : 1 ≤ (if 1 < m then (ah.frag_bytes ah.nfrag).take m ++ [47]
      else (ah.frag_bytes ah.nfrag).take m).length := by
    split
    · simp
    · rw [hl]; exact hm
  obtain ⟨a3, e3, hst3⟩ := space_step wsi _ hC core2 hh2 hl2 (by omega) hfs
    (by rw [hfi2]; exact hhttp) (le_refl _)
    (by
      have hne : ¬a2.ups = URIPS_SEEN_SLASH_DOT_DOT := by rw [hups2]; decide
      rw [if_neg hne]
      exact (trim_self hh2).symm)
  rw [List.take_length] at hst3
  refine ⟨a1, a3, ?_, ?_, ?_⟩
  · rw [parse_resume ctx wsi wsi1 ah pre [32] h1 hah hnc]
    unfold parse_loop
    rw [e1]
    rfl
  · rw [parse_resume ctx wsi wsi1 ah pre [47, 32] h1 hah hnc]
    unfold parse_loop
    rw [e2]
    simp only
    unfold parse_loop
    rw [e3]
    rfl
  · rw [stores_bytes a1 _ _ hst1, stores_bytes a3 _ _ hst3, hl]

/-- C15 (as the claim has it) fails: the URI `/a/b/..` is stored as `/a`, the
URI `/a/b/../` as `/a/`. -/
theorem C15_dot_dot_differs :
    (lws_parse lws_context wsi_fresh (bytes "GET /a/b/.. HTTP/1.1\r\n")).map
        (view_of [lws_tokens.WSI_TOKEN_GET_URI]) =
      some ⟨LPR_OK, 0, false, some lws_tokens.WSI_TOKEN_NAME_PART, [some [bytes "/a"]]⟩ ∧
    (lws_parse lws_context wsi_fresh (bytes "GET /a/b/../ HTTP/1.1\r\n")).map
        (view_of [lws_tokens.WSI_TOKEN_GET_URI]) =
      some ⟨LPR_OK, 0, false, some lws_tokens.WSI_TOKEN_NAME_PART, [some [bytes "/a/"]]⟩ := by
  decide!

theorem C15_dot_dot_then_slash_witness :
    path_ends_dot_dot lws_context (ah_parsed lws_context wsi_fresh request_dot_dot) ∧
    ∃ a1 a3,
      lws_parse lws_context wsi_fresh (request_dot_dot ++ [32]) =
        some (LPR_OK, { wsi_fresh with ah := some a1 }, 0) ∧
      lws_parse lws_context wsi_fresh (request_dot_dot ++ [47, 32]) =
        some (LPR_OK, { wsi_fresh with ah := some a3 }, 0) ∧
      a3.frag_bytes (ah_parsed lws_context wsi_fresh request_dot_dot).nfrag =
        (if 1 < (a1.frag_bytes (ah_parsed lws_context wsi_fresh request_dot_dot).nfrag).length
         then a1.frag_bytes (ah_parsed lws_context wsi_fresh request_dot_dot).nfrag ++ [47]
         else a1.frag_bytes (ah_parsed lws_context wsi_fresh request_dot_dot).nfrag) :=
  have hv : (lws_parse lws_context wsi_fresh request_dot_dot).map
      (fun r => (r.1, r.2.2, r.2.1.ah.isSome)) = some (LPR_OK, 0, true) := by decide!
  have hdd : path_ends_dot_dot lws_context (ah_parsed lws_context wsi_fresh request_dot_dot) := by
    decide!
  ⟨hdd, C15_dot_dot_then_slash lws_context wsi_fresh
    (wsi_after lws_context wsi_fresh request_dot_dot)
    (ah_parsed lws_context wsi_fresh request_dot_dot) request_dot_dot (by decide)
    (wsi_after_eq lws_context wsi_fresh request_dot_dot hv).1
    (wsi_after_eq lws_context wsi_fresh request_dot_dot hv).2 (by decide!) hdd⟩

theorem C17_total_length_witness :
    frag_chain ah_two_frags.frags 256 (ah_two_frags.frag_index 26) = some [1, 2] ∧
    lws_hdr_total_length (h1_server ah_two_frags) 26 = some 4 :=
  ⟨by decide!,
    ((C17_total_length (h1_server ah_two_frags) 26).2.2 ah_two_frags [1, 2] rfl (by decide)
      (by decide!)).2⟩

theorem C20_copy_fragment_witness :
    nth_frag ah_two_frags.frags 1 (ah_two_frags.frag_index 26) = some 2 ∧
    lws_hdr_fragment_length (h1_server ah_two_frags) 26 1 = some 1 ∧
    (lws_hdr_copy_fragment (h1_server ah_two_frags) (fun _ => 255) 8 26 1).1 = 1 :=
  ⟨by decide!,
    ((((C20_copy_fragment (h1_server ah_two_frags) (fun _ => 255) 8 26 1).2 ah_two_frags rfl).2.2
      2 (by decide) (by decide!)).1),
    (((((C20_copy_fragment (h1_server ah_two_frags) (fun _ => 255) 8 26 1).2 ah_two_frags rfl).2.2
      2 (by decide) (by decide!)).2.2 (by decide)).1)⟩

/-! ## C27: a dispatch entry of the lex table -/

/-- C27 (as the code has it). At a table position `p` that holds a three-byte
dispatch entry `(match_char, lo, hi)` (bit 7 clear, value above `FAIL_CHAR`):
when the input byte equals `match_char` the walk ends with the cursor
`p + lo + (hi << 8)`, which `lextable_pos` receives as an `int16_t`; otherwise
the walk goes on at `p + 3` with the same byte. -/
theorem C27_dispatch_entry (lt : List Nat) (wsi : lws) (ah : AH) (c p fuel : Nat)
    (hb7 : lt.getD p 0 / 128 % 2 = 0) (hent : FAIL_CHAR < lt.getD p 0) :
    (lt.getD p 0 = c →
      lex_walk lt c (fuel + 1) p = .moved (p + lt.getD (p + 1) 0 + lt.getD (p + 2) 0 * 256) ∧
      (apply_lex_walk wsi ah (lex_walk lt c (fuel + 1) p)).lextable_pos =
        toInt16 ((p + lt.getD (p + 1) 0 + lt.getD (p + 2) 0 * 256 : Nat) : Int)) ∧
    (lt.getD p 0 ≠ c → lex_walk lt c (fuel + 1) p = lex_walk lt c fuel (p + 3)) := by
  have h1 : ¬lt.getD p 0 / 128 % 2 = 1 := by omega
  have h2 : ¬lt.getD p 0 = FAIL_CHAR := by omega
  have h3 : ¬lt.getD p 0 < FAIL_CHAR := by omega
  constructor
  · intro hc
    have e : lex_walk lt c (fuel + 1) p =
        .moved (p + lt.getD (p + 1) 0 + lt.getD (p + 2) 0 * 256) := by
      unfold lex_walk
      rw [if_neg h1, if_neg h2, if_neg h3, if_pos hc]
    rw [e]
    exact ⟨rfl, rfl⟩
  · intro hc
    conv => lhs; unfold lex_walk
    rw [if_neg h1, if_neg h2, if_neg h3, if_neg hc]

/-- C27 (as the claim has it) fails: position 0 of the table holds the
dispatch entry `('g', 28, 0)`, and the byte `g` moves the cursor to
`0 + 28 = 28`, not to `0 + 1 + 28`. -/
theorem C27_jump_is_not_off_by_one :
    lextable_model.getD 0 0 = 103 ∧ lextable_model.getD 1 0 = 28 ∧
    lextable_model.getD 2 0 = 0 ∧
    lex_walk lextable_model 103 (lextable_model.length + 1) 0 = .moved 28 ∧
    lex_walk lextable_model 103 (lextable_model.length + 1) 0 ≠
      .moved (0 + 1 + (28 ||| (0 <<< 8))) := by
  decide!

theorem C27_dispatch_entry_witness :
    lextable_model.getD 0 0 / 128 % 2 = 0 ∧ FAIL_CHAR < lextable_model.getD 0 0 ∧
    (lextable_model.getD 0 0 = 103 →
      lex_walk lextable_model 103 (253 + 1) 0 =
        .moved (0 + lextable_model.getD (0 + 1) 0 + lextable_model.getD (0 + 2) 0 * 256) ∧
      (apply_lex_walk wsi_fresh (created_ah fun _ => 0)
          (lex_walk lextable_model 103 (253 + 1) 0)).lextable_pos =
        toInt16 ((0 + lextable_model.getD (0 + 1) 0 + lextable_model.getD (0 + 2) 0 * 256 : Nat) :
          Int)) ∧
    (lextable_model.getD 0 0 ≠ 103 →
      lex_walk lextable_model 103 (253 + 1) 0 = lex_walk lextable_model 103 253 (0 + 3)) :=
  ⟨by decide!, by decide!,
    C27_dispatch_entry lextable_model wsi_fresh (created_ah fun _ => 0) 103 0 253 (by decide!)
      (by decide!)⟩

/-! ## C28: a percent-encoded NUL in a query value -/

/-- C28 (divergence). After `lws_parse` on `GET /?k=%00a HTTP/1.1 CRLF CRLF` the
query-args fragment has length 3 and holds `k`, `=`, NUL: the NUL is stored but
not counted (`parser_state` is the method token, never
`WSI_TOKEN_HTTP_URI_ARGS`, so the "don't account for safety terminator"
decrement is taken), and the `a` that follows it lies in `data` just behind the
counted bytes. -/
theorem C28_nul_in_value_not_counted :
    (lws_parse lws_context wsi_fresh request_nul_value).map
        (view_of [lws_tokens.WSI_TOKEN_GET_URI, lws_tokens.WSI_TOKEN_HTTP_URI_ARGS]) =
      some ⟨LPR_OK, 0, true, some lws_tokens.WSI_PARSING_COMPLETE,
        [some [bytes "/"], some [[107, 61, 0]]]⟩ ∧
    ((ah_parsed lws_context wsi_fresh request_nul_value).frags
      ((ah_parsed lws_context wsi_fresh request_nul_value).frag_index
        lws_tokens.WSI_TOKEN_HTTP_URI_ARGS)).len = 3 ∧
    (ah_parsed lws_context wsi_fresh request_nul_value).data
      (((ah_parsed lws_context wsi_fresh request_nul_value).frags
        ((ah_parsed lws_context wsi_fresh request_nul_value).frag_index
          lws_tokens.WSI_TOKEN_HTTP_URI_ARGS)).offset + 3) = 97 := by
  decide!

/-! ## C25: an unencoded `&` in the path -/

/-- C25 (divergence). After `lws_parse` on `GET /a&b HTTP/1.1 CRLF CRLF` no
query-args fragment exists and the GET-URI token has the two fragments `/a`
and `b`: the `&` of the path has opened a new fragment. `lws_hdr_total_length`
of the URI is 4 and `lws_hdr_copy` yields `/a,b`. -/
theorem C25_amp_in_path_splits_uri :
    (lws_parse lws_context wsi_fresh request_amp_in_path).map
        (view_of [lws_tokens.WSI_TOKEN_GET_URI, lws_tokens.WSI_TOKEN_HTTP_URI_ARGS]) =
      some ⟨LPR_OK, 0, true, some lws_tokens.WSI_PARSING_COMPLETE,
        [some [bytes "/a", bytes "b"], some []]⟩ ∧
    lws_hdr_total_length (wsi_after lws_context wsi_fresh request_amp_in_path)
      lws_tokens.WSI_TOKEN_GET_URI = some 4 ∧
    (lws_hdr_copy lws_context (wsi_after lws_context wsi_fresh request_amp_in_path)
      (fun _ => 255) 16 lws_tokens.WSI_TOKEN_GET_URI).map
        (fun r => (r.1, (List.range 6).map r.2)) = some (4, bytes "/a,b" ++ [0, 255]) := by
  decide!

/-! ## C29: `lws_hdr_simple_create` after the fragment table is full -/

/-- C29 (divergence). From a reset AH, 96 calls of `lws_hdr_simple_create` with
a non-empty string: the first 95 succeed, the 96th fails and leaves
`nfrag = 96`, the number of entries of `frags`. One more call then returns 0
with `nfrag = 97`, `frag_index` pointing at 97 and the fragment record 97
written (`offset = pos` before the call, `len = 1`): the test `nfrag ==
LWS_ARRAY_SIZE(frags)` is passed over. -/
theorem C29_create_after_failure :
    lws_context.frags_size = 96 ∧
    (result_of_run lws_context ops_fill_frags).1 = false ∧
    (result_of_run lws_context ops_fill_frags).2.nfrag = 96 ∧
    (lws_hdr_simple_create lws_context (result_of_run lws_context ops_fill_frags).2
      WSI_TOKEN_HOST (bytes "x")).1 = 0 ∧
    (lws_hdr_simple_create lws_context (result_of_run lws_context ops_fill_frags).2
      WSI_TOKEN_HOST (bytes "x")).2.nfrag = 97 ∧
    (lws_hdr_simple_create lws_context (result_of_run lws_context ops_fill_frags).2
      WSI_TOKEN_HOST (bytes "x")).2.frag_index WSI_TOKEN_HOST = 97 ∧
    ((lws_hdr_simple_create lws_context (result_of_run lws_context ops_fill_frags).2
      WSI_TOKEN_HOST (bytes "x")).2.frags 97).offset =
      (result_of_run lws_context ops_fill_frags).2.pos ∧
    ((lws_hdr_simple_create lws_context (result_of_run lws_context ops_fill_frags).2
      WSI_TOKEN_HOST (bytes "x")).2.frags 97).len = 1 ∧
    ((result_of_run lws_context ops_fill_frags).2.frags 97).len = 0 := by
  decide!

/-! ## C23: an unknown header whose name begins a known name -/

/-- C23 (divergence). With custom headers enabled, on a non-mux HTTP/1 server
connection: after `GET / HTTP/1.1`, `X-Foo: bar`, `Host: h` the custom header
`x-foo:` has length 3 and copies as `bar`, and a copy into 3 bytes returns -1.
After `GET / HTTP/1.1`, `Hos: v`, `Host: h`, whose first header name is no
known name, `lws_hdr_custom_length` for `hos:` returns -1: the lex table is
left at the colon itself, the colon is not taken as the end of the name, and
the rest of the line together with the next line up to its colon becomes the
name of one custom header, `hos: v CR LF host:`, with the value `h`; the Host
header gets no fragment. -/
theorem C23_short_name_not_registered :
    lws_hdr_custom_length (wsi_after lws_context wsi_fresh request_custom) 4096
      (bytes "x-foo:") 6 = some 3 ∧
    (lws_hdr_custom_copy (wsi_after lws_context wsi_fresh request_custom) 4096 (fun _ => 255) 16
      (bytes "x-foo:") 6).map (fun r => (r.1, (List.range 5).map r.2)) =
      some (3, bytes "bar" ++ [0, 255]) ∧
    (lws_hdr_custom_copy (wsi_after lws_context wsi_fresh request_custom) 4096 (fun _ => 255) 3
      (bytes "x-foo:") 6).map (fun r => r.1) = some (-1) ∧
    (lws_parse lws_context wsi_fresh request_short_name).map
        (view_of [lws_tokens.WSI_TOKEN_GET_URI, WSI_TOKEN_HOST]) =
      some ⟨LPR_OK, 0, true, some lws_tokens.WSI_PARSING_COMPLETE,
        [some [bytes "/"], some []]⟩ ∧
    lws_hdr_custom_length (wsi_after lws_context wsi_fresh request_short_name) 4096
      (bytes "hos:") 4 = some (-1) ∧
    lws_hdr_custom_length (wsi_after lws_context wsi_fresh request_short_name) 4096
      (bytes "hos: v\r\nhost:") 13 = some 1 := by
  decide!

/-! ## C22: the cookie lookup -/

/-- C22 (divergence). For the Cookie header `xid=1; id=2`, `lws_http_cookie_get`
for the name `id` returns 0 with the value `1` of the pair named `xid`, not the
value `2`; for the Cookie header `xid=1`, which has no pair named `id`, it
returns 0 with the value `1` as well. The name is compared with the bytes
before every `=`, wherever they start. -/
theorem C22_cookie_name_matches_tail :
    (lws_parse lws_context wsi_fresh request_cookies).map
        (view_of [lws_tokens.WSI_TOKEN_HTTP_COOKIE]) =
      some ⟨LPR_OK, 0, true, some lws_tokens.WSI_PARSING_COMPLETE,
        [some [bytes "xid=1; id=2"]]⟩ ∧
    (lws_http_cookie_get lws_context (wsi_after lws_context wsi_fresh request_cookies)
      (bytes "id") (fun _ => 255) 8).map (fun r => (r.1, (List.range 3).map r.2.1, r.2.2)) =
      some (0, bytes "1" ++ [0, 255], 1) ∧
    (lws_http_cookie_get lws_context (wsi_after lws_context wsi_fresh request_cookie_xid)
      (bytes "id") (fun _ => 255) 8).map (fun r => (r.1, (List.range 3).map r.2.1, r.2.2)) =
      some (0, bytes "1" ++ [0, 255], 1) ∧
    (lws_http_cookie_get lws_context (wsi_after lws_context wsi_fresh request_cookies)
      (bytes "xid") (fun _ => 255) 8).map (fun r => (r.1, (List.range 3).map r.2.1, r.2.2)) =
      some (0, bytes "1" ++ [0, 255], 1) ∧
    (lws_http_cookie_get lws_context (wsi_after lws_context wsi_fresh request_cookies)
      (bytes "id") (fun _ => 255) 1).map (fun r => r.1) = some 2 ∧
    (lws_http_cookie_get lws_context (wsi_after lws_context wsi_fresh request_cookies)
      (bytes "no") (fun _ => 255) 8).map (fun r => r.1) = some 1 := by
  decide!

/-! ## C26: spaces at the start of a header value -/

/-- C26 (amended). In the value state of a known token a space is dropped, the
AH staying as it is, whenever the first fragment of the token is empty, however
many spaces came before; when the first fragment of the token is not empty
(later in the value, or from the first byte of a repeated header) and the token
is not a method, the space is issued like any other byte. -/
theorem C26_spaces_dropped_while_empty (ctx : Context) (wsi : lws) (ah : AH)
    (hv : in_value_part ctx ah) :
    ((ah.frags (ah.frag_index ah.parser_state)).len = 0 →
      lws_parse_byte ctx wsi ah 32 = .brk ah) ∧
    ((ah.frags (ah.frag_index ah.parser_state)).len ≠ 0 → ah.parser_state ∉ methods ctx →
      lws_parse_byte ctx wsi ah 32 =
        if (issue_char ctx ah 32).1 < 0 then .fail (issue_char ctx ah 32).2
        else if 0 < (issue_char ctx ah 32).1 then
          swallow_label ctx
            { (issue_char ctx ah 32).2 with parser_state := ctx.tk.WSI_TOKEN_SKIPPING }
        else swallow_label ctx (issue_char ctx ah 32).2) := by
  obtain ⟨h1, h2, h3, h4, h5⟩ := hv
  have hb : lws_parse_byte ctx wsi ah 32 = value_part ctx ah 32 := by
    unfold lws_parse_byte
    rw [if_neg h1, if_neg h2, if_neg h3, if_neg h4, if_neg h5]
  rw [hb]
  constructor
  · intro h0
    unfold value_part
    rw [if_pos ⟨h0, rfl⟩]
  · intro h0 hm
    unfold value_part
    rw [if_neg (fun h => h0 h.1), if_pos hm]
    unfold check_eol
    simp

/-- C26 (as the claim has it) fails: after `lws_parse` on `GET / HTTP/1.1`,
`Host:  v` (two spaces) the Host token holds `v`, not a space and `v`; and
after `Host: a`, `Host: b` the second fragment holds two spaces and `b`, not
`b`. -/
theorem C26_second_space_not_stored :
    (lws_parse lws_context wsi_fresh request_two_spaces).map (view_of [WSI_TOKEN_HOST]) =
      some ⟨LPR_OK, 0, true, some lws_tokens.WSI_PARSING_COMPLETE, [some [bytes "v"]]⟩ ∧
    (lws_parse lws_context wsi_fresh request_two_spaces).map (view_of [WSI_TOKEN_HOST]) ≠
      some ⟨LPR_OK, 0, true, some lws_tokens.WSI_PARSING_COMPLETE, [some [bytes " v"]]⟩ ∧
    (lws_parse lws_context wsi_fresh request_host_twice).map (view_of [WSI_TOKEN_HOST]) =
      some ⟨LPR_OK, 0, true, some lws_tokens.WSI_PARSING_COMPLETE,
        [some [bytes "a", bytes "  b"]]⟩ := by
  decide!

theorem C26_spaces_dropped_while_empty_witness :
    in_value_part lws_context (ah_parsed lws_context wsi_fresh prefix_host) ∧
    ((ah_parsed lws_context wsi_fresh prefix_host).frags
      ((ah_parsed lws_context wsi_fresh prefix_host).frag_index
        (ah_parsed lws_context wsi_fresh prefix_host).parser_state)).len = 0 ∧
    (((ah_parsed lws_context wsi_fresh prefix_host).frags
        ((ah_parsed lws_context wsi_fresh prefix_host).frag_index
          (ah_parsed lws_context wsi_fresh prefix_host).parser_state)).len = 0 →
      lws_parse_byte lws_context wsi_fresh (ah_parsed lws_context wsi_fresh prefix_host) 32 =
        .brk (ah_parsed lws_context wsi_fresh prefix_host)) :=
  ⟨by unfold in_value_part; decide!, by decide!,
    (C26_spaces_dropped_while_empty lws_context wsi_fresh
      (ah_parsed lws_context wsi_fresh prefix_host) (by unfold in_value_part; decide!)).1⟩

/-! ## C24: percent escapes -/

/-- The model of `char_to_hex` gives the value of a hex digit and a negative
number for every other byte. -/
theorem char_to_hex_value (c : Nat) :
    (∀ v, hex_value c = some v → char_to_hex c = (v : Int) ∧ v < 16) ∧
    (hex_value c = none → char_to_hex c < 0) := by
  unfold hex_value char_to_hex
  constructor
  · intro v hv
    split_ifs at hv ⊢ with h1 h2 h3 <;> simp at hv <;> omega
  · intro hv
    split_ifs at hv ⊢ with h1 h2 h3
    omega


/-- The function `issue_char` changes neither `nfrag` nor `frag_index`. -/
theorem issue_char_index (ctx : Context) (ah : AH) (c : Nat) :
    (issue_char ctx ah c).2.nfrag = ah.nfrag ∧
    (issue_char ctx ah c).2.frag_index = ah.frag_index := by
  unfold issue_char
  dsimp only
  split_ifs <;> exact ⟨rfl, rfl⟩

/-- The back-up loop changes neither `nfrag` nor `frag_index`. -/
theorem back_up_loop_index (fuel : Nat) : ∀ ah : AH,
    (back_up_loop fuel ah).nfrag = ah.nfrag ∧
    (back_up_loop fuel ah).frag_index = ah.frag_index := by
  induction fuel with
  | zero => intro ah; exact ⟨rfl, rfl⟩
  | succ n ih =>
    intro ah
    unfold back_up_loop
    simp only []
    split_ifs
    · have h := ih ({ ah with pos := dec32 ah.pos }.len_dec)
      exact ⟨h.1.trans rfl, h.2.trans rfl⟩
    · exact ⟨rfl, rfl⟩

/-- The "back up one dir level" block changes neither `nfrag` nor
`frag_index`. -/
theorem back_up_one_dir_index (ah : AH) :
    (back_up_one_dir ah).nfrag = ah.nfrag ∧
    (back_up_one_dir ah).frag_index = ah.frag_index := by
  unfold back_up_one_dir
  split_ifs
  · have h := back_up_loop_index
      (({ ah with pos := dec32 ah.pos }.len_dec).frags ({ ah with pos := dec32 ah.pos }.len_dec).nfrag).len
      ({ ah with pos := dec32 ah.pos }.len_dec)
    exact ⟨h.1.trans rfl, h.2.trans rfl⟩
  · exact ⟨rfl, rfl⟩

/-- A decoded byte other than `?` with `enc` set, or any byte that is not `?`,
passes the end of `lws_parse_urldecode` unchanged. -/
theorem urldecode_query_enc (ctx : Context) (ah : AH) (c : Nat) :
    urldecode_query ctx ah c true = (LPUR_CONTINUE, ah, c) := by
  unfold urldecode_query
  rw [if_neg]
  rintro ⟨_, h, _⟩
  exact Bool.noConfusion h

/-- The label `check_eol` for a byte that is neither CR nor LF nor NUL: the
byte is issued. -/
theorem check_eol_issue (ctx : Context) (a : AH) (c : Nat) (h13 : c ≠ 13) (h10 : c ≠ 10)
    (h0 : c ≠ 0) :
    check_eol ctx a c =
      if (issue_char ctx a c).1 < 0 then .fail (issue_char ctx a c).2
      else if 0 < (issue_char ctx a c).1 then
        swallow_label ctx
          { (issue_char ctx a c).2 with parser_state := ctx.tk.WSI_TOKEN_SKIPPING }
      else swallow_label ctx (issue_char ctx a c).2 := by
  unfold check_eol
  simp [h13, h10, h0]

/-- A decoded `&`, `;` or `?` in the path state machine. -/
theorem urldecode_path_enc_delim (ctx : Context) (a : AH) (c : Nat)
    (hc : c = 38 ∨ c = 59 ∨ c = 63) :
    (urldecode_path ctx a c true).2.1.nfrag = a.nfrag ∧
    (urldecode_path ctx a c true).2.1.frag_index = a.frag_index ∧
    ((urldecode_path ctx a c true).1 = LPUR_CONTINUE ∧ (urldecode_path ctx a c true).2.2 = c ∨
      (urldecode_path ctx a c true).1 = LPUR_MINUS_ONE ∨
      (c = 63 ∧ a.ups = URIPS_SEEN_SLASH_DOT_DOT ∧
        (urldecode_path ctx a c true).1 = LPUR_SWALLOW)) := by
  have h0 : ¬(c = 0 ∧ (a.frag_index ctx.tk.WSI_TOKEN_HTTP_URI_ARGS = 0 ∨
      a.post_literal_equal = 0)) := by omega
  have h47 : c ≠ 47 := by omega
  have h46 : c ≠ 46 := by omega
  have h61 : c ≠ 61 := by omega
  have h43 : c ≠ 43 := by omega
  cases hu : a.ups with
  | URIPS_IDLE =>
    have e : urldecode_path ctx a c true = (LPUR_CONTINUE, a, c) := by
      unfold urldecode_path
      rw [if_neg h0]
      simp [hu, h61, h43, h47, urldecode_query_enc]
    rw [e]
    exact ⟨rfl, rfl, Or.inl ⟨rfl, rfl⟩⟩
  | URIPS_SEEN_SLASH =>
    have e : urldecode_path ctx a c true = (LPUR_CONTINUE, { a with ups := URIPS_IDLE }, c) := by
      unfold urldecode_path
      rw [if_neg h0]
      simp [hu, h46, h47, urldecode_query_enc]
    rw [e]
    exact ⟨rfl, rfl, Or.inl ⟨rfl, rfl⟩⟩
  | URIPS_SEEN_SLASH_DOT =>
    have hi := issue_char_index ctx { a with ups := URIPS_IDLE } 46
    have e : urldecode_path ctx a c true =
        if (issue_char ctx { a with ups := URIPS_IDLE } 46).1 < 0 then
          (LPUR_MINUS_ONE, (issue_char ctx { a with ups := URIPS_IDLE } 46).2, c)
        else (LPUR_CONTINUE, (issue_char ctx { a with ups := URIPS_IDLE } 46).2, c) := by
      unfold urldecode_path
      rw [if_neg h0]
      simp [hu, h46, h47, urldecode_query_enc]
    rw [e]
    split_ifs
    · exact ⟨hi.1, hi.2, Or.inr (Or.inl rfl)⟩
    · exact ⟨hi.1, hi.2, Or.inl ⟨rfl, rfl⟩⟩
  | URIPS_SEEN_SLASH_DOT_DOT =>
    have hb := back_up_one_dir_index a
    have hi1 := issue_char_index ctx a 46
    have hi2 := issue_char_index ctx (issue_char ctx a 46).2 46
    have e : urldecode_path ctx a c true =
        if c = 63 then
          if 1 < ((back_up_one_dir a).frags (back_up_one_dir a).nfrag).len then
            (LPUR_CONTINUE, { back_up_one_dir a with ups := URIPS_SEEN_SLASH }, c)
          else (LPUR_SWALLOW, { back_up_one_dir a with ups := URIPS_SEEN_SLASH }, c)
        else if (issue_char ctx a 46).1 < 0 then (LPUR_MINUS_ONE, (issue_char ctx a 46).2, c)
        else if (issue_char ctx (issue_char ctx a 46).2 46).1 < 0 then
          (LPUR_MINUS_ONE, (issue_char ctx (issue_char ctx a 46).2 46).2, c)
        else
          (LPUR_CONTINUE, { (issue_char ctx (issue_char ctx a 46).2 46).2 with ups := URIPS_IDLE },
            c) := by
      unfold urldecode_path
      rw [if_neg h0]
      simp [hu, h47, urldecode_query_enc]
    rw [e]
    split_ifs with h63 hl h1 h2
    · exact ⟨hb.1, hb.2, Or.inl ⟨rfl, rfl⟩⟩
    · exact ⟨hb.1, hb.2, Or.inr (Or.inr ⟨h63, rfl, rfl⟩)⟩
    · exact ⟨hi1.1, hi1.2, Or.inr (Or.inl rfl)⟩
    · exact ⟨hi2.1.trans hi1.1, hi2.2.trans hi1.2, Or.inr (Or.inl rfl)⟩
    · exact ⟨hi2.1.trans hi1.1, hi2.2.trans hi1.2, Or.inl ⟨rfl, rfl⟩⟩

/-- A decoded `?` in the state `URIPS_SEEN_SLASH_DOT_DOT`. -/
theorem urldecode_path_enc_question (ctx : Context) (a : AH)
    (hu : a.ups = URIPS_SEEN_SLASH_DOT_DOT) :
    urldecode_path ctx a 63 true =
      if 1 < ((back_up_one_dir a).frags (back_up_one_dir a).nfrag).len then
        (LPUR_CONTINUE, { back_up_one_dir a with ups := URIPS_SEEN_SLASH }, 63)
      else (LPUR_SWALLOW, { back_up_one_dir a with ups := URIPS_SEEN_SLASH }, 63) := by
  unfold urldecode_path
  rw [if_neg (by omega)]
  simp [hu, urldecode_query_enc]

/-- A byte that is no hex digit while an escape is pending. -/
theorem urldecode_forbid (ctx : Context) (a : AH) (c : Nat) (hu : a.ues ≠ URIES_IDLE)
    (hc : hex_value c = none) : lws_parse_urldecode ctx a c = (LPUR_FORBID, a, c) := by
  have hneg := (char_to_hex_value c).2 hc
  unfold lws_parse_urldecode
  cases h : a.ues with
  | URIES_IDLE => exact absurd h hu
  | URIES_SEEN_PERCENT => simp only [if_pos hneg]
  | URIES_SEEN_PERCENT_H1 => simp only [if_pos hneg]

/-- The steps of a percent escape. With no escape pending, `%` is swallowed; a hex digit `x`
after it is swallowed and stashed; a hex digit `y` after that hands the byte
`16 * value(x) + value(y)` to the path state machine with `enc` set. A byte
that is no hex digit, in either place, makes the sanitizer return `LPUR_FORBID`,
and `lws_parse`, for such a byte other than a space in a method URI, returns
`LPR_FORBIDDEN`. A decoded `&`, `;` or `?` never changes `nfrag` or
`frag_index`; it is handed on to be stored (`LPUR_CONTINUE` with the byte
itself, which `check_eol` then issues) unless storing a pending dot fails, or
it is a decoded `?` in the state `URIPS_SEEN_SLASH_DOT_DOT`: there it triggers
the back-up and is swallowed when at most one byte of the fragment is left. -/
theorem percent_escape_steps (ctx : Context) (wsi : lws) (ah : AH) (x y v w : Nat)
    (hi : ah.ues = URIES_IDLE) (hx : hex_value x = some v) (hy : hex_value y = some w) :
    (lws_parse_urldecode ctx ah 37 = (LPUR_SWALLOW, { ah with ues := URIES_SEEN_PERCENT }, 37) ∧
      lws_parse_urldecode ctx { ah with ues := URIES_SEEN_PERCENT } x =
        (LPUR_SWALLOW, { ah with esc_stash := x, ues := URIES_SEEN_PERCENT_H1 }, x) ∧
      lws_parse_urldecode ctx { ah with esc_stash := x, ues := URIES_SEEN_PERCENT_H1 } y =
        urldecode_path ctx { ah with esc_stash := x, ues := URIES_IDLE } (16 * v + w) true) ∧
    (∀ (a : AH) (c : Nat), a.ues ≠ URIES_IDLE → hex_value c = none →
      lws_parse_urldecode ctx a c = (LPUR_FORBID, a, c) ∧
      (in_value_part ctx a → a.parser_state ∈ methods ctx → c ≠ 32 → ∀ cs,
        parse_loop ctx wsi (c :: cs) a = some (LPR_FORBIDDEN, (forbid_label ctx wsi a).2,
          cs.length))) ∧
    (∀ (a : AH) (c : Nat), c = 38 ∨ c = 59 ∨ c = 63 →
      (urldecode_path ctx a c true).2.1.nfrag = a.nfrag ∧
      (urldecode_path ctx a c true).2.1.frag_index = a.frag_index ∧
      ((urldecode_path ctx a c true).1 = LPUR_CONTINUE ∧ (urldecode_path ctx a c true).2.2 = c ∨
        (urldecode_path ctx a c true).1 = LPUR_MINUS_ONE ∨
        (c = 63 ∧ a.ups = URIPS_SEEN_SLASH_DOT_DOT ∧
          (urldecode_path ctx a c true).1 = LPUR_SWALLOW)) ∧
      check_eol ctx a c =
        if (issue_char ctx a c).1 < 0 then .fail (issue_char ctx a c).2
        else if 0 < (issue_char ctx a c).1 then
          swallow_label ctx
            { (issue_char ctx a c).2 with parser_state := ctx.tk.WSI_TOKEN_SKIPPING }
        else swallow_label ctx (issue_char ctx a c).2) ∧
    (∀ a : AH, a.ups = URIPS_SEEN_SLASH_DOT_DOT →
      urldecode_path ctx a 63 true =
        if 1 < ((back_up_one_dir a).frags (back_up_one_dir a).nfrag).len then
          (LPUR_CONTINUE, { back_up_one_dir a with ups := URIPS_SEEN_SLASH }, 63)
        else (LPUR_SWALLOW, { back_up_one_dir a with ups := URIPS_SEEN_SLASH }, 63)) := by
  have hxv := (char_to_hex_value x).1 v hx
  have hyw := (char_to_hex_value y).1 w hy
  refine ⟨⟨?_, ?_, ?_⟩, ?_, ?_, fun a hu => urldecode_path_enc_question ctx a hu⟩
  · unfold lws_parse_urldecode
    rw [hi]
    rfl
  · have hnx : ¬char_to_hex x < 0 := by rw [hxv.1]; omega
    unfold lws_parse_urldecode
    simp only [if_neg hnx]
  · have hny : ¬char_to_hex y < 0 := by rw [hyw.1]; omega
    unfold lws_parse_urldecode
    simp only [if_neg hny]
    have hd : Int.toNat ((char_to_hex x * 16 + char_to_hex y) % 256) = 16 * v + w := by
      rw [hxv.1, hyw.1]
      omega
    rw [hd]
  · intro a c hu hc
    have hf := urldecode_forbid ctx a c hu hc
    refine ⟨hf, ?_⟩
    intro hv hm h32 cs
    obtain ⟨h1, h2, h3, h4, h5⟩ := hv
    have hb : lws_parse_byte ctx wsi a c = .forbid a := by
      unfold lws_parse_byte
      rw [if_neg h1, if_neg h2, if_neg h3, if_neg h4, if_neg h5]
      unfold value_part
      rw [if_neg (fun h => h32 h.2), if_neg (fun h => h hm), if_neg h32]
      simp only [hf]
    unfold parse_loop
    rw [hb]
    rfl
  · intro a c hc
    obtain ⟨e1, e2, e3⟩ := urldecode_path_enc_delim ctx a c hc
    exact ⟨e1, e2, e3, check_eol_issue ctx a c (by omega) (by omega) (by omega)⟩

/-- C24 (divergence). After `lws_parse` on `GET /a/..%3Fx HTTP/1.1 CRLF CRLF`
the URI is `/x` in one fragment and there are no query args: the decoded `?`
that follows `/..` is not stored. The test of the state
`URIPS_SEEN_SLASH_DOT_DOT` is `c == '/' || c == '?'` whatever `enc` is, so the
decoded `?` triggers the back-up to `/` as a literal `?` would, and with one
byte left in the fragment it is swallowed. -/
theorem C24_decoded_question_dropped :
    (lws_parse lws_context wsi_fresh request_enc_question).map
        (view_of [lws_tokens.WSI_TOKEN_GET_URI, lws_tokens.WSI_TOKEN_HTTP_URI_ARGS]) =
      some ⟨LPR_OK, 0, true, some lws_tokens.WSI_PARSING_COMPLETE,
        [some [bytes "/x"], some []]⟩ := by
  decide!

/-- A percent escape on `lws_context`, and a request whose decoded `&`, `;` and
`?` are stored as plain bytes. -/
theorem percent_escape_steps_witness :
    (created_ah fun _ => 0).ues = URIES_IDLE ∧ hex_value 52 = some 4 ∧
    hex_value 97 = some 10 ∧
    lws_parse_urldecode lws_context
        { created_ah (fun _ => 0) with esc_stash := 52, ues := URIES_SEEN_PERCENT_H1 } 97 =
      urldecode_path lws_context
        { created_ah (fun _ => 0) with esc_stash := 52, ues := URIES_IDLE } (16 * 4 + 10) true ∧
    (lws_parse lws_context wsi_fresh request_enc_delims).map
        (view_of [lws_tokens.WSI_TOKEN_GET_URI, lws_tokens.WSI_TOKEN_HTTP_URI_ARGS]) =
      some ⟨LPR_OK, 0, true, some lws_tokens.WSI_PARSING_COMPLETE,
        [some [bytes "/a&b;c?d"], some [bytes "x&y=1"]]⟩ :=
  ⟨rfl, by decide, by decide,
    (percent_escape_steps lws_context wsi_fresh (created_ah fun _ => 0) 52 97 4 10 rfl (by decide)
      (by decide)).1.2.2, by decide!⟩

/-! ## C21: `lws_hdr_simple_create` and the read-side helpers -/

/-- Reading an updated array at the updated index. -/
theorem upd_same {α : Type} (a : Nat → α) (i : Nat) (v : α) : upd a i v i = v := by
  unfold upd
  rw [if_pos rfl]

/-- Reading an updated array at another index. -/
theorem upd_other {α : Type} (a : Nat → α) (i j : Nat) (v : α) (h : j ≠ i) :
    upd a i v j = a j := by
  unfold upd
  rw [if_neg h]

/-- The copy loop of `lws_hdr_simple_create` on a NUL-free string that fits:
it returns 0, stores the string and a NUL from `pos` on, adds the length of the
string to the length of the current fragment and touches nothing else. -/
theorem simple_create_loop_spec (ctx : Context) (hC : ctx.max_http_header_data < 65536) :
    ∀ (s : List Nat) (a : AH), (∀ c ∈ s, c ≠ 0) →
      a.pos + s.length < ctx.max_http_header_data →
      (a.frags a.nfrag).len + s.length < 65536 →
      (simple_create_loop ctx s a).1 = 0 ∧
      (simple_create_loop ctx s a).2.nfrag = a.nfrag ∧
      (simple_create_loop ctx s a).2.frag_index = a.frag_index ∧
      (simple_create_loop ctx s a).2.pos = a.pos + s.length + 1 ∧
      (∀ i, i ≠ a.nfrag → (simple_create_loop ctx s a).2.frags i = a.frags i) ∧
      (simple_create_loop ctx s a).2.frags a.nfrag =
        { a.frags a.nfrag with len := (a.frags a.nfrag).len + s.length } ∧
      (∀ j, j < a.pos ∨ a.pos + s.length < j →
        (simple_create_loop ctx s a).2.data j = a.data j) ∧
      (∀ i, i < s.length → (simple_create_loop ctx s a).2.data (a.pos + i) = s.getD i 0) ∧
      (simple_create_loop ctx s a).2.data (a.pos + s.length) = 0 := by
  intro s
  induction s with
  | nil =>
    intro a _ hroom _
    have hb : ¬lws_pos_in_bounds ctx a ≠ 0 := by
      unfold lws_pos_in_bounds
      simp only [List.length_nil, add_zero] at hroom
      rw [if_pos hroom]
      simp
    have e : simple_create_loop ctx [] a = (0, a.put 0) := by
      unfold simple_create_loop
      rw [if_neg hb]
    rw [e]
    have hp : inc32 a.pos = a.pos + 1 := by
      unfold inc32
      simp only [List.length_nil, add_zero] at hroom
      omega
    refine ⟨rfl, rfl, rfl, ?_, fun i _ => rfl, rfl, ?_, ?_, ?_⟩
    · show inc32 a.pos = a.pos + 0 + 1
      rw [hp]
    · intro j hj
      show upd a.data a.pos 0 j = a.data j
      unfold upd
      simp only [List.length_nil, add_zero] at hj
      rw [if_neg (by omega)]
    · intro i hi
      exact absurd hi (Nat.not_lt_zero i)
    · show upd a.data a.pos 0 (a.pos + 0) = 0
      unfold upd
      simp
  | cons c cs ih =>
    intro a hnul hroom hlen
    simp only [List.length_cons] at hroom hlen
    have hb : ¬lws_pos_in_bounds ctx a ≠ 0 := by
      unfold lws_pos_in_bounds
      rw [if_pos (by omega)]
      simp
    have hc : c ≠ 0 := hnul c (List.mem_cons_self c cs)
    have e : simple_create_loop ctx (c :: cs) a = simple_create_loop ctx cs (a.put c).len_inc := by
      conv => lhs; unfold simple_create_loop
      rw [if_neg hb, if_pos hc]
    have hp : ((a.put c).len_inc).pos = a.pos + 1 := by
      show inc32 a.pos = a.pos + 1
      unfold inc32
      omega
    have hn : ((a.put c).len_inc).nfrag = a.nfrag := rfl
    have hfl : (((a.put c).len_inc).frags a.nfrag).len = (a.frags a.nfrag).len + 1 := by
      show (upd a.frags a.nfrag _ a.nfrag).len = _
      unfold upd
      rw [if_pos rfl]
      show inc16 (a.frags a.nfrag).len = _
      unfold inc16
      omega
    obtain ⟨r1, r2, r3, r4, r5, r6, r7, r8, r9⟩ := ih ((a.put c).len_inc)
      (fun x hx => hnul x (List.mem_cons_of_mem c hx)) (by rw [hp]; omega)
      (by rw [hn, hfl]; omega)
    rw [e]
    refine ⟨r1, r2, r3, ?_, ?_, ?_, ?_, ?_, ?_⟩
    · rw [r4, hp, List.length_cons]
      omega
    · intro i hi
      rw [r5 i (by rw [hn]; exact hi)]
      show upd a.frags a.nfrag _ i = a.frags i
      unfold upd
      rw [if_neg hi]
    · rw [hn] at r6
      rw [r6, hfl]
      show Frag.mk _ _ _ _ = Frag.mk _ _ _ _
      have h1 : (((a.put c).len_inc).frags a.nfrag).offset = (a.frags a.nfrag).offset := by
        simp [AH.put, AH.len_inc, upd]
      have h2 : (((a.put c).len_inc).frags a.nfrag).nfrag = (a.frags a.nfrag).nfrag := by
        simp [AH.put, AH.len_inc, upd]
      have h3 : (((a.put c).len_inc).frags a.nfrag).flags = (a.frags a.nfrag).flags := by
        simp [AH.put, AH.len_inc, upd]
      rw [h1, h2, h3, List.length_cons]
      congr 1
      omega
    · intro j hj
      rw [List.length_cons] at hj
      rw [r7 j (by rw [hp]; omega)]
      show upd a.data a.pos c j = a.data j
      unfold upd
      rw [if_neg (by omega)]
    · intro i hi
      rw [List.length_cons] at hi
      cases i with
      | zero =>
        rw [r7 (a.pos + 0) (by rw [hp]; omega)]
        show upd a.data a.pos c (a.pos + 0) = _
        unfold upd
        simp
      | succ k =>
        have h := r8 k (by omega)
        rw [hp] at h
        have e2 : a.pos + (k + 1) = a.pos + 1 + k := by omega
        rw [e2, h]
        simp
    · have h := r9
      rw [hp] at h
      have e2 : a.pos + (c :: cs).length = a.pos + 1 + cs.length := by
        rw [List.length_cons]
        omega
      rw [e2, h]

/-- C21. On an AH with a free fragment slot (`nfrag + 1` below the size of
`frags`, at most 256 entries) and room for the string and its NUL below
`max_http_header_data` (a 16-bit value), for every token `h` and every
non-empty NUL-free string `s`: `lws_hdr_simple_create` returns 0; afterwards
`lws_hdr_simple_ptr` gives the old `pos`, where the bytes of `s` and a NUL
lie; `lws_hdr_total_length` is the length of `s`; `lws_hdr_copy` into a buffer
of more than that many bytes returns the length and yields `s` and a NUL;
every fragment record but the new one, every other `frag_index` entry and
every data byte outside the new string are unchanged. With the empty string
the call returns 0, only `frag_index[h]` changes, and `lws_hdr_total_length`
is 0. -/
theorem C21_simple_create_round_trip (ctx : Context) (wsi : lws) (ah : AH) (h : Nat)
    (s : List Nat) (dst : Nat → Nat) (cap : Int)
    (hslot : ah.nfrag + 1 < ctx.frags_size) (hF : ctx.frags_size ≤ 256)
    (hC : ctx.max_http_header_data < 65536)
    (hroom : ah.pos + s.length < ctx.max_http_header_data)
    (hs : s ≠ []) (hnul : ∀ c ∈ s, c ≠ 0) (hcap : (s.length : Int) < cap) :
    ((lws_hdr_simple_create ctx ah h s).1 = 0 ∧
      lws_hdr_simple_ptr { wsi with ah := some (lws_hdr_simple_create ctx ah h s).2 } h =
        some ah.pos ∧
      (∀ i, i < s.length →
        (lws_hdr_simple_create ctx ah h s).2.data (ah.pos + i) = s.getD i 0) ∧
      (lws_hdr_simple_create ctx ah h s).2.data (ah.pos + s.length) = 0 ∧
      lws_hdr_total_length { wsi with ah := some (lws_hdr_simple_create ctx ah h s).2 } h =
        some (s.length : Int) ∧
      (∃ b, lws_hdr_copy ctx { wsi with ah := some (lws_hdr_simple_create ctx ah h s).2 }
          dst cap h = some ((s.length : Int), b) ∧
        (∀ i, i < s.length → b i = s.getD i 0) ∧ b s.length = 0) ∧
      (∀ i, i ≠ ah.nfrag + 1 → (lws_hdr_simple_create ctx ah h s).2.frags i = ah.frags i) ∧
      (∀ t, t ≠ h → (lws_hdr_simple_create ctx ah h s).2.frag_index t = ah.frag_index t) ∧
      (∀ j, j < ah.pos ∨ ah.pos + s.length < j →
        (lws_hdr_simple_create ctx ah h s).2.data j = ah.data j)) ∧
    ((lws_hdr_simple_create ctx ah h []).1 = 0 ∧
      (lws_hdr_simple_create ctx ah h []).2.frag_index h = 0 ∧
      lws_hdr_total_length { wsi with ah := some (lws_hdr_simple_create ctx ah h []).2 } h =
        some 0 ∧
      (lws_hdr_simple_create ctx ah h []).2.frags = ah.frags ∧
      (lws_hdr_simple_create ctx ah h []).2.data = ah.data ∧
      (∀ t, t ≠ h → (lws_hdr_simple_create ctx ah h []).2.frag_index t = ah.frag_index t)) := by
  constructor
  · have hn : inc8 ah.nfrag = ah.nfrag + 1 := by
      unfold inc8
      omega
    have hhead : ¬s.headD 0 = 0 := by
      cases s with
      | nil => exact absurd rfl hs
      | cons c cs => exact hnul c (List.mem_cons_self c cs)
    have hfull : ¬inc8 ah.nfrag = ctx.frags_size := by
      rw [hn]
      omega
    have e : lws_hdr_simple_create ctx ah h s =
        simple_create_loop ctx s
          { ah with
            nfrag := ah.nfrag + 1
            frag_index := upd ah.frag_index h (ah.nfrag + 1)
            frags := upd ah.frags (ah.nfrag + 1)
              { ah.frags (ah.nfrag + 1) with offset := ah.pos, len := 0, nfrag := 0 } } := by
      unfold lws_hdr_simple_create
      rw [if_neg hhead]
      simp only [hn]
      rw [if_neg (by omega)]
    have hf0 : (upd ah.frags (ah.nfrag + 1)
        { ah.frags (ah.nfrag + 1) with offset := ah.pos, len := 0, nfrag := 0 }
        (ah.nfrag + 1)) =
        { ah.frags (ah.nfrag + 1) with offset := ah.pos, len := 0, nfrag := 0 } := by
      unfold upd
      rw [if_pos rfl]
    obtain ⟨r1, r2, r3, r4, r5, r6, r7, r8, r9⟩ := simple_create_loop_spec ctx hC s
      { ah with
        nfrag := ah.nfrag + 1
        frag_index := upd ah.frag_index h (ah.nfrag + 1)
        frags := upd ah.frags (ah.nfrag + 1)
          { ah.frags (ah.nfrag + 1) with offset := ah.pos, len := 0, nfrag := 0 } }
      hnul hroom (by
        show (upd ah.frags (ah.nfrag + 1) _ (ah.nfrag + 1)).len + s.length < 65536
        rw [hf0]
        show 0 + s.length < 65536
        omega)
    rw [e]
    have hidx : (simple_create_loop ctx s
        { ah with
          nfrag := ah.nfrag + 1
          frag_index := upd ah.frag_index h (ah.nfrag + 1)
          frags := upd ah.frags (ah.nfrag + 1)
            { ah.frags (ah.nfrag + 1) with offset := ah.pos, len := 0, nfrag := 0 } }).2.frag_index h =
        ah.nfrag + 1 := by
      rw [r3]
      show upd ah.frag_index h (ah.nfrag + 1) h = _
      unfold upd
      rw [if_pos rfl]
    have hfr : (simple_create_loop ctx s
        { ah with
          nfrag := ah.nfrag + 1
          frag_index := upd ah.frag_index h (ah.nfrag + 1)
          frags := upd ah.frags (ah.nfrag + 1)
            { ah.frags (ah.nfrag + 1) with offset := ah.pos, len := 0, nfrag := 0 } }).2.frags
          (ah.nfrag + 1) = ⟨ah.pos, s.length, 0, (ah.frags (ah.nfrag + 1)).flags⟩ := by
      have h6 := r6
      simp only [] at h6
      rw [h6, hf0]
      simp
    have hlen0 : s.length ≠ 0 := fun h0 => hs (List.length_eq_zero.mp h0)
    have htl : lws_hdr_total_length
        { wsi with ah := some (simple_create_loop ctx s
          { ah with
            nfrag := ah.nfrag + 1
            frag_index := upd ah.frag_index h (ah.nfrag + 1)
            frags := upd ah.frags (ah.nfrag + 1)
              { ah.frags (ah.nfrag + 1) with offset := ah.pos, len := 0, nfrag := 0 } }).2 } h =
        some (s.length : Int) := by
      unfold lws_hdr_total_length AH.total_length
      simp only [hidx]
      rw [if_neg (by omega)]
      unfold total_length_loop
      simp only [hfr]
      simp
    refine ⟨r1, ?_, ?_, ?_, htl, ?_, ?_, ?_, ?_⟩
    · unfold lws_hdr_simple_ptr
      simp only [hidx]
      rw [if_neg (by omega), hfr]
    · intro i hi
      exact r8 i hi
    · exact r9
    · refine ⟨upd (strncpy (upd dst 0 0) 0 (fun i => (simple_create_loop ctx s
          { ah with
            nfrag := ah.nfrag + 1
            frag_index := upd ah.frag_index h (ah.nfrag + 1)
            frags := upd ah.frags (ah.nfrag + 1)
              { ah.frags (ah.nfrag + 1) with offset := ah.pos, len := 0, nfrag := 0 } }).2.data
          (ah.pos + i)) s.length) s.length 0, ?_, ?_, ?_⟩
      · unfold lws_hdr_copy
        rw [htl]
        simp only []
        rw [if_neg (by omega), if_neg (by omega)]
        simp only [hidx]
        rw [if_neg (by omega)]
        unfold hdr_copy_loop
        simp only [hfr]
        simp only [ne_eq, not_true_eq_false, if_false, add_zero, zero_add]
        rw [if_neg (by omega)]
      · intro i hi
        rw [upd_other _ _ _ _ (by omega)]
        unfold strncpy
        rw [if_pos ⟨Nat.zero_le i, by omega⟩]
        have hany : ¬((List.range (i - 0)).any fun k =>
            (simple_create_loop ctx s
              { ah with
                nfrag := ah.nfrag + 1
                frag_index := upd ah.frag_index h (ah.nfrag + 1)
                frags := upd ah.frags (ah.nfrag + 1)
                  { ah.frags (ah.nfrag + 1) with offset := ah.pos, len := 0, nfrag := 0 } }).2.data
              (ah.pos + k) == 0) = true := by
          rw [List.any_eq_true]
          rintro ⟨k, hk, hk0⟩
          rw [List.mem_range] at hk
          have hk1 := r8 k (by omega)
          have hk2 : (simple_create_loop ctx s
              { ah with
                nfrag := ah.nfrag + 1
                frag_index := upd ah.frag_index h (ah.nfrag + 1)
                frags := upd ah.frags (ah.nfrag + 1)
                  { ah.frags (ah.nfrag + 1) with offset := ah.pos, len := 0, nfrag := 0 } }).2.data
              (ah.pos + k) = 0 := by simpa using hk0
          have hk3 : s.getD k 0 = 0 := by
            rw [← hk1]
            exact hk2
          have hk4 : k < s.length := by omega
          rw [List.getD_eq_getElem s 0 hk4] at hk3
          exact hnul _ (List.getElem_mem hk4) hk3
        rw [if_neg hany]
        exact r8 (i - 0) (by omega)
      · exact upd_same _ _ _
    · intro i hi
      rw [r5 i hi]
      show upd ah.frags (ah.nfrag + 1) _ i = ah.frags i
      unfold upd
      rw [if_neg hi]
    · intro t ht
      rw [r3]
      show upd ah.frag_index h (ah.nfrag + 1) t = ah.frag_index t
      unfold upd
      rw [if_neg ht]
    · intro j hj
      exact r7 j hj
  · have e : lws_hdr_simple_create ctx ah h [] =
        (0, { ah with frag_index := upd ah.frag_index h 0 }) := by
      unfold lws_hdr_simple_create
      rw [if_pos (show ([] : List Nat).headD 0 = 0 from rfl)]
    rw [e]
    have h0 : upd ah.frag_index h 0 h = 0 := by
      unfold upd
      rw [if_pos rfl]
    refine ⟨rfl, h0, ?_, rfl, rfl, ?_⟩
    · unfold lws_hdr_total_length AH.total_length
      simp only [h0]
      rfl
    · intro t ht
      show upd ah.frag_index h 0 t = ah.frag_index t
      unfold upd
      rw [if_neg ht]

theorem C21_simple_create_round_trip_witness :
    (_lws_header_table_reset lws_context (created_ah fun _ => 0)).nfrag + 1 <
      lws_context.frags_size ∧
    lws_context.frags_size ≤ 256 ∧ lws_context.max_http_header_data < 65536 ∧
    (_lws_header_table_reset lws_context (created_ah fun _ => 0)).pos + (bytes "example").length <
      lws_context.max_http_header_data ∧
    bytes "example" ≠ [] ∧ (∀ c ∈ bytes "example", c ≠ 0) ∧
    (((bytes "example").length : Nat) : Int) < 16 ∧
    (lws_hdr_simple_create lws_context (_lws_header_table_reset lws_context (created_ah fun _ => 0))
      WSI_TOKEN_HOST (bytes "example")).1 = 0 ∧
    lws_hdr_total_length
      { wsi_fresh with ah := some (lws_hdr_simple_create lws_context
        (_lws_header_table_reset lws_context (created_ah fun _ => 0)) WSI_TOKEN_HOST
        (bytes "example")).2 } WSI_TOKEN_HOST = some (((bytes "example").length : Nat) : Int) :=
  ⟨by decide, by decide, by decide, by decide, by decide, by decide, by decide,
    (C21_simple_create_round_trip lws_context wsi_fresh
      (_lws_header_table_reset lws_context (created_ah fun _ => 0)) WSI_TOKEN_HOST
      (bytes "example") (fun _ => 255) 16 (by decide) (by decide) (by decide) (by decide)
      (by decide) (by decide) (by decide)).1.1,
    (C21_simple_create_round_trip lws_context wsi_fresh
      (_lws_header_table_reset lws_context (created_ah fun _ => 0)) WSI_TOKEN_HOST
      (bytes "example") (fun _ => 255) 16 (by decide) (by decide) (by decide) (by decide)
      (by decide) (by decide) (by decide)).1.2.2.2.2.1⟩

/-! ## C30: every store into `data` lies below `max_http_header_data` -/

/-- Two AHs with the same `data`, `unk_pos` and `unk_ll_tail`. -/
theorem keeps_of_eq {ctx : Context} {ah a : AH} (h1 : a.data = ah.data)
    (h2 : a.unk_pos = ah.unk_pos) (h3 : a.unk_ll_tail = ah.unk_ll_tail) : keeps ctx ah a :=
  ⟨fun j _ => by rw [h1], Or.inl h2, h3⟩

theorem len_dec_keeps (ctx : Context) (ah : AH) : keeps ctx ah ah.len_dec :=
  keeps_of_eq rfl rfl rfl

theorem open_after_delimiter_keeps (ctx : Context) (ah : AH) :
    keeps ctx ah (open_after_delimiter ah) :=
  keeps_of_eq rfl rfl rfl

/-- In the state `URIPS_SEEN_SLASH_DOT_DOT` a CR or LF does not back up: the
sanitizer issues the two dots it had held back and hands the byte on. -/
theorem urldecode_path_dot_dot_eol (ctx : Context) (ah : AH) (c : Nat)
    (hu : ah.ups = URIPS_SEEN_SLASH_DOT_DOT) (hc : c = 13 ∨ c = 10) :
    urldecode_path ctx ah c false =
      if (issue_char ctx ah 46).1 < 0 then (LPUR_MINUS_ONE, (issue_char ctx ah 46).2, c)
      else if (issue_char ctx (issue_char ctx ah 46).2 46).1 < 0 then
        (LPUR_MINUS_ONE, (issue_char ctx (issue_char ctx ah 46).2 46).2, c)
      else
        (LPUR_CONTINUE, { (issue_char ctx (issue_char ctx ah 46).2 46).2 with ups := URIPS_IDLE },
          c) := by
  have h0 : ¬(c = 0 ∧ (ah.frag_index ctx.tk.WSI_TOKEN_HTTP_URI_ARGS = 0 ∨
      ah.post_literal_equal = 0)) := by omega
  have h47 : c ≠ 47 := by omega
  have h63 : c ≠ 63 := by omega
  have hq : ∀ a : AH, urldecode_query ctx a c false = (LPUR_CONTINUE, a, c) := by
    intro a
    unfold urldecode_query
    rw [if_neg (fun h => h63 h.1)]
  unfold urldecode_path
  rw [if_neg h0]
  simp [hu, h47, h63, hq]

/-- C31 (divergence). `lws_parse` accepts the request line `GET /a/..` ended
directly by CR, by LF, or with the dots percent-encoded (it returns `LPR_OK`
and completes the headers), and the stored method-URI fragment is `/a/..`,
which ends with `/..`: in the state `URIPS_SEEN_SLASH_DOT_DOT` only `/`, `?`
and the space that ends the URI back up one level, and a CR or LF makes the
sanitizer issue the two dots it had held back. The same URI ended by a space
is stored as `/`. -/
theorem C31_dot_dot_kept_at_line_end :
    (lws_parse lws_context wsi_fresh request_dot_dot_cr).map
        (view_of [lws_tokens.WSI_TOKEN_GET_URI]) =
      some ⟨LPR_OK, 0, true, some lws_tokens.WSI_PARSING_COMPLETE, [some [bytes "/a/.."]]⟩ ∧
    (lws_parse lws_context wsi_fresh request_dot_dot_lf).map
        (view_of [lws_tokens.WSI_TOKEN_GET_URI]) =
      some ⟨LPR_OK, 0, true, some lws_tokens.WSI_PARSING_COMPLETE, [some [bytes "/a/.."]]⟩ ∧
    (lws_parse lws_context wsi_fresh request_enc_dot_dot_cr).map
        (view_of [lws_tokens.WSI_TOKEN_GET_URI]) =
      some ⟨LPR_OK, 0, true, some lws_tokens.WSI_PARSING_COMPLETE, [some [bytes "/a/.."]]⟩ ∧
    dot_dot_segment (bytes "/a/..") ∧
    (lws_parse lws_context wsi_fresh request_dot_dot_space).map
        (view_of [lws_tokens.WSI_TOKEN_GET_URI]) =
      some ⟨LPR_OK, 0, true, some lws_tokens.WSI_PARSING_COMPLETE, [some [bytes "/"]]⟩ ∧
    ¬dot_dot_segment (bytes "/") := by
  decide!

end Lws
